import Mathlib

/-!
# Graph job server: the graph data model and its Euler-circuit analysis

A shallow embedding of `ex1/graph.hpp`, `ex1/graph.cpp` and of the request
handlers of the three servers, of the algorithm library
`ex8/graph_algorithms.cpp`, of the worker pool of `ex8/lf_server.cpp` and of
the stages of the pipeline of `ex9/tcp_server.cpp`.

Conventions of the embedding.

* A C++ exception is an `Except.error`; `GraphError` keeps the exception class
  and its `what()` text.
* `Neighbor** adjList` (an array of singly linked lists) is a list of lists;
  a stored `dest` is a natural number, because every entry is written by
  `addEdge` after its range check. Vertex arguments of the public member
  functions are `Int`, as in the source, so the `< 0` half of each range check
  is kept.
* Recursion whose termination is not structural takes a fuel argument;
  running out of fuel is the error `GraphError.outOfFuel`, which stands for a
  run that has not finished. The theorems show it does not occur.
* Threads are not modelled as such: a worker or a stage is a step function on
  the shared variables, one step for each section of code that runs under a
  lock.
-/

namespace graph

/-- The exceptions thrown by `graph.cpp`, each with its `what()` text. -/
inductive GraphError where
  | invalidArgument (what : String)
  | outOfRange (what : String)
  | runtimeError (what : String)
  | outOfFuel
  deriving DecidableEq, Repr

deriving instance DecidableEq for Except

/-- The node of an adjacency list: `struct Neighbor` without its `next` link. -/
structure Neighbor where
  dest : Nat
  weight : Int
  deriving DecidableEq, Repr

/-- The fields of `class Graph`. -/
structure Graph where
  numVertices : Nat
  adjList : List (List Neighbor)
  deriving DecidableEq, Repr

/-- The list `adjList[v]`. -/
def adj (g : Graph) (v : Nat) : List Neighbor :=
  g.adjList.getD v []

/-- The assignment `adjList[v] = l`. -/
def setAdj (g : Graph) (v : Nat) (l : List Neighbor) : Graph :=
  { g with adjList := g.adjList.set v l }

/-- The constructor `Graph::Graph(int n)`. -/
def Graph.new (n : Int) : Except GraphError Graph :=
  if n ≤ 0 then
    .error (.invalidArgument "Number of vertices must be positive")
  else
    .ok { numVertices := n.toNat, adjList := List.replicate n.toNat [] }

/-- The range test shared by the member functions that take two vertices. -/
def outOfRange2 (g : Graph) (src dest : Int) : Bool :=
  decide (src < 0) || decide (src ≥ (g.numVertices : Int)) ||
    decide (dest < 0) || decide (dest ≥ (g.numVertices : Int))

/-- The scan `while (current != nullptr) { if (current->dest == dest) return true; ... }`. -/
def hasDest : List Neighbor → Nat → Bool
  | [], _ => false
  | nb :: rest, d => if nb.dest = d then true else hasDest rest d

/-- The scan of `addEdge` that stops at the first node with the given `dest`
and overwrites its weight. -/
def setWeight : List Neighbor → Nat → Int → List Neighbor
  | [], _, _ => []
  | nb :: rest, d, w =>
    if nb.dest ≠ d then nb :: setWeight rest d w else { nb with weight := w } :: rest

/-- The scan of `removeEdge` that unlinks the first node with the given `dest`. -/
def eraseDest : List Neighbor → Nat → List Neighbor
  | [], _ => []
  | nb :: rest, d => if nb.dest = d then rest else nb :: eraseDest rest d

/-- The scan of `getEdgeWeight`. -/
def findWeight : List Neighbor → Nat → Option Int
  | [], _ => none
  | nb :: rest, d => if nb.dest = d then some nb.weight else findWeight rest d

/-- `Graph::hasEdge`. -/
def hasEdge (g : Graph) (src dest : Int) : Except GraphError Bool :=
  if outOfRange2 g src dest then
    .error (.outOfRange "Vertex index out of range")
  else
    .ok (hasDest (adj g src.toNat) dest.toNat)

/-- `Graph::addEdge`; the default weight of the source is 1. -/
def addEdge (g : Graph) (src dest : Int) (weight : Int := 1) : Except GraphError Graph :=
  if outOfRange2 g src dest then
    .error (.outOfRange "Vertex index out of range")
  else if src = dest then
    .error (.invalidArgument "Self loops are not allowed")
  else do
    if (← hasEdge g src dest) then
      let g1 := setAdj g src.toNat (setWeight (adj g src.toNat) dest.toNat weight)
      pure (setAdj g1 dest.toNat (setWeight (adj g1 dest.toNat) src.toNat weight))
    else
      let g1 := setAdj g src.toNat (⟨dest.toNat, weight⟩ :: adj g src.toNat)
      pure (setAdj g1 dest.toNat (⟨src.toNat, weight⟩ :: adj g1 dest.toNat))

/-- `Graph::removeEdge`. -/
def removeEdge (g : Graph) (src dest : Int) : Except GraphError Graph :=
  if outOfRange2 g src dest then
    .error (.outOfRange "Vertex index out of range")
  else do
    if !(← hasEdge g src dest) then
      throw (.runtimeError "Edge not found")
    let g1 := setAdj g src.toNat (eraseDest (adj g src.toNat) dest.toNat)
    pure (setAdj g1 dest.toNat (eraseDest (adj g1 dest.toNat) src.toNat))

/-- `Graph::getNumVertices`. -/
def getNumVertices (g : Graph) : Int := g.numVertices

/-- `Graph::getNeighbors`. -/
def getNeighbors (g : Graph) (vertex : Int) : Except GraphError (List Neighbor) :=
  if vertex < 0 ∨ vertex ≥ (g.numVertices : Int) then
    .error (.outOfRange "Vertex index out of range")
  else
    .ok (adj g vertex.toNat)

/-- `Graph::getEdgeWeight`. -/
def getEdgeWeight (g : Graph) (src dest : Int) : Except GraphError Int :=
  if outOfRange2 g src dest then
    .error (.outOfRange "Vertex index out of range")
  else
    match findWeight (adj g src.toNat) dest.toNat with
    | some w => .ok w
    | none => .error (.runtimeError "Edge not found")

/-- `Graph::getDegree`. -/
def getDegree (g : Graph) (vertex : Int) : Except GraphError Nat :=
  if vertex < 0 ∨ vertex ≥ (g.numVertices : Int) then
    .error (.outOfRange "Vertex index out of range")
  else
    .ok (adj g vertex.toNat).length

/-- `Graph::getNumEdges`: the nodes of all lists, halved. -/
def getNumEdges (g : Graph) : Nat :=
  ((List.range g.numVertices).map (fun i => (adj g i).length)).sum / 2

/-- `Graph::dfs`. The vector `visited` is passed and returned; `fuel` bounds
the depth of the recursion. The inner fold is the `while` loop over the
adjacency list of `vertex`. -/
def dfs (g : Graph) : Nat → Nat → List Bool → Except GraphError (List Bool)
  | 0, _, _ => .error .outOfFuel
  | fuel + 1, vertex, visited =>
    (adj g vertex).foldlM
      (fun vis current =>
        if !(vis.getD current.dest false) then dfs g fuel current.dest vis else pure vis)
      (visited.set vertex true)

/-- The loop `for (i...) if (getDegree(i) > 0) { start = i; break; }` with
`start` initialised to `-1`, over the indices still to visit. -/
def findStart (g : Graph) : List Nat → Except GraphError Int
  | [] => pure (-1)
  | i :: rest => do
    if (← getDegree g i) > 0 then pure (i : Int) else findStart g rest

/-- The last loop of `isConnected`: `false` at the first vertex of positive
degree that was not visited. -/
def allReached (g : Graph) (visited : List Bool) : List Nat → Except GraphError Bool
  | [] => pure true
  | i :: rest => do
    if (← getDegree g i) > 0 && !(visited.getD i false) then pure false
    else allReached g visited rest

/-- `Graph::isConnected`. -/
def isConnected (g : Graph) : Except GraphError Bool := do
  let start ← findStart g (List.range g.numVertices)
  if start = -1 then
    pure true
  else
    let visited ← dfs g g.numVertices start.toNat (List.replicate g.numVertices false)
    allReached g visited (List.range g.numVertices)

/-- The loop of `hasEulerCircuit`: `false` at the first vertex of odd degree. -/
def allEven (g : Graph) : List Nat → Except GraphError Bool
  | [] => pure true
  | i :: rest => do
    if (← getDegree g i) % 2 ≠ 0 then pure false else allEven g rest

/-- `Graph::hasEulerCircuit`. -/
def hasEulerCircuit (g : Graph) : Except GraphError Bool := do
  if !(← isConnected g) then
    pure false
  else
    allEven g (List.range g.numVertices)

mutual
/-- `Graph::hierholzerDFS`: the `while` loop, then `circuit.push_back(vertex)`.
The state is the pair of `circuit` and `tempGraph`. -/
def hierholzerDFS : Nat → Nat → List Nat × Graph → Except GraphError (List Nat × Graph)
  | 0, _, _ => .error .outOfFuel
  | fuel + 1, vertex, st => do
    let (circuit, tempGraph) ← hierholzerLoop fuel vertex st
    pure (circuit ++ [vertex], tempGraph)
/-- The `while (tempGraph.getDegree(vertex) > 0)` loop of `hierholzerDFS`,
from its head. -/
def hierholzerLoop : Nat → Nat → List Nat × Graph → Except GraphError (List Nat × Graph)
  | 0, _, _ => .error .outOfFuel
  | fuel + 1, vertex, (circuit, tempGraph) => do
    if (← getDegree tempGraph vertex) > 0 then
      match ← getNeighbors tempGraph vertex with
      | [] => pure (circuit, tempGraph)
      | neighbor :: _ =>
        let next := neighbor.dest
        let tempGraph1 ← removeEdge tempGraph vertex next
        let st ← hierholzerDFS fuel next (circuit, tempGraph1)
        hierholzerLoop fuel vertex st
    else
      pure (circuit, tempGraph)
end

/-- The number of list nodes of the graph; it bounds the work of
`hierholzerDFS`. -/
def numNodes (g : Graph) : Nat :=
  ((List.range g.numVertices).map (fun i => (adj g i).length)).sum

/-- `Graph::findEulerCircuit`. The copy `tempGraph(*this)` is the value `g`. -/
def findEulerCircuit (g : Graph) : Except GraphError (List Nat) := do
  if !(← hasEulerCircuit g) then
    pure []
  else
    let start ← findStart g (List.range g.numVertices)
    if start = -1 then
      pure []
    else
      let (circuit, _) ← hierholzerDFS (numNodes g + 2) start.toNat ([], g)
      pure circuit.reverse

/-- The graphs a program can build: `Graph(n)` followed by calls of `addEdge`
and `removeEdge` that return. A call that throws leaves the graph as it was. -/
inductive Reachable : Graph → Prop where
  | new (n : Int) (g : Graph) : Graph.new n = .ok g → Reachable g
  | addEdge (g g1 : Graph) (src dest weight : Int) :
      Reachable g → addEdge g src dest weight = .ok g1 → Reachable g1
  | removeEdge (g g1 : Graph) (src dest : Int) :
      Reachable g → removeEdge g src dest = .ok g1 → Reachable g1

/-! ## The graph as a relation

The proofs look at a graph through `dests g v`, the neighbours stored in the
list of `v`, and through the invariants `WF` that every reachable graph has. -/

/-- The neighbours stored in the list of `v`, in list order. -/
def dests (g : Graph) (v : Nat) : List Nat :=
  (adj g v).map (fun nb => nb.dest)

/-- The invariants of the data model that the algorithms rely on. -/
structure WF (g : Graph) : Prop where
  len : g.adjList.length = g.numVertices
  range : ∀ v d, d ∈ dests g v → d < g.numVertices
  irrefl : ∀ v, v ∉ dests g v
  nodup : ∀ v, (dests g v).Nodup
  symm : ∀ u v, v ∈ dests g u → u ∈ dests g v

/-- The consecutive pairs of a vertex sequence, as unordered pairs. -/
def edgesOf : List Nat → List (Sym2 Nat)
  | a :: b :: rest => s(a, b) :: edgesOf (b :: rest)
  | _ => []

/-- Vertices joined by a path of stored edges. -/
def Reach (g : Graph) : Nat → Nat → Prop :=
  Relation.ReflTransGen (fun a b => b ∈ dests g a)

/-- The graph `removeEdge` leaves when it returns: both unlinking scans, on
indices that passed the range check. -/
def unlink (g : Graph) (a b : Nat) : Graph :=
  let g1 := setAdj g a (eraseDest (adj g a) b)
  setAdj g1 b (eraseDest (adj g1 b) a)

/-- The number of list nodes, as a sum over the vertex range. -/
def degSum (g : Graph) : Nat :=
  ∑ i ∈ Finset.range g.numVertices, (dests g i).length

/-- What a run of `dfs` started at `v` on the vector `vis` leaves in `vis1`:
nothing is unmarked, and every newly marked vertex is joined to `v` and has
all its neighbours marked. -/
structure DfsPost (g : Graph) (v : Nat) (vis vis1 : List Bool) : Prop where
  len : vis1.length = vis.length
  count : vis1.count false ≤ vis.count false
  mono : ∀ w, vis.getD w false = true → vis1.getD w false = true
  fresh : ∀ w, vis1.getD w false = true → vis.getD w false = false →
    Reach g v w ∧ ∀ x ∈ dests g w, vis1.getD x false = true

/-- The parity condition under which `hierholzerDFS` is entered at `v`: the
vertices of odd degree are `v` and `u`, and none when `u = v`. -/
def OddOnly (t : Graph) (v u : Nat) : Prop :=
  ∀ w, (dests t w).length % 2 = 1 ↔ (w = v ∧ w ≠ u) ∨ (w = u ∧ w ≠ v)

/-- What a run of `hierholzerDFS` at `v` on the graph `t` appends to the
circuit (`P`, ending in `v`) and leaves of the graph (`t1`): `P` walks along
edges of `t`, each at most once, exactly the edges that are gone in `t1`. -/
structure Trail (t : Graph) (v u : Nat) (P : List Nat) (t1 : Graph) : Prop where
  wf : WF t1
  nv : t1.numVertices = t.numVertices
  last : P.getLast? = some v
  head : P.head? = some u
  dead : ∀ w ∈ P, dests t1 w = []
  split : ∀ a b, b ∈ dests t a ↔ (b ∈ dests t1 a ∨ s(a, b) ∈ edgesOf P)
  disj : ∀ a b, b ∈ dests t1 a → s(a, b) ∉ edgesOf P
  nodup : (edgesOf P).Nodup
  even : ∀ w, (dests t1 w).length % 2 = 0
  count : degSum t + 2 = degSum t1 + 2 * P.length

/-- A run of `addEdge` calls, as the tests make them: `(src, dest, weight)`
in call order. -/
def addEdges (g : Graph) : List (Int × Int × Int) → Except GraphError Graph
  | [] => pure g
  | (src, dest, weight) :: rest => do
    let g1 ← addEdge g src dest weight
    addEdges g1 rest

/-- The graph of `testGraphEdgeCases` ("Euler circuit with valid graph"):
`Graph eulerGraph(4)` with the edges 0-1, 1-2, 2-3, 3-0 of weight 1. -/
def eulerGraph : Graph :=
  { numVertices := 4,
    adjList := [[⟨3, 1⟩, ⟨1, 1⟩], [⟨2, 1⟩, ⟨0, 1⟩], [⟨3, 1⟩, ⟨1, 1⟩], [⟨0, 1⟩, ⟨2, 1⟩]] }

/-! ## Random graphs

`std::mt19937 gen(seed)` and `std::uniform_int_distribution<> dis(0, vertices - 1)`
are library code: the embedding takes the sequence of values that the calls
`dis(gen)` return, `draw 0, draw 1, ...`, as a parameter. -/

/-- The value an `int` holds after an arithmetic result `x`: reduction modulo
`2^32` into `[-2^31, 2^31)`. -/
def wrapInt32 (x : Int) : Int :=
  (x + 2147483648) % 4294967296 - 2147483648

/-- The `while (edgesAdded < edges)` loop of `generateRandomGraph`. `k` counts
the calls of `dis(gen)` made so far, `edgeSet` is the `std::set` of pairs, and
`fuel` bounds the number of iterations. -/
def sampleLoop (draw : Nat → Int) (edges : Int) :
    Nat → Nat → Graph → List (Int × Int) → Int → Except GraphError Graph
  | 0, _, graph, _, edgesAdded =>
    if edgesAdded < edges then .error .outOfFuel else pure graph
  | fuel + 1, k, graph, edgeSet, edgesAdded =>
    if edgesAdded < edges then
      let u := draw k
      let v := draw (k + 1)
      if u ≠ v then
        let p : Int × Int := if u > v then (v, u) else (u, v)
        if p ∉ edgeSet then do
          let graph1 ← addEdge graph p.1 p.2
          sampleLoop draw edges fuel (k + 2) graph1 (p :: edgeSet) (edgesAdded + 1)
        else
          sampleLoop draw edges fuel (k + 2) graph edgeSet edgesAdded
      else
        sampleLoop draw edges fuel (k + 2) graph edgeSet edgesAdded
    else
      pure graph

/-- The value of `maxPossibleEdges`: `(vertices * (vertices - 1)) / 2` in `int`
arithmetic, the division truncating. -/
def maxPossibleEdges (vertices : Int) : Int :=
  (wrapInt32 (vertices * wrapInt32 (vertices - 1))).tdiv 2

/-- `Graph::generateRandomGraph`, for the draws `draw` of the seeded
generator. -/
def generateRandomGraph (draw : Nat → Int) (fuel : Nat) (vertices edges : Int) :
    Except GraphError Graph := do
  let graph ← Graph.new vertices
  let edges1 := if edges > maxPossibleEdges vertices then maxPossibleEdges vertices else edges
  sampleLoop draw edges1 fuel 0 graph [] 0

/-! ## Strings and streams of the standard library

A `std::string` is a `String` read as the list of its characters. -/

/-- What a run of server code can end in other than a value: an exception
derived from `std::exception`, with its `what()` text, or, for the model only,
a run that has not finished within its fuel. -/
inductive Exn where
  | exception (what : String)
  | outOfFuel
  deriving DecidableEq, Repr

/-- The exception object of a `GraphError`. -/
def GraphError.toExn : GraphError → Exn
  | .invalidArgument what => .exception what
  | .outOfRange what => .exception what
  | .runtimeError what => .exception what
  | .outOfFuel => .outOfFuel

/-- A call into `graph.cpp` from server code. -/
def liftGraph {α : Type} : Except GraphError α → Except Exn α
  | .ok a => .ok a
  | .error e => .error e.toExn

/-- `isspace` in the C locale. -/
def isSpace (c : Char) : Bool :=
  c = ' ' || c = Char.ofNat 9 || c = Char.ofNat 10 || c = Char.ofNat 11 ||
    c = Char.ofNat 12 || c = Char.ofNat 13

/-- Whether `pat` starts the text `s`. -/
def startsWith : List Char → List Char → Bool
  | _, [] => true
  | [], _ :: _ => false
  | c :: s, p :: pat => c = p && startsWith s pat

/-- The search of `std::string::find` from position `i` on. -/
def findFrom (pat : List Char) : List Char → Nat → Option Nat
  | [], i => if pat = [] then some i else none
  | c :: s, i => if startsWith (c :: s) pat then some i else findFrom pat s (i + 1)

/-- `std::string::find(pat)`; `none` is `npos`. -/
def find (s pat : String) : Option Nat :=
  findFrom pat.data s.data 0

/-- `std::string::substr(pos)` for `pos` within the string. -/
def substr (s : String) (pos : Nat) : String :=
  ⟨s.data.drop pos⟩

/-- The value of a run of decimal digits. -/
def digitsValue (ds : List Char) : Nat :=
  ds.foldl (fun acc c => 10 * acc + (c.toNat - 48)) 0

/-- `std::stoi(s)`: leading white space, an optional sign, decimal digits;
`std::invalid_argument` without a digit, `std::out_of_range` outside `int`.
Both carry the `what()` text `stoi` of libstdc++. -/
def stoi (s : String) : Except Exn Int :=
  let s1 := s.data.dropWhile isSpace
  let neg := s1.head? = some '-'
  let s2 := if s1.head? = some '-' ∨ s1.head? = some '+' then s1.tail else s1
  let ds := s2.takeWhile Char.isDigit
  if ds = [] then
    .error (.exception "stoi")
  else
    let v : Int := if neg then -(digitsValue ds : Int) else (digitsValue ds : Int)
    if v < -2147483648 ∨ v > 2147483647 then .error (.exception "stoi") else .ok v

/-- `std::to_string(int)`. -/
def to_string (x : Int) : String := toString x

/-- `trim` of `ex9/tcp_server.cpp`: without leading and trailing
blank, tab, newline and carriage return. -/
def trim (str : String) : String :=
  let ws : Char → Bool := fun c =>
    c = ' ' || c = Char.ofNat 9 || c = Char.ofNat 10 || c = Char.ofNat 13
  ⟨((str.data.dropWhile ws).reverse.dropWhile ws).reverse⟩

/-- An input string stream: the characters not yet read and the state bits
`eofbit` and `failbit`. -/
structure IStream where
  rest : List Char
  eof : Bool
  fail : Bool
  deriving DecidableEq, Repr

/-- `std::istringstream iss(text)`. -/
def IStream.open (text : String) : IStream :=
  { rest := text.data, eof := false, fail := false }

/-- `iss >> token` for a `std::string`: the token read, if the extraction
succeeded, and the stream after it. -/
def readToken (iss : IStream) : Option String × IStream :=
  if iss.eof || iss.fail then
    (none, { iss with fail := true })
  else
    let r := iss.rest.dropWhile isSpace
    if r = [] then
      (none, { rest := [], eof := true, fail := true })
    else
      let rest1 := r.dropWhile (fun c => !isSpace c)
      (some ⟨r.takeWhile (fun c => !isSpace c)⟩,
        { rest := rest1, eof := decide (rest1 = []), fail := false })

/-- `iss >> x` for an `int` holding `old`: the value `x` holds afterwards and
the stream. A failed conversion stores 0, an overflow stores the nearest
bound; both set `failbit`. -/
def readInt (iss : IStream) (old : Int) : Int × IStream :=
  if iss.eof || iss.fail then
    (old, { iss with fail := true })
  else
    let r := iss.rest.dropWhile isSpace
    if r = [] then
      (old, { rest := [], eof := true, fail := true })
    else
      let neg := r.head? = some '-'
      let r1 := if r.head? = some '-' ∨ r.head? = some '+' then r.tail else r
      let ds := r1.takeWhile Char.isDigit
      let rest1 := r1.dropWhile Char.isDigit
      if ds = [] then
        (0, { rest := rest1, eof := decide (rest1 = []), fail := true })
      else
        let v : Int := if neg then -(digitsValue ds : Int) else (digitsValue ds : Int)
        if v > 2147483647 then
          (2147483647, { rest := rest1, eof := decide (rest1 = []), fail := true })
        else if v < -2147483648 then
          (-2147483648, { rest := rest1, eof := decide (rest1 = []), fail := true })
        else
          (v, { rest := rest1, eof := decide (rest1 = []), fail := false })

/-! ## The algorithm library at its boundary -/

/-- `AlgorithmFactory::AlgorithmType`. -/
inductive AlgorithmType where
  | MST_WEIGHT
  | SCC
  | MAX_FLOW
  | MAX_CLIQUE
  deriving DecidableEq, Repr

/-- `getName()` of the instance `createAlgorithm` makes for a type. -/
def AlgorithmType.getName : AlgorithmType → String
  | .MST_WEIGHT => "MST Weight"
  | .SCC => "Strongly Connected Components"
  | .MAX_FLOW => "Max Flow"
  | .MAX_CLIQUE => "Max Clique"

/-- The exceptions of `analyzeGraph`; what it prints is not modelled. -/
def analyzeGraph (g : Graph) : Except GraphError Unit := do
  let _ ← (List.range g.numVertices).mapM (fun (i : Nat) => getDegree g (i : Int))
  let _ ← isConnected g
  if (← hasEulerCircuit g) then
    let _ ← findEulerCircuit g
    pure ()
  else
    if !(← isConnected g) then pure () else pure ()

/-- The text `v0 -> v1 -> ...` of a circuit. -/
def circuitText : List Nat → String
  | [] => ""
  | v :: rest => rest.foldl (fun acc x => acc ++ " -> " ++ to_string (x : Int)) (to_string (v : Int))

/-- The conversion of the `int seed` to the `unsigned int` parameter. -/
def seedToUnsigned (seed : Int) : Nat :=
  (seed % 4294967296).toNat

/-! ## The sequential and the leader-follower server

`processGraphRequest` has the same text in `ex7/tcp_server.cpp` and in
`ex8/lf_server.cpp`. The parameters are the library code behind it: `execute`
is `algo->execute(graph)` of the instance for a type, `rng seed vertices` the
draws of the seeded generator. -/

/-- The `try` block of `processGraphRequest`. -/
def processGraphRequest.tryBlock (execute : AlgorithmType → Graph → Except Exn String)
    (rng : Nat → Int → Nat → Int) (fuel : Nat) (edges vertices seed : Int)
    (algorithm : String) : Except Exn String := do
  let graph ← liftGraph
    (generateRandomGraph (rng (seedToUnsigned seed) vertices) fuel vertices edges)
  if algorithm = "EULER" ∨ algorithm = "EULER_CIRCUIT" then
    if (← liftGraph (hasEulerCircuit graph)) then
      let circuit ← liftGraph (findEulerCircuit graph)
      let result := "SUCCESS: Graph has Euler circuit!\n" ++
        "Vertices: " ++ to_string vertices ++ "\n" ++
        "Edges: " ++ to_string edges ++ "\n" ++
        "Circuit: " ++ circuitText circuit
      liftGraph (analyzeGraph graph)
      pure result
    else
      let result := "RESULT: Graph does NOT have Euler circuit\n" ++
        "Vertices: " ++ to_string vertices ++ "\n" ++
        "Edges: " ++ to_string edges ++ "\n" ++
        "Reason: Graph is not connected or has odd-degree vertices"
      liftGraph (analyzeGraph graph)
      pure result
  else
    let algoType : Option AlgorithmType :=
      if algorithm = "MST_WEIGHT" then some .MST_WEIGHT
      else if algorithm = "SCC" then some .SCC
      else if algorithm = "MAX_FLOW" then some .MAX_FLOW
      else if algorithm = "MAX_CLIQUE" then some .MAX_CLIQUE
      else none
    match algoType with
    | none =>
      pure ("ERROR: Unknown algorithm '" ++ algorithm ++
        "'. Available: EULER, MST_WEIGHT, SCC, MAX_FLOW, MAX_CLIQUE")
    | some t =>
      let head := "ALGORITHM: " ++ t.getName ++ "\n" ++
        "Vertices: " ++ to_string vertices ++ "\n" ++
        "Edges: " ++ to_string edges ++ "\n" ++
        "Seed: " ++ to_string seed ++ "\n" ++
        "Result:\n"
      let report ← execute t graph
      liftGraph (analyzeGraph graph)
      pure (head ++ report)

/-- The parsing step `pos = request.find(opt); if (pos != npos) x = std::stoi(request.substr(pos + 3));`
for an option text `opt` of three characters and a variable initialised to `-1`. -/
def parseOption (request opt : String) : Except Exn Int :=
  match find request opt with
  | some pos => stoi (substr request (pos + 3))
  | none => pure (-1)

/-- `processGraphRequest`. An `Except.error` is an exception that leaves the
function. The test `if (!algo)` after `createAlgorithm` is left out: the
factory returns an instance for each of the four types. -/
def processGraphRequest (execute : AlgorithmType → Graph → Except Exn String)
    (rng : Nat → Int → Nat → Int) (fuel : Nat) (request : String) : Except Exn String := do
  let edges ← parseOption request "-e "
  let vertices ← parseOption request "-v "
  let seed ← parseOption request "-s "
  let algorithm := match find request "-a " with
    | some pos => substr request (pos + 3)
    | none => "EULER"
  if edges < 0 ∨ vertices ≤ 0 then
    pure ("ERROR: Invalid parameters. Use format: -e <edges> -v <vertices> -s <seed> [-a <algorithm>]\n" ++
      "Available algorithms: EULER, MST_WEIGHT, SCC, MAX_FLOW, MAX_CLIQUE")
  else
    match processGraphRequest.tryBlock execute rng fuel edges vertices seed algorithm with
    | .ok result => pure result
    | .error (.exception what) => pure ("ERROR: " ++ what)
    | .error .outOfFuel => .error .outOfFuel

/-! ## The Ingest stage of the pipeline server -/

/-- The variables the parsing loop of `requestHandler` assigns. -/
structure Params where
  edges : Int
  vertices : Int
  seed : Int
  algorithm : String
  deriving DecidableEq, Repr

/-- The loop `while (iss >> token) { ... }` of `requestHandler`; `fuel` bounds
the number of tokens. -/
def parseLoop : Nat → IStream → Params → Params
  | 0, _, p => p
  | fuel + 1, iss, p =>
    match readToken iss with
    | (none, _) => p
    | (some token, iss1) =>
      if token = "-e" then
        let (x, iss2) := readInt iss1 p.edges
        parseLoop fuel iss2 { p with edges := x }
      else if token = "-v" then
        let (x, iss2) := readInt iss1 p.vertices
        parseLoop fuel iss2 { p with vertices := x }
      else if token = "-s" then
        let (x, iss2) := readInt iss1 p.seed
        parseLoop fuel iss2 { p with seed := x }
      else if token = "-a" then
        match readToken iss1 with
        | (some a, _) => { p with algorithm := trim a }
        | (none, iss2) => parseLoop fuel iss2 p
      else
        parseLoop fuel iss1 p

/-- What the Ingest stage does with a work unit: it answers the client itself,
or it hands the unit with its graph and report to the MST queue. -/
inductive IngestOutcome where
  | sent (response : String)
  | forwarded (algorithm : String) (graph : Graph) (result : String)
  deriving DecidableEq, Repr

/-- The body of the loop of `PipelineServer::requestHandler` for one work unit
with the request text `request`. -/
def requestHandler (rng : Nat → Int → Nat → Int) (fuel : Nat) (request : String) :
    Except Exn IngestOutcome :=
  let p := parseLoop (request.data.length + 1) (IStream.open request)
    { edges := -1, vertices := -1, seed := -1, algorithm := "EULER" }
  if p.edges < 0 ∨ p.vertices ≤ 0 then
    pure (.sent "ERROR: Invalid parameters")
  else
    let body : Except Exn IngestOutcome := do
      let graph ← liftGraph
        (generateRandomGraph (rng (seedToUnsigned p.seed) p.vertices) fuel p.vertices p.edges)
      let euler_result ←
        if (← liftGraph (hasEulerCircuit graph)) then do
          let circuit ← liftGraph (findEulerCircuit graph)
          pure ("EULER CIRCUIT: SUCCESS!\n" ++ "Circuit: " ++ circuitText circuit ++ "\n")
        else
          pure ("EULER CIRCUIT: NOT POSSIBLE\n" ++
            "Reason: Graph is not connected or has odd-degree vertices\n")
      pure (.forwarded p.algorithm graph
        ("GRAPH ANALYSIS RESULTS:\n" ++
          "Vertices: " ++ to_string p.vertices ++ "\n" ++
          "Edges: " ++ to_string p.edges ++ "\n" ++
          "Seed: " ++ to_string p.seed ++ "\n\n" ++
          euler_result ++ "\n"))
    match body with
    | .ok out => pure out
    | .error (.exception what) => pure (.sent ("ERROR: " ++ what))
    | .error .outOfFuel => .error .outOfFuel

/-! ## Calls that may throw, as steps on the object -/

/-- The object after the call `g.addEdge(src, dest, weight)`: `addEdge` makes
its range test and its self-loop test before its first write, so a call that
throws leaves `g`. -/
def afterAddEdge (g : Graph) (src dest weight : Int) : Graph :=
  match addEdge g src dest weight with
  | .ok g1 => g1
  | .error _ => g

/-! ## The algorithm library (`ex8/graph_algorithms.cpp`)

The `execute` functions take `arith`, the reduction that the result of an
`int` operation undergoes: `wrapInt32` on the machine, `id` when the claim is
about exact integer arithmetic. -/

/-- `INT_MAX`. -/
def INT_MAX : Int := 2147483647

/-- The order of `std::pair<int, int>`: first component, then second. -/
def pairLe (x y : Int × Nat) : Bool :=
  decide (x.1 < y.1) || (decide (x.1 = y.1) && decide (x.2 ≤ y.2))

/-- `pq.push(x)` for the `std::priority_queue` with `std::greater`: the queue
is kept as the ascending list of its elements, so `top()` is the head and
`pop()` leaves the tail. -/
def pqPush (x : Int × Nat) : List (Int × Nat) → List (Int × Nat)
  | [] => [x]
  | y :: rest => if pairLe x y then x :: y :: rest else y :: pqPush x rest

/-- The variables of the `while (!pq.empty())` loop of Prim's algorithm. -/
structure PrimState where
  visited : List Bool
  key : List Int
  pq : List (Int × Nat)
  mstWeight : Int
  deriving DecidableEq, Repr

/-- The inner loop of Prim's algorithm over the adjacency list of the vertex
just visited. -/
def primScan (st : PrimState) : List Neighbor → PrimState
  | [] => st
  | current :: rest =>
    let v := current.dest
    let w := current.weight
    if !(st.visited.getD v false) && decide (w < st.key.getD v 0) then
      primScan { st with key := st.key.set v w, pq := pqPush (w, v) st.pq } rest
    else
      primScan st rest

/-- The `while (!pq.empty())` loop of `MSTWeightAlgorithm::execute`; `fuel`
bounds the number of iterations. -/
def primLoop (arith : Int → Int) (g : Graph) : Nat → PrimState → Except GraphError PrimState
  | 0, st => if st.pq = [] then pure st else .error .outOfFuel
  | fuel + 1, st =>
    match st.pq with
    | [] => pure st
    | (weight, u) :: rest =>
      if st.visited.getD u false then
        primLoop arith g fuel { st with pq := rest }
      else do
        let neighbors ← getNeighbors g (u : Int)
        primLoop arith g fuel
          (primScan { visited := st.visited.set u true, key := st.key, pq := rest,
                      mstWeight := arith (st.mstWeight + weight) } neighbors)

/-- The state in which the loop of Prim's algorithm is entered. -/
def primInit (n : Nat) : PrimState :=
  { visited := List.replicate n false,
    key := (List.replicate n INT_MAX).set 0 0,
    pq := [(0, 0)],
    mstWeight := 0 }

/-- The value of `mstWeight` and of `visited` after the loop of
`MSTWeightAlgorithm::execute`. -/
def mstRun (arith : Int → Int) (g : Graph) : Except GraphError PrimState :=
  primLoop arith g (numNodes g + 2) (primInit g.numVertices)

/-- `MSTWeightAlgorithm::execute`. -/
def MSTWeightAlgorithm.execute (arith : Int → Int) (g : Graph) : Except GraphError String :=
  if g.numVertices = 0 then
    pure "Graph is empty"
  else do
    let st ← mstRun arith g
    if !(← allReached g st.visited (List.range g.numVertices)) then
      pure ("Graph is not connected - MST weight: " ++ to_string st.mstWeight)
    else
      pure ("MST Weight: " ++ to_string st.mstWeight)

/-- The entry `m[i][j]` of a matrix. -/
def matGet (m : List (List Int)) (i j : Nat) : Int :=
  (m.getD i []).getD j 0

/-- The assignment `m[i][j] = x`. -/
def matSet (m : List (List Int)) (i j : Nat) (x : Int) : List (List Int) :=
  m.set i ((m.getD i []).set j x)

/-- The variables of `MaxFlowAlgorithm::bfs`. -/
structure BfsState where
  visited : List Bool
  q : List Nat
  parent : List Int
  deriving DecidableEq, Repr

/-- The loop `for (int v = 0; v < n; v++)` of `bfs` at the vertex `u`. -/
def bfsScan (residual : List (List Int)) (u : Nat) (st : BfsState) : List Nat → BfsState
  | [] => st
  | v :: rest =>
    if !(st.visited.getD v false) && decide (matGet residual u v > 0) then
      bfsScan residual u
        { visited := st.visited.set v true, q := st.q ++ [v],
          parent := st.parent.set v (u : Int) } rest
    else
      bfsScan residual u st rest

/-- The loop `while (!q.empty())` of `bfs`; `fuel` bounds the iterations. -/
def bfsLoop (residual : List (List Int)) (n : Nat) : Nat → BfsState → Except GraphError BfsState
  | 0, st => if st.q = [] then pure st else .error .outOfFuel
  | fuel + 1, st =>
    match st.q with
    | [] => pure st
    | u :: rest => bfsLoop residual n fuel (bfsScan residual u { st with q := rest } (List.range n))

/-- `MaxFlowAlgorithm::bfs`: the value returned and `parent` after the call. -/
def bfs (residual : List (List Int)) (source sink : Nat) (parent : List Int) (n : Nat) :
    Except GraphError (Bool × List Int) := do
  let st ← bfsLoop residual n (n + 1)
    { visited := (List.replicate n false).set source true, q := [source],
      parent := parent.set source (-1) }
  pure (st.visited.getD sink false, st.parent)

/-- The loop `for (int v = sink; v != source; v = parent[v])` that takes the
minimum of `residual[u][v]` along the path; `fuel` bounds its length. -/
def pathMin (residual : List (List Int)) (parent : List Int) (source : Nat) :
    Nat → Int → Int → Except GraphError Int
  | 0, v, pathFlow => if v = (source : Int) then pure pathFlow else .error .outOfFuel
  | fuel + 1, v, pathFlow =>
    if v = (source : Int) then pure pathFlow
    else
      let u := parent.getD v.toNat 0
      pathMin residual parent source fuel u (min pathFlow (matGet residual u.toNat v.toNat))

/-- The loop `for (int v = sink; v != source; v = parent[v])` that updates the
residual capacities along the path. -/
def pathUpdate (arith : Int → Int) (parent : List Int) (source : Nat) (pathFlow : Int) :
    Nat → Int → List (List Int) → Except GraphError (List (List Int))
  | 0, v, residual => if v = (source : Int) then pure residual else .error .outOfFuel
  | fuel + 1, v, residual =>
    if v = (source : Int) then pure residual
    else
      let u := parent.getD v.toNat 0
      let r1 := matSet residual u.toNat v.toNat (arith (matGet residual u.toNat v.toNat - pathFlow))
      let r2 := matSet r1 v.toNat u.toNat (arith (matGet r1 v.toNat u.toNat + pathFlow))
      pathUpdate arith parent source pathFlow fuel u r2

/-- The loop `while (bfs(residual, source, sink, parent, n))` of
`MaxFlowAlgorithm::execute`: the value of `maxFlow` after it. `fuel` bounds
the number of augmenting paths. -/
def fordFulkerson (arith : Int → Int) (n source sink : Nat) :
    Nat → List (List Int) → List Int → Int → Except GraphError Int
  | 0, _, _, _ => .error .outOfFuel
  | fuel + 1, residual, parent, maxFlow => do
    let (found, parent1) ← bfs residual source sink parent n
    if found then
      let pathFlow ← pathMin residual parent1 source n (sink : Int) INT_MAX
      let residual1 ← pathUpdate arith parent1 source pathFlow n (sink : Int) residual
      fordFulkerson arith n source sink fuel residual1 parent1 (arith (maxFlow + pathFlow))
    else
      pure maxFlow

/-- The loop that fills the residual matrix from the adjacency lists. -/
def fillResidual (g : Graph) : List Nat → List (List Int) → Except GraphError (List (List Int))
  | [], residual => pure residual
  | i :: rest, residual => do
    let neighbors ← getNeighbors g (i : Int)
    fillResidual g rest
      (neighbors.foldl (fun r current => matSet r i current.dest current.weight) residual)

/-- The value of `maxFlow` that `MaxFlowAlgorithm::execute` prints, for a graph
of at least two vertices. -/
def maxFlowValue (arith : Int → Int) (fuel : Nat) (g : Graph) : Except GraphError Int := do
  let n := g.numVertices
  let residual ← fillResidual g (List.range n) (List.replicate n (List.replicate n 0))
  fordFulkerson arith n 0 (n - 1) fuel residual (List.replicate n 0) 0

/-- `MaxFlowAlgorithm::execute`. -/
def MaxFlowAlgorithm.execute (arith : Int → Int) (fuel : Nat) (g : Graph) :
    Except GraphError String :=
  if g.numVertices < 2 then
    pure "Graph needs at least 2 vertices for max flow"
  else do
    let maxFlow ← maxFlowValue arith fuel g
    pure ("Max Flow from node 0 to node " ++ to_string ((g.numVertices : Int) - 1) ++ ": " ++
      to_string maxFlow)

/-- The loops `for (int u : P) if (graph.hasEdge(v, u)) P_new.push_back(u);`. -/
def neighboursIn (g : Graph) (v : Nat) : List Nat → Except GraphError (List Nat)
  | [] => pure []
  | u :: rest => do
    let b ← hasEdge g (v : Int) (u : Int)
    let tail ← neighboursIn g v rest
    pure (if b then u :: tail else tail)

/-- The variables that the `for (int v : P_copy)` loop of `bronKerbosch`
changes: `P`, `X`, and the pair `maxClique`, `maxSize`. -/
structure BKState where
  P : List Nat
  X : List Nat
  maxClique : List Nat
  maxSize : Nat
  deriving DecidableEq, Repr

/-- `MaxCliqueAlgorithm::bronKerbosch`: `maxClique` and `maxSize` after the
call; `fuel` bounds the depth of the recursion. -/
def bronKerbosch (g : Graph) :
    Nat → List Nat → List Nat → List Nat → List Nat × Nat → Except GraphError (List Nat × Nat)
  | 0, _, _, _, _ => .error .outOfFuel
  | fuel + 1, R, P, X, best =>
    if P = [] ∧ X = [] then
      if R.length > best.2 then pure (R, R.length) else pure best
    else do
      let st ← P.foldlM
        (fun (st : BKState) v => do
          let P_new ← neighboursIn g v st.P
          let X_new ← neighboursIn g v st.X
          let best1 ← bronKerbosch g fuel (R ++ [v]) P_new X_new (st.maxClique, st.maxSize)
          pure { P := st.P.filter (fun u => u ≠ v), X := st.X ++ [v],
                 maxClique := best1.1, maxSize := best1.2 })
        { P := P, X := X, maxClique := best.1, maxSize := best.2 }
      pure (st.maxClique, st.maxSize)

/-- The pair `maxClique`, `maxSize` that `MaxCliqueAlgorithm::execute` prints. -/
def maxCliqueRun (g : Graph) : Except GraphError (List Nat × Nat) :=
  bronKerbosch g (g.numVertices + 1) [] (List.range g.numVertices) [] ([], 0)

/-- The text `a, b, c` of a vector written with `, ` between its entries. -/
def commaText : List Nat → String
  | [] => ""
  | v :: rest => rest.foldl (fun acc x => acc ++ ", " ++ to_string (x : Int)) (to_string (v : Int))

/-- `MaxCliqueAlgorithm::execute`. -/
def MaxCliqueAlgorithm.execute (g : Graph) : Except GraphError String :=
  if g.numVertices = 0 then
    pure "Graph is empty"
  else do
    let (maxClique, maxSize) ← maxCliqueRun g
    pure ("Max Clique Size: " ++ to_string (maxSize : Int) ++ "\n" ++
      "Max Clique Vertices: \x7b" ++ commaText maxClique ++ "\x7d")

/-- `SCCAlgorithm::dfs1`: `visited` and `order` after the call. -/
def dfs1 (g : Graph) : Nat → Nat → List Bool × List Nat → Except GraphError (List Bool × List Nat)
  | 0, _, _ => .error .outOfFuel
  | fuel + 1, v, (visited, order) => do
    let neighbors ← getNeighbors g (v : Int)
    let (visited1, order1) ← neighbors.foldlM
      (fun (st : List Bool × List Nat) current =>
        if !(st.1.getD current.dest false) then dfs1 g fuel current.dest st else pure st)
      (visited.set v true, order)
    pure (visited1, order1 ++ [v])

/-- `SCCAlgorithm::dfs2`: `visited` and `component` after the call. -/
def dfs2 (g : Graph) : Nat → Nat → List Bool × List Nat → Except GraphError (List Bool × List Nat)
  | 0, _, _ => .error .outOfFuel
  | fuel + 1, v, (visited, component) => do
    let neighbors ← getNeighbors g (v : Int)
    neighbors.foldlM
      (fun (st : List Bool × List Nat) current =>
        if !(st.1.getD current.dest false) then dfs2 g fuel current.dest st else pure st)
      (visited.set v true, component ++ [v])

/-- The first loop of `SCCAlgorithm::execute`: `dfs1` from every vertex not yet
visited. -/
def sccOrder (g : Graph) : List Nat → List Bool × List Nat → Except GraphError (List Bool × List Nat)
  | [], st => pure st
  | i :: rest, st => do
    if !(st.1.getD i false) then
      let st1 ← dfs1 g g.numVertices i st
      sccOrder g rest st1
    else
      sccOrder g rest st

/-- The loops that build `transpose`: `transpose.addEdge(current->dest, i, current->weight)`
for every list node. -/
def buildTranspose (g : Graph) : List Nat → Graph → Except GraphError Graph
  | [], transpose => pure transpose
  | i :: rest, transpose => do
    let neighbors ← getNeighbors g (i : Int)
    let transpose1 ← neighbors.foldlM
      (fun t current => addEdge t (current.dest : Int) (i : Int) current.weight) transpose
    buildTranspose g rest transpose1

/-- The second loop of `SCCAlgorithm::execute` over `order`, from its last entry
to its first (the argument is `order` reversed): `visited` and `sccs`. -/
def sccCollect (transpose : Graph) :
    List Nat → List Bool × List (List Nat) → Except GraphError (List Bool × List (List Nat))
  | [], st => pure st
  | v :: rest, (visited, sccs) => do
    if !(visited.getD v false) then
      let (visited1, component) ← dfs2 transpose transpose.numVertices v (visited, [])
      sccCollect transpose rest (visited1, sccs ++ [component])
    else
      sccCollect transpose rest (visited, sccs)

/-- The vector `sccs` that `SCCAlgorithm::execute` prints. -/
def sccRun (g : Graph) : Except GraphError (List (List Nat)) := do
  let n := g.numVertices
  let (_, order) ← sccOrder g (List.range n) (List.replicate n false, [])
  let transpose0 ← Graph.new (n : Int)
  let transpose ← buildTranspose g (List.range n) transpose0
  let (_, sccs) ← sccCollect transpose order.reverse (List.replicate n false, [])
  pure sccs

/-- The lines `SCC i: {...}` of the report, numbered from `i`. -/
def sccLines : Nat → List (List Nat) → String
  | _, [] => ""
  | i, c :: rest =>
    "SCC " ++ to_string (i : Int) ++ ": \x7b" ++ commaText c ++ "\x7d\n" ++ sccLines (i + 1) rest

/-- `SCCAlgorithm::execute`. -/
def SCCAlgorithm.execute (g : Graph) : Except GraphError String :=
  if g.numVertices = 0 then
    pure "Graph is empty"
  else do
    let sccs ← sccRun g
    pure ("Found " ++ to_string (sccs.length : Int) ++ " Strongly Connected Components:\n" ++
      sccLines 1 sccs)

/-- The call `createAlgorithm(type)->execute(graph)` on the machine. `fuel`
bounds the number of augmenting paths of the maximum-flow loop. -/
def AlgorithmFactory.execute (fuel : Nat) (type : AlgorithmType) (g : Graph) :
    Except Exn String :=
  match type with
  | .MST_WEIGHT => liftGraph (MSTWeightAlgorithm.execute wrapInt32 g)
  | .SCC => liftGraph (SCCAlgorithm.execute g)
  | .MAX_FLOW => liftGraph (MaxFlowAlgorithm.execute wrapInt32 fuel g)
  | .MAX_CLIQUE => liftGraph (MaxCliqueAlgorithm.execute g)

/-- The graph of `ex8/test_algorithms.cpp`: six vertices and the nine weighted
edges added in the order of the test. -/
def testGraph : Except GraphError Graph := do
  let g ← Graph.new 6
  addEdges g [(0, 1, 4), (0, 2, 3), (1, 2, 1), (1, 3, 2), (2, 3, 4), (2, 4, 3), (3, 4, 2),
    (3, 5, 1), (4, 5, 6)]

/-- `AlgorithmFactory::getAlgorithmName`: the token of a type, as the request
handlers compare it. -/
def AlgorithmFactory.getAlgorithmName : AlgorithmType → String
  | .MST_WEIGHT => "MST_WEIGHT"
  | .SCC => "SCC"
  | .MAX_FLOW => "MAX_FLOW"
  | .MAX_CLIQUE => "MAX_CLIQUE"

/-! ## Notions the claims on the algorithms are stated with -/

/-- A clique of the graph, listed without repetition: vertices of `[0, n)`
that are pairwise adjacent. -/
def IsClique (g : Graph) (C : List Nat) : Prop :=
  C.Nodup ∧ (∀ a ∈ C, a < g.numVertices) ∧ ∀ a ∈ C, ∀ b ∈ C, a ≠ b → b ∈ dests g a

/-- Every clique that contains the vertices of `R` has at most `m` vertices. -/
def CliquesBelow (g : Graph) (R : List Nat) (m : Nat) : Prop :=
  ∀ C, IsClique g C → (∀ r ∈ R, r ∈ C) → C.length ≤ m

/-- The common neighbours of the vertices of `R`. -/
def CommonNbr (g : Graph) (R : List Nat) (x : Nat) : Prop :=
  x < g.numVertices ∧ ∀ r ∈ R, x ∈ dests g r

/-- What a call of `bronKerbosch` is entitled to and what it delivers. -/
def BKSpec (g : Graph) (fuel : Nat) : Prop :=
  ∀ (R P X : List Nat) (best : List Nat × Nat),
    IsClique g R → P.Nodup → (∀ x, (x ∈ P ∨ x ∈ X) ↔ CommonNbr g R x) →
    (∀ x ∈ X, CliquesBelow g (R ++ [x]) best.2) →
    IsClique g best.1 → best.2 = best.1.length → P.length < fuel →
    ∃ best1, bronKerbosch g fuel R P X best = .ok best1 ∧ IsClique g best1.1 ∧
      best1.2 = best1.1.length ∧ best.2 ≤ best1.2 ∧ CliquesBelow g R best1.2

/-- What a run of `dfs1` or `dfs2` leaves: the marks `vis1` and the vertices
`added` to the output vector, which are the newly marked ones, each once. -/
structure SccPost (g : Graph) (v : Nat) (vis vis1 : List Bool) (added : List Nat) : Prop where
  post : DfsPost g v vis vis1
  nodup : added.Nodup
  mem : ∀ w, w ∈ added ↔ (vis.getD w false = false ∧ vis1.getD w false = true)

/-- The statement proved of `dfs1` by induction on the fuel. -/
def Dfs1Spec (g : Graph) (fuel : Nat) : Prop :=
  ∀ u vis (ord : List Nat), u < g.numVertices → vis.length = g.numVertices →
    vis.getD u false = false → vis.count false ≤ fuel →
    ∃ vis1 added, dfs1 g fuel u (vis, ord) = .ok (vis1, ord ++ added) ∧
      vis1.getD u false = true ∧ SccPost g u vis vis1 added

/-- The statement proved of `dfs2` by induction on the fuel. -/
def Dfs2Spec (g : Graph) (fuel : Nat) : Prop :=
  ∀ u vis (comp : List Nat), u < g.numVertices → vis.length = g.numVertices →
    vis.getD u false = false → vis.count false ≤ fuel →
    ∃ vis1 added, dfs2 g fuel u (vis, comp) = .ok (vis1, comp ++ added) ∧
      vis1.getD u false = true ∧ SccPost g u vis vis1 added

/-- The invariant of the second loop of `execute`: the marked vertices are the
ones listed in `sccs`, each once, every list of `sccs` is the set of vertices
joined to one of its members, and no edge leaves the marked vertices. -/
structure SccInv (T : Graph) (vis : List Bool) (sccs : List (List Nat)) : Prop where
  len : vis.length = T.numVertices
  nodup : sccs.flatten.Nodup
  mem : ∀ w, vis.getD w false = true ↔ w ∈ sccs.flatten
  comp : ∀ c ∈ sccs, ∃ v ∈ c, ∀ w, w ∈ c ↔ Reach T v w
  closed : ∀ w, vis.getD w false = true → ∀ x ∈ dests T w, vis.getD x false = true

/-- The weight of the edge between `a` and `b`, read in the adjacency list of
the smaller endpoint (0 when that list has no entry for the other one). -/
def pairWeight (g : Graph) (a b : Nat) : Int :=
  (findWeight (adj g (min a b)) (max a b)).getD 0

/-- The weight of an edge given as an unordered pair. -/
def edgeWeight (g : Graph) (e : Sym2 Nat) : Int :=
  Sym2.lift ⟨pairWeight g, fun a b => by unfold pairWeight; rw [min_comm, max_comm]⟩ e

/-- The sum of the weights of a set of edges. -/
def treeWeight (g : Graph) (T : Finset (Sym2 Nat)) : Int :=
  ∑ e ∈ T, edgeWeight g e

/-- Vertices joined by a path of edges of `T`. -/
def Joins (T : Finset (Sym2 Nat)) : Nat → Nat → Prop :=
  Relation.ReflTransGen (fun a b => s(a, b) ∈ T)

/-- A spanning tree of the graph, as its set of edges: edges of the graph,
one fewer than there are vertices, that join every two vertices. -/
structure IsSpanningTree (g : Graph) (T : Finset (Sym2 Nat)) : Prop where
  edges : ∀ e ∈ T, ∃ a b, e = s(a, b) ∧ b ∈ dests g a
  card : T.card + 1 = g.numVertices
  joins : ∀ u v, u < g.numVertices → v < g.numVertices → Joins T u v

/-- A path of edges of `T` from the first vertex to the second that visits no
vertex twice; the list holds its vertices. -/
inductive NPath (T : Finset (Sym2 Nat)) : Nat → Nat → List Nat → Prop where
  | single (u : Nat) : NPath T u u [u]
  | cons (x y u : Nat) (l : List Nat) : s(x, y) ∈ T → NPath T y u l → x ∉ l →
      NPath T x u (x :: l)

/-- The invariant of the inner loop of Prim's algorithm at the vertex `u`,
with the list nodes `l` still to scan. -/
structure ScanInv (g : Graph) (u : Nat) (st : PrimState) (l : List Neighbor) : Prop where
  vlen : st.visited.length = g.numVertices
  klen : st.key.length = g.numVertices
  sorted : st.pq.Pairwise (fun x y => x.1 ≤ y.1)
  sound : ∀ w v, (w, v) ∈ st.pq → st.visited.getD v false = false →
    ∃ x, st.visited.getD x false = true ∧ findWeight (adj g x) v = some w
  complete : ∀ a b w, st.visited.getD a false = true → st.visited.getD b false = false →
    findWeight (adj g a) b = some w →
    (a = u ∧ ∃ nb ∈ l, nb.dest = b) ∨ ∃ w1, w1 ≤ w ∧ (w1, b) ∈ st.pq
  key : ∀ v, v < g.numVertices → st.visited.getD v false = false →
    st.key.getD v 0 = INT_MAX ∨ (st.key.getD v 0, v) ∈ st.pq

/-- The number of iterations that the loop of Prim's algorithm can still make:
the pairs in the queue and the list nodes of the vertices not yet visited. -/
def primMeasure (g : Graph) (st : PrimState) : Nat :=
  st.pq.length +
    ∑ v ∈ Finset.range g.numVertices, if st.visited.getD v false then 0 else (dests g v).length

/-- The invariant of the `while` loop of Prim's algorithm: the edges `F` chosen
so far join the visited vertices to vertex 0, `mstWeight` is their weight, and
every spanning tree can be traded for one that contains `F` and weighs no more. -/
structure PrimInv (g : Graph) (st : PrimState) : Prop where
  scan : ScanInv g 0 st []
  zero : st.visited.getD 0 false = true
  tree : ∃ F : Finset (Sym2 Nat),
    (∀ e ∈ F, ∃ a b, e = s(a, b) ∧ b ∈ dests g a ∧ st.visited.getD a false = true ∧
      st.visited.getD b false = true) ∧
    F.card + 1 = st.visited.count true ∧
    st.mstWeight = treeWeight g F ∧
    (∀ v, st.visited.getD v false = true → Joins F 0 v) ∧
    (∀ T, IsSpanningTree g T →
      ∃ T1, IsSpanningTree g T1 ∧ F ⊆ T1 ∧ treeWeight g T1 ≤ treeWeight g T)

/-- The graph `Graph(3)` after `addEdge(0,1,5)`, `addEdge(1,2,2)` and
`addEdge(0,2,3)`: a triangle on which the statements about `MST_WEIGHT` are
instantiated. -/
def triangleGraph : Graph :=
  ⟨3, [[⟨2, 3⟩, ⟨1, 5⟩], [⟨2, 2⟩, ⟨0, 5⟩], [⟨0, 3⟩, ⟨1, 2⟩]]⟩

/-- The capacity of the arc from `u` to `v` in the network of the graph: the
weight of the edge between them, 0 when there is none. -/
def capacity (g : Graph) (u v : Nat) : Int :=
  (findWeight (adj g u) v).getD 0

/-- A flow from vertex 0 to vertex `n - 1`, given as the matrix of its values
on the arcs: every value is between 0 and the capacity of the arc, and at every
vertex other than the two ends what enters is what leaves. -/
def isFlow (g : Graph) (F : List (List Int)) : Bool :=
  (List.range g.numVertices).all (fun u => (List.range g.numVertices).all (fun v =>
    decide (0 ≤ matGet F u v) && decide (matGet F u v ≤ capacity g u v))) &&
  (List.range g.numVertices).all (fun v => v == 0 || v == g.numVertices - 1 ||
    decide (((List.range g.numVertices).map (fun u => matGet F u v)).sum =
      ((List.range g.numVertices).map (fun u => matGet F v u)).sum))

/-- The value of a flow: what leaves vertex 0 less what enters it. -/
def flowValue (g : Graph) (F : List (List Int)) : Int :=
  ((List.range g.numVertices).map (fun v => matGet F 0 v)).sum -
    ((List.range g.numVertices).map (fun v => matGet F v 0)).sum

/-! ## Sequences of calls on a graph object -/

/-- The object after the call `g.removeEdge(src, dest)`: both throws of
`removeEdge` come before its first write, so a call that throws leaves `g`. -/
def afterRemoveEdge (g : Graph) (src dest : Int) : Graph :=
  match removeEdge g src dest with
  | .ok g1 => g1
  | .error _ => g

/-- The graph objects a program can hold: built by the constructor and then
changed by `addEdge` and `removeEdge` calls, each of which returns or throws. -/
inductive BuiltByCalls : Graph → Prop where
  | new (n : Int) (g : Graph) : Graph.new n = .ok g → BuiltByCalls g
  | addEdge (g : Graph) (src dest weight : Int) :
      BuiltByCalls g → BuiltByCalls (afterAddEdge g src dest weight)
  | removeEdge (g : Graph) (src dest : Int) :
      BuiltByCalls g → BuiltByCalls (afterRemoveEdge g src dest)

/-- The unordered pairs of vertices that have an entry in each other's list. -/
def edgeFinset (g : Graph) : Finset (Sym2 Nat) :=
  (Finset.range g.numVertices).biUnion
    (fun u => (dests g u).toFinset.image (fun v => s(u, v)))

/-- A call made on a graph object. -/
inductive Call where
  | add (src dest weight : Int)
  | remove (src dest : Int)
  deriving DecidableEq, Repr

/-- The object after a sequence of calls, each of which returns or throws. -/
def runCalls (g : Graph) : List Call → Graph
  | [] => g
  | .add src dest weight :: rest => runCalls (afterAddEdge g src dest weight) rest
  | .remove src dest :: rest => runCalls (afterRemoveEdge g src dest) rest

/-! ## The worker pool of the leader-follower server (`ex8/lf_server.cpp`)

`workerThread` as a transition system: a step of a worker is one of its
critical sections (the wait on the condition variable included), the test of
`while (running)`, or the call of `processRequest`. The main thread adds work
and the signal handler clears `running`. -/

/-- `THREAD_POOL_SIZE`. -/
def THREAD_POOL_SIZE : Nat := 4

/-- Where a worker stands in `workerThread` between two of its steps. -/
inductive Phase where
  /-- At the test of `while (running)`. -/
  | loopTest
  /-- Before the critical section of step 1, which waits for the leader role. -/
  | wantLeader
  /-- Leader, before the critical section of step 2, which waits for work. -/
  | leader
  /-- With a work item, before the critical section of step 3. -/
  | gotWork
  /-- In `processRequest`. -/
  | processing
  /-- After the loop. -/
  | finished
  deriving DecidableEq, Repr

/-- A worker thread: its place in the code, whether it has set
`leader_available` to false without having set it back to true yet, and the
descriptor of the work item it took. -/
structure Worker where
  phase : Phase
  holdsLeader : Bool
  work_item : Option Nat
  deriving DecidableEq, Repr

/-- The shared variables of `LeaderFollowerServer`, the flag `running`, and the
workers by `thread_id`. -/
structure LFState where
  leader_available : Bool
  current_leader_id : Int
  work_queue : List Nat
  running : Bool
  workers : List Worker
  deriving DecidableEq, Repr

/-- What happens next: a step of the worker `thread_id`, a call of `addWork`
by the accept loop, or the signal handler's `running = 0`. -/
inductive LFEvent where
  | worker (thread_id : Nat)
  | addWork (client_fd : Nat)
  | shutdown
  deriving DecidableEq, Repr

/-- The state after the constructor `LeaderFollowerServer()`. -/
def LFState.init : LFState :=
  { leader_available := true
    current_leader_id := -1
    work_queue := []
    running := true
    workers := List.replicate THREAD_POOL_SIZE ⟨.loopTest, false, none⟩ }

/-- The assignment of the state `w` to the worker `i`. -/
def LFState.setWorker (s : LFState) (i : Nat) (w : Worker) : LFState :=
  { s with workers := s.workers.set i w }

/-- The assignments `leader_available = true; current_leader_id = -1;`. -/
def LFState.release (s : LFState) : LFState :=
  { s with leader_available := true, current_leader_id := -1 }

/-- The next step of the worker `i`, which is in the state `w`; `none` when the
worker is blocked in a `wait` or has left the loop. -/
def workerStep (s : LFState) (i : Nat) (w : Worker) : Option LFState :=
  match w.phase with
  | .loopTest =>
    some (s.setWorker i { w with phase := if s.running then .wantLeader else .finished })
  | .wantLeader =>
    if !(s.leader_available || !s.running) then none
    else if !s.running then
      some (s.setWorker i { w with phase := .finished })
    else
      some (LFState.setWorker { s with leader_available := false, current_leader_id := (i : Int) }
        i { w with phase := .leader, holdsLeader := true })
  | .leader =>
    if !(!s.work_queue.isEmpty || !s.running) then none
    else if !s.running then
      some (s.release.setWorker i { w with phase := .finished, holdsLeader := false })
    else
      match s.work_queue with
      | item :: rest =>
        some (LFState.setWorker { s with work_queue := rest }
          i { w with phase := .gotWork, work_item := some item })
      | [] => some (s.setWorker i { w with phase := .loopTest })
  | .gotWork =>
    some (s.release.setWorker i { w with phase := .processing, holdsLeader := false })
  | .processing => some (s.setWorker i { w with phase := .loopTest })
  | .finished => none

/-- One step of the system. -/
def lfStep (s : LFState) : LFEvent → Option LFState
  | .worker i =>
    match s.workers[i]? with
    | some w => workerStep s i w
    | none => none
  | .addWork client_fd => some { s with work_queue := s.work_queue ++ [client_fd] }
  | .shutdown => some { s with running := false }

/-- The state after a sequence of steps, when each of them can be taken. -/
def lfRun (s : LFState) : List LFEvent → Option LFState
  | [] => some s
  | ev :: rest =>
    match lfStep s ev with
    | some s1 => lfRun s1 rest
    | none => none

/-- The states the server can be in. -/
inductive LFReachable : LFState → Prop where
  | init : LFReachable LFState.init
  | step (s s1 : LFState) (ev : LFEvent) : LFReachable s → lfStep s ev = some s1 →
      LFReachable s1

/-- The worker `i` holds the leader role. -/
def HoldsLeader (s : LFState) (i : Nat) : Prop :=
  ∃ w, s.workers[i]? = some w ∧ w.holdsLeader = true

/-- The invariant of the pool: one holder at most, the flag is false exactly
when there is one, and a worker between step 1 and step 3 is a holder. -/
structure LFInv (s : LFState) : Prop where
  unique : ∀ i j, HoldsLeader s i → HoldsLeader s j → i = j
  flag : s.leader_available = false ↔ ∃ i, HoldsLeader s i
  phase : ∀ (i : Nat) (w : Worker), s.workers[i]? = some w →
    (w.phase = .leader ∨ w.phase = .gotWork) → w.holdsLeader = true

/-! ## The stages of the pipeline server (`ex9/tcp_server.cpp`)

A stage is a thread that pops a work unit from its queue, appends to the
report of the unit and pushes the unit to the queue of the next stage. The
four algorithm stages have the same text up to the algorithm, the title and
the queues. -/

/-- `struct PipelineData`, the work unit, from the MST queue on: `graph` has
been set by the Ingest stage. The start time is left out; the Respond stage
takes the elapsed time as a parameter. -/
structure PipelineData where
  client_fd : Nat
  client_ip : String
  request : String
  algorithm : String
  graph : Graph
  result : String
  deriving DecidableEq, Repr

/-- The `try` block and the `catch` of an algorithm stage for the unit `data`:
the unit as it is pushed to the next queue. The appends made before
`execute` throws stay in `data->result`. The test `if (algo)` after
`createAlgorithm` is left out: the factory returns an instance for each of the
four types. -/
def stageBody (execute : AlgorithmType → Graph → Except Exn String) (t : AlgorithmType)
    (title : String) (data : PipelineData) : Except Exn PipelineData :=
  let result1 := data.result ++ title
  let result2 := result1 ++ (t.getName ++ "\n")
  match execute t data.graph with
  | .ok report => pure { data with result := result2 ++ ("Result: " ++ report ++ "\n\n") }
  | .error (.exception what) => pure { data with result := result2 ++ ("ERROR: " ++ what ++ "\n\n") }
  | .error .outOfFuel => .error .outOfFuel

/-- One iteration of the loop `while (running)` of an algorithm stage on its
queue and the queue of the next stage: the two queues afterwards, or `none`
when the stage stays in `wait` or leaves the loop. -/
def stageIteration (execute : AlgorithmType → Graph → Except Exn String) (t : AlgorithmType)
    (title : String) (running : Bool) (queue next : List PipelineData) :
    Except Exn (Option (List PipelineData × List PipelineData)) :=
  if !(!queue.isEmpty || !running) then pure none
  else if !running then pure none
  else
    match queue with
    | [] => pure none
    | data :: rest => do
      let data1 ← stageBody execute t title data
      pure (some (rest, next ++ [data1]))

/-- `PipelineServer::mstProcessor` on `mst_queue` and `scc_queue`. -/
def mstProcessor (execute : AlgorithmType → Graph → Except Exn String) :=
  stageIteration execute .MST_WEIGHT "=== MST WEIGHT ALGORITHM ===\n"

/-- `PipelineServer::sccProcessor` on `scc_queue` and `max_flow_queue`. -/
def sccProcessor (execute : AlgorithmType → Graph → Except Exn String) :=
  stageIteration execute .SCC "=== SCC ALGORITHM ===\n"

/-- `PipelineServer::maxFlowProcessor` on `max_flow_queue` and `max_clique_queue`. -/
def maxFlowProcessor (execute : AlgorithmType → Graph → Except Exn String) :=
  stageIteration execute .MAX_FLOW "=== MAX FLOW ALGORITHM ===\n"

/-- `PipelineServer::maxCliqueProcessor` on `max_clique_queue` and `response_queue`. -/
def maxCliqueProcessor (execute : AlgorithmType → Graph → Except Exn String) :=
  stageIteration execute .MAX_CLIQUE "=== MAX CLIQUE ALGORITHM ===\n"

/-- One iteration of `PipelineServer::responseSender`, `micros` microseconds
after the start time of the unit: the text sent, the descriptor it is sent to
and the queue afterwards. -/
def responseSender (micros : Int) (running : Bool) (response_queue : List PipelineData) :
    Option (String × Nat × List PipelineData) :=
  if !(!response_queue.isEmpty || !running) then none
  else if !running then none
  else
    match response_queue with
    | [] => none
    | data :: rest =>
      some (data.result ++ "\n\nPipeline processing time: " ++ to_string micros ++
        " microseconds\n", data.client_fd, rest)

/-- The four algorithm stages. -/
inductive Stage where
  | mst
  | scc
  | maxFlow
  | maxClique
  deriving DecidableEq, Repr

/-- The algorithm a stage runs. -/
def Stage.type : Stage → AlgorithmType
  | .mst => .MST_WEIGHT
  | .scc => .SCC
  | .maxFlow => .MAX_FLOW
  | .maxClique => .MAX_CLIQUE

/-- The title line a stage writes. -/
def Stage.title : Stage → String
  | .mst => "=== MST WEIGHT ALGORITHM ===\n"
  | .scc => "=== SCC ALGORITHM ===\n"
  | .maxFlow => "=== MAX FLOW ALGORITHM ===\n"
  | .maxClique => "=== MAX CLIQUE ALGORITHM ===\n"

/-- The processor function of a stage. -/
def Stage.processor (st : Stage) (execute : AlgorithmType → Graph → Except Exn String) :
    Bool → List PipelineData → List PipelineData →
      Except Exn (Option (List PipelineData × List PipelineData)) :=
  match st with
  | .mst => mstProcessor execute
  | .scc => sccProcessor execute
  | .maxFlow => maxFlowProcessor execute
  | .maxClique => maxCliqueProcessor execute

/-! ## The augmenting-path loop of `MAX_FLOW`, an iteration at a time -/

/-- The variables of the loop `while (bfs(residual, source, sink, parent, n))`
of `MaxFlowAlgorithm::execute`. -/
structure FlowState where
  residual : List (List Int)
  parent : List Int
  maxFlow : Int
  deriving DecidableEq, Repr

/-- The test of the loop and, when it holds, the body: `none` when `bfs`
returns `false`, otherwise the variables after the body. -/
def augment (arith : Int → Int) (n source sink : Nat) (st : FlowState) :
    Except GraphError (Option FlowState) := do
  let (found, parent1) ← bfs st.residual source sink st.parent n
  if found then
    let pathFlow ← pathMin st.residual parent1 source n (sink : Int) INT_MAX
    let residual1 ← pathUpdate arith parent1 source pathFlow n (sink : Int) st.residual
    pure (some ⟨residual1, parent1, arith (st.maxFlow + pathFlow)⟩)
  else
    pure none

/-- The variables at each test of the loop, from the state `st` on: the last
entry is the state in which `bfs` returns `false`. `fuel` bounds the number of
tests. -/
def augmentations (arith : Int → Int) (n source sink : Nat) :
    Nat → FlowState → Except GraphError (List FlowState)
  | 0, _ => .error .outOfFuel
  | fuel + 1, st => do
    match ← augment arith n source sink st with
    | none => pure [st]
    | some st1 => do
      let rest ← augmentations arith n source sink fuel st1
      pure (st :: rest)

/-- The variables at each test of the loop of `MaxFlowAlgorithm::execute` on a
graph of at least two vertices. -/
def maxFlowTrace (arith : Int → Int) (fuel : Nat) (g : Graph) :
    Except GraphError (List FlowState) := do
  let n := g.numVertices
  let residual ← fillResidual g (List.range n) (List.replicate n (List.replicate n 0))
  augmentations arith n 0 (n - 1) fuel ⟨residual, List.replicate n 0, 0⟩

/-- The sum of the positive weights of the edges at the vertex `u`. -/
def positiveWeights (g : Graph) (u : Nat) : Int :=
  ((adj g u).map (fun nb => max nb.weight 0)).sum

/-- The sum of the positive entries of the row `u` of the residual matrix. -/
def rowCapacity (residual : List (List Int)) (u : Nat) : Int :=
  ((residual.getD u []).map (fun x => max x 0)).sum

/-- The walk `v, parent[v], parent[parent[v]], ...` arrives at `source` after
`k` steps, over vertices of `seen` and arcs of positive residual capacity; `f`
is the vertex of the walk whose parent is `source`. -/
inductive TreePath (residual : List (List Int)) (parent : List Int) (source : Nat)
    (seen : List Nat) : Nat → Nat → Nat → Prop where
  | last (v : Nat) : v ∈ seen → v ≠ source → parent.getD v 0 = (source : Int) →
      0 < matGet residual source v → TreePath residual parent source seen v 1 v
  | step (v u k f : Nat) : v ∈ seen → v ≠ source → u ≠ source → parent.getD v 0 = (u : Int) →
      0 < matGet residual u v → TreePath residual parent source seen u k f →
      TreePath residual parent source seen v (k + 1) f

/-- The invariant of the loop of `bfs`: `seen` lists the vertices marked
visited, and each of them other than `source` has a walk to `source` along
the parent entries. -/
structure BfsInv (residual : List (List Int)) (n source : Nat) (seen : List Nat)
    (st : BfsState) : Prop where
  vlen : st.visited.length = n
  plen : st.parent.length = n
  nodup : seen.Nodup
  lt : ∀ v ∈ seen, v < n
  vis : ∀ v, st.visited.getD v false = true ↔ v ∈ seen
  src : source ∈ seen
  tree : ∀ v ∈ seen, v ≠ source →
    ∃ k f, TreePath residual st.parent source seen v k f ∧ k < seen.length

/-! # Theorems -/

/-! ## Lemmas on the adjacency lists -/

theorem hasDest_iff (l : List Neighbor) (d : Nat) :
    hasDest l d = true ↔ d ∈ l.map (fun nb => nb.dest) := by
  induction l with
  | nil => simp [hasDest]
  | cons nb rest ih =>
    by_cases h : nb.dest = d
    · simp [hasDest, h]
    · have h2 : ¬ d = nb.dest := fun e => h e.symm
      simp [hasDest, h, h2, ih]

theorem map_dest_setWeight (l : List Neighbor) (d : Nat) (w : Int) :
    (setWeight l d w).map (fun nb => nb.dest) = l.map (fun nb => nb.dest) := by
  induction l with
  | nil => simp [setWeight]
  | cons nb rest ih =>
    by_cases h : nb.dest = d
    · simp [setWeight, h]
    · simp [setWeight, h, ih]

theorem map_dest_eraseDest (l : List Neighbor) (d : Nat) :
    (eraseDest l d).map (fun nb => nb.dest) = (l.map (fun nb => nb.dest)).erase d := by
  induction l with
  | nil => simp [eraseDest]
  | cons nb rest ih =>
    by_cases h : nb.dest = d
    · simp [eraseDest, h]
    · simp [eraseDest, h, ih, List.erase_cons_tail]

theorem adj_setAdj (g : Graph) (v : Nat) (l : List Neighbor) (x : Nat) :
    adj (setAdj g v l) x = if x = v ∧ v < g.adjList.length then l else adj g x := by
  unfold adj setAdj
  simp only [List.getD_eq_getElem?_getD, List.getElem?_set]
  by_cases hx : v = x
  · subst hx
    by_cases hv : v < g.adjList.length
    · simp [hv]
    · simp [hv]
      rw [List.getElem?_eq_none (by omega)]
      rfl
  · have hx2 : ¬ x = v := fun e => hx e.symm
    simp [hx, hx2]

theorem adj_eq_nil_of_ge (g : Graph) (v : Nat) (h : g.adjList.length ≤ v) : adj g v = [] := by
  unfold adj
  simp [List.getD_eq_getElem?_getD, List.getElem?_eq_none h]

theorem dests_setAdj (g : Graph) (v : Nat) (l : List Neighbor) (x : Nat) :
    dests (setAdj g v l) x =
      if x = v ∧ v < g.adjList.length then l.map (fun nb => nb.dest) else dests g x := by
  unfold dests
  rw [adj_setAdj]
  split <;> rfl

theorem dests_eq_nil_of_ge (g : Graph) (hlen : g.adjList.length = g.numVertices) (v : Nat)
    (h : g.numVertices ≤ v) : dests g v = [] := by
  unfold dests
  rw [adj_eq_nil_of_ge g v (by omega)]
  rfl

theorem WF.lt_of_mem {g : Graph} (hg : WF g) {u v : Nat} (h : v ∈ dests g u) :
    u < g.numVertices ∧ v < g.numVertices :=
  ⟨hg.range v u (hg.symm u v h), hg.range u v h⟩

theorem WF.ne_of_mem {g : Graph} (hg : WF g) {u v : Nat} (h : v ∈ dests g u) : u ≠ v := by
  intro e
  subst e
  exact hg.irrefl u h

theorem numVertices_unlink (g : Graph) (a b : Nat) :
    (unlink g a b).numVertices = g.numVertices := rfl

theorem length_unlink (g : Graph) (a b : Nat) :
    (unlink g a b).adjList.length = g.adjList.length := by
  simp [unlink, setAdj]

theorem dests_unlink (g : Graph) (a b : Nat) (hab : a ≠ b) (ha : a < g.adjList.length)
    (hb : b < g.adjList.length) (x : Nat) :
    dests (unlink g a b) x =
      if x = a then (dests g a).erase b else if x = b then (dests g b).erase a
      else dests g x := by
  unfold unlink
  simp only [dests_setAdj, adj_setAdj]
  have hba : ¬ b = a := fun e => hab e.symm
  by_cases hxa : x = a
  · subst hxa
    simp [hab, ha, map_dest_eraseDest, dests]
  · by_cases hxb : x = b
    · subst hxb
      simp [hba, setAdj, hb, map_dest_eraseDest, dests]
    · simp [hxa, hxb]

theorem WF.unlink {g : Graph} (hg : WF g) {a b : Nat} (hab : b ∈ dests g a) :
    WF (unlink g a b) := by
  have hne := hg.ne_of_mem hab
  obtain ⟨ha, hb⟩ := hg.lt_of_mem hab
  have hl := hg.len
  have hd := dests_unlink g a b hne (by omega) (by omega)
  have hsub : ∀ x d, d ∈ dests (graph.unlink g a b) x → d ∈ dests g x := by
    intro x d h
    rw [hd] at h
    split at h
    · subst x; exact List.mem_of_mem_erase h
    · split at h
      · subst x; exact List.mem_of_mem_erase h
      · exact h
  refine ⟨by rw [length_unlink]; exact hl, ?_, ?_, ?_, ?_⟩
  · intro v d h
    exact hg.range v d (hsub v d h)
  · intro v h
    exact hg.irrefl v (hsub v v h)
  · intro v
    rw [hd]
    split
    · exact (hg.nodup a).erase b
    · split
      · exact (hg.nodup b).erase a
      · exact hg.nodup v
  · intro u v h
    have h0 := hsub u v h
    have h1 := hg.symm u v h0
    rw [hd] at h ⊢
    by_cases hua : u = a
    · subst hua
      simp only [if_true] at h
      have hvb : v ≠ b := by
        intro e
        subst e
        exact (List.Nodup.not_mem_erase (hg.nodup u)) h
      have hvu : v ≠ u := fun e => hg.ne_of_mem h0 e.symm
      simp [hvb, hvu, h1]
    · by_cases hub : u = b
      · subst hub
        simp only [hua, if_false, if_true] at h
        have hva : v ≠ a := by
          intro e
          subst e
          exact (List.Nodup.not_mem_erase (hg.nodup u)) h
        have hvu : v ≠ u := fun e => hg.ne_of_mem h0 e.symm
        simp [hva, hvu, h1]
      · simp only [hua, hub, if_false] at h
        by_cases hva : v = a
        · subst hva
          simp only [if_true]
          exact (List.mem_erase_of_ne hub).2 h1
        · by_cases hvb : v = b
          · subst hvb
            simp only [hva, if_false, if_true]
            exact (List.mem_erase_of_ne hua).2 h1
          · simp [hva, hvb, h1]

/-! ## `addEdge` and `removeEdge` keep the invariants -/

theorem outOfRange2_false_iff (g : Graph) (src dest : Int) :
    outOfRange2 g src dest = false ↔
      0 ≤ src ∧ src < g.numVertices ∧ 0 ≤ dest ∧ dest < g.numVertices := by
  unfold outOfRange2
  simp only [Bool.or_eq_false_iff, decide_eq_false_iff_not]
  omega

theorem outOfRange2_cast (g : Graph) (a b : Nat) (ha : a < g.numVertices)
    (hb : b < g.numVertices) : outOfRange2 g (a : Int) (b : Int) = false := by
  rw [outOfRange2_false_iff]
  omega

theorem hasEdge_cast (g : Graph) (a b : Nat) (ha : a < g.numVertices)
    (hb : b < g.numVertices) :
    hasEdge g (a : Int) (b : Int) = .ok (decide (b ∈ dests g a)) := by
  unfold hasEdge
  rw [outOfRange2_cast g a b ha hb]
  simp only [Int.toNat_ofNat, Bool.false_eq_true, if_false]
  congr 1
  rw [Bool.eq_iff_iff, hasDest_iff]
  simp [dests]

theorem removeEdge_cast (g : Graph) (a b : Nat) (ha : a < g.numVertices)
    (hb : b < g.numVertices) (hab : b ∈ dests g a) :
    removeEdge g (a : Int) (b : Int) = .ok (unlink g a b) := by
  unfold removeEdge
  rw [outOfRange2_cast g a b ha hb, hasEdge_cast g a b ha hb]
  simp [hab, unlink, bind, Except.bind, pure, Except.pure]

theorem removeEdge_ok {g g1 : Graph} {src dest : Int} (h : removeEdge g src dest = .ok g1) :
    0 ≤ src ∧ 0 ≤ dest ∧ src.toNat < g.numVertices ∧ dest.toNat < g.numVertices ∧
      dest.toNat ∈ dests g src.toNat ∧ g1 = unlink g src.toNat dest.toNat := by
  unfold removeEdge at h
  by_cases hr : outOfRange2 g src dest = true
  · simp [hr] at h
  · have hr2 : outOfRange2 g src dest = false := by simpa using hr
    have hr3 := (outOfRange2_false_iff g src dest).1 hr2
    have hs : src = (src.toNat : Int) := by omega
    have hd : dest = (dest.toNat : Int) := by omega
    have hs2 : src.toNat < g.numVertices := by omega
    have hd2 : dest.toNat < g.numVertices := by omega
    have he := hasEdge_cast g src.toNat dest.toNat hs2 hd2
    rw [← hs, ← hd] at he
    rw [hr2, he] at h
    by_cases hm : dest.toNat ∈ dests g src.toNat
    · simp [hm, bind, Except.bind, pure, Except.pure] at h
      refine ⟨hr3.1, hr3.2.2.1, hs2, hd2, hm, ?_⟩
      rw [← h]
      rfl
    · simp [hm, bind, Except.bind, pure, Except.pure, throw, throwThe, MonadExceptOf.throw] at h

theorem addEdge_ok {g g1 : Graph} {src dest weight : Int}
    (h : addEdge g src dest weight = .ok g1) :
    0 ≤ src ∧ 0 ≤ dest ∧ src.toNat < g.numVertices ∧ dest.toNat < g.numVertices ∧
      src.toNat ≠ dest.toNat ∧
      g1.numVertices = g.numVertices ∧ g1.adjList.length = g.adjList.length ∧
      (g.adjList.length = g.numVertices → ∀ x, dests g1 x =
        if dest.toNat ∈ dests g src.toNat then dests g x
        else if x = src.toNat then dest.toNat :: dests g x
        else if x = dest.toNat then src.toNat :: dests g x
        else dests g x) := by
  unfold addEdge at h
  by_cases hr : outOfRange2 g src dest = true
  · simp [hr] at h
  · have hr2 : outOfRange2 g src dest = false := by simpa using hr
    have hr3 := (outOfRange2_false_iff g src dest).1 hr2
    have hs : src = (src.toNat : Int) := by omega
    have hd : dest = (dest.toNat : Int) := by omega
    have hs2 : src.toNat < g.numVertices := by omega
    have hd2 : dest.toNat < g.numVertices := by omega
    have he := hasEdge_cast g src.toNat dest.toNat hs2 hd2
    rw [← hs, ← hd] at he
    by_cases hsd : src = dest
    · rw [hr2] at h
      simp [hsd] at h
    · have hne : src.toNat ≠ dest.toNat := by omega
      have hne2 : dest.toNat ≠ src.toNat := fun e => hne e.symm
      rw [hr2, he] at h
      refine ⟨hr3.1, hr3.2.2.1, hs2, hd2, hne, ?_⟩
      by_cases hm : dest.toNat ∈ dests g src.toNat
      · simp [hm, hsd, bind, Except.bind, pure, Except.pure] at h
        subst h
        refine ⟨rfl, by simp [setAdj], ?_⟩
        intro hl x
        simp only [dests_setAdj, adj_setAdj, hm, if_true]
        by_cases hxd : x = dest.toNat
        · subst hxd
          simp [setAdj, hl, hd2, hne2, map_dest_setWeight, dests]
        · by_cases hxs : x = src.toNat
          · subst hxs
            simp [hxd, hl, hs2, map_dest_setWeight, dests]
          · simp [hxd, hxs]
      · simp [hm, hsd, bind, Except.bind, pure, Except.pure] at h
        subst h
        refine ⟨rfl, by simp [setAdj], ?_⟩
        intro hl x
        simp only [dests_setAdj, adj_setAdj, hm, if_false]
        by_cases hxd : x = dest.toNat
        · subst hxd
          simp [setAdj, hl, hd2, hne2, dests]
        · by_cases hxs : x = src.toNat
          · subst hxs
            simp [hxd, hl, hs2, dests]
          · simp [hxd, hxs]

theorem WF.new {n : Int} {g : Graph} (h : Graph.new n = .ok g) : WF g := by
  unfold Graph.new at h
  split at h
  · simp at h
  · simp only [Except.ok.injEq] at h
    subst h
    have hd : ∀ v, dests ⟨n.toNat, List.replicate n.toNat []⟩ v = [] := by
      intro v
      simp only [dests, adj, List.getD_eq_getElem?_getD, List.getElem?_replicate]
      split <;> simp
    refine ⟨by simp, ?_, ?_, ?_, ?_⟩
    · intro v d hm; rw [hd] at hm; simp at hm
    · intro v hm; rw [hd] at hm; simp at hm
    · intro v; rw [hd]; simp
    · intro u v hm; rw [hd] at hm; simp at hm

theorem WF.addEdge {g g1 : Graph} {src dest weight : Int} (hg : WF g)
    (h : addEdge g src dest weight = .ok g1) : WF g1 := by
  obtain ⟨_, _, hs, hd, hne, hnv, hlen, hdests⟩ := addEdge_ok h
  have hdests := hdests hg.len
  by_cases hm : dest.toNat ∈ dests g src.toNat
  · simp only [hm, if_true] at hdests
    refine ⟨by rw [hlen, hnv]; exact hg.len, ?_, ?_, ?_, ?_⟩
    · intro v d h; rw [hdests] at h; rw [hnv]; exact hg.range v d h
    · intro v h; rw [hdests] at h; exact hg.irrefl v h
    · intro v; rw [hdests]; exact hg.nodup v
    · intro u v h; rw [hdests] at h ⊢; exact hg.symm u v h
  · simp only [hm, if_false] at hdests
    have hm2 : src.toNat ∉ dests g dest.toNat := fun h => hm (hg.symm _ _ h)
    have hne2 : dest.toNat ≠ src.toNat := fun e => hne e.symm
    refine ⟨by rw [hlen, hnv]; exact hg.len, ?_, ?_, ?_, ?_⟩
    · intro v d h
      rw [hdests] at h
      rw [hnv]
      split at h
      · rcases List.mem_cons.1 h with h | h
        · omega
        · exact hg.range v d h
      · split at h
        · rcases List.mem_cons.1 h with h | h
          · omega
          · exact hg.range v d h
        · exact hg.range v d h
    · intro v h
      rw [hdests] at h
      split at h
      · rcases List.mem_cons.1 h with h | h
        · omega
        · exact hg.irrefl v h
      · split at h
        · rcases List.mem_cons.1 h with h | h
          · omega
          · exact hg.irrefl v h
        · exact hg.irrefl v h
    · intro v
      rw [hdests]
      split
      · subst v; exact List.nodup_cons.2 ⟨hm, hg.nodup _⟩
      · split
        · subst v; exact List.nodup_cons.2 ⟨hm2, hg.nodup _⟩
        · exact hg.nodup v
    · intro u v h
      rw [hdests] at h ⊢
      by_cases hus : u = src.toNat
      · subst hus
        simp only [if_true] at h
        rcases List.mem_cons.1 h with h | h
        · subst h
          simp [hne2]
        · have h1 := hg.symm _ _ h
          have h2 : v ≠ src.toNat := fun e => hg.ne_of_mem h e.symm
          simp only [h2, if_false]
          split
          · exact List.mem_cons_of_mem _ h1
          · exact h1
      · by_cases hud : u = dest.toNat
        · subst hud
          simp only [hus, if_false, if_true] at h
          rcases List.mem_cons.1 h with h | h
          · subst h
            simp
          · have h1 := hg.symm _ _ h
            have h2 : v ≠ dest.toNat := fun e => hg.ne_of_mem h e.symm
            simp only [h2, if_false]
            split
            · exact List.mem_cons_of_mem _ h1
            · exact h1
        · simp only [hus, hud, if_false] at h
          have h1 := hg.symm _ _ h
          split
          · exact List.mem_cons_of_mem _ h1
          · split
            · exact List.mem_cons_of_mem _ h1
            · exact h1

theorem WF.removeEdge {g g1 : Graph} {src dest : Int} (hg : WF g)
    (h : removeEdge g src dest = .ok g1) : WF g1 := by
  obtain ⟨_, _, _, _, hm, he⟩ := removeEdge_ok h
  rw [he]
  exact hg.unlink hm

theorem Reachable.wf {g : Graph} (h : Reachable g) : WF g := by
  induction h with
  | new n g h => exact WF.new h
  | addEdge g g1 src dest weight _ h ih => exact ih.addEdge h
  | removeEdge g g1 src dest _ h ih => exact ih.removeEdge h

/-! ## Degrees and the number of edges -/

theorem getDegree_cast (g : Graph) (v : Nat) (hv : v < g.numVertices) :
    getDegree g (v : Int) = .ok (dests g v).length := by
  unfold getDegree
  simp [hv, dests]

theorem getNeighbors_cast (g : Graph) (v : Nat) (hv : v < g.numVertices) :
    getNeighbors g (v : Int) = .ok (adj g v) := by
  unfold getNeighbors
  simp [hv]

theorem sum_map_range (f : Nat → Nat) (n : Nat) :
    ((List.range n).map f).sum = ∑ i ∈ Finset.range n, f i := by
  induction n with
  | zero => simp
  | succ n ih => simp [List.range_succ, Finset.sum_range_succ, ih]

theorem numNodes_eq_degSum (g : Graph) : numNodes g = degSum g := by
  unfold numNodes degSum
  rw [sum_map_range]
  simp [dests]

theorem getNumEdges_eq (g : Graph) : getNumEdges g = degSum g / 2 := by
  rw [← numNodes_eq_degSum]
  rfl

theorem length_dests_unlink {g : Graph} (hg : WF g) {a b : Nat} (hab : b ∈ dests g a)
    (x : Nat) :
    (dests g x).length =
      (dests (unlink g a b) x).length + (if x = a then 1 else 0) + (if x = b then 1 else 0) := by
  have hne := hg.ne_of_mem hab
  obtain ⟨ha, hb⟩ := hg.lt_of_mem hab
  have hl := hg.len
  rw [dests_unlink g a b hne (by omega) (by omega)]
  have hba := hg.symm a b hab
  by_cases hxa : x = a
  · subst hxa
    have := List.length_pos_of_mem hab
    simp [hne, List.length_erase_of_mem hab]
    omega
  · by_cases hxb : x = b
    · subst hxb
      have := List.length_pos_of_mem hba
      simp [hxa, List.length_erase_of_mem hba]
      omega
    · simp [hxa, hxb]

theorem degSum_unlink {g : Graph} (hg : WF g) {a b : Nat} (hab : b ∈ dests g a) :
    degSum g = degSum (unlink g a b) + 2 := by
  obtain ⟨ha, hb⟩ := hg.lt_of_mem hab
  unfold degSum
  rw [numVertices_unlink]
  rw [Finset.sum_congr rfl (fun x _ => length_dests_unlink hg hab x)]
  rw [Finset.sum_add_distrib, Finset.sum_add_distrib]
  simp [Finset.sum_ite_eq', ha, hb]

theorem degSum_eq_zero {g : Graph} (h : ∀ v, v < g.numVertices → dests g v = []) :
    degSum g = 0 := by
  unfold degSum
  apply Finset.sum_eq_zero
  intro i hi
  rw [h i (Finset.mem_range.1 hi)]
  rfl

/-! ## The loops of `isConnected` and `hasEulerCircuit` -/

theorem findStart_eq (g : Graph) (l : List Nat) (hl : ∀ i ∈ l, i < g.numVertices) :
    findStart g l = .ok (match l.find? (fun i => decide (0 < (dests g i).length)) with
      | some i => (i : Int)
      | none => -1) := by
  induction l with
  | nil => rfl
  | cons i rest ih =>
    have hi := hl i (List.mem_cons_self _ _)
    have ih := ih (fun j hj => hl j (List.mem_cons_of_mem _ hj))
    unfold findStart
    rw [getDegree_cast g i hi]
    by_cases hd : 0 < (dests g i).length
    · simp [hd, bind, Except.bind, pure, Except.pure]
    · simp only [bind, Except.bind, hd, decide_False, ite_false, gt_iff_lt, Bool.false_eq_true,
        List.find?_cons_of_neg, not_false_eq_true]
      exact ih

theorem allReached_eq (g : Graph) (vis : List Bool) (l : List Nat)
    (hl : ∀ i ∈ l, i < g.numVertices) :
    allReached g vis l =
      .ok (l.all (fun i => !(decide (0 < (dests g i).length) && !(vis.getD i false)))) := by
  induction l with
  | nil => rfl
  | cons i rest ih =>
    have hi := hl i (List.mem_cons_self _ _)
    have ih := ih (fun j hj => hl j (List.mem_cons_of_mem _ hj))
    unfold allReached
    rw [getDegree_cast g i hi]
    by_cases hd : (decide (0 < (dests g i).length) && !(vis.getD i false)) = true
    · simp only [bind, Except.bind, gt_iff_lt, hd, ite_true, List.all_cons, Bool.not_true,
        Bool.false_and]
      rfl
    · simp only [bind, Except.bind, gt_iff_lt, hd, ite_false, List.all_cons, Bool.false_eq_true]
      rw [ih]
      rfl

theorem allEven_eq (g : Graph) (l : List Nat) (hl : ∀ i ∈ l, i < g.numVertices) :
    allEven g l = .ok (l.all (fun i => decide ((dests g i).length % 2 = 0))) := by
  induction l with
  | nil => rfl
  | cons i rest ih =>
    have hi := hl i (List.mem_cons_self _ _)
    have ih := ih (fun j hj => hl j (List.mem_cons_of_mem _ hj))
    unfold allEven
    rw [getDegree_cast g i hi]
    by_cases hd : (dests g i).length % 2 = 0
    · simp only [bind, Except.bind, hd, ne_eq, not_true_eq_false, ite_false, List.all_cons,
        decide_True, Bool.true_and]
      exact ih
    · simp only [bind, Except.bind, ne_eq, hd, not_false_eq_true, ite_true, List.all_cons,
        decide_False, Bool.false_and]
      rfl

/-! ## Depth-first search -/

theorem getD_set_true (vis : List Bool) (v w : Nat) :
    (vis.set v true).getD w false =
      if w = v ∧ v < vis.length then true else vis.getD w false := by
  simp only [List.getD_eq_getElem?_getD, List.getElem?_set]
  by_cases h : v = w
  · subst h
    by_cases hv : v < vis.length
    · simp [hv]
    · simp [hv]
      rw [List.getElem?_eq_none (by omega)]
      rfl
  · have h2 : ¬ w = v := fun e => h e.symm
    simp [h, h2]

theorem count_false_set (vis : List Bool) (v : Nat) (hv : v < vis.length)
    (h : vis.getD v false = false) :
    (vis.set v true).count false + 1 = vis.count false := by
  induction vis generalizing v with
  | nil => simp at hv
  | cons b rest ih =>
    cases v with
    | zero =>
      simp at h
      subst h
      simp
    | succ v =>
      simp at hv h
      have := ih v hv (by simpa using h)
      cases b <;> simp [List.count_cons] <;> omega

theorem dfs_loop {g : Graph} (hg : WF g) (fuel v : Nat)
    (ih : ∀ u vis, u < g.numVertices → vis.length = g.numVertices →
      vis.getD u false = false → vis.count false ≤ fuel →
      ∃ vis1, dfs g fuel u vis = .ok vis1 ∧ vis1.getD u false = true ∧ DfsPost g u vis vis1) :
    ∀ (l : List Neighbor) (vis : List Bool), (∀ nb ∈ l, nb.dest ∈ dests g v) →
      vis.length = g.numVertices → vis.count false ≤ fuel →
      ∃ vis1, l.foldlM (fun vis current =>
          if !(vis.getD current.dest false) then dfs g fuel current.dest vis else pure vis) vis
          = .ok vis1 ∧
        (∀ nb ∈ l, vis1.getD nb.dest false = true) ∧ DfsPost g v vis vis1 := by
  intro l
  induction l with
  | nil =>
    intro vis _ _ _
    refine ⟨vis, rfl, by simp, rfl, le_refl _, fun _ h => h, ?_⟩
    intro w h1 h2
    rw [h1] at h2
    cases h2
  | cons nb rest ihl =>
    intro vis hl hlen hcount
    have hnb := hl nb (List.mem_cons_self _ _)
    have hrest : ∀ x ∈ rest, x.dest ∈ dests g v := fun x hx => hl x (List.mem_cons_of_mem _ hx)
    -- the first iteration
    have step : ∃ vis0, (if !(vis.getD nb.dest false) then dfs g fuel nb.dest vis else pure vis)
        = Except.ok vis0 ∧ vis0.getD nb.dest false = true ∧ DfsPost g v vis vis0 := by
      by_cases hvis : vis.getD nb.dest false = true
      · refine ⟨vis, by rw [hvis]; rfl, hvis, rfl, le_refl _, fun _ h => h, ?_⟩
        intro w h1 h2
        rw [h1] at h2
        cases h2
      · have hvis2 : vis.getD nb.dest false = false := by simpa using hvis
        obtain ⟨vis0, h0, h1, h2⟩ := ih nb.dest vis (hg.range _ _ hnb) hlen hvis2 hcount
        refine ⟨vis0, by rw [hvis2]; exact h0, h1, h2.len, h2.count, h2.mono, ?_⟩
        intro w hw1 hw2
        obtain ⟨r, c⟩ := h2.fresh w hw1 hw2
        exact ⟨Relation.ReflTransGen.head hnb r, c⟩
    obtain ⟨vis0, e0, m0, p0⟩ := step
    obtain ⟨vis1, e1, m1, p1⟩ := ihl vis0 hrest (by rw [p0.len, hlen])
      (le_trans p0.count hcount)
    refine ⟨vis1, ?_, ?_, ?_⟩
    · rw [List.foldlM_cons, e0]
      exact e1
    · intro x hx
      rcases List.mem_cons.1 hx with hx | hx
      · subst hx
        exact p1.mono _ m0
      · exact m1 x hx
    · refine ⟨by rw [p1.len, p0.len], le_trans p1.count p0.count,
        fun w h => p1.mono w (p0.mono w h), ?_⟩
      intro w hw1 hw2
      by_cases hw0 : vis0.getD w false = true
      · obtain ⟨r, c⟩ := p0.fresh w hw0 hw2
        exact ⟨r, fun x hx => p1.mono x (c x hx)⟩
      · exact p1.fresh w hw1 (by simpa using hw0)

/-- A run of `dfs` at an unmarked vertex with fuel for every unmarked vertex
returns, marks its start and satisfies `DfsPost`. -/
theorem dfs_spec {g : Graph} (hg : WF g) :
    ∀ fuel u vis, u < g.numVertices → vis.length = g.numVertices →
      vis.getD u false = false → vis.count false ≤ fuel →
      ∃ vis1, dfs g fuel u vis = .ok vis1 ∧ vis1.getD u false = true ∧ DfsPost g u vis vis1 := by
  intro fuel
  induction fuel with
  | zero =>
    intro u vis hu hlen hvis hcount
    exfalso
    have hmem : false ∈ vis := by
      rw [List.getD_eq_getElem?_getD, List.getElem?_eq_getElem (by omega)] at hvis
      simp only [Option.getD_some] at hvis
      rw [← hvis]
      exact List.getElem_mem _
    have := List.count_pos_iff.2 hmem
    omega
  | succ fuel ih =>
    intro u vis hu hlen hvis hcount
    have hc := count_false_set vis u (by omega) hvis
    have hset : (vis.set u true).getD u false = true := by
      rw [getD_set_true]
      simp [hlen, hu]
    obtain ⟨vis1, e1, m1, p1⟩ := dfs_loop hg fuel u ih (adj g u) (vis.set u true)
      (fun nb hnb => List.mem_map_of_mem _ hnb) (by simpa using hlen) (by omega)
    refine ⟨vis1, e1, p1.mono u hset, by rw [p1.len]; simp, by have := p1.count; omega, ?_, ?_⟩
    · intro w hw
      apply p1.mono
      rw [getD_set_true]
      split
      · rfl
      · exact hw
    · intro w hw1 hw2
      by_cases hwu : w = u
      · subst hwu
        refine ⟨Relation.ReflTransGen.refl, ?_⟩
        intro x hx
        obtain ⟨nb, hnb, rfl⟩ := List.mem_map.1 hx
        exact m1 nb hnb
      · apply p1.fresh w hw1
        rw [getD_set_true, if_neg (fun h => hwu h.1)]
        exact hw2

theorem Reach.symm {g : Graph} (hg : WF g) {u v : Nat} (h : Reach g u v) : Reach g v u := by
  induction h with
  | refl => exact Relation.ReflTransGen.refl
  | tail _ hbc ih => exact Relation.ReflTransGen.head (hg.symm _ _ hbc) ih

theorem WF.lt_of_ne_nil {g : Graph} (hg : WF g) {u : Nat} (h : dests g u ≠ []) :
    u < g.numVertices := by
  by_contra hlt
  exact h (dests_eq_nil_of_ge g hg.len u (by omega))

/-- The value of `isConnected` on a graph with the invariants. -/
theorem isConnected_wf {g : Graph} (hg : WF g) :
    ∃ b, isConnected g = .ok b ∧
      (b = true ↔ ∀ u v, dests g u ≠ [] → dests g v ≠ [] → Reach g u v) := by
  unfold isConnected
  rw [findStart_eq g _ (fun i hi => List.mem_range.1 hi)]
  cases hf : (List.range g.numVertices).find? (fun i => decide (0 < (dests g i).length)) with
  | none =>
    refine ⟨true, by simp [bind, Except.bind, pure, Except.pure], ?_⟩
    simp only [true_iff]
    intro u v hu _
    exfalso
    have := List.find?_eq_none.1 hf u (List.mem_range.2 (hg.lt_of_ne_nil hu))
    simp at this
    exact hu this
  | some s =>
    have hs := List.find?_some hf
    have hsm := List.mem_of_find?_eq_some hf
    have hsn : s < g.numVertices := List.mem_range.1 hsm
    have hsd : dests g s ≠ [] := by
      intro e
      rw [e] at hs
      simp at hs
    obtain ⟨vis1, e1, _, p1⟩ := dfs_spec hg g.numVertices s (List.replicate g.numVertices false)
      hsn (by simp) (by simp [hsn]) (by simp [List.count_replicate_self])
    have hne : ((s : Int) = -1) = False := by
      apply eq_false
      omega
    simp only [bind, Except.bind, hne, if_false, Int.toNat_ofNat, e1]
    rw [allReached_eq g _ _ (fun i hi => List.mem_range.1 hi)]
    refine ⟨_, rfl, ?_⟩
    have hinit : ∀ w, (List.replicate g.numVertices false).getD w false = false := by
      intro w
      simp only [List.getD_eq_getElem?_getD, List.getElem?_replicate]
      split <;> rfl
    have hclosed : ∀ w, Reach g s w → vis1.getD w false = true := by
      intro w hw
      induction hw with
      | refl => assumption
      | tail _ hbc ih => exact (p1.fresh _ ih (hinit _)).2 _ hbc
    have hsound : ∀ w, vis1.getD w false = true → Reach g s w :=
      fun w hw => (p1.fresh w hw (hinit w)).1
    rw [List.all_eq_true]
    constructor
    · intro h u v hu hv
      have hu1 := h u (List.mem_range.2 (hg.lt_of_ne_nil hu))
      have hv1 := h v (List.mem_range.2 (hg.lt_of_ne_nil hv))
      have hu2 : 0 < (dests g u).length := List.length_pos.2 hu
      have hv2 : 0 < (dests g v).length := List.length_pos.2 hv
      simp only [hu2, hv2, decide_True, Bool.true_and, Bool.not_not] at hu1 hv1
      exact Relation.ReflTransGen.trans (Reach.symm hg (hsound u hu1)) (hsound v hv1)
    · intro h i _
      by_cases hi : 0 < (dests g i).length
      · rw [hclosed i (h s i hsd (List.length_pos.1 hi))]
        simp
      · simp [hi]

/-! ## Consecutive pairs of a vertex sequence -/

theorem edgesOf_append (l1 l2 : List Nat) (x y : Nat) (h1 : l1.getLast? = some x)
    (h2 : l2.head? = some y) :
    edgesOf (l1 ++ l2) = edgesOf l1 ++ s(x, y) :: edgesOf l2 := by
  induction l1 with
  | nil => simp at h1
  | cons a rest ih =>
    cases rest with
    | nil =>
      simp at h1
      subst h1
      cases l2 with
      | nil => simp at h2
      | cons b r =>
        simp at h2
        subst h2
        simp [edgesOf]
    | cons b r =>
      have h1' : (b :: r).getLast? = some x := by
        rw [List.getLast?_cons_cons] at h1
        exact h1
      have := ih h1'
      simp only [List.cons_append] at this ⊢
      simp only [edgesOf, List.cons_append]
      rw [this]

theorem mem_of_mem_edgesOf (l : List Nat) (a b : Nat) (h : s(a, b) ∈ edgesOf l) :
    a ∈ l ∧ b ∈ l := by
  induction l with
  | nil => simp [edgesOf] at h
  | cons x rest ih =>
    cases rest with
    | nil => simp [edgesOf] at h
    | cons y r =>
      simp only [edgesOf, List.mem_cons] at h
      rcases h with h | h
      · rw [Sym2.eq_iff] at h
        rcases h with ⟨rfl, rfl⟩ | ⟨rfl, rfl⟩ <;> simp
      · have := ih h
        exact ⟨List.mem_cons_of_mem _ this.1, List.mem_cons_of_mem _ this.2⟩

theorem length_edgesOf (l : List Nat) (h : l ≠ []) : (edgesOf l).length + 1 = l.length := by
  induction l with
  | nil => exact absurd rfl h
  | cons x rest ih =>
    cases rest with
    | nil => simp [edgesOf]
    | cons y r =>
      have := ih (by simp)
      simp only [edgesOf, List.length_cons] at this ⊢
      omega

theorem edgesOf_reverse (l : List Nat) : edgesOf l.reverse = (edgesOf l).reverse := by
  induction l with
  | nil => rfl
  | cons x rest ih =>
    cases rest with
    | nil => rfl
    | cons y r =>
      rw [List.reverse_cons]
      rw [edgesOf_append (y :: r).reverse [x] y x (by simp) rfl, ih]
      simp only [edgesOf, List.reverse_cons]
      rw [Sym2.eq_swap]

theorem edgesOf_eq_zip (l : List Nat) :
    edgesOf l = (l.zip l.tail).map (fun p => s(p.1, p.2)) := by
  induction l with
  | nil => rfl
  | cons x rest ih =>
    cases rest with
    | nil => rfl
    | cons y r =>
      simp only [edgesOf, List.tail_cons, List.zip_cons_cons, List.map_cons] at ih ⊢
      rw [ih]

/-! ## Hierholzer's algorithm -/

theorem mem_dests_unlink {g : Graph} (hg : WF g) {v next : Nat} (h : next ∈ dests g v)
    (a b : Nat) :
    b ∈ dests g a ↔ (b ∈ dests (unlink g v next) a ∨ s(a, b) = s(v, next)) := by
  have hne := hg.ne_of_mem h
  obtain ⟨hv, hn⟩ := hg.lt_of_mem h
  have hl := hg.len
  rw [dests_unlink g v next hne (by omega) (by omega), Sym2.eq_iff]
  by_cases hav : a = v
  · subst hav
    simp only [if_true]
    by_cases hbn : b = next
    · subst hbn
      simp [h]
    · rw [List.mem_erase_of_ne hbn]
      simp [hbn, hne]
  · by_cases han : a = next
    · subst han
      simp only [hav, if_false, if_true]
      by_cases hbv : b = v
      · subst hbv
        simp [hg.symm _ _ h]
      · rw [List.mem_erase_of_ne hbv]
        simp [hbv, hav]
    · simp [hav, han]

theorem not_mem_dests_unlink {g : Graph} (hg : WF g) {v next : Nat} (h : next ∈ dests g v)
    (a b : Nat) (hab : b ∈ dests (unlink g v next) a) : s(a, b) ≠ s(v, next) := by
  have hne := hg.ne_of_mem h
  obtain ⟨hv, hn⟩ := hg.lt_of_mem h
  have hl := hg.len
  rw [dests_unlink g v next hne (by omega) (by omega)] at hab
  intro e
  rw [Sym2.eq_iff] at e
  rcases e with ⟨rfl, rfl⟩ | ⟨rfl, rfl⟩
  · simp only [if_true] at hab
    exact (List.Nodup.not_mem_erase (hg.nodup _)) hab
  · have hne2 : ¬ a = b := fun e => hne e.symm
    simp only [hne2, if_false, if_true] at hab
    exact (List.Nodup.not_mem_erase (hg.nodup _)) hab

theorem OddOnly.after_unlink {g : Graph} (hg : WF g) {v u next : Nat} (h : next ∈ dests g v)
    (ho : OddOnly g v u) : OddOnly (unlink g v next) next u := by
  have hne := hg.ne_of_mem h
  intro w
  have hlen := length_dests_unlink hg h w
  have ho := ho w
  split_ifs at hlen <;> omega

theorem OddOnly.of_even {g : Graph} (h : ∀ w, (dests g w).length % 2 = 0) (v : Nat) :
    OddOnly g v v := by
  intro w
  have := h w
  constructor
  · intro e; omega
  · intro e
    rcases e with ⟨e1, e2⟩ | ⟨e1, e2⟩ <;> exact absurd e1 e2

theorem Trail.base {t : Graph} (hg : WF t) {v u : Nat} (ho : OddOnly t v u)
    (hv : dests t v = []) : Trail t v u [v] t := by
  have huv : u = v := by
    have h1 := ho v
    rw [hv] at h1
    by_contra hne
    have : (v = v ∧ v ≠ u) ∨ (v = u ∧ v ≠ v) := Or.inl ⟨rfl, fun e => hne e.symm⟩
    have := h1.2 this
    simp at this
  subst huv
  refine ⟨hg, rfl, rfl, rfl, ?_, ?_, ?_, ?_, ?_, ?_⟩
  · intro w hw
    simp at hw
    subst hw
    exact hv
  · intro a b
    simp [edgesOf]
  · intro a b _
    simp [edgesOf]
  · simp [edgesOf]
  · intro w
    have := ho w
    have h2 : ¬ ((w = u ∧ w ≠ u) ∨ (w = u ∧ w ≠ u)) := by
      intro e
      rcases e with ⟨e1, e2⟩ | ⟨e1, e2⟩ <;> exact e2 e1
    have h3 := mt this.1 h2
    omega
  · simp

theorem Trail.sub {t t1 : Graph} {v u : Nat} {P : List Nat} (h : Trail t v u P t1)
    (a b : Nat) (hab : b ∈ dests t1 a) : b ∈ dests t a :=
  (h.split a b).2 (Or.inl hab)

theorem Trail.ne_nil {t t1 : Graph} {v u : Nat} {P : List Nat} (h : Trail t v u P t1) :
    P ≠ [] := by
  intro e
  have := h.head
  rw [e] at this
  simp at this

/-- One iteration of the loop of `hierholzerDFS` at `v`: the edge to `next` is
removed, the run at `next` appends `P1`, the rest of the loop at `v` appends
`P2`. -/
theorem Trail.combine {t t2 t3 : Graph} (hg : WF t) {v u next : Nat} {P1 P2 : List Nat}
    (h : next ∈ dests t v) (h1 : Trail (unlink t v next) next u P1 t2)
    (h2 : Trail t2 v v P2 t3) : Trail t v u (P1 ++ P2) t3 := by
  have he : edgesOf (P1 ++ P2) = edgesOf P1 ++ s(next, v) :: edgesOf P2 :=
    edgesOf_append P1 P2 next v h1.last h2.head
  have hsw : s(next, v) = s(v, next) := Sym2.eq_swap
  refine ⟨h2.wf, by rw [h2.nv, h1.nv]; rfl, ?_, ?_, ?_, ?_, ?_, ?_, h2.even, ?_⟩
  · rw [List.getLast?_append, h2.last]
    rfl
  · rw [List.head?_append, h1.head]
    rfl
  · intro w hw
    rcases List.mem_append.1 hw with hw | hw
    · apply List.eq_nil_iff_forall_not_mem.2
      intro b hb
      have := h2.sub w b hb
      rw [h1.dead w hw] at this
      simp at this
    · exact h2.dead w hw
  · intro a b
    rw [mem_dests_unlink hg h a b, h1.split a b, h2.split a b, he, hsw]
    simp only [List.mem_append, List.mem_cons]
    tauto
  · intro a b hab
    rw [he]
    simp only [List.mem_append, List.mem_cons, not_or]
    refine ⟨h1.disj a b (h2.sub a b hab), ?_, h2.disj a b hab⟩
    rw [hsw]
    exact not_mem_dests_unlink hg h a b (h1.sub a b (h2.sub a b hab))
  · rw [he]
    have hmem1 : ∀ e ∈ edgesOf P1, e ≠ s(next, v) := by
      intro e
      induction e using Sym2.ind with
      | _ a b =>
        intro hm
        rw [hsw]
        exact not_mem_dests_unlink hg h a b ((h1.split a b).2 (Or.inr hm))
    have hmem2 : ∀ e ∈ edgesOf P2, e ≠ s(next, v) ∧ e ∉ edgesOf P1 := by
      intro e
      induction e using Sym2.ind with
      | _ a b =>
        intro hm
        have hb2 : b ∈ dests t2 a := (h2.split a b).2 (Or.inr hm)
        refine ⟨?_, h1.disj a b hb2⟩
        rw [hsw]
        exact not_mem_dests_unlink hg h a b (h1.sub a b hb2)
    rw [List.nodup_append]
    refine ⟨h1.nodup, List.nodup_cons.2 ⟨fun hm => (hmem2 _ hm).1 rfl, h2.nodup⟩, ?_⟩
    intro e he1 he2
    rcases List.mem_cons.1 he2 with he2 | he2
    · exact hmem1 e he1 he2
    · exact (hmem2 e he2).2 he1
  · have c0 := degSum_unlink hg h
    have c1 := h1.count
    have c2 := h2.count
    rw [List.length_append]
    omega

/-- With fuel for every list node, `hierholzerDFS` and its loop return and
append a trail that ends in the start vertex. -/
theorem hierholzer_spec :
    ∀ fuel,
      (∀ v c t u, WF t → v < t.numVertices → OddOnly t v u → degSum t + 2 ≤ fuel →
        ∃ P t1, hierholzerDFS fuel v (c, t) = .ok (c ++ P, t1) ∧ Trail t v u P t1) ∧
      (∀ v c t u, WF t → v < t.numVertices → OddOnly t v u → degSum t + 1 ≤ fuel →
        ∃ Q t1, hierholzerLoop fuel v (c, t) = .ok (c ++ Q, t1) ∧
          Trail t v u (Q ++ [v]) t1) := by
  intro fuel
  induction fuel with
  | zero =>
    constructor
    · intro v c t u _ _ _ h; omega
    · intro v c t u _ _ _ h; omega
  | succ fuel ih =>
    obtain ⟨ihD, ihL⟩ := ih
    constructor
    · intro v c t u hg hv ho hf
      obtain ⟨Q, t1, e, tr⟩ := ihL v c t u hg hv ho (by omega)
      refine ⟨Q ++ [v], t1, ?_, tr⟩
      rw [hierholzerDFS, e]
      simp [bind, Except.bind, pure, Except.pure]
    · intro v c t u hg hv ho hf
      rw [hierholzerLoop, getDegree_cast t v hv]
      cases hadj : adj t v with
      | nil =>
        have hd : dests t v = [] := by simp [dests, hadj]
        refine ⟨[], t, ?_, ?_⟩
        · simp [hd, bind, Except.bind, pure, Except.pure]
        · exact Trail.base hg ho hd
      | cons neighbor rest =>
        have hd : dests t v = neighbor.dest :: rest.map (fun nb => nb.dest) := by
          simp [dests, hadj]
        have hmem : neighbor.dest ∈ dests t v := by rw [hd]; exact List.mem_cons_self _ _
        have hnext := hg.range _ _ hmem
        have hwf1 := hg.unlink hmem
        have hc := degSum_unlink hg hmem
        obtain ⟨P1, t2, e1, tr1⟩ := ihD neighbor.dest c (unlink t v neighbor.dest) u hwf1
          hnext (ho.after_unlink hg hmem) (by omega)
        have hlen1 : 0 < P1.length := List.length_pos.2 tr1.ne_nil
        have hc1 := tr1.count
        obtain ⟨Q2, t3, e2, tr2⟩ := ihL v (c ++ P1) t2 v tr1.wf (by rw [tr1.nv]; exact hv)
          (OddOnly.of_even tr1.even v) (by omega)
        refine ⟨P1 ++ Q2, t3, ?_, ?_⟩
        · simp only [hd, List.length_cons, bind, Except.bind, gt_iff_lt, Nat.zero_lt_succ,
            if_true, getNeighbors_cast t v hv, hadj,
            removeEdge_cast t v neighbor.dest hv hnext hmem, e1, e2,
            List.append_assoc]
        · rw [List.append_assoc]
          exact Trail.combine hg hmem tr1 tr2

theorem two_le_degSum {g : Graph} (hg : WF g) {u : Nat} (h : dests g u ≠ []) :
    2 ≤ degSum g := by
  obtain ⟨b, hb⟩ := List.exists_mem_of_ne_nil _ h
  have hne := hg.ne_of_mem hb
  obtain ⟨hu, hbn⟩ := hg.lt_of_mem hb
  have hub := hg.symm u b hb
  have h1 : 0 < (dests g u).length := List.length_pos_of_mem hb
  have h2 : 0 < (dests g b).length := List.length_pos_of_mem hub
  have hsub : ({u, b} : Finset Nat) ⊆ Finset.range g.numVertices := by
    intro x hx
    simp only [Finset.mem_insert, Finset.mem_singleton] at hx
    rcases hx with rfl | rfl <;> simpa using ‹_›
  have := Finset.sum_le_sum_of_subset (f := fun i => (dests g i).length) hsub
  rw [Finset.sum_pair hne] at this
  unfold degSum
  simp only at this
  omega

theorem getNumEdges_eq_zero_iff {g : Graph} (hg : WF g) :
    getNumEdges g = 0 ↔ ∀ v, dests g v = [] := by
  rw [getNumEdges_eq]
  constructor
  · intro h v
    by_contra hv
    have := two_le_degSum hg hv
    omega
  · intro h
    rw [degSum_eq_zero (fun v _ => h v)]

theorem hasEulerCircuit_wf {g : Graph} (hg : WF g) :
    ∃ b, hasEulerCircuit g = .ok b ∧
      (b = true ↔ (∀ u v, dests g u ≠ [] → dests g v ≠ [] → Reach g u v) ∧
        ∀ w, (dests g w).length % 2 = 0) := by
  obtain ⟨c, hc, hiff⟩ := isConnected_wf hg
  unfold hasEulerCircuit
  rw [hc, allEven_eq g _ (fun i hi => List.mem_range.1 hi)]
  cases c with
  | false =>
    refine ⟨false, rfl, ?_⟩
    simp only [Bool.false_eq_true, false_iff, not_and]
    intro h
    exact absurd (hiff.2 h) (by simp)
  | true =>
    refine ⟨_, rfl, ?_⟩
    rw [List.all_eq_true]
    have hconn := hiff.1 rfl
    constructor
    · intro h
      refine ⟨hconn, fun w => ?_⟩
      by_cases hw : w < g.numVertices
      · simpa using h w (List.mem_range.2 hw)
      · rw [dests_eq_nil_of_ge g hg.len w (by omega)]
        rfl
    · intro h i _
      simpa using h.2 i

theorem Trail.closed {t t1 : Graph} {v u : Nat} {P : List Nat} (h : Trail t v u P t1)
    (w : Nat) (hw : Reach t v w) : w ∈ P := by
  induction hw with
  | refl => exact List.mem_of_mem_getLast? h.last
  | tail _ hbc ih =>
    rcases (h.split _ _).1 hbc with h1 | h1
    · rw [h.dead _ ih] at h1
      simp at h1
    · exact (mem_of_mem_edgesOf P _ _ h1).2

/-- The result of `findEulerCircuit` on a graph with the invariants. -/
theorem findEulerCircuit_wf {g : Graph} (hg : WF g) :
    ∃ C, findEulerCircuit g = .ok C ∧
      (C = [] ↔ hasEulerCircuit g = .ok false ∨ ∀ v, dests g v = []) ∧
      (C ≠ [] → C.head? = C.getLast? ∧ C.length = getNumEdges g + 1 ∧
        (edgesOf C).Nodup ∧ ∀ a b, b ∈ dests g a ↔ s(a, b) ∈ edgesOf C) := by
  obtain ⟨b, hb, hiff⟩ := hasEulerCircuit_wf hg
  unfold findEulerCircuit
  rw [hb]
  cases b with
  | false =>
    refine ⟨[], rfl, by simp, fun h => absurd rfl h⟩
  | true =>
    obtain ⟨hconn, heven⟩ := hiff.1 rfl
    rw [findStart_eq g _ (fun i hi => List.mem_range.1 hi)]
    cases hf : (List.range g.numVertices).find? (fun i => decide (0 < (dests g i).length)) with
    | none =>
      refine ⟨[], rfl, ?_, fun h => absurd rfl h⟩
      simp only [true_iff]
      right
      intro v
      by_contra hv
      have := List.find?_eq_none.1 hf v (List.mem_range.2 (hg.lt_of_ne_nil hv))
      simp at this
      exact hv this
    | some s =>
      have hs := List.find?_some hf
      have hsn : s < g.numVertices := List.mem_range.1 (List.mem_of_find?_eq_some hf)
      have hsd : dests g s ≠ [] := by
        intro e
        rw [e] at hs
        simp at hs
      obtain ⟨P, t1, e1, tr⟩ := (hierholzer_spec (numNodes g + 2)).1 s [] g s hg hsn
        (OddOnly.of_even heven s) (by rw [numNodes_eq_degSum])
      have hne : ((s : Int) = -1) = False := by
        apply eq_false
        omega
      have hPne := tr.ne_nil
      have hdead : ∀ w, dests t1 w = [] := by
        intro w
        by_contra hw
        have hw2 : dests g w ≠ [] := by
          obtain ⟨x, hx⟩ := List.exists_mem_of_ne_nil _ hw
          exact List.ne_nil_of_mem (tr.sub w x hx)
        exact hw (tr.dead w (tr.closed w (hconn s w hsd hw2)))
      have hcount := tr.count
      rw [degSum_eq_zero (fun v _ => hdead v)] at hcount
      refine ⟨P.reverse, ?_, ?_, ?_⟩
      · simp only [Bool.not_true, Bool.false_eq_true, if_false, bind, Except.bind, hne,
          Int.toNat_ofNat, e1, List.nil_append]
        rfl
      · constructor
        · intro h
          exact absurd (List.reverse_eq_nil_iff.1 h) hPne
        · intro h
          rcases h with h | h
          · cases h
          · exact absurd (h s) hsd
      · intro _
        refine ⟨?_, ?_, ?_, ?_⟩
        · rw [List.head?_reverse, List.getLast?_reverse, tr.head, tr.last]
        · rw [List.length_reverse, getNumEdges_eq]
          omega
        · rw [edgesOf_reverse]
          exact List.nodup_reverse.2 tr.nodup
        · intro a b
          rw [edgesOf_reverse, List.mem_reverse, tr.split a b, hdead a]
          simp

/-! ## The public member functions on reachable graphs -/

theorem hasEdge_ok_true {g : Graph} {u v : Int} (h : hasEdge g u v = .ok true) :
    0 ≤ u ∧ 0 ≤ v ∧ u.toNat < g.numVertices ∧ v.toNat < g.numVertices ∧
      v.toNat ∈ dests g u.toNat := by
  unfold hasEdge at h
  by_cases hr : outOfRange2 g u v = true
  · simp [hr] at h
  · have hr2 : outOfRange2 g u v = false := by simpa using hr
    have hr3 := (outOfRange2_false_iff g u v).1 hr2
    rw [hr2] at h
    simp only [Bool.false_eq_true, if_false, Except.ok.injEq] at h
    rw [hasDest_iff] at h
    exact ⟨hr3.1, hr3.2.2.1, by omega, by omega, h⟩

theorem hasEdge_cast_true {g : Graph} (hg : WF g) {a b : Nat} (h : b ∈ dests g a) :
    hasEdge g (a : Int) (b : Int) = .ok true := by
  obtain ⟨ha, hb⟩ := hg.lt_of_mem h
  rw [hasEdge_cast g a b ha hb]
  simp [h]

theorem getDegree_pos {g : Graph} {u : Int} (h : ∃ d, getDegree g u = .ok d ∧ 0 < d) :
    0 ≤ u ∧ dests g u.toNat ≠ [] := by
  obtain ⟨d, hd, hpos⟩ := h
  unfold getDegree at hd
  split at hd
  · cases hd
  · rename_i hr
    simp only [Except.ok.injEq] at hd
    refine ⟨by omega, ?_⟩
    intro e
    simp only [dests, List.map_eq_nil_iff] at e
    rw [e] at hd
    simp at hd
    omega

theorem joined_of_reach {g : Graph} (hg : WF g) {a b : Nat} (h : Reach g a b) :
    Relation.ReflTransGen (fun x y : Int => hasEdge g x y = .ok true) (a : Int) (b : Int) :=
  Relation.ReflTransGen.lift (fun n : Nat => (n : Int)) (fun _ _ hxy => hasEdge_cast_true hg hxy) h

theorem reach_of_joined {g : Graph} {u v : Int}
    (h : Relation.ReflTransGen (fun x y : Int => hasEdge g x y = .ok true) u v) :
    Reach g u.toNat v.toNat :=
  Relation.ReflTransGen.lift Int.toNat (fun _ _ hxy => (hasEdge_ok_true hxy).2.2.2.2) h

theorem Reachable.addEdges {g g1 : Graph} (hg : Reachable g) (es : List (Int × Int × Int))
    (h : graph.addEdges g es = .ok g1) : Reachable g1 := by
  induction es generalizing g with
  | nil =>
    simp only [graph.addEdges, pure, Except.pure, Except.ok.injEq] at h
    rw [← h]
    exact hg
  | cons e rest ih =>
    obtain ⟨src, dest, weight⟩ := e
    simp only [graph.addEdges, bind, Except.bind] at h
    cases h1 : graph.addEdge g src dest weight with
    | error err => rw [h1] at h; cases h
    | ok g2 =>
      rw [h1] at h
      exact ih (Reachable.addEdge g g2 src dest weight hg h1) h

theorem reachable_of_calls (n : Int) (es : List (Int × Int × Int)) (g : Graph)
    (h : (Graph.new n >>= fun g0 => addEdges g0 es) = .ok g) : Reachable g := by
  cases h0 : Graph.new n with
  | error err => rw [h0] at h; cases h
  | ok g0 =>
    rw [h0] at h
    exact Reachable.addEdges (Reachable.new n g0 h0) es h

/-! ## Lemmas on random graphs -/

theorem sampleLoop_fuel (draw : Nat → Int) (edges : Int) :
    ∀ (fuel1 fuel2 k : Nat) (graph : Graph) (edgeSet : List (Int × Int)) (edgesAdded : Int)
      (g1 g2 : Graph),
      sampleLoop draw edges fuel1 k graph edgeSet edgesAdded = .ok g1 →
      sampleLoop draw edges fuel2 k graph edgeSet edgesAdded = .ok g2 → g1 = g2 := by
  intro fuel1
  induction fuel1 with
  | zero =>
    intro fuel2 k graph edgeSet edgesAdded g1 g2 h1 h2
    by_cases hc : edgesAdded < edges
    · simp [sampleLoop, hc] at h1
    · cases fuel2 <;> simp [sampleLoop, hc, pure, Except.pure] at h1 h2 <;> rw [← h1, ← h2]
  | succ fuel1 ih =>
    intro fuel2 k graph edgeSet edgesAdded g1 g2 h1 h2
    by_cases hc : edgesAdded < edges
    · cases fuel2 with
      | zero => simp [sampleLoop, hc] at h2
      | succ fuel2 =>
        simp only [sampleLoop, hc, if_true] at h1 h2
        by_cases huv : draw k ≠ draw (k + 1)
        · rw [if_pos huv] at h1 h2
          generalize (if draw k > draw (k + 1) then (draw (k + 1), draw k)
            else (draw k, draw (k + 1))) = p at h1 h2
          by_cases hmem : p ∉ edgeSet
          · rw [if_pos hmem] at h1 h2
            cases ha : addEdge graph p.1 p.2 with
            | error e => rw [ha] at h1; simp [bind, Except.bind] at h1
            | ok graph1 =>
              rw [ha] at h1 h2
              exact ih fuel2 _ _ _ _ g1 g2 h1 h2
          · rw [if_neg hmem] at h1 h2
            exact ih fuel2 _ _ _ _ g1 g2 h1 h2
        · rw [if_neg huv] at h1 h2
          exact ih fuel2 _ _ _ _ g1 g2 h1 h2
    · cases fuel2 <;> simp [sampleLoop, hc, pure, Except.pure] at h1 h2 <;> rw [← h1, ← h2]

/-- The iteration bound of the model has no influence on the graph returned:
two runs on the same draws that finish return the same graph. -/
theorem generateRandomGraph_fuel (rng : Nat → Int → Nat → Int) (seed : Nat)
    (vertices edges : Int) (fuel1 fuel2 : Nat) (g1 g2 : Graph)
    (h1 : generateRandomGraph (rng seed vertices) fuel1 vertices edges = .ok g1)
    (h2 : generateRandomGraph (rng seed vertices) fuel2 vertices edges = .ok g2) :
    g1 = g2 := by
  unfold generateRandomGraph at h1 h2
  cases hn : Graph.new vertices with
  | error e => rw [hn] at h1; simp [bind, Except.bind] at h1
  | ok graph =>
    rw [hn] at h1 h2
    exact sampleLoop_fuel _ _ fuel1 fuel2 0 graph [] 0 g1 g2 h1 h2

theorem dests_new {n : Int} {g : Graph} (h : Graph.new n = .ok g) (v : Nat) :
    dests g v = [] := by
  unfold Graph.new at h
  split at h
  · cases h
  · simp only [Except.ok.injEq] at h
    subst h
    simp only [dests, adj, List.getD_eq_getElem?_getD, List.getElem?_replicate]
    split <;> rfl

theorem generateRandomGraph_clamped (draw : Nat → Int) (fuel : Nat) (n e : Int) (hn : 0 < n)
    (hmax : maxPossibleEdges n ≤ 0) (he : e > maxPossibleEdges n) :
    ∃ g, generateRandomGraph draw fuel n e = .ok g ∧ g.numVertices = n.toNat ∧
      getNumEdges g = 0 := by
  have hnew : ∃ g, Graph.new n = .ok g ∧ g.numVertices = n.toNat := by
    unfold Graph.new
    rw [if_neg (by omega)]
    exact ⟨_, rfl, rfl⟩
  obtain ⟨g, hg, hnv⟩ := hnew
  refine ⟨g, ?_, hnv, ?_⟩
  · unfold generateRandomGraph
    rw [hg, if_pos he]
    have hlt : ¬ ((0 : Int) < maxPossibleEdges n) := by omega
    cases fuel with
    | zero =>
      show sampleLoop draw (maxPossibleEdges n) 0 0 g [] 0 = Except.ok g
      rw [sampleLoop, if_neg hlt]
      rfl
    | succ k =>
      show sampleLoop draw (maxPossibleEdges n) (k + 1) 0 g [] 0 = Except.ok g
      rw [sampleLoop, if_neg hlt]
      rfl
  · rw [getNumEdges_eq_zero_iff (WF.new hg)]
    exact dests_new hg

/-! ## Lemmas on the request handler -/

/-- When the three `std::stoi` steps return and the edge count is negative or
the vertex count is not positive, the response is the validation text. -/
theorem processGraphRequest_invalid_parameters
    (execute : AlgorithmType → Graph → Except Exn String) (rng : Nat → Int → Nat → Int)
    (fuel : Nat) (request : String) (e v s : Int)
    (he : parseOption request "-e " = .ok e) (hv : parseOption request "-v " = .ok v)
    (hs : parseOption request "-s " = .ok s) (h : e < 0 ∨ v ≤ 0) :
    processGraphRequest execute rng fuel request =
      .ok ("ERROR: Invalid parameters. Use format: -e <edges> -v <vertices> -s <seed> [-a <algorithm>]\n" ++
        "Available algorithms: EULER, MST_WEIGHT, SCC, MAX_FLOW, MAX_CLIQUE") := by
  unfold processGraphRequest
  rw [he, hv, hs]
  simp only [bind, Except.bind]
  rw [if_pos h]
  rfl

/-- When parsing and graph generation succeed and the text after the first
`-a ` is none of the six names, the response is the unknown-algorithm text
with that whole text quoted. -/
theorem processGraphRequest_unknown_algorithm
    (execute : AlgorithmType → Graph → Except Exn String) (rng : Nat → Int → Nat → Int)
    (fuel : Nat) (request : String) (e v s : Int) (pos : Nat) (g : Graph)
    (he : parseOption request "-e " = .ok e) (hv : parseOption request "-v " = .ok v)
    (hs : parseOption request "-s " = .ok s) (h : ¬ (e < 0 ∨ v ≤ 0))
    (ha : find request "-a " = some pos)
    (hg : generateRandomGraph (rng (seedToUnsigned s) v) fuel v e = .ok g)
    (hname : substr request (pos + 3) ∉
      ["EULER", "EULER_CIRCUIT", "MST_WEIGHT", "SCC", "MAX_FLOW", "MAX_CLIQUE"]) :
    processGraphRequest execute rng fuel request =
      .ok ("ERROR: Unknown algorithm '" ++ substr request (pos + 3) ++
        "'. Available: EULER, MST_WEIGHT, SCC, MAX_FLOW, MAX_CLIQUE") := by
  simp only [List.mem_cons, List.mem_singleton, not_or, List.not_mem_nil, or_false] at hname
  obtain ⟨h1, h2, h3, h4, h5, h6⟩ := hname
  unfold processGraphRequest
  rw [he, hv, hs, ha]
  simp only [bind, Except.bind]
  rw [if_neg h]
  unfold processGraphRequest.tryBlock
  rw [hg]
  simp only [liftGraph, bind, Except.bind, h1, h2, h3, h4, h5, h6, or_self, if_false]
  rfl

/-! ## Random graphs within the `int` range -/

theorem wrapInt32_eq (x : Int) (h1 : -2147483648 ≤ x) (h2 : x < 2147483648) :
    wrapInt32 x = x := by
  unfold wrapInt32
  rw [Int.emod_eq_of_lt (by omega) (by omega)]
  omega

theorem maxPossibleEdges_eq (n : Int) (h1 : 0 < n) (h2 : n ≤ 46341) :
    maxPossibleEdges n = n * (n - 1) / 2 := by
  unfold maxPossibleEdges
  rw [wrapInt32_eq (n - 1) (by omega) (by omega)]
  have hlo : 0 ≤ n * (n - 1) := by nlinarith
  have hhi : n * (n - 1) ≤ 46341 * 46340 := by nlinarith
  rw [wrapInt32_eq _ (by omega) (by omega)]
  exact Int.tdiv_eq_ediv hlo (by decide)

theorem mem_setWeight (l : List Neighbor) (d : Nat) (w : Int) (nb : Neighbor)
    (h : nb ∈ setWeight l d w) : nb ∈ l ∨ nb.weight = w := by
  induction l with
  | nil => simp [setWeight] at h
  | cons x rest ih =>
    by_cases hx : x.dest = d
    · simp only [setWeight, hx, ne_eq, not_true_eq_false, if_false, List.mem_cons] at h
      rcases h with h | h
      · right; rw [h]
      · left; exact List.mem_cons_of_mem _ h
    · simp only [setWeight, ne_eq, hx, not_false_eq_true, if_true, List.mem_cons] at h
      rcases h with h | h
      · left; rw [h]; exact List.mem_cons_self _ _
      · rcases ih h with h | h
        · left; exact List.mem_cons_of_mem _ h
        · right; exact h

theorem addEdge_weights {g g1 : Graph} {src dest w : Int}
    (hw : ∀ v nb, nb ∈ adj g v → nb.weight = w) (h : addEdge g src dest w = .ok g1) :
    ∀ v nb, nb ∈ adj g1 v → nb.weight = w := by
  unfold addEdge at h
  split at h
  · cases h
  · split at h
    · cases h
    · cases he : hasEdge g src dest with
      | error e => rw [he] at h; cases h
      | ok b =>
        rw [he] at h
        cases b with
        | true =>
          simp only [bind, Except.bind, if_true, pure, Except.pure, Except.ok.injEq] at h
          subst h
          intro v nb hnb
          rw [adj_setAdj] at hnb
          split at hnb
          · rcases mem_setWeight _ _ _ _ hnb with h1 | h1
            · rw [adj_setAdj] at h1
              split at h1
              · rcases mem_setWeight _ _ _ _ h1 with h2 | h2
                · exact hw _ _ h2
                · exact h2
              · exact hw _ _ h1
            · exact h1
          · rw [adj_setAdj] at hnb
            split at hnb
            · rcases mem_setWeight _ _ _ _ hnb with h2 | h2
              · exact hw _ _ h2
              · exact h2
            · exact hw _ _ hnb
        | false =>
          simp only [bind, Except.bind, Bool.false_eq_true, if_false, pure, Except.pure,
            Except.ok.injEq] at h
          subst h
          intro v nb hnb
          rw [adj_setAdj] at hnb
          split at hnb
          · rcases List.mem_cons.1 hnb with h1 | h1
            · rw [h1]
            · rw [adj_setAdj] at h1
              split at h1
              · rcases List.mem_cons.1 h1 with h2 | h2
                · rw [h2]
                · exact hw _ _ h2
              · exact hw _ _ h1
          · rw [adj_setAdj] at hnb
            split at hnb
            · rcases List.mem_cons.1 hnb with h2 | h2
              · rw [h2]
              · exact hw _ _ h2
            · exact hw _ _ hnb

theorem degSum_addEdge {g g1 : Graph} (hg : WF g) {src dest w : Int}
    (h : addEdge g src dest w = .ok g1) (hnew : dest.toNat ∉ dests g src.toNat) :
    degSum g1 = degSum g + 2 := by
  obtain ⟨_, _, hs, hd, hne, hnv, _, hdests⟩ := addEdge_ok h
  have hdests := hdests hg.len
  simp only [hnew, if_false] at hdests
  have hlen : ∀ x, (dests g1 x).length =
      (dests g x).length + (if x = src.toNat then 1 else 0) +
        (if x = dest.toNat then 1 else 0) := by
    intro x
    rw [hdests]
    by_cases hxs : x = src.toNat
    · subst hxs
      simp [hne]
    · by_cases hxd : x = dest.toNat
      · subst hxd
        simp [hxs]
      · simp [hxs, hxd]
  unfold degSum
  rw [hnv, Finset.sum_congr rfl (fun x _ => hlen x)]
  rw [Finset.sum_add_distrib, Finset.sum_add_distrib]
  simp [Finset.sum_ite_eq', hs, hd]

theorem sampleLoop_spec (draw : Nat → Int) (n : Nat) (edges : Int)
    (hdraw : ∀ k, 0 ≤ draw k ∧ draw k < n) :
    ∀ (fuel k : Nat) (graph : Graph) (edgeSet : List (Int × Int)) (edgesAdded : Int)
      (g : Graph),
      Reachable graph → graph.numVertices = n →
      (∀ v nb, nb ∈ adj graph v → nb.weight = 1) →
      (∀ p ∈ edgeSet, p.1 < p.2) →
      (∀ a b : Nat, b ∈ dests graph a →
        ((a : Int), (b : Int)) ∈ edgeSet ∨ ((b : Int), (a : Int)) ∈ edgeSet) →
      (degSum graph : Int) = 2 * edgesAdded → edgesAdded ≤ edges →
      sampleLoop draw edges fuel k graph edgeSet edgesAdded = .ok g →
      Reachable g ∧ g.numVertices = n ∧ (∀ v nb, nb ∈ adj g v → nb.weight = 1) ∧
        (degSum g : Int) = 2 * edges := by
  intro fuel
  induction fuel with
  | zero =>
    intro k graph edgeSet edgesAdded g hr hn hw _ _ hsum hle h
    by_cases hc : edgesAdded < edges
    · simp [sampleLoop, hc] at h
    · simp only [sampleLoop, hc, if_false, pure, Except.pure, Except.ok.injEq] at h
      subst h
      exact ⟨hr, hn, hw, by rw [hsum]; omega⟩
  | succ fuel ih =>
    intro k graph edgeSet edgesAdded g hr hn hw hord hmem hsum hle h
    by_cases hc : edgesAdded < edges
    · simp only [sampleLoop, hc, if_true] at h
      by_cases huv : draw k ≠ draw (k + 1)
      · rw [if_pos huv] at h
        have hp : ∃ p : Int × Int, (if draw k > draw (k + 1) then (draw (k + 1), draw k)
            else (draw k, draw (k + 1))) = p ∧ 0 ≤ p.1 ∧ p.1 < p.2 ∧ p.2 < n := by
          have h1 := hdraw k
          have h2 := hdraw (k + 1)
          by_cases hgt : draw k > draw (k + 1)
          · exact ⟨_, rfl, by rw [if_pos hgt]; exact ⟨h2.1, hgt, h1.2⟩⟩
          · exact ⟨_, rfl, by rw [if_neg hgt]; exact ⟨h1.1, by simp only []; omega, h2.2⟩⟩
        obtain ⟨p, hpe, hp0, hp1, hp2⟩ := hp
        rw [hpe] at h
        by_cases hin : p ∉ edgeSet
        · rw [if_pos hin] at h
          cases ha : addEdge graph p.1 p.2 with
          | error e => rw [ha] at h; simp [bind, Except.bind] at h
          | ok graph1 =>
            rw [ha] at h
            have hwf := hr.wf
            obtain ⟨_, _, hs, hd, hne, hnv, _, hdests⟩ := addEdge_ok ha
            have hdests := hdests hwf.len
            have hnew : p.2.toNat ∉ dests graph p.1.toNat := by
              intro hm
              rcases hmem _ _ hm with h1 | h1
              · rw [Int.toNat_of_nonneg hp0, Int.toNat_of_nonneg (by omega)] at h1
                exact hin h1
              · have := hord _ h1
                simp only [] at this
                omega
            simp only [hnew, if_false] at hdests
            refine ih (k + 2) graph1 (p :: edgeSet) (edgesAdded + 1) g
              (Reachable.addEdge graph graph1 p.1 p.2 1 hr ha) (by rw [hnv]; exact hn)
              (addEdge_weights hw ha) ?_ ?_ ?_ (by omega) h
            · intro q hq
              rcases List.mem_cons.1 hq with hq | hq
              · rw [hq]; exact hp1
              · exact hord q hq
            · intro a b hab
              rw [hdests] at hab
              have hcase : (a = p.1.toNat ∧ b = p.2.toNat) ∨ (a = p.2.toNat ∧ b = p.1.toNat) ∨
                  b ∈ dests graph a := by
                by_cases ha1 : a = p.1.toNat
                · rw [if_pos ha1] at hab
                  rcases List.mem_cons.1 hab with hb | hb
                  · exact Or.inl ⟨ha1, hb⟩
                  · exact Or.inr (Or.inr hb)
                · rw [if_neg ha1] at hab
                  by_cases ha2 : a = p.2.toNat
                  · rw [if_pos ha2] at hab
                    rcases List.mem_cons.1 hab with hb | hb
                    · exact Or.inr (Or.inl ⟨ha2, hb⟩)
                    · exact Or.inr (Or.inr hb)
                  · rw [if_neg ha2] at hab
                    exact Or.inr (Or.inr hab)
              rcases hcase with ⟨e1, e2⟩ | ⟨e1, e2⟩ | hold
              · left
                have : ((a : Int), (b : Int)) = p := by
                  apply Prod.ext <;> simp only [] <;> omega
                rw [this]
                exact List.mem_cons_self _ _
              · right
                have : ((b : Int), (a : Int)) = p := by
                  apply Prod.ext <;> simp only [] <;> omega
                rw [this]
                exact List.mem_cons_self _ _
              · rcases hmem a b hold with h1 | h1
                · exact Or.inl (List.mem_cons_of_mem _ h1)
                · exact Or.inr (List.mem_cons_of_mem _ h1)
            · have := degSum_addEdge hwf ha hnew
              rw [this]
              push_cast
              omega
        · rw [if_neg hin] at h
          exact ih (k + 2) graph edgeSet edgesAdded g hr hn hw hord hmem hsum hle h
      · rw [if_neg huv] at h
        exact ih (k + 2) graph edgeSet edgesAdded g hr hn hw hord hmem hsum hle h
    · simp only [sampleLoop, hc, if_false, pure, Except.pure, Except.ok.injEq] at h
      subst h
      exact ⟨hr, hn, hw, by rw [hsum]; omega⟩

/-- Within the range where `vertices * (vertices - 1)` fits an `int`, a run of
`generateRandomGraph` that finishes returns a graph with the requested numbers
of vertices and edges, built by `addEdge` calls of weight 1 alone. -/
theorem generateRandomGraph_spec_bounded (draw : Nat → Int) (fuel : Nat) (n e : Int)
    (hn : 0 < n) (hn2 : n ≤ 46341) (he0 : 0 ≤ e) (he : e ≤ n * (n - 1) / 2)
    (hdraw : ∀ k, 0 ≤ draw k ∧ draw k < n) (g : Graph)
    (h : generateRandomGraph draw fuel n e = .ok g) :
    Reachable g ∧ (g.numVertices : Int) = n ∧ (getNumEdges g : Int) = e ∧
      ∀ v nb, nb ∈ adj g v → nb.weight = 1 := by
  unfold generateRandomGraph at h
  rw [maxPossibleEdges_eq n hn hn2, if_neg (by omega)] at h
  cases hnew : Graph.new n with
  | error err => rw [hnew] at h; cases h
  | ok graph =>
    rw [hnew] at h
    have hnv : graph.numVertices = n.toNat := by
      unfold Graph.new at hnew
      rw [if_neg (by omega)] at hnew
      cases hnew
      rfl
    have hd := dests_new hnew
    obtain ⟨h1, h2, h3, h4⟩ := sampleLoop_spec draw n.toNat e
      (fun k => by have := hdraw k; omega) fuel 0 graph [] 0 g
      (Reachable.new n graph hnew) hnv
      (fun v nb hnb => by
        have := hd v
        simp only [dests, List.map_eq_nil_iff] at this
        rw [this] at hnb
        cases hnb)
      (fun p hp => by cases hp)
      (fun a b hab => by rw [hd a] at hab; cases hab)
      (by rw [degSum_eq_zero (fun v _ => hd v)]; rfl) he0 h
    refine ⟨h1, by rw [h2]; omega, ?_, h3⟩
    rw [getNumEdges_eq]
    omega

/-! ## Weights of edges -/

theorem adj_unlink (g : Graph) (a b : Nat) (hab : a ≠ b) (ha : a < g.adjList.length)
    (hb : b < g.adjList.length) (x : Nat) :
    adj (unlink g a b) x =
      if x = a then eraseDest (adj g a) b else if x = b then eraseDest (adj g b) a
      else adj g x := by
  unfold unlink
  simp only [adj_setAdj]
  have hba : ¬ b = a := fun e => hab e.symm
  by_cases hxa : x = a
  · subst hxa
    simp [hab, ha]
  · by_cases hxb : x = b
    · subst hxb
      simp [hba, setAdj, hb]
    · simp [hxa, hxb]

/-- The adjacency lists `addEdge` leaves when it returns. -/
theorem addEdge_adj {g g1 : Graph} {src dest weight : Int}
    (h : addEdge g src dest weight = .ok g1) (hl : g.adjList.length = g.numVertices) (x : Nat) :
    adj g1 x =
      if dest.toNat ∈ dests g src.toNat then
        (if x = src.toNat then setWeight (adj g x) dest.toNat weight
         else if x = dest.toNat then setWeight (adj g x) src.toNat weight
         else adj g x)
      else
        (if x = src.toNat then ⟨dest.toNat, weight⟩ :: adj g x
         else if x = dest.toNat then ⟨src.toNat, weight⟩ :: adj g x
         else adj g x) := by
  obtain ⟨hs0, hd0, hs2, hd2, hne, _, _, _⟩ := addEdge_ok h
  have hne2 : dest.toNat ≠ src.toNat := fun e => hne e.symm
  have hs : src = (src.toNat : Int) := by omega
  have hd : dest = (dest.toNat : Int) := by omega
  have hsd : ¬ src = dest := by omega
  have he := hasEdge_cast g src.toNat dest.toNat hs2 hd2
  rw [← hs, ← hd] at he
  have hr := outOfRange2_cast g src.toNat dest.toNat hs2 hd2
  rw [← hs, ← hd] at hr
  unfold addEdge at h
  rw [hr, he] at h
  by_cases hm : dest.toNat ∈ dests g src.toNat
  · simp [hm, hsd, bind, Except.bind, pure, Except.pure] at h
    subst h
    simp only [adj_setAdj, hm, if_true]
    by_cases hxd : x = dest.toNat
    · subst hxd
      simp [setAdj, hl, hd2, hne2]
    · by_cases hxs : x = src.toNat
      · subst hxs
        simp [hxd, hl, hs2]
      · simp [hxd, hxs]
  · simp [hm, hsd, bind, Except.bind, pure, Except.pure] at h
    subst h
    simp only [adj_setAdj, hm, if_false]
    by_cases hxd : x = dest.toNat
    · subst hxd
      simp [setAdj, hl, hd2, hne2]
    · by_cases hxs : x = src.toNat
      · subst hxs
        simp [hxd, hl, hs2]
      · simp [hxd, hxs]

theorem addEdge_cast_ok (g : Graph) (a b : Nat) (w : Int) (ha : a < g.numVertices)
    (hb : b < g.numVertices) (hab : a ≠ b) : ∃ g1, addEdge g (a : Int) (b : Int) w = .ok g1 := by
  unfold addEdge
  rw [outOfRange2_cast g a b ha hb, hasEdge_cast g a b ha hb]
  have : ¬ ((a : Int) = (b : Int)) := by omega
  simp only [Bool.false_eq_true, if_false, this, bind, Except.bind]
  split <;> exact ⟨_, rfl⟩

theorem findWeight_eq_none (l : List Neighbor) (d : Nat) :
    findWeight l d = none ↔ d ∉ l.map (fun nb => nb.dest) := by
  induction l with
  | nil => simp [findWeight]
  | cons nb rest ih =>
    by_cases h : nb.dest = d
    · simp [findWeight, h]
    · have h2 : ¬ d = nb.dest := fun e => h e.symm
      simp [findWeight, h, h2, ih]

theorem findWeight_eq_some (l : List Neighbor) (hn : (l.map (fun nb => nb.dest)).Nodup)
    (d : Nat) (w : Int) : findWeight l d = some w ↔ (⟨d, w⟩ : Neighbor) ∈ l := by
  induction l with
  | nil => simp [findWeight]
  | cons nb rest ih =>
    rw [List.map_cons, List.nodup_cons] at hn
    by_cases h : nb.dest = d
    · simp only [findWeight, h, if_true, Option.some.injEq, List.mem_cons]
      constructor
      · intro e
        left
        cases nb
        simp only [] at h e
        rw [h, e]
      · rintro (e | e)
        · rw [← e]
        · exfalso
          apply hn.1
          rw [h]
          exact List.mem_map_of_mem (fun nb => nb.dest) e
    · simp only [findWeight, h, if_false, List.mem_cons]
      rw [ih hn.2]
      constructor
      · intro e; right; exact e
      · rintro (e | e)
        · exfalso; apply h; rw [← e]
        · exact e

theorem findWeight_setWeight (l : List Neighbor) (d x : Nat) (w : Int) :
    findWeight (setWeight l d w) x =
      if x = d ∧ d ∈ l.map (fun nb => nb.dest) then some w else findWeight l x := by
  induction l with
  | nil => simp [setWeight, findWeight]
  | cons nb rest ih =>
    by_cases h : nb.dest = d
    · by_cases hx : x = d
      · simp [setWeight, findWeight, h, hx]
      · have hx2 : ¬ d = x := fun e => hx e.symm
        simp [setWeight, findWeight, h, hx, hx2]
    · have h2 : ¬ d = nb.dest := fun e => h e.symm
      simp only [setWeight, ne_eq, h, not_false_eq_true, if_true, findWeight, List.map_cons,
        List.mem_cons, h2, false_or]
      by_cases hx : nb.dest = x
      · have : ¬ x = d := fun e => h (hx.trans e)
        simp [hx, this]
      · simp only [hx, if_false]
        exact ih

theorem findWeight_eraseDest (l : List Neighbor) (hn : (l.map (fun nb => nb.dest)).Nodup)
    (d x : Nat) :
    findWeight (eraseDest l d) x = if x = d then none else findWeight l x := by
  induction l with
  | nil => simp [eraseDest, findWeight]
  | cons nb rest ih =>
    rw [List.map_cons, List.nodup_cons] at hn
    by_cases h : nb.dest = d
    · by_cases hx : x = d
      · simp only [eraseDest, h, if_true, hx]
        rw [findWeight_eq_none, ← h]
        exact hn.1
      · have hx2 : ¬ d = x := fun e => hx e.symm
        simp [eraseDest, findWeight, h, hx, hx2]
    · simp only [eraseDest, h, if_false, findWeight]
      by_cases hx : nb.dest = x
      · have : ¬ x = d := fun e => h (hx.trans e)
        simp [hx, this]
      · simp only [hx, if_false]
        exact ih hn.2

/-- The weight lookups after `addEdge` returns. -/
theorem findWeight_addEdge {g g1 : Graph} (hg : WF g) {src dest weight : Int}
    (h : addEdge g src dest weight = .ok g1) (x y : Nat) :
    findWeight (adj g1 x) y =
      if (x = src.toNat ∧ y = dest.toNat) ∨ (x = dest.toNat ∧ y = src.toNat) then some weight
      else findWeight (adj g x) y := by
  obtain ⟨_, _, _, _, hne, _, _, _⟩ := addEdge_ok h
  have hne2 : dest.toNat ≠ src.toNat := fun e => hne e.symm
  rw [addEdge_adj h hg.len x]
  by_cases hm : dest.toNat ∈ dests g src.toNat
  · have hm2 : src.toNat ∈ dests g dest.toNat := hg.symm _ _ hm
    simp only [hm, if_true]
    by_cases hxs : x = src.toNat
    · subst hxs
      rw [if_pos rfl, findWeight_setWeight]
      have hm' : dest.toNat ∈ (adj g src.toNat).map (fun nb => nb.dest) := hm
      by_cases hy : y = dest.toNat
      · simp [hy, hm']
      · simp [hy, hne]
    · rw [if_neg hxs]
      by_cases hxd : x = dest.toNat
      · subst hxd
        rw [if_pos rfl, findWeight_setWeight]
        have hm' : src.toNat ∈ (adj g dest.toNat).map (fun nb => nb.dest) := hm2
        by_cases hy : y = src.toNat
        · simp [hy, hm']
        · simp [hy, hne2]
      · simp [hxs, hxd]
  · simp only [hm, if_false]
    by_cases hxs : x = src.toNat
    · subst hxs
      rw [if_pos rfl]
      by_cases hy : y = dest.toNat
      · simp [hy, findWeight]
      · have hy2 : ¬ dest.toNat = y := fun e => hy e.symm
        simp [hy, hy2, hne, findWeight]
    · rw [if_neg hxs]
      by_cases hxd : x = dest.toNat
      · subst hxd
        rw [if_pos rfl]
        by_cases hy : y = src.toNat
        · simp [hy, findWeight]
        · have hy2 : ¬ src.toNat = y := fun e => hy e.symm
          simp [hy, hy2, hne2, findWeight]
      · simp [hxs, hxd]

theorem findWeight_unlink {g : Graph} (hg : WF g) {a b : Nat} (hab : b ∈ dests g a)
    (x y : Nat) :
    findWeight (adj (unlink g a b) x) y =
      if (x = a ∧ y = b) ∨ (x = b ∧ y = a) then none else findWeight (adj g x) y := by
  have hne := hg.ne_of_mem hab
  have hne2 : b ≠ a := fun e => hne e.symm
  obtain ⟨ha, hb⟩ := hg.lt_of_mem hab
  have hl := hg.len
  rw [adj_unlink g a b hne (by omega) (by omega)]
  by_cases hxa : x = a
  · subst hxa
    rw [if_pos rfl, findWeight_eraseDest _ (hg.nodup x)]
    by_cases hy : y = b
    · simp [hy]
    · simp [hy, hne]
  · rw [if_neg hxa]
    by_cases hxb : x = b
    · subst hxb
      rw [if_pos rfl, findWeight_eraseDest _ (hg.nodup x)]
      by_cases hy : y = a
      · simp [hy]
      · simp [hy, hne2]
    · simp [hxa, hxb]

theorem findWeight_new {n : Int} {g : Graph} (h : Graph.new n = .ok g) (x y : Nat) :
    findWeight (adj g x) y = none := by
  rw [findWeight_eq_none]
  have := dests_new h x
  unfold dests at this
  rw [this]
  simp

/-- In a reachable graph the two entries of an edge carry the same weight. -/
theorem Reachable.weight_symm {g : Graph} (h : Reachable g) (a b : Nat) :
    findWeight (adj g a) b = findWeight (adj g b) a := by
  induction h generalizing a b with
  | new n g h => rw [findWeight_new h, findWeight_new h]
  | addEdge g g1 src dest weight hr h ih =>
    rw [findWeight_addEdge hr.wf h, findWeight_addEdge hr.wf h, ih a b]
    by_cases h1 : (a = src.toNat ∧ b = dest.toNat) ∨ (a = dest.toNat ∧ b = src.toNat)
    · have h2 : (b = src.toNat ∧ a = dest.toNat) ∨ (b = dest.toNat ∧ a = src.toNat) := by tauto
      rw [if_pos h1, if_pos h2]
    · have h2 : ¬ ((b = src.toNat ∧ a = dest.toNat) ∨ (b = dest.toNat ∧ a = src.toNat)) := by
        tauto
      rw [if_neg h1, if_neg h2]
  | removeEdge g g1 src dest hr h ih =>
    obtain ⟨_, _, _, _, hm, he⟩ := removeEdge_ok h
    rw [he, findWeight_unlink hr.wf hm, findWeight_unlink hr.wf hm, ih a b]
    by_cases h1 : (a = src.toNat ∧ b = dest.toNat) ∨ (a = dest.toNat ∧ b = src.toNat)
    · have h2 : (b = src.toNat ∧ a = dest.toNat) ∨ (b = dest.toNat ∧ a = src.toNat) := by tauto
      rw [if_pos h1, if_pos h2]
    · have h2 : ¬ ((b = src.toNat ∧ a = dest.toNat) ∨ (b = dest.toNat ∧ a = src.toNat)) := by
        tauto
      rw [if_neg h1, if_neg h2]

theorem getEdgeWeight_cast (g : Graph) (a b : Nat) (ha : a < g.numVertices)
    (hb : b < g.numVertices) :
    getEdgeWeight g (a : Int) (b : Int) =
      (findWeight (adj g a) b).elim (.error (.runtimeError "Edge not found")) .ok := by
  unfold getEdgeWeight
  rw [outOfRange2_cast g a b ha hb]
  simp only [Bool.false_eq_true, if_false, Int.toNat_ofNat]
  cases findWeight (adj g a) b <;> rfl

theorem hasEdge_eq_findWeight (g : Graph) (a b : Nat) (ha : a < g.numVertices)
    (hb : b < g.numVertices) :
    hasEdge g (a : Int) (b : Int) = .ok (findWeight (adj g a) b).isSome := by
  rw [hasEdge_cast g a b ha hb]
  congr 1
  by_cases h : b ∈ dests g a
  · have : findWeight (adj g a) b ≠ none := fun e => (findWeight_eq_none _ _).1 e h
    cases hf : findWeight (adj g a) b with
    | none => exact absurd hf this
    | some w => simp [h]
  · rw [(findWeight_eq_none _ _).2 h]
    simp [h]

theorem hasDest_eq_isSome (l : List Neighbor) (d : Nat) :
    hasDest l d = (findWeight l d).isSome := by
  induction l with
  | nil => rfl
  | cons nb rest ih =>
    by_cases h : nb.dest = d
    · simp [hasDest, findWeight, h]
    · simp [hasDest, findWeight, h, ih]

theorem hasEdge_congr {g g1 : Graph} (hn : g1.numVertices = g.numVertices) (a b : Int)
    (h : findWeight (adj g1 a.toNat) b.toNat = findWeight (adj g a.toNat) b.toNat) :
    hasEdge g1 a b = hasEdge g a b := by
  unfold hasEdge outOfRange2
  rw [hn, hasDest_eq_isSome, hasDest_eq_isSome, h]

theorem getEdgeWeight_congr {g g1 : Graph} (hn : g1.numVertices = g.numVertices) (a b : Int)
    (h : findWeight (adj g1 a.toNat) b.toNat = findWeight (adj g a.toNat) b.toNat) :
    getEdgeWeight g1 a b = getEdgeWeight g a b := by
  unfold getEdgeWeight outOfRange2
  rw [hn, h]

theorem getDegree_congr {g g1 : Graph} (hn : g1.numVertices = g.numVertices) (x : Int)
    (h : dests g1 x.toNat = dests g x.toNat) : getDegree g1 x = getDegree g x := by
  unfold getDegree
  rw [hn]
  have : (adj g1 x.toNat).length = (adj g x.toNat).length := by
    have := congrArg List.length h
    simpa [dests] using this
  rw [this]

/-! ## Lemmas on the responses of the request handler -/

theorem sampleLoop_reachable (draw : Nat → Int) (edges : Int) :
    ∀ (fuel k : Nat) (graph : Graph) (edgeSet : List (Int × Int)) (edgesAdded : Int)
      (g : Graph), Reachable graph →
      sampleLoop draw edges fuel k graph edgeSet edgesAdded = .ok g → Reachable g := by
  intro fuel
  induction fuel with
  | zero =>
    intro k graph edgeSet edgesAdded g hr h
    by_cases hc : edgesAdded < edges
    · simp [sampleLoop, hc] at h
    · simp only [sampleLoop, hc, if_false, pure, Except.pure, Except.ok.injEq] at h
      rw [← h]; exact hr
  | succ fuel ih =>
    intro k graph edgeSet edgesAdded g hr h
    by_cases hc : edgesAdded < edges
    · simp only [sampleLoop, hc, if_true] at h
      by_cases huv : draw k ≠ draw (k + 1)
      · rw [if_pos huv] at h
        generalize (if draw k > draw (k + 1) then (draw (k + 1), draw k)
          else (draw k, draw (k + 1))) = p at h
        by_cases hin : p ∉ edgeSet
        · rw [if_pos hin] at h
          cases ha : addEdge graph p.1 p.2 with
          | error e => rw [ha] at h; simp [bind, Except.bind] at h
          | ok graph1 =>
            rw [ha] at h
            exact ih _ _ _ _ g (Reachable.addEdge graph graph1 p.1 p.2 1 hr ha) h
        · rw [if_neg hin] at h
          exact ih _ _ _ _ g hr h
      · rw [if_neg huv] at h
        exact ih _ _ _ _ g hr h
    · simp only [sampleLoop, hc, if_false, pure, Except.pure, Except.ok.injEq] at h
      rw [← h]; exact hr

/-- Every graph that `generateRandomGraph` returns is built by the constructor
and `addEdge` calls. -/
theorem generateRandomGraph_reachable {draw : Nat → Int} {fuel : Nat} {vertices edges : Int}
    {g : Graph} (h : generateRandomGraph draw fuel vertices edges = .ok g) : Reachable g := by
  unfold generateRandomGraph at h
  cases hn : Graph.new vertices with
  | error e => rw [hn] at h; cases h
  | ok graph =>
    rw [hn] at h
    exact sampleLoop_reachable _ _ fuel 0 graph [] 0 g (Reachable.new vertices graph hn) h

theorem mapM_getDegree (g : Graph) (l : List Nat) (hl : ∀ i ∈ l, i < g.numVertices) :
    ∃ ds, l.mapM (fun (i : Nat) => getDegree g (i : Int)) = .ok ds := by
  induction l with
  | nil => exact ⟨[], rfl⟩
  | cons i rest ih =>
    obtain ⟨ds, hds⟩ := ih (fun j hj => hl j (List.mem_cons_of_mem _ hj))
    refine ⟨(dests g i).length :: ds, ?_⟩
    rw [List.mapM_cons, getDegree_cast g i (hl i (List.mem_cons_self _ _)), hds]
    rfl

theorem analyzeGraph_ok {g : Graph} (hg : WF g) : analyzeGraph g = .ok () := by
  obtain ⟨ds, hds⟩ := mapM_getDegree g (List.range g.numVertices)
    (fun i hi => List.mem_range.1 hi)
  obtain ⟨c, hc, _⟩ := isConnected_wf hg
  obtain ⟨b, hb, _⟩ := hasEulerCircuit_wf hg
  obtain ⟨C, hC, _⟩ := findEulerCircuit_wf hg
  unfold analyzeGraph
  rw [hds, hc, hb, hC]
  cases b <;> cases c <;> rfl


/-! ## Bron–Kerbosch: the clique that `MAX_CLIQUE` reports is a largest one -/


theorem neighboursIn_eq (g : Graph) (v : Nat) (hv : v < g.numVertices) (l : List Nat)
    (hl : ∀ u ∈ l, u < g.numVertices) :
    neighboursIn g v l = .ok (l.filter (fun u => decide (u ∈ dests g v))) := by
  induction l with
  | nil => rfl
  | cons u rest ih =>
    have hu := hl u (List.mem_cons_self _ _)
    have ih := ih (fun x hx => hl x (List.mem_cons_of_mem _ hx))
    unfold neighboursIn
    rw [hasEdge_cast g v u hv hu, ih]
    by_cases h : u ∈ dests g v
    · simp [h, bind, Except.bind, pure, Except.pure]
    · simp [h, bind, Except.bind, pure, Except.pure]

theorem IsClique.nil (g : Graph) : IsClique g [] :=
  ⟨List.nodup_nil, fun _ h => absurd h (List.not_mem_nil _),
    fun _ h => absurd h (List.not_mem_nil _)⟩

theorem IsClique.snoc {g : Graph} (hg : WF g) {R : List Nat} (hR : IsClique g R) {v : Nat}
    (hv : CommonNbr g R v) : IsClique g (R ++ [v]) := by
  obtain ⟨h1, h2, h3⟩ := hR
  have hvR : v ∉ R := fun hm => hg.irrefl v (hv.2 v hm)
  refine ⟨?_, ?_, ?_⟩
  · rw [List.nodup_append]
    refine ⟨h1, List.nodup_singleton v, ?_⟩
    intro a ha hb
    simp only [List.mem_singleton] at hb
    subst hb
    exact hvR ha
  · intro a ha
    rcases List.mem_append.1 ha with ha | ha
    · exact h2 a ha
    · simp only [List.mem_singleton] at ha
      subst ha
      exact hv.1
  · intro a ha b hb hab
    rcases List.mem_append.1 ha with ha | ha
    · rcases List.mem_append.1 hb with hb | hb
      · exact h3 a ha b hb hab
      · simp only [List.mem_singleton] at hb
        rw [hb]
        exact hv.2 a ha
    · simp only [List.mem_singleton] at ha
      subst ha
      rcases List.mem_append.1 hb with hb | hb
      · exact hg.symm _ _ (hv.2 b hb)
      · simp only [List.mem_singleton] at hb
        exact absurd hb.symm hab

/-- A clique that contains `R` and a vertex outside `R` contains a common
neighbour of `R`. -/
theorem IsClique.commonNbr {g : Graph} {C R : List Nat} (hC : IsClique g C)
    (hRC : ∀ r ∈ R, r ∈ C) {c : Nat} (hc : c ∈ C) (hcR : c ∉ R) : CommonNbr g R c := by
  refine ⟨hC.2.1 c hc, fun r hr => ?_⟩
  have hne : r ≠ c := fun e => hcR (e ▸ hr)
  exact hC.2.2 r (hRC r hr) c hc hne

theorem length_le_of_nodup_subset {C R : List Nat} (hC : C.Nodup) (h : ∀ c ∈ C, c ∈ R) :
    C.length ≤ R.length :=
  (List.Nodup.subperm hC h).length_le

/-- From the bound for every extension of `R` by a common neighbour to the
bound for `R`, when `R` has a common neighbour. -/
theorem CliquesBelow.of_ext {g : Graph} (hg : WF g) {R : List Nat} (hR : IsClique g R) {m : Nat}
    (hex : ∃ x, CommonNbr g R x)
    (h : ∀ x, CommonNbr g R x → CliquesBelow g (R ++ [x]) m) : CliquesBelow g R m := by
  intro C hC hRC
  by_cases hsub : ∀ c ∈ C, c ∈ R
  · obtain ⟨x, hx⟩ := hex
    have h1 := length_le_of_nodup_subset hC.1 hsub
    have h2 := h x hx (R ++ [x]) (hR.snoc hg hx) (fun r hr => hr)
    rw [List.length_append, List.length_singleton] at h2
    omega
  · push_neg at hsub
    obtain ⟨c, hc, hcR⟩ := hsub
    apply h c (hC.commonNbr hRC hc hcR) C hC
    intro r hr
    rcases List.mem_append.1 hr with hr | hr
    · exact hRC r hr
    · simp only [List.mem_singleton] at hr
      subst hr
      exact hc

/-- Without a common neighbour, `R` itself bounds the cliques that contain it. -/
theorem CliquesBelow.of_none {g : Graph} {R : List Nat} (hno : ∀ x, ¬ CommonNbr g R x) :
    CliquesBelow g R R.length := by
  intro C hC hRC
  apply length_le_of_nodup_subset hC.1
  intro c hc
  by_contra hcR
  exact hno c (hC.commonNbr hRC hc hcR)

theorem CliquesBelow.mono {g : Graph} {R : List Nat} {m k : Nat} (h : CliquesBelow g R m)
    (hmk : m ≤ k) : CliquesBelow g R k :=
  fun C hC hRC => le_trans (h C hC hRC) hmk

theorem CliquesBelow.extend {g : Graph} {R : List Nat} {m : Nat} {x : Nat}
    (h : CliquesBelow g (R ++ [x]) m) (v : Nat) : CliquesBelow g (R ++ [v] ++ [x]) m := by
  intro C hC hRC
  apply h C hC
  intro r hr
  apply hRC
  rcases List.mem_append.1 hr with hr | hr
  · exact List.mem_append_left _ (List.mem_append_left _ hr)
  · exact List.mem_append_right _ hr


theorem filter_ne_cons_of_nodup {v : Nat} {l : List Nat} (h : (v :: l).Nodup) :
    (v :: l).filter (fun u => decide (u ≠ v)) = l := by
  rw [List.nodup_cons] at h
  rw [List.filter_cons_of_neg (by simp)]
  apply List.filter_eq_self.2
  intro a ha
  have : a ≠ v := fun e => h.1 (e ▸ ha)
  simpa using this

theorem bk_loop (g : Graph) (hg : WF g) (fuel : Nat) (R : List Nat) (hR : IsClique g R)
    (IH : BKSpec g fuel) :
    ∀ (l : List Nat) (st : BKState), st.P = l → l.Nodup → l.length ≤ fuel →
      (∀ x, (x ∈ st.P ∨ x ∈ st.X) ↔ CommonNbr g R x) →
      (∀ x ∈ st.X, CliquesBelow g (R ++ [x]) st.maxSize) →
      IsClique g st.maxClique → st.maxSize = st.maxClique.length →
      ∃ st1, l.foldlM
          (fun (st : BKState) v => do
            let P_new ← neighboursIn g v st.P
            let X_new ← neighboursIn g v st.X
            let best1 ← bronKerbosch g fuel (R ++ [v]) P_new X_new (st.maxClique, st.maxSize)
            pure (BKState.mk (st.P.filter (fun u => u ≠ v)) (st.X ++ [v]) best1.1 best1.2))
          st = .ok st1 ∧
        IsClique g st1.maxClique ∧ st1.maxSize = st1.maxClique.length ∧
        st.maxSize ≤ st1.maxSize ∧
        ∀ x, CommonNbr g R x → CliquesBelow g (R ++ [x]) st1.maxSize := by
  intro l
  induction l with
  | nil =>
    intro st hP _ _ hPX hX hb1 hb2
    refine ⟨st, rfl, hb1, hb2, le_refl _, ?_⟩
    intro x hx
    rcases (hPX x).2 hx with h | h
    · rw [hP] at h
      exact absurd h (List.not_mem_nil _)
    · exact hX x h
  | cons v l ih =>
    intro st hP hnd hlen hPX hX hb1 hb2
    have hvC : CommonNbr g R v := (hPX v).1 (Or.inl (by rw [hP]; exact List.mem_cons_self _ _))
    have hPn : ∀ u ∈ st.P, u < g.numVertices := fun u hu => ((hPX u).1 (Or.inl hu)).1
    have hXn : ∀ u ∈ st.X, u < g.numVertices := fun u hu => ((hPX u).1 (Or.inr hu)).1
    have hlen1 : l.length < fuel := by
      simp only [List.length_cons] at hlen
      omega
    -- the recursive call
    have hcall := IH (R ++ [v]) (st.P.filter (fun u => decide (u ∈ dests g v)))
      (st.X.filter (fun u => decide (u ∈ dests g v))) (st.maxClique, st.maxSize)
      (hR.snoc hg hvC) (List.Nodup.filter _ (hP ▸ hnd))
      (by
        intro x
        simp only [List.mem_filter, decide_eq_true_eq]
        constructor
        · intro h
          have hx : CommonNbr g R x := (hPX x).1 (h.imp And.left And.left)
          have hxv : x ∈ dests g v := by
            rcases h with h | h
            · exact h.2
            · exact h.2
          refine ⟨hx.1, fun r hr => ?_⟩
          rcases List.mem_append.1 hr with hr | hr
          · exact hx.2 r hr
          · simp only [List.mem_singleton] at hr
            rw [hr]
            exact hxv
        · intro h
          have hx : CommonNbr g R x :=
            ⟨h.1, fun r hr => h.2 r (List.mem_append_left _ hr)⟩
          have hxv : x ∈ dests g v := h.2 v (List.mem_append_right _ (List.mem_singleton_self v))
          rcases (hPX x).2 hx with h1 | h1
          · exact Or.inl ⟨h1, hxv⟩
          · exact Or.inr ⟨h1, hxv⟩)
      (by
        intro x hx
        exact (hX x (List.mem_filter.1 hx).1).extend v)
      hb1 hb2
      (by
        rw [hP, List.filter_cons_of_neg (by simpa using hg.irrefl v)]
        exact lt_of_le_of_lt (List.length_filter_le _ _) hlen1)
    obtain ⟨best1, hrun, hc1, hc2, hc3, hc4⟩ := hcall
    -- the rest of the loop
    have hrest := ih
      ({ P := st.P.filter (fun u => decide (u ≠ v)), X := st.X ++ [v],
         maxClique := best1.1, maxSize := best1.2 } : BKState)
      (by
        show st.P.filter (fun u => decide (u ≠ v)) = l
        rw [hP]
        exact filter_ne_cons_of_nodup hnd)
      (List.nodup_cons.1 hnd).2 (le_of_lt hlen1)
      (by
        intro x
        rw [← hPX x]
        simp only [List.mem_filter, decide_eq_true_eq, List.mem_append, List.mem_singleton]
        constructor
        · rintro (h | h | h)
          · exact Or.inl h.1
          · exact Or.inr h
          · rw [h, hP]
            exact Or.inl (List.mem_cons_self _ _)
        · rintro (h | h)
          · by_cases e : x = v
            · exact Or.inr (Or.inr e)
            · exact Or.inl ⟨h, e⟩
          · exact Or.inr (Or.inl h))
      (by
        intro x hx
        rcases List.mem_append.1 hx with hx | hx
        · exact (hX x hx).mono hc3
        · simp only [List.mem_singleton] at hx
          rw [hx]
          exact hc4)
      hc1 hc2
    obtain ⟨st1, hrun1, hd1, hd2, hd3, hd4⟩ := hrest
    refine ⟨st1, ?_, hd1, hd2, le_trans hc3 hd3, hd4⟩
    rw [List.foldlM_cons, neighboursIn_eq g v hvC.1 st.P hPn, neighboursIn_eq g v hvC.1 st.X hXn]
    simp only [bind, Except.bind, pure, Except.pure]
    rw [hrun]
    exact hrun1

theorem bronKerbosch_spec (g : Graph) (hg : WF g) : ∀ fuel, BKSpec g fuel := by
  intro fuel
  induction fuel with
  | zero =>
    intro R P X best _ _ _ _ _ _ hlt
    exact absurd hlt (Nat.not_lt_zero _)
  | succ fuel IH =>
    intro R P X best hR hnd hPX hX hb1 hb2 hlt
    unfold bronKerbosch
    by_cases hempty : P = [] ∧ X = []
    · rw [if_pos hempty]
      have hno : ∀ x, ¬ CommonNbr g R x := by
        intro x hx
        rcases (hPX x).2 hx with h | h
        · rw [hempty.1] at h
          exact absurd h (List.not_mem_nil _)
        · rw [hempty.2] at h
          exact absurd h (List.not_mem_nil _)
      by_cases hgt : R.length > best.2
      · rw [if_pos hgt]
        exact ⟨(R, R.length), rfl, hR, rfl, le_of_lt hgt, CliquesBelow.of_none hno⟩
      · rw [if_neg hgt]
        exact ⟨best, rfl, hb1, hb2, le_refl _,
          (CliquesBelow.of_none hno).mono (Nat.le_of_not_lt hgt)⟩
    · rw [if_neg hempty]
      obtain ⟨st1, hrun, h1, h2, h3, h4⟩ := bk_loop g hg fuel R hR IH P
        { P := P, X := X, maxClique := best.1, maxSize := best.2 } rfl hnd
        (Nat.le_of_lt_succ hlt) hPX hX hb1 hb2
      refine ⟨(st1.maxClique, st1.maxSize), ?_, h1, h2, h3, ?_⟩
      · simp only [bind, Except.bind, pure, Except.pure] at hrun ⊢
        rw [hrun]
      · apply CliquesBelow.of_ext hg hR _ h4
        have : ∃ x, x ∈ P ∨ x ∈ X := by
          by_cases hP : P = []
          · have hXne : X ≠ [] := fun h => hempty ⟨hP, h⟩
            obtain ⟨x, hx⟩ := List.exists_mem_of_ne_nil X hXne
            exact ⟨x, Or.inr hx⟩
          · obtain ⟨x, hx⟩ := List.exists_mem_of_ne_nil P hP
            exact ⟨x, Or.inl hx⟩
        obtain ⟨x, hx⟩ := this
        exact ⟨x, (hPX x).1 hx⟩

/-- `maxCliqueRun` returns a largest clique and its size. -/
theorem maxCliqueRun_spec (g : Graph) (hg : WF g) :
    ∃ C m, maxCliqueRun g = .ok (C, m) ∧ IsClique g C ∧ m = C.length ∧
      ∀ D, IsClique g D → D.length ≤ m := by
  obtain ⟨best1, hrun, h1, h2, _, h4⟩ := bronKerbosch_spec g hg (g.numVertices + 1) []
    (List.range g.numVertices) [] ([], 0) (IsClique.nil g) (List.nodup_range _)
    (by
      intro x
      simp only [List.mem_range, List.not_mem_nil, or_false]
      exact ⟨fun h => ⟨h, fun r hr => absurd hr (List.not_mem_nil _)⟩, fun h => h.1⟩)
    (fun x hx => absurd hx (List.not_mem_nil _)) (IsClique.nil g) rfl
    (by rw [List.length_range]; exact Nat.lt_succ_self _)
  exact ⟨best1.1, best1.2, hrun, h1, h2, fun D hD => h4 D hD (fun r hr => absurd hr (List.not_mem_nil _))⟩


theorem Reachable.numVertices_pos {g : Graph} (h : Reachable g) : 0 < g.numVertices := by
  induction h with
  | new n g h =>
    unfold Graph.new at h
    by_cases hn : n ≤ 0
    · simp [hn] at h
    · simp only [hn, if_false, Except.ok.injEq] at h
      rw [← h]
      show 0 < n.toNat
      omega
  | addEdge g g1 src dest weight _ h ih =>
    rw [(addEdge_ok h).2.2.2.2.2.1]
    exact ih
  | removeEdge g g1 src dest _ h ih =>
    rw [(removeEdge_ok h).2.2.2.2.2, numVertices_unlink]
    exact ih

/-! ## The components that `SCC` reports -/

theorem DfsPost.same (g : Graph) (v : Nat) (vis : List Bool) : DfsPost g v vis vis := by
  refine ⟨rfl, le_refl _, fun _ h => h, ?_⟩
  intro w h1 h2
  rw [h1] at h2
  cases h2

theorem DfsPost.chain {g : Graph} {v u : Nat} {vis vis0 vis1 : List Bool}
    (hu : u = v ∨ u ∈ dests g v)
    (p0 : DfsPost g u vis vis0) (p1 : DfsPost g v vis0 vis1) : DfsPost g v vis vis1 := by
  refine ⟨by rw [p1.len, p0.len], le_trans p1.count p0.count,
    fun w h => p1.mono w (p0.mono w h), ?_⟩
  intro w hw1 hw2
  by_cases hw0 : vis0.getD w false = true
  · obtain ⟨r, c⟩ := p0.fresh w hw0 hw2
    refine ⟨?_, fun x hx => p1.mono x (c x hx)⟩
    rcases hu with hu | hu
    · rw [← hu]
      exact r
    · exact Relation.ReflTransGen.head hu r
  · exact p1.fresh w hw1 (by simpa using hw0)

theorem SccPost.none (g : Graph) (v : Nat) (vis : List Bool) : SccPost g v vis vis [] := by
  refine ⟨DfsPost.same g v vis, List.nodup_nil, ?_⟩
  intro w
  constructor
  · intro h
    exact absurd h (List.not_mem_nil _)
  · rintro ⟨h1, h2⟩
    rw [h1] at h2
    cases h2

theorem SccPost.append {g : Graph} {v u : Nat} {vis vis0 vis1 : List Bool} {a0 a1 : List Nat}
    (hu : u = v ∨ u ∈ dests g v)
    (p0 : SccPost g u vis vis0 a0) (p1 : SccPost g v vis0 vis1 a1) :
    SccPost g v vis vis1 (a0 ++ a1) := by
  refine ⟨DfsPost.chain hu p0.post p1.post, ?_, ?_⟩
  · rw [List.nodup_append]
    refine ⟨p0.nodup, p1.nodup, ?_⟩
    intro w h0 h1
    have e0 := ((p0.mem w).1 h0).2
    have e1 := ((p1.mem w).1 h1).1
    rw [e0] at e1
    cases e1
  · intro w
    rw [List.mem_append, p0.mem, p1.mem]
    constructor
    · rintro (h | h)
      · exact ⟨h.1, p1.post.mono w h.2⟩
      · refine ⟨?_, h.2⟩
        by_contra hc
        have := p0.post.mono w (by simpa using hc)
        rw [h.1] at this
        cases this
    · rintro ⟨h1, h2⟩
      by_cases h0 : vis0.getD w false = true
      · exact Or.inl ⟨h1, h0⟩
      · exact Or.inr ⟨by simpa using h0, h2⟩

/-- Marking the start vertex, seen as a run that adds it. -/
theorem SccPost.mark (g : Graph) (v : Nat) (vis : List Bool) (hv : v < vis.length)
    (h : vis.getD v false = false) (vis1 : List Bool) (hset : DfsPost g v (vis.set v true) vis1)
    (hnb : ∀ x ∈ dests g v, vis1.getD x false = true) :
    DfsPost g v vis vis1 := by
  have hc := count_false_set vis v hv h
  refine ⟨by rw [hset.len]; simp, by have := hset.count; omega, ?_, ?_⟩
  · intro w hw
    apply hset.mono
    rw [getD_set_true]
    split
    · rfl
    · exact hw
  · intro w hw1 hw2
    by_cases hwu : w = v
    · subst hwu
      exact ⟨Relation.ReflTransGen.refl, hnb⟩
    · apply hset.fresh w hw1
      rw [getD_set_true, if_neg (fun h => hwu h.1)]
      exact hw2

theorem count_false_pos (vis : List Bool) (v : Nat) (hv : v < vis.length)
    (h : vis.getD v false = false) : 0 < vis.count false := by
  have hmem : false ∈ vis := by
    rw [List.getD_eq_getElem?_getD, List.getElem?_eq_getElem hv] at h
    simp only [Option.getD_some] at h
    rw [← h]
    exact List.getElem_mem _
  exact List.count_pos_iff.2 hmem

theorem lt_length_of_getD_true (vis : List Bool) (w : Nat) (h : vis.getD w false = true) :
    w < vis.length := by
  by_contra hlt
  rw [List.getD_eq_getElem?_getD, List.getElem?_eq_none (by omega)] at h
  cases h

theorem dfs1_loop {g : Graph} (hg : WF g) (fuel v : Nat) (ih : Dfs1Spec g fuel) :
    ∀ (l : List Neighbor) (vis : List Bool) (ord : List Nat), (∀ nb ∈ l, nb.dest ∈ dests g v) →
      vis.length = g.numVertices → vis.count false ≤ fuel →
      ∃ vis1 added, l.foldlM (fun (st : List Bool × List Nat) current =>
          if !(st.1.getD current.dest false) then dfs1 g fuel current.dest st else pure st)
          (vis, ord) = .ok (vis1, ord ++ added) ∧
        (∀ nb ∈ l, vis1.getD nb.dest false = true) ∧ SccPost g v vis vis1 added := by
  intro l
  induction l with
  | nil =>
    intro vis ord _ _ _
    exact ⟨vis, [], by rw [List.append_nil]; rfl, by simp, SccPost.none g v vis⟩
  | cons nb rest ihl =>
    intro vis ord hl hlen hcount
    have hnb := hl nb (List.mem_cons_self _ _)
    have hrest : ∀ x ∈ rest, x.dest ∈ dests g v := fun x hx => hl x (List.mem_cons_of_mem _ hx)
    have step : ∃ vis0 a0, (if !(vis.getD nb.dest false) then dfs1 g fuel nb.dest (vis, ord)
          else pure (vis, ord)) = Except.ok (vis0, ord ++ a0) ∧
        vis0.getD nb.dest false = true ∧ SccPost g nb.dest vis vis0 a0 := by
      by_cases hvis : vis.getD nb.dest false = true
      · exact ⟨vis, [], by rw [hvis, List.append_nil]; rfl, hvis, SccPost.none g _ vis⟩
      · have hvis2 : vis.getD nb.dest false = false := by simpa using hvis
        obtain ⟨vis0, a0, h0, h1, h2⟩ := ih nb.dest vis ord (hg.range _ _ hnb) hlen hvis2 hcount
        exact ⟨vis0, a0, by rw [hvis2]; exact h0, h1, h2⟩
    obtain ⟨vis0, a0, e0, m0, p0⟩ := step
    obtain ⟨vis1, a1, e1, m1, p1⟩ := ihl vis0 (ord ++ a0) hrest (by rw [p0.post.len, hlen])
      (le_trans p0.post.count hcount)
    refine ⟨vis1, a0 ++ a1, ?_, ?_, SccPost.append (Or.inr hnb) p0 p1⟩
    · rw [List.foldlM_cons]
      show (do
        let s ← (if !(vis.getD nb.dest false) then dfs1 g fuel nb.dest (vis, ord)
          else pure (vis, ord))
        List.foldlM _ s rest) = _
      rw [e0, ← List.append_assoc]
      exact e1
    · intro x hx
      rcases List.mem_cons.1 hx with hx | hx
      · subst hx
        exact p1.post.mono _ m0
      · exact m1 x hx

theorem dfs1_spec {g : Graph} (hg : WF g) : ∀ fuel, Dfs1Spec g fuel := by
  intro fuel
  induction fuel with
  | zero =>
    intro u vis ord hu hlen hvis hcount
    have := count_false_pos vis u (by omega) hvis
    omega
  | succ fuel ih =>
    intro u vis ord hu hlen hvis hcount
    have hc := count_false_set vis u (by omega) hvis
    have hset : (vis.set u true).getD u false = true := by
      rw [getD_set_true]
      simp [hlen, hu]
    obtain ⟨vis1, a1, e1, m1, p1⟩ := dfs1_loop hg fuel u ih (adj g u) (vis.set u true) ord
      (fun nb hnb => List.mem_map_of_mem _ hnb) (by simpa using hlen) (by omega)
    have hpost : DfsPost g u vis vis1 := SccPost.mark g u vis (by omega) hvis vis1 p1.post
      (by
        intro x hx
        obtain ⟨nb, hnb, rfl⟩ := List.mem_map.1 hx
        exact m1 nb hnb)
    have hu1 : vis1.getD u false = true := p1.post.mono u hset
    have hua : u ∉ a1 := by
      intro h
      have := ((p1.mem u).1 h).1
      rw [hset] at this
      cases this
    refine ⟨vis1, a1 ++ [u], ?_, hu1, hpost, ?_, ?_⟩
    · unfold dfs1
      rw [getNeighbors_cast g u hu]
      simp only [bind, Except.bind, pure, Except.pure] at e1 ⊢
      rw [e1, ← List.append_assoc]
    · rw [List.nodup_append]
      refine ⟨p1.nodup, List.nodup_singleton u, ?_⟩
      intro a ha hb
      simp only [List.mem_singleton] at hb
      exact hua (hb ▸ ha)
    · intro w
      rw [List.mem_append, List.mem_singleton, p1.mem, getD_set_true]
      by_cases hwu : w = u
      · subst hwu
        exact ⟨fun _ => ⟨hvis, hu1⟩, fun _ => Or.inr rfl⟩
      · rw [if_neg (fun h => hwu h.1)]
        exact ⟨fun h => h.elim id (fun e => absurd e hwu), Or.inl⟩

theorem dfs2_loop {g : Graph} (hg : WF g) (fuel v : Nat) (ih : Dfs2Spec g fuel) :
    ∀ (l : List Neighbor) (vis : List Bool) (comp : List Nat),
      (∀ nb ∈ l, nb.dest ∈ dests g v) →
      vis.length = g.numVertices → vis.count false ≤ fuel →
      ∃ vis1 added, l.foldlM (fun (st : List Bool × List Nat) current =>
          if !(st.1.getD current.dest false) then dfs2 g fuel current.dest st else pure st)
          (vis, comp) = .ok (vis1, comp ++ added) ∧
        (∀ nb ∈ l, vis1.getD nb.dest false = true) ∧ SccPost g v vis vis1 added := by
  intro l
  induction l with
  | nil =>
    intro vis comp _ _ _
    exact ⟨vis, [], by rw [List.append_nil]; rfl, by simp, SccPost.none g v vis⟩
  | cons nb rest ihl =>
    intro vis comp hl hlen hcount
    have hnb := hl nb (List.mem_cons_self _ _)
    have hrest : ∀ x ∈ rest, x.dest ∈ dests g v := fun x hx => hl x (List.mem_cons_of_mem _ hx)
    have step : ∃ vis0 a0, (if !(vis.getD nb.dest false) then dfs2 g fuel nb.dest (vis, comp)
          else pure (vis, comp)) = Except.ok (vis0, comp ++ a0) ∧
        vis0.getD nb.dest false = true ∧ SccPost g nb.dest vis vis0 a0 := by
      by_cases hvis : vis.getD nb.dest false = true
      · exact ⟨vis, [], by rw [hvis, List.append_nil]; rfl, hvis, SccPost.none g _ vis⟩
      · have hvis2 : vis.getD nb.dest false = false := by simpa using hvis
        obtain ⟨vis0, a0, h0, h1, h2⟩ := ih nb.dest vis comp (hg.range _ _ hnb) hlen hvis2 hcount
        exact ⟨vis0, a0, by rw [hvis2]; exact h0, h1, h2⟩
    obtain ⟨vis0, a0, e0, m0, p0⟩ := step
    obtain ⟨vis1, a1, e1, m1, p1⟩ := ihl vis0 (comp ++ a0) hrest (by rw [p0.post.len, hlen])
      (le_trans p0.post.count hcount)
    refine ⟨vis1, a0 ++ a1, ?_, ?_, SccPost.append (Or.inr hnb) p0 p1⟩
    · rw [List.foldlM_cons]
      show (do
        let s ← (if !(vis.getD nb.dest false) then dfs2 g fuel nb.dest (vis, comp)
          else pure (vis, comp))
        List.foldlM _ s rest) = _
      rw [e0, ← List.append_assoc]
      exact e1
    · intro x hx
      rcases List.mem_cons.1 hx with hx | hx
      · subst hx
        exact p1.post.mono _ m0
      · exact m1 x hx

theorem dfs2_spec {g : Graph} (hg : WF g) : ∀ fuel, Dfs2Spec g fuel := by
  intro fuel
  induction fuel with
  | zero =>
    intro u vis comp hu hlen hvis hcount
    have := count_false_pos vis u (by omega) hvis
    omega
  | succ fuel ih =>
    intro u vis comp hu hlen hvis hcount
    have hc := count_false_set vis u (by omega) hvis
    have hset : (vis.set u true).getD u false = true := by
      rw [getD_set_true]
      simp [hlen, hu]
    obtain ⟨vis1, a1, e1, m1, p1⟩ := dfs2_loop hg fuel u ih (adj g u) (vis.set u true)
      (comp ++ [u])
      (fun nb hnb => List.mem_map_of_mem _ hnb) (by simpa using hlen) (by omega)
    have hpost : DfsPost g u vis vis1 := SccPost.mark g u vis (by omega) hvis vis1 p1.post
      (by
        intro x hx
        obtain ⟨nb, hnb, rfl⟩ := List.mem_map.1 hx
        exact m1 nb hnb)
    have hu1 : vis1.getD u false = true := p1.post.mono u hset
    have hua : u ∉ a1 := by
      intro h
      have := ((p1.mem u).1 h).1
      rw [hset] at this
      cases this
    refine ⟨vis1, [u] ++ a1, ?_, hu1, hpost, ?_, ?_⟩
    · unfold dfs2
      rw [getNeighbors_cast g u hu]
      simp only [bind, Except.bind, pure, Except.pure] at e1 ⊢
      rw [e1, ← List.append_assoc]
    · rw [List.nodup_append]
      refine ⟨List.nodup_singleton u, p1.nodup, ?_⟩
      intro a ha hb
      simp only [List.mem_singleton] at ha
      exact hua (ha ▸ hb)
    · intro w
      rw [List.mem_append, List.mem_singleton, p1.mem, getD_set_true]
      by_cases hwu : w = u
      · subst hwu
        exact ⟨fun _ => ⟨hvis, hu1⟩, fun _ => Or.inl rfl⟩
      · rw [if_neg (fun h => hwu h.1)]
        exact ⟨fun h => h.elim (fun e => absurd e hwu) id, Or.inr⟩

/-- The first loop of `execute`: afterwards every vertex of the list is marked,
and the marked vertices are the ones in `order`. -/
theorem sccOrder_spec {g : Graph} (hg : WF g) :
    ∀ (l : List Nat) (vis : List Bool) (ord : List Nat), (∀ i ∈ l, i < g.numVertices) →
      vis.length = g.numVertices → (∀ w, vis.getD w false = true → w ∈ ord) →
      ∃ vis1 ord1, sccOrder g l (vis, ord) = .ok (vis1, ord1) ∧
        vis1.length = g.numVertices ∧ (∀ w, vis1.getD w false = true → w ∈ ord1) ∧
        (∀ w, vis.getD w false = true → vis1.getD w false = true) ∧
        (∀ i ∈ l, vis1.getD i false = true) ∧
        (∀ w ∈ ord1, w ∈ ord ∨ w < g.numVertices) := by
  intro l
  induction l with
  | nil =>
    intro vis ord _ hlen hinv
    exact ⟨vis, ord, rfl, hlen, hinv, fun _ h => h, by simp, fun w h => Or.inl h⟩
  | cons i rest ih =>
    intro vis ord hl hlen hinv
    have hi := hl i (List.mem_cons_self _ _)
    have hrest : ∀ x ∈ rest, x < g.numVertices := fun x hx => hl x (List.mem_cons_of_mem _ hx)
    by_cases hvis : vis.getD i false = true
    · obtain ⟨vis1, ord1, e1, h1, h2, h3, h4, h5⟩ := ih vis ord hrest hlen hinv
      refine ⟨vis1, ord1, ?_, h1, h2, h3, ?_, h5⟩
      · unfold sccOrder
        simp only [hvis, Bool.not_true, Bool.false_eq_true, if_false]
        exact e1
      · intro x hx
        rcases List.mem_cons.1 hx with hx | hx
        · rw [hx]
          exact h3 i hvis
        · exact h4 x hx
    · have hvis2 : vis.getD i false = false := by simpa using hvis
      obtain ⟨vis0, a0, e0, m0, p0⟩ := dfs1_spec hg g.numVertices i vis ord hi hlen hvis2
        (by rw [← hlen]; exact List.count_le_length _ _)
      have hinv0 : ∀ w, vis0.getD w false = true → w ∈ ord ++ a0 := by
        intro w hw
        by_cases h : vis.getD w false = true
        · exact List.mem_append_left _ (hinv w h)
        · exact List.mem_append_right _ ((p0.mem w).2 ⟨by simpa using h, hw⟩)
      obtain ⟨vis1, ord1, e1, h1, h2, h3, h4, h5⟩ := ih vis0 (ord ++ a0) hrest
        (by rw [p0.post.len, hlen]) hinv0
      refine ⟨vis1, ord1, ?_, h1, h2, fun w h => h3 w (p0.post.mono w h), ?_, ?_⟩
      · unfold sccOrder
        simp only [hvis2, Bool.not_false, if_true, bind, Except.bind]
        rw [e0]
        exact e1
      · intro x hx
        rcases List.mem_cons.1 hx with hx | hx
        · rw [hx]
          exact h3 i m0
        · exact h4 x hx
      · intro w hw
        rcases h5 w hw with h | h
        · rcases List.mem_append.1 h with h | h
          · exact Or.inl h
          · right
            have := lt_length_of_getD_true vis0 w ((p0.mem w).1 h).2
            rw [p0.post.len, hlen] at this
            exact this
        · exact Or.inr h

theorem mem_dests_addEdge {g g1 : Graph} (hg : WF g) (a b : Nat) (w : Int)
    (h : addEdge g (a : Int) (b : Int) w = .ok g1) (x y : Nat) :
    y ∈ dests g1 x ↔ y ∈ dests g x ∨ (x = a ∧ y = b) ∨ (x = b ∧ y = a) := by
  obtain ⟨_, _, _, _, hne, _, _, hd⟩ := addEdge_ok h
  have hd := hd hg.len x
  simp only [Int.toNat_ofNat] at hd hne
  rw [hd]
  by_cases hm : b ∈ dests g a
  · rw [if_pos hm]
    constructor
    · exact Or.inl
    · rintro (h1 | ⟨h1, h2⟩ | ⟨h1, h2⟩)
      · exact h1
      · rw [h1, h2]
        exact hm
      · rw [h1, h2]
        exact hg.symm _ _ hm
  · rw [if_neg hm]
    by_cases hxa : x = a
    · rw [if_pos hxa, List.mem_cons]
      constructor
      · rintro (h1 | h1)
        · exact Or.inr (Or.inl ⟨hxa, h1⟩)
        · exact Or.inl h1
      · rintro (h1 | ⟨_, h2⟩ | ⟨h1, _⟩)
        · exact Or.inr h1
        · exact Or.inl h2
        · exact absurd (hxa.symm.trans h1) hne
    · rw [if_neg hxa]
      by_cases hxb : x = b
      · rw [if_pos hxb, List.mem_cons]
        constructor
        · rintro (h1 | h1)
          · exact Or.inr (Or.inr ⟨hxb, h1⟩)
          · exact Or.inl h1
        · rintro (h1 | ⟨h1, _⟩ | ⟨_, h2⟩)
          · exact Or.inr h1
          · exact absurd h1 hxa
          · exact Or.inl h2
      · rw [if_neg hxb]
        constructor
        · exact Or.inl
        · rintro (h1 | ⟨h1, _⟩ | ⟨h1, _⟩)
          · exact h1
          · exact absurd h1 hxa
          · exact absurd h1 hxb

/-- The inner loop that builds `transpose`, for the list of vertex `i`. -/
theorem transposeRow_spec (n i : Nat) (hi : i < n) :
    ∀ (l : List Neighbor) (T : Graph), WF T → T.numVertices = n →
      (∀ nb ∈ l, nb.dest < n ∧ nb.dest ≠ i) →
      ∃ T1, l.foldlM (fun t (current : Neighbor) =>
          addEdge t (current.dest : Int) (i : Int) current.weight) T = .ok T1 ∧
        WF T1 ∧ T1.numVertices = n ∧
        ∀ x y, y ∈ dests T1 x ↔
          y ∈ dests T x ∨ ∃ nb ∈ l, (x = nb.dest ∧ y = i) ∨ (x = i ∧ y = nb.dest) := by
  intro l
  induction l with
  | nil =>
    intro T hT hn _
    exact ⟨T, rfl, hT, hn, fun x y => by simp⟩
  | cons nb rest ih =>
    intro T hT hn hl
    obtain ⟨h1, h2⟩ := hl nb (List.mem_cons_self _ _)
    obtain ⟨T0, e0⟩ := addEdge_cast_ok T nb.dest i nb.weight (by omega) (by omega) h2
    have hT0 : WF T0 := hT.addEdge e0
    have hn0 : T0.numVertices = n := by rw [(addEdge_ok e0).2.2.2.2.2.1, hn]
    obtain ⟨T1, e1, hT1, hn1, hd1⟩ := ih T0 hT0 hn0
      (fun x hx => hl x (List.mem_cons_of_mem _ hx))
    refine ⟨T1, ?_, hT1, hn1, ?_⟩
    · rw [List.foldlM_cons]
      show (do
        let t ← addEdge T (nb.dest : Int) (i : Int) nb.weight
        List.foldlM _ t rest) = _
      rw [e0]
      exact e1
    · intro x y
      rw [hd1, mem_dests_addEdge hT nb.dest i nb.weight e0]
      constructor
      · rintro ((h | h | h) | ⟨nb1, hm, h⟩)
        · exact Or.inl h
        · exact Or.inr ⟨nb, List.mem_cons_self _ _, Or.inl h⟩
        · exact Or.inr ⟨nb, List.mem_cons_self _ _, Or.inr h⟩
        · exact Or.inr ⟨nb1, List.mem_cons_of_mem _ hm, h⟩
      · rintro (h | ⟨nb1, hm, h⟩)
        · exact Or.inl (Or.inl h)
        · rcases List.mem_cons.1 hm with e | hm
          · rw [e] at h
            exact Or.inl (Or.inr h)
          · exact Or.inr ⟨nb1, hm, h⟩

theorem buildTranspose_spec {g : Graph} (hg : WF g) :
    ∀ (L : List Nat) (T : Graph), WF T → T.numVertices = g.numVertices →
      (∀ i ∈ L, i < g.numVertices) →
      ∃ T1, buildTranspose g L T = .ok T1 ∧ WF T1 ∧ T1.numVertices = g.numVertices ∧
        ∀ x y, y ∈ dests T1 x ↔
          y ∈ dests T x ∨ ∃ i ∈ L, ∃ d ∈ dests g i, (x = d ∧ y = i) ∨ (x = i ∧ y = d) := by
  intro L
  induction L with
  | nil =>
    intro T hT hn _
    exact ⟨T, rfl, hT, hn, fun x y => by simp⟩
  | cons i rest ih =>
    intro T hT hn hL
    have hi := hL i (List.mem_cons_self _ _)
    obtain ⟨T0, e0, hT0, hn0, hd0⟩ := transposeRow_spec g.numVertices i hi (adj g i) T hT hn
      (by
        intro nb hnb
        have hm : nb.dest ∈ dests g i := List.mem_map_of_mem _ hnb
        exact ⟨hg.range _ _ hm, fun e => hg.irrefl i (e ▸ hm)⟩)
    obtain ⟨T1, e1, hT1, hn1, hd1⟩ := ih T0 hT0 hn0
      (fun x hx => hL x (List.mem_cons_of_mem _ hx))
    refine ⟨T1, ?_, hT1, hn1, ?_⟩
    · unfold buildTranspose
      rw [getNeighbors_cast g i hi]
      simp only [bind, Except.bind] at e0 ⊢
      rw [e0]
      exact e1
    · intro x y
      rw [hd1, hd0]
      have : (∃ nb ∈ adj g i, (x = nb.dest ∧ y = i) ∨ (x = i ∧ y = nb.dest)) ↔
          ∃ d ∈ dests g i, (x = d ∧ y = i) ∨ (x = i ∧ y = d) := by
        constructor
        · rintro ⟨nb, hnb, h⟩
          exact ⟨nb.dest, List.mem_map_of_mem _ hnb, h⟩
        · rintro ⟨d, hd, h⟩
          obtain ⟨nb, hnb, rfl⟩ := List.mem_map.1 hd
          exact ⟨nb, hnb, h⟩
      rw [this]
      constructor
      · rintro ((h | h) | ⟨j, hm, h⟩)
        · exact Or.inl h
        · exact Or.inr ⟨i, List.mem_cons_self _ _, h⟩
        · exact Or.inr ⟨j, List.mem_cons_of_mem _ hm, h⟩
      · rintro (h | ⟨j, hm, h⟩)
        · exact Or.inl (Or.inl h)
        · rcases List.mem_cons.1 hm with e | hm
          · rw [e] at h
            exact Or.inl (Or.inr h)
          · exact Or.inr ⟨j, hm, h⟩

/-- The graph `transpose` of `execute` has the adjacency of the graph itself. -/
theorem transpose_spec {g : Graph} (hg : WF g) (hn : 0 < g.numVertices) :
    ∃ T0 T, Graph.new (g.numVertices : Int) = .ok T0 ∧
      buildTranspose g (List.range g.numVertices) T0 = .ok T ∧ WF T ∧
      T.numVertices = g.numVertices ∧ ∀ x y, y ∈ dests T x ↔ y ∈ dests g x := by
  have hnew : ∃ T0, Graph.new (g.numVertices : Int) = .ok T0 := by
    unfold Graph.new
    rw [if_neg (by omega)]
    exact ⟨_, rfl⟩
  obtain ⟨T0, e0⟩ := hnew
  have hn0 : T0.numVertices = g.numVertices := by
    unfold Graph.new at e0
    rw [if_neg (by omega)] at e0
    simp only [Except.ok.injEq] at e0
    rw [← e0]
    exact Int.toNat_ofNat _
  obtain ⟨T, e1, hT, hnT, hd⟩ := buildTranspose_spec hg (List.range g.numVertices) T0
    (WF.new e0) hn0 (fun i hi => List.mem_range.1 hi)
  refine ⟨T0, T, e0, e1, hT, hnT, ?_⟩
  intro x y
  rw [hd, dests_new e0]
  constructor
  · rintro (h | ⟨i, _, d, hd, ⟨h1, h2⟩ | ⟨h1, h2⟩⟩)
    · exact absurd h (List.not_mem_nil _)
    · rw [h1, h2]
      exact hg.symm _ _ hd
    · rw [h1, h2]
      exact hd
  · intro h
    have hx : x < g.numVertices := hg.range _ _ (hg.symm _ _ h)
    exact Or.inr ⟨x, List.mem_range.2 hx, y, h, Or.inr ⟨rfl, rfl⟩⟩

theorem Reach.congr {g T : Graph} (h : ∀ x y, y ∈ dests T x ↔ y ∈ dests g x) (u v : Nat) :
    Reach T u v ↔ Reach g u v := by
  constructor
  · intro r
    induction r with
    | refl => exact Relation.ReflTransGen.refl
    | tail _ hbc ih => exact Relation.ReflTransGen.tail ih ((h _ _).1 hbc)
  · intro r
    induction r with
    | refl => exact Relation.ReflTransGen.refl
    | tail _ hbc ih => exact Relation.ReflTransGen.tail ih ((h _ _).2 hbc)

theorem reach_closed {T : Graph} {vis : List Bool}
    (hc : ∀ w, vis.getD w false = true → ∀ x ∈ dests T w, vis.getD x false = true)
    {u v : Nat} (r : Reach T u v) (hu : vis.getD u false = true) : vis.getD v false = true := by
  induction r with
  | refl => exact hu
  | tail _ hbc ih => exact hc _ ih _ hbc

theorem sccCollect_spec {T : Graph} (hT : WF T) :
    ∀ (l : List Nat) (vis : List Bool) (sccs : List (List Nat)),
      (∀ v ∈ l, v < T.numVertices) → SccInv T vis sccs →
      ∃ vis1 sccs1, sccCollect T l (vis, sccs) = .ok (vis1, sccs1) ∧ SccInv T vis1 sccs1 ∧
        (∀ v ∈ l, vis1.getD v false = true) ∧
        (∀ w, vis.getD w false = true → vis1.getD w false = true) := by
  intro l
  induction l with
  | nil =>
    intro vis sccs _ hinv
    exact ⟨vis, sccs, rfl, hinv, by simp, fun _ h => h⟩
  | cons v rest ih =>
    intro vis sccs hl hinv
    have hv := hl v (List.mem_cons_self _ _)
    have hrest : ∀ x ∈ rest, x < T.numVertices := fun x hx => hl x (List.mem_cons_of_mem _ hx)
    by_cases hvis : vis.getD v false = true
    · obtain ⟨vis1, sccs1, e1, h1, h2, h3⟩ := ih vis sccs hrest hinv
      refine ⟨vis1, sccs1, ?_, h1, ?_, h3⟩
      · unfold sccCollect
        simp only [hvis, Bool.not_true, Bool.false_eq_true, if_false]
        exact e1
      · intro x hx
        rcases List.mem_cons.1 hx with hx | hx
        · rw [hx]
          exact h3 v hvis
        · exact h2 x hx
    · have hvis2 : vis.getD v false = false := by simpa using hvis
      obtain ⟨vis0, comp, e0, m0, p0⟩ := dfs2_spec hT T.numVertices v vis [] hv hinv.len hvis2
        (by rw [← hinv.len]; exact List.count_le_length _ _)
      rw [List.nil_append] at e0
      -- the marks after the call are closed under adjacency
      have hclosed0 : ∀ w, vis0.getD w false = true → ∀ x ∈ dests T w,
          vis0.getD x false = true := by
        intro w hw x hx
        by_cases h : vis.getD w false = true
        · exact p0.post.mono x (hinv.closed w h x hx)
        · exact (p0.post.fresh w hw (by simpa using h)).2 x hx
      -- the component is the set of vertices joined to `v`
      have hcomp : ∀ w, w ∈ comp ↔ Reach T v w := by
        intro w
        rw [p0.mem]
        constructor
        · rintro ⟨h1, h2⟩
          exact (p0.post.fresh w h2 h1).1
        · intro r
          refine ⟨?_, reach_closed hclosed0 r m0⟩
          by_contra hc
          have hw : vis.getD w false = true := by simpa using hc
          have := reach_closed hinv.closed (Reach.symm hT r) hw
          rw [hvis2] at this
          cases this
      have hinv0 : SccInv T vis0 (sccs ++ [comp]) := by
        refine ⟨by rw [p0.post.len, hinv.len], ?_, ?_, ?_, hclosed0⟩
        · rw [List.flatten_concat, List.nodup_append]
          refine ⟨hinv.nodup, p0.nodup, ?_⟩
          intro a ha hb
          have h1 := (hinv.mem a).2 ha
          have h2 := ((p0.mem a).1 hb).1
          rw [h1] at h2
          cases h2
        · intro w
          rw [List.flatten_concat, List.mem_append, ← hinv.mem, p0.mem]
          constructor
          · intro h
            by_cases h1 : vis.getD w false = true
            · exact Or.inl h1
            · exact Or.inr ⟨by simpa using h1, h⟩
          · rintro (h | h)
            · exact p0.post.mono w h
            · exact h.2
        · intro c hc
          rcases List.mem_append.1 hc with hc | hc
          · exact hinv.comp c hc
          · simp only [List.mem_singleton] at hc
            rw [hc]
            exact ⟨v, (hcomp v).2 Relation.ReflTransGen.refl, hcomp⟩
      obtain ⟨vis1, sccs1, e1, h1, h2, h3⟩ := ih vis0 (sccs ++ [comp]) hrest hinv0
      refine ⟨vis1, sccs1, ?_, h1, ?_, fun w h => h3 w (p0.post.mono w h)⟩
      · unfold sccCollect
        simp only [hvis2, Bool.not_false, if_true, bind, Except.bind]
        rw [e0]
        exact e1
      · intro x hx
        rcases List.mem_cons.1 hx with hx | hx
        · rw [hx]
          exact h3 v m0
        · exact h2 x hx

theorem getD_replicate_false (n w : Nat) : (List.replicate n false).getD w false = false := by
  rw [List.getD_eq_getElem?_getD]
  by_cases h : w < n
  · rw [List.getElem?_eq_getElem (by simpa using h)]
    simp
  · rw [List.getElem?_eq_none (by simpa using h)]
    rfl

/-- The vector `sccs` of `execute` on a graph with the invariants. -/
theorem sccRun_spec {g : Graph} (hg : WF g) (hn : 0 < g.numVertices) :
    ∃ sccs, sccRun g = .ok sccs ∧ sccs.flatten.Perm (List.range g.numVertices) ∧
      ∀ c ∈ sccs, ∃ v ∈ c, ∀ w, w ∈ c ↔ Reach g v w := by
  obtain ⟨vis1, order, e1, _, h2, _, h4, h5⟩ := sccOrder_spec hg (List.range g.numVertices)
    (List.replicate g.numVertices false) [] (fun i hi => List.mem_range.1 hi)
    (List.length_replicate _ _)
    (by
      intro w hw
      rw [getD_replicate_false] at hw
      cases hw)
  obtain ⟨T0, T, e2, e3, hT, hnT, hd⟩ := transpose_spec hg hn
  have horder : ∀ v ∈ order.reverse, v < T.numVertices := by
    intro v hv
    rw [hnT]
    rcases h5 v (List.mem_reverse.1 hv) with h | h
    · exact absurd h (List.not_mem_nil _)
    · exact h
  have hinv : SccInv T (List.replicate g.numVertices false) [] := by
    refine ⟨by rw [List.length_replicate, hnT], List.nodup_nil, ?_, ?_, ?_⟩
    · intro w
      rw [getD_replicate_false]
      simp
    · intro c hc
      exact absurd hc (List.not_mem_nil _)
    · intro w hw
      rw [getD_replicate_false] at hw
      cases hw
  obtain ⟨vis2, sccs, e4, k1, k2, _⟩ := sccCollect_spec hT order.reverse _ [] horder hinv
  refine ⟨sccs, ?_, ?_, ?_⟩
  · unfold sccRun
    simp only [bind, Except.bind, pure, Except.pure]
    rw [e1]
    simp only []
    rw [e2]
    simp only []
    rw [e3]
    simp only []
    rw [e4]
  · rw [List.perm_ext_iff_of_nodup k1.nodup (List.nodup_range _)]
    intro a
    rw [← k1.mem, List.mem_range]
    constructor
    · intro h
      have := lt_length_of_getD_true vis2 a h
      rw [k1.len, hnT] at this
      exact this
    · intro h
      exact k2 a (List.mem_reverse.2 (h2 a (h4 a (List.mem_range.2 h))))
  · intro c hc
    obtain ⟨v, hv, h⟩ := k1.comp c hc
    exact ⟨v, hv, fun w => (h w).trans (Reach.congr hd v w)⟩

theorem Reach.eq_of_isolated {g : Graph} {v w : Nat} (h : dests g v = []) (r : Reach g v w) :
    w = v := by
  rcases Relation.ReflTransGen.cases_head r with e | ⟨c, hc, _⟩
  · exact e.symm
  · rw [h] at hc
    exact absurd hc (List.not_mem_nil _)

theorem eq_singleton_of_nodup {c : List Nat} {v : Nat} (hnd : c.Nodup) (hv : v ∈ c)
    (h : ∀ w ∈ c, w = v) : c = [v] := by
  match c, hnd, hv, h with
  | [], _, hv, _ => exact absurd hv (List.not_mem_nil _)
  | [a], _, _, h => rw [h a (List.mem_singleton_self a)]
  | a :: b :: t, hnd, _, h =>
    have ha := h a (List.mem_cons_self _ _)
    have hb := h b (List.mem_cons_of_mem _ (List.mem_cons_self _ _))
    rw [List.nodup_cons] at hnd
    exact absurd (by rw [ha, hb]; exact List.mem_cons_self _ _) hnd.1

/-- The facts on the components that follow from their list being a
rearrangement of `[0, n)` in which every entry is a class of `Reach`. -/
theorem scc_facts {g : Graph} (hg : WF g) {sccs : List (List Nat)}
    (hperm : sccs.flatten.Perm (List.range g.numVertices))
    (hcomp : ∀ c ∈ sccs, ∃ v ∈ c, ∀ w, w ∈ c ↔ Reach g v w) :
    (∀ u v, u < g.numVertices → v < g.numVertices →
      ((∃ c ∈ sccs, u ∈ c ∧ v ∈ c) ↔ Reach g u v)) ∧
    (∀ v, v < g.numVertices → dests g v = [] → [v] ∈ sccs) ∧
    sccs.length =
      Set.ncard {S : Set Nat | ∃ v, v < g.numVertices ∧ S = {w | Reach g v w}} := by
  have hnd : sccs.flatten.Nodup := hperm.nodup_iff.2 (List.nodup_range _)
  have hmem : ∀ v, v < g.numVertices → ∃ c ∈ sccs, v ∈ c := by
    intro v hv
    exact List.mem_flatten.1 (hperm.mem_iff.2 (List.mem_range.2 hv))
  have hlt : ∀ c ∈ sccs, ∀ v ∈ c, v < g.numVertices := by
    intro c hc v hv
    exact List.mem_range.1 (hperm.mem_iff.1 (List.mem_flatten.2 ⟨c, hc, hv⟩))
  -- a component is the class of each of its members
  have hclass : ∀ c ∈ sccs, ∀ u ∈ c, ∀ w, w ∈ c ↔ Reach g u w := by
    intro c hc u hu w
    obtain ⟨v, _, h⟩ := hcomp c hc
    have hvu : Reach g v u := (h u).1 hu
    rw [h w]
    exact ⟨fun r => Relation.ReflTransGen.trans (Reach.symm hg hvu) r,
      fun r => Relation.ReflTransGen.trans hvu r⟩
  have hdisj := (List.nodup_flatten.1 hnd).2
  have hsame : ∀ c1 ∈ sccs, ∀ c2 ∈ sccs, ∀ u, u ∈ c1 → u ∈ c2 → c1 = c2 := by
    intro c1 h1 c2 h2 u hu1 hu2
    by_contra hne
    exact (hdisj.forall (fun _ _ h => h.symm) h1 h2 hne) hu1 hu2
  refine ⟨?_, ?_, ?_⟩
  · intro u v hu _
    constructor
    · rintro ⟨c, hc, huc, hvc⟩
      exact (hclass c hc u huc v).1 hvc
    · intro r
      obtain ⟨c, hc, huc⟩ := hmem u hu
      exact ⟨c, hc, huc, (hclass c hc u huc v).2 r⟩
  · intro v hv hiso
    obtain ⟨c, hc, hvc⟩ := hmem v hv
    have : c = [v] := eq_singleton_of_nodup ((List.nodup_flatten.1 hnd).1 c hc) hvc
      (fun w hw => Reach.eq_of_isolated hiso ((hclass c hc v hvc w).1 hw))
    rw [← this]
    exact hc
  · have hset : {S : Set Nat | ∃ v, v < g.numVertices ∧ S = {w | Reach g v w}} =
        (fun c : List Nat => {w | w ∈ c}) '' (↑sccs.toFinset : Set (List Nat)) := by
      ext S
      simp only [Set.mem_setOf_eq, Set.mem_image, Finset.mem_coe, List.mem_toFinset]
      constructor
      · rintro ⟨v, hv, rfl⟩
        obtain ⟨c, hc, hvc⟩ := hmem v hv
        refine ⟨c, hc, ?_⟩
        ext w
        exact hclass c hc v hvc w
      · rintro ⟨c, hc, rfl⟩
        obtain ⟨v, hvc, h⟩ := hcomp c hc
        refine ⟨v, hlt c hc v hvc, ?_⟩
        ext w
        exact h w
    have hinj : Set.InjOn (fun c : List Nat => {w | w ∈ c})
        (↑sccs.toFinset : Set (List Nat)) := by
      intro c1 h1 c2 h2 e
      simp only [Finset.mem_coe, List.mem_toFinset] at h1 h2
      obtain ⟨v, hv, _⟩ := hcomp c1 h1
      have e1 : {w | w ∈ c1} = {w | w ∈ c2} := e
      have hv2 : v ∈ c2 := by
        have : v ∈ {w | w ∈ c1} := hv
        rw [e1] at this
        exact this
      exact hsame c1 h1 c2 h2 v hv hv2
    have hnodup : sccs.Nodup := by
      refine List.Pairwise.imp_of_mem ?_ hdisj
      intro c1 c2 h1 _ hd e
      obtain ⟨v, hv, _⟩ := hcomp c1 h1
      exact hd hv (e ▸ hv)
    rw [hset, Set.ncard_image_of_injOn hinj, Set.ncard_coe_Finset,
      List.toFinset_card_of_nodup hnodup]
/-! ## Maximum flow on small graphs -/

theorem two_vertex_graph (w : Int) (g : Graph)
    (h : (Graph.new 2 >>= fun g0 => addEdge g0 0 1 w) = .ok g) :
    g = ⟨2, [[⟨1, w⟩], [⟨0, w⟩]]⟩ := by
  have : (Graph.new 2 >>= fun g0 => addEdge g0 0 1 w) = .ok ⟨2, [[⟨1, w⟩], [⟨0, w⟩]]⟩ := rfl
  rw [this] at h
  cases h
  rfl

theorem maxFlowValue_two_pos (fuel : Nat) (w : Int) (h0 : 0 < w) (h1 : w ≤ 2147483647) :
    maxFlowValue wrapInt32 (fuel + 2) ⟨2, [[⟨1, w⟩], [⟨0, w⟩]]⟩ = .ok w := by
  have hfill : fillResidual ⟨2, [[⟨1, w⟩], [⟨0, w⟩]]⟩ (List.range 2)
      (List.replicate 2 (List.replicate 2 0)) = .ok [[0, w], [w, 0]] := rfl
  unfold maxFlowValue
  simp only [hfill, bind, Except.bind]
  have hb1 : bfs [[0, w], [w, 0]] 0 1 (List.replicate 2 0) 2 = .ok (true, [-1, 0]) := by
    simp [bfs, bfsLoop, bfsScan, matGet, List.range, List.range.loop, h0, bind, Except.bind,
      pure, Except.pure]
  have hmin : min INT_MAX w = w := by unfold INT_MAX; omega
  have hpm : pathMin [[0, w], [w, 0]] [-1, 0] 0 2 ((1 : Nat) : Int) INT_MAX = .ok w := by
    simp [pathMin, matGet, hmin, pure, Except.pure]
  have hw0 : wrapInt32 (w - w) = 0 := by simp [wrapInt32]
  have hpu : pathUpdate wrapInt32 [-1, 0] 0 w 2 ((1 : Nat) : Int) [[0, w], [w, 0]] =
      .ok [[0, 0], [wrapInt32 (w + w), 0]] := by
    have hz : wrapInt32 0 = 0 := by decide
    simp [pathUpdate, matGet, matSet, hz, pure, Except.pure]
  have hb2 : bfs [[0, 0], [wrapInt32 (w + w), 0]] 0 1 [-1, 0] 2 = .ok (false, [-1, 0]) := by
    simp [bfs, bfsLoop, bfsScan, matGet, List.range, List.range.loop, bind, Except.bind,
      pure, Except.pure]
  have hw1 : wrapInt32 (0 + w) = w := by
    rw [zero_add]
    exact wrapInt32_eq w (by omega) (by omega)
  show fordFulkerson wrapInt32 2 0 (2 - 1) (fuel + 2) [[0, w], [w, 0]] (List.replicate 2 0) 0
    = Except.ok w
  rw [fordFulkerson]
  simp only [Nat.reduceSub, hb1, bind, Except.bind, if_true, hpm, hpu, hw1]
  rw [fordFulkerson]
  simp only [hb2, bind, Except.bind]
  rfl

theorem maxFlowValue_two_nonpos (fuel : Nat) (w : Int) (h0 : w ≤ 0) :
    maxFlowValue wrapInt32 (fuel + 1) ⟨2, [[⟨1, w⟩], [⟨0, w⟩]]⟩ = .ok 0 := by
  have hfill : fillResidual ⟨2, [[⟨1, w⟩], [⟨0, w⟩]]⟩ (List.range 2)
      (List.replicate 2 (List.replicate 2 0)) = .ok [[0, w], [w, 0]] := rfl
  unfold maxFlowValue
  simp only [hfill, bind, Except.bind]
  have hw : ¬ (0 < w) := by omega
  have hb1 : bfs [[0, w], [w, 0]] 0 1 (List.replicate 2 0) 2 = .ok (false, [-1, 0]) := by
    simp [bfs, bfsLoop, bfsScan, matGet, List.range, List.range.loop, hw, bind, Except.bind,
      pure, Except.pure]
  show fordFulkerson wrapInt32 2 0 (2 - 1) (fuel + 1) [[0, w], [w, 0]] (List.replicate 2 0) 0
    = Except.ok 0
  rw [fordFulkerson]
  simp only [Nat.reduceSub, hb1, bind, Except.bind]
  rfl


/-! ## Prim's algorithm: `MST_WEIGHT` on a connected graph -/

theorem Joins.reverse {T : Finset (Sym2 Nat)} {u v : Nat} (h : Joins T u v) : Joins T v u := by
  induction h with
  | refl => exact Relation.ReflTransGen.refl
  | tail _ hbc ih => exact Relation.ReflTransGen.head (by rw [Sym2.eq_swap]; exact hbc) ih

theorem Joins.of_edges {T T1 : Finset (Sym2 Nat)} (h : ∀ c d, s(c, d) ∈ T → Joins T1 c d)
    {u v : Nat} (r : Joins T u v) : Joins T1 u v := by
  induction r with
  | refl => exact Relation.ReflTransGen.refl
  | tail _ hbc ih => exact Relation.ReflTransGen.trans ih (h _ _ hbc)

theorem NPath.head_mem {T : Finset (Sym2 Nat)} {x u : Nat} {l : List Nat} (p : NPath T x u l) :
    x ∈ l := by
  cases p with
  | single => exact List.mem_singleton_self _
  | cons => exact List.mem_cons_self _ _

theorem NPath.suffix {T : Finset (Sym2 Nat)} {c u : Nat} {l : List Nat} (p : NPath T c u l)
    (x : Nat) (hx : x ∈ l) : ∃ l1, NPath T x u l1 := by
  induction p with
  | single u =>
    simp only [List.mem_singleton] at hx
    rw [hx]
    exact ⟨[u], NPath.single u⟩
  | cons c y u l hcy p hc ih =>
    rcases List.mem_cons.1 hx with e | hm
    · rw [e]
      exact ⟨c :: l, NPath.cons c y u l hcy p hc⟩
    · exact ih hm

theorem Joins.exists_path {T : Finset (Sym2 Nat)} {x u : Nat} (h : Joins T x u) :
    ∃ l, NPath T x u l := by
  induction h using Relation.ReflTransGen.head_induction_on with
  | refl => exact ⟨[u], NPath.single u⟩
  | @head a c hxc _ ih =>
    obtain ⟨l, p⟩ := ih
    by_cases hm : a ∈ l
    · exact p.suffix a hm
    · exact ⟨a :: l, NPath.cons a c u l hxc p hm⟩

theorem NPath.avoid {T : Finset (Sym2 Nat)} {y u : Nat} {l : List Nat} (p : NPath T y u l)
    (x z : Nat) (hx : ∀ v ∈ l, v ≠ x) : Joins (T.erase s(x, z)) y u := by
  induction p with
  | single u => exact Relation.ReflTransGen.refl
  | cons c d u l hcd p _ ih =>
    have hc : c ≠ x := hx c (List.mem_cons_self _ _)
    have hd : d ≠ x := hx d (List.mem_cons_of_mem _ p.head_mem)
    have hne : s(c, d) ≠ s(x, z) := by
      intro e
      rcases Sym2.eq_iff.1 e with ⟨h, _⟩ | ⟨_, h⟩
      · exact hc h
      · exact hd h
    exact Relation.ReflTransGen.head (Finset.mem_erase.2 ⟨hne, hcd⟩)
      (ih (fun v hv => hx v (List.mem_cons_of_mem _ hv)))

/-- A path from inside `S` to outside `S` has an edge that leaves `S`, and the
two parts of the path around it do without that edge. -/
theorem NPath.crossing {T : Finset (Sym2 Nat)} (S : Nat → Prop) {x u : Nat} {l : List Nat}
    (p : NPath T x u l) (hx : S x) (hu : ¬ S u) :
    ∃ a b, s(a, b) ∈ T ∧ S a ∧ ¬ S b ∧ a ∈ l ∧ b ∈ l ∧
      Joins (T.erase s(a, b)) x a ∧ Joins (T.erase s(a, b)) b u := by
  induction p with
  | single u => exact absurd hx hu
  | cons x y u l hxy p hxl ih =>
    by_cases hy : S y
    · obtain ⟨a, b, hab, ha, hb, hal, hbl, j1, j2⟩ := ih hy hu
      refine ⟨a, b, hab, ha, hb, List.mem_cons_of_mem _ hal, List.mem_cons_of_mem _ hbl, ?_, j2⟩
      have hne : s(x, y) ≠ s(a, b) := by
        intro e
        rcases Sym2.eq_iff.1 e with ⟨h, _⟩ | ⟨h, _⟩
        · exact hxl (h ▸ hal)
        · exact hxl (h ▸ hbl)
      exact Relation.ReflTransGen.head (Finset.mem_erase.2 ⟨hne, hxy⟩) j1
    · refine ⟨x, y, hxy, hx, hy, List.mem_cons_self _ _,
        List.mem_cons_of_mem _ p.head_mem, Relation.ReflTransGen.refl, ?_⟩
      exact p.avoid x y (fun v hv e => hxl (e ▸ hv))

theorem edgeWeight_mk (g : Graph) (a b : Nat) : edgeWeight g s(a, b) = pairWeight g a b := rfl

/-- The exchange step: a spanning tree that contains the edges `F` chosen
inside `S` can be changed into one that also contains a lightest edge leaving
`S`, without gaining weight. -/
theorem IsSpanningTree.exchange {g : Graph} (hg : WF g) {T F : Finset (Sym2 Nat)}
    (hT : IsSpanningTree g T) (S : Nat → Prop) (hF : F ⊆ T)
    (hFS : ∀ e ∈ F, ∀ a ∈ e, S a) {x u : Nat} (hx : S x) (hu : ¬ S u)
    (hxu : u ∈ dests g x)
    (hmin : ∀ a b, S a → ¬ S b → b ∈ dests g a → pairWeight g x u ≤ pairWeight g a b) :
    ∃ T1, IsSpanningTree g T1 ∧ insert s(x, u) F ⊆ T1 ∧ treeWeight g T1 ≤ treeWeight g T := by
  by_cases he : s(x, u) ∈ T
  · refine ⟨T, hT, ?_, le_refl _⟩
    intro e h
    rcases Finset.mem_insert.1 h with h | h
    · rw [h]
      exact he
    · exact hF h
  · have hxn : x < g.numVertices := hg.range _ _ (hg.symm _ _ hxu)
    have hun : u < g.numVertices := hg.range _ _ hxu
    obtain ⟨l, p⟩ := (hT.joins x u hxn hun).exists_path
    obtain ⟨a, b, hab, ha, hb, _, _, j1, j2⟩ := p.crossing S hx hu
    have hsub : T.erase s(a, b) ⊆ insert s(x, u) (T.erase s(a, b)) := Finset.subset_insert _ _
    have hmono : ∀ {c d : Nat}, Joins (T.erase s(a, b)) c d →
        Joins (insert s(x, u) (T.erase s(a, b))) c d :=
      fun r => Joins.of_edges (fun c d h => Relation.ReflTransGen.single (hsub h)) r
    have hjab : Joins (insert s(x, u) (T.erase s(a, b))) a b :=
      Relation.ReflTransGen.trans (hmono j1.reverse)
        (Relation.ReflTransGen.head (Finset.mem_insert_self _ _) (hmono j2.reverse))
    have hgab : b ∈ dests g a := by
      obtain ⟨c, d, e, hcd⟩ := hT.edges _ hab
      rcases Sym2.eq_iff.1 e with ⟨h1, h2⟩ | ⟨h1, h2⟩
      · rw [h1, h2]
        exact hcd
      · rw [h1, h2]
        exact hg.symm _ _ hcd
    refine ⟨insert s(x, u) (T.erase s(a, b)), ⟨?_, ?_, ?_⟩, ?_, ?_⟩
    · intro e h
      rcases Finset.mem_insert.1 h with h | h
      · exact ⟨x, u, h, hxu⟩
      · exact hT.edges e (Finset.mem_of_mem_erase h)
    · rw [Finset.card_insert_of_not_mem (fun h => he (Finset.mem_of_mem_erase h)),
        Finset.card_erase_of_mem hab, ← hT.card]
      have := Finset.card_pos.2 ⟨_, hab⟩
      omega
    · intro p q hp hq
      refine Joins.of_edges ?_ (hT.joins p q hp hq)
      intro c d hcd
      by_cases e : s(c, d) = s(a, b)
      · rcases Sym2.eq_iff.1 e with ⟨h1, h2⟩ | ⟨h1, h2⟩
        · rw [h1, h2]
          exact hjab
        · rw [h1, h2]
          exact hjab.reverse
      · exact Relation.ReflTransGen.single
          (Finset.mem_insert_of_mem (Finset.mem_erase.2 ⟨e, hcd⟩))
    · intro e h
      rcases Finset.mem_insert.1 h with h | h
      · rw [h]
        exact Finset.mem_insert_self _ _
      · refine Finset.mem_insert_of_mem (Finset.mem_erase.2 ⟨?_, hF h⟩)
        intro e1
        exact hb (hFS e h b (by rw [e1]; exact Sym2.mem_mk_right a b))
    · unfold treeWeight
      rw [Finset.sum_insert (fun h => he (Finset.mem_of_mem_erase h)),
        ← Finset.add_sum_erase T (edgeWeight g) hab, edgeWeight_mk, edgeWeight_mk]
      have := hmin a b ha hb hgab
      omega

theorem mem_pqPush (x z : Int × Nat) (l : List (Int × Nat)) :
    z ∈ pqPush x l ↔ z = x ∨ z ∈ l := by
  induction l with
  | nil => simp [pqPush]
  | cons y rest ih =>
    unfold pqPush
    split
    · simp
    · simp only [List.mem_cons, ih]
      tauto

theorem length_pqPush (x : Int × Nat) (l : List (Int × Nat)) :
    (pqPush x l).length = l.length + 1 := by
  induction l with
  | nil => rfl
  | cons y rest ih =>
    unfold pqPush
    split
    · rfl
    · simp [ih]

theorem sorted_pqPush (x : Int × Nat) (l : List (Int × Nat))
    (h : l.Pairwise (fun a b => a.1 ≤ b.1)) : (pqPush x l).Pairwise (fun a b => a.1 ≤ b.1) := by
  induction l with
  | nil => simp [pqPush]
  | cons y rest ih =>
    rw [List.pairwise_cons] at h
    unfold pqPush
    by_cases hle : pairLe x y = true
    · rw [if_pos hle]
      have hxy : x.1 ≤ y.1 := by
        unfold pairLe at hle
        simp only [Bool.or_eq_true, Bool.and_eq_true, decide_eq_true_eq] at hle
        omega
      refine List.pairwise_cons.2 ⟨?_, List.pairwise_cons.2 h⟩
      intro z hz
      rcases List.mem_cons.1 hz with e | hz
      · rw [e]
        exact hxy
      · exact le_trans hxy (h.1 z hz)
    · rw [if_neg hle]
      have hyx : y.1 ≤ x.1 := by
        unfold pairLe at hle
        simp only [Bool.or_eq_true, Bool.and_eq_true, decide_eq_true_eq, not_or, not_and] at hle
        omega
      refine List.pairwise_cons.2 ⟨?_, ih h.2⟩
      intro z hz
      rcases (mem_pqPush x z rest).1 hz with e | hz
      · rw [e]
        exact hyx
      · exact h.1 z hz

theorem getD_set_int (l : List Int) (v : Nat) (w : Int) (x : Nat) :
    (l.set v w).getD x 0 = if x = v ∧ v < l.length then w else l.getD x 0 := by
  simp only [List.getD_eq_getElem?_getD, List.getElem?_set]
  by_cases h : v = x
  · subst h
    by_cases hv : v < l.length
    · simp [hv]
    · simp [hv]
      rw [List.getElem?_eq_none (by omega)]
      rfl
  · have h2 : ¬ x = v := fun e => h e.symm
    simp [h, h2]

theorem findWeight_of_mem {g : Graph} (hg : WF g) {u : Nat} {nb : Neighbor}
    (h : nb ∈ adj g u) : findWeight (adj g u) nb.dest = some nb.weight :=
  (findWeight_eq_some (adj g u) (hg.nodup u) nb.dest nb.weight).2 h

theorem mem_of_findWeight {g : Graph} (hg : WF g) {a b : Nat} {w : Int}
    (h : findWeight (adj g a) b = some w) : (⟨b, w⟩ : Neighbor) ∈ adj g a :=
  (findWeight_eq_some (adj g a) (hg.nodup a) b w).1 h

theorem mem_dests_of_findWeight {g : Graph} (hg : WF g) {a b : Nat} {w : Int}
    (h : findWeight (adj g a) b = some w) : b ∈ dests g a :=
  List.mem_map_of_mem (fun nb => nb.dest) (mem_of_findWeight hg h)

theorem weight_lt_of_mem {g : Graph} (hw : ∀ l ∈ g.adjList, ∀ nb ∈ l, nb.weight < INT_MAX)
    {u : Nat} {nb : Neighbor} (h : nb ∈ adj g u) : nb.weight < INT_MAX := by
  unfold adj at h
  rw [List.getD_eq_getElem?_getD] at h
  by_cases hu : u < g.adjList.length
  · rw [List.getElem?_eq_getElem hu] at h
    exact hw _ (List.getElem_mem _) nb h
  · rw [List.getElem?_eq_none (by omega)] at h
    exact absurd h (List.not_mem_nil _)

/-- The inner loop of Prim's algorithm keeps `ScanInv` and pushes at most one
pair for each list node. -/
theorem primScan_spec {g : Graph} (hg : WF g)
    (hw : ∀ l ∈ g.adjList, ∀ nb ∈ l, nb.weight < INT_MAX) (u : Nat) :
    ∀ (l : List Neighbor) (st : PrimState), (∀ nb ∈ l, nb ∈ adj g u) →
      st.visited.getD u false = true → ScanInv g u st l →
      ScanInv g u (primScan st l) [] ∧ (primScan st l).visited = st.visited ∧
        (primScan st l).mstWeight = st.mstWeight ∧
        (primScan st l).pq.length ≤ st.pq.length + l.length := by
  intro l
  induction l with
  | nil =>
    intro st _ _ h
    exact ⟨h, rfl, rfl, le_refl _⟩
  | cons cur rest ih =>
    intro st hl hu h
    have hcur := hl cur (List.mem_cons_self _ _)
    have hrest : ∀ nb ∈ rest, nb ∈ adj g u := fun nb hnb => hl nb (List.mem_cons_of_mem _ hnb)
    have hfw := findWeight_of_mem hg hcur
    have hvn : cur.dest < g.numVertices := hg.range _ _ (List.mem_map_of_mem _ hcur)
    have hwlt := weight_lt_of_mem hw hcur
    by_cases hc : (!(st.visited.getD cur.dest false) &&
        decide (cur.weight < st.key.getD cur.dest 0)) = true
    · have heq : primScan st (cur :: rest) = primScan (PrimState.mk st.visited
          (st.key.set cur.dest cur.weight) (pqPush (cur.weight, cur.dest) st.pq) st.mstWeight)
          rest := by
        rw [primScan]
        exact if_pos hc
      rw [heq]
      simp only [Bool.and_eq_true, Bool.not_eq_true', decide_eq_true_eq] at hc
      have hinv : ScanInv g u (PrimState.mk st.visited
          (st.key.set cur.dest cur.weight) (pqPush (cur.weight, cur.dest) st.pq) st.mstWeight)
          rest := by
        refine ⟨h.vlen, by simp [h.klen], sorted_pqPush _ _ h.sorted, ?_, ?_, ?_⟩
        · intro w v hm hv
          rcases (mem_pqPush _ _ _).1 hm with e | hm
          · simp only [Prod.mk.injEq] at e
            rw [e.1, e.2]
            exact ⟨u, hu, hfw⟩
          · exact h.sound w v hm hv
        · intro a b w ha hb hab
          rcases h.complete a b w ha hb hab with ⟨hau, nb, hnb, hd⟩ | ⟨w1, h1, h2⟩
          · rcases List.mem_cons.1 hnb with e | hnb
            · right
              refine ⟨cur.weight, ?_, (mem_pqPush _ _ _).2 (Or.inl ?_)⟩
              · rw [hau, ← hd, e, hfw] at hab
                simp only [Option.some.injEq] at hab
                omega
              · rw [← hd, e]
            · exact Or.inl ⟨hau, nb, hnb, hd⟩
          · exact Or.inr ⟨w1, h1, (mem_pqPush _ _ _).2 (Or.inr h2)⟩
        · intro v hv hvis
          show (st.key.set cur.dest cur.weight).getD v 0 = INT_MAX ∨
            ((st.key.set cur.dest cur.weight).getD v 0, v) ∈ pqPush (cur.weight, cur.dest) st.pq
          rw [getD_set_int]
          by_cases e : v = cur.dest
          · rw [if_pos ⟨e, by rw [h.klen]; exact hvn⟩]
            right
            rw [e]
            exact (mem_pqPush _ _ _).2 (Or.inl rfl)
          · rw [if_neg (fun c => e c.1)]
            rcases h.key v hv hvis with h1 | h1
            · exact Or.inl h1
            · exact Or.inr ((mem_pqPush _ _ _).2 (Or.inr h1))
      obtain ⟨r1, r2, r3, r4⟩ := ih (PrimState.mk st.visited
          (st.key.set cur.dest cur.weight) (pqPush (cur.weight, cur.dest) st.pq) st.mstWeight)
          hrest hu hinv
      refine ⟨r1, r2, r3, ?_⟩
      refine le_trans r4 ?_
      show (pqPush (cur.weight, cur.dest) st.pq).length + rest.length ≤ _
      rw [length_pqPush, List.length_cons]
      omega
    · have heq : primScan st (cur :: rest) = primScan st rest := by
        rw [primScan]
        exact if_neg hc
      rw [heq]
      have hinv : ScanInv g u st rest := by
        refine ⟨h.vlen, h.klen, h.sorted, h.sound, ?_, h.key⟩
        intro a b w ha hb hab
        rcases h.complete a b w ha hb hab with ⟨hau, nb, hnb, hd⟩ | h1
        · rcases List.mem_cons.1 hnb with e | hnb
          · right
            rw [e] at hd
            rw [hau, ← hd, hfw] at hab
            simp only [Option.some.injEq] at hab
            rw [← hd] at hb
            have hk : ¬ cur.weight < st.key.getD cur.dest 0 := by
              intro hlt
              apply hc
              rw [hb, decide_eq_true hlt]
              rfl
            rcases h.key cur.dest hvn hb with h1 | h1
            · omega
            · rw [← hd]
              exact ⟨st.key.getD cur.dest 0, by omega, h1⟩
          · exact Or.inl ⟨hau, nb, hnb, hd⟩
        · exact Or.inr h1
      obtain ⟨r1, r2, r3, r4⟩ := ih st hrest hu hinv
      refine ⟨r1, r2, r3, le_trans r4 ?_⟩
      rw [List.length_cons]
      omega

theorem count_true_set (vis : List Bool) (v : Nat) (hv : v < vis.length)
    (h : vis.getD v false = false) :
    (vis.set v true).count true = vis.count true + 1 := by
  induction vis generalizing v with
  | nil => simp at hv
  | cons b rest ih =>
    cases v with
    | zero =>
      simp at h
      subst h
      simp
    | succ v =>
      simp at hv h
      have := ih v hv (by simpa using h)
      cases b <;> simp [List.count_cons] <;> omega

theorem count_true_eq_length (vis : List Bool) (h : ∀ v, v < vis.length → vis.getD v false = true) :
    vis.count true = vis.length := by
  rw [List.count_eq_length]
  intro b hb
  obtain ⟨i, hi, e⟩ := List.getElem_of_mem hb
  have := h i hi
  rw [List.getD_eq_getElem?_getD, List.getElem?_eq_getElem hi] at this
  simp only [Option.getD_some] at this
  rw [← e, this]

theorem unvisited_sum_set (g : Graph) (vis : List Bool) (u : Nat) (hu : u < g.numVertices)
    (hlen : vis.length = g.numVertices) (h : vis.getD u false = false) :
    (∑ v ∈ Finset.range g.numVertices,
        if (vis.set u true).getD v false then 0 else (dests g v).length) + (dests g u).length =
      ∑ v ∈ Finset.range g.numVertices, if vis.getD v false then 0 else (dests g v).length := by
  have hm : u ∈ Finset.range g.numVertices := Finset.mem_range.2 hu
  rw [← Finset.add_sum_erase _ _ hm, ← Finset.add_sum_erase _ (fun v =>
    if vis.getD v false then 0 else (dests g v).length) hm]
  have h1 : (vis.set u true).getD u false = true := by
    rw [getD_set_true, if_pos ⟨rfl, by omega⟩]
  have h2 : ∀ v ∈ (Finset.range g.numVertices).erase u,
      (if (vis.set u true).getD v false then 0 else (dests g v).length) =
        if vis.getD v false then 0 else (dests g v).length := by
    intro v hv
    have e : (vis.set u true).getD v false = vis.getD v false := by
      rw [getD_set_true]
      exact if_neg (fun c => (Finset.mem_erase.1 hv).1 c.1)
    rw [e]
  rw [Finset.sum_congr rfl h2]
  simp only [h1, h, if_true, Bool.false_eq_true, if_false]
  omega

theorem pairWeight_eq {g : Graph} (hsym : ∀ a b, findWeight (adj g a) b = findWeight (adj g b) a)
    {a b : Nat} {w : Int} (h : findWeight (adj g a) b = some w) : pairWeight g a b = w := by
  unfold pairWeight
  rcases le_total a b with hab | hab
  · rw [min_eq_left hab, max_eq_right hab, h]
    rfl
  · rw [min_eq_right hab, max_eq_left hab, hsym, h]
    rfl

theorem exists_findWeight {g : Graph} {a b : Nat} (h : b ∈ dests g a) :
    ∃ w, findWeight (adj g a) b = some w := by
  cases hf : findWeight (adj g a) b with
  | none => exact absurd h ((findWeight_eq_none _ _).1 hf)
  | some w => exact ⟨w, rfl⟩

theorem ScanInv.at_vertex {g : Graph} {u : Nat} {st : PrimState} (h : ScanInv g u st [])
    (u1 : Nat) : ScanInv g u1 st [] := by
  refine ⟨h.vlen, h.klen, h.sorted, h.sound, ?_, h.key⟩
  intro a b w ha hb hab
  rcases h.complete a b w ha hb hab with ⟨_, nb, hnb, _⟩ | h1
  · exact absurd hnb (List.not_mem_nil _)
  · exact Or.inr h1

/-- Popping a pair whose vertex is already visited. -/
theorem PrimInv.stale {g : Graph} {vis : List Bool} {key : List Int} {w : Int} {u : Nat}
    {rest : List (Int × Nat)} {mw : Int} (h : PrimInv g ⟨vis, key, (w, u) :: rest, mw⟩)
    (hu : vis.getD u false = true) : PrimInv g ⟨vis, key, rest, mw⟩ := by
  have hne : ∀ w1 b, vis.getD b false = false → (w1, b) ∈ (w, u) :: rest → (w1, b) ∈ rest := by
    intro w1 b hb hm
    rcases List.mem_cons.1 hm with e | hm
    · simp only [Prod.mk.injEq] at e
      rw [e.2, hu] at hb
      cases hb
    · exact hm
  refine ⟨⟨h.scan.vlen, h.scan.klen, (List.pairwise_cons.1 h.scan.sorted).2, ?_, ?_, ?_⟩,
    h.zero, h.tree⟩
  · intro w1 v hm hv
    exact h.scan.sound w1 v (List.mem_cons_of_mem _ hm) hv
  · intro a b w1 ha hb hab
    rcases h.scan.complete a b w1 ha hb hab with ⟨_, nb, hnb, _⟩ | ⟨w2, h1, h2⟩
    · exact absurd hnb (List.not_mem_nil _)
    · exact Or.inr ⟨w2, h1, hne w2 b hb h2⟩
  · intro v hv hvis
    rcases h.scan.key v hv hvis with h1 | h1
    · exact Or.inl h1
    · exact Or.inr (hne _ v hvis h1)

/-- Popping a pair whose vertex is not yet visited: the vertex is visited by a
lightest edge that leaves the visited set. -/
theorem PrimInv.fresh {g : Graph} (hg : WF g)
    (hsym : ∀ a b, findWeight (adj g a) b = findWeight (adj g b) a)
    (hw : ∀ l ∈ g.adjList, ∀ nb ∈ l, nb.weight < INT_MAX)
    {vis : List Bool} {key : List Int} {w : Int} {u : Nat}
    {rest : List (Int × Nat)} {mw : Int} (h : PrimInv g ⟨vis, key, (w, u) :: rest, mw⟩)
    (hu : vis.getD u false = false) :
    u < g.numVertices ∧
      PrimInv g (primScan ⟨vis.set u true, key, rest, mw + w⟩ (adj g u)) ∧
      primMeasure g (primScan ⟨vis.set u true, key, rest, mw + w⟩ (adj g u)) <
        primMeasure g ⟨vis, key, (w, u) :: rest, mw⟩ := by
  obtain ⟨x, hx, hxu⟩ := h.scan.sound w u (List.mem_cons_self _ _) hu
  have hxud : u ∈ dests g x := mem_dests_of_findWeight hg hxu
  have hun : u < g.numVertices := hg.range _ _ hxud
  have hvlen : vis.length = g.numVertices := h.scan.vlen
  have hset : (vis.set u true).getD u false = true := by
    rw [getD_set_true, if_pos ⟨rfl, by omega⟩]
  have hmono : ∀ v, vis.getD v false = true → (vis.set u true).getD v false = true := by
    intro v hv
    rw [getD_set_true]
    split
    · rfl
    · exact hv
  have hold : ∀ v, (vis.set u true).getD v false = false → vis.getD v false = false ∧ v ≠ u := by
    intro v hv
    rw [getD_set_true] at hv
    by_cases e : v = u
    · rw [if_pos ⟨e, by omega⟩] at hv
      cases hv
    · rw [if_neg (fun c => e c.1)] at hv
      exact ⟨hv, e⟩
  have hnew : ∀ v, (vis.set u true).getD v false = true → v = u ∨ vis.getD v false = true := by
    intro v hv
    rw [getD_set_true] at hv
    by_cases e : v = u
    · exact Or.inl e
    · rw [if_neg (fun c => e c.1)] at hv
      exact Or.inr hv
  have hne : ∀ w1 b, b ≠ u → (w1, b) ∈ (w, u) :: rest → (w1, b) ∈ rest := by
    intro w1 b hb hm
    rcases List.mem_cons.1 hm with e | hm
    · simp only [Prod.mk.injEq] at e
      exact absurd e.2 hb
    · exact hm
  -- the invariant of the scan before its first step
  have hscan0 : ScanInv g u ⟨vis.set u true, key, rest, mw + w⟩ (adj g u) := by
    refine ⟨by simp [hvlen], h.scan.klen, (List.pairwise_cons.1 h.scan.sorted).2, ?_, ?_, ?_⟩
    · intro w1 v hm hv
      obtain ⟨hv1, _⟩ := hold v hv
      obtain ⟨y, hy, hyv⟩ := h.scan.sound w1 v (List.mem_cons_of_mem _ hm) hv1
      exact ⟨y, hmono y hy, hyv⟩
    · intro a b w1 ha hb hab
      obtain ⟨hb1, hbu⟩ := hold b hb
      rcases hnew a ha with e | ha1
      · exact Or.inl ⟨e, ⟨b, w1⟩, mem_of_findWeight hg (e ▸ hab), rfl⟩
      · rcases h.scan.complete a b w1 ha1 hb1 hab with ⟨_, nb, hnb, _⟩ | ⟨w2, h1, h2⟩
        · exact absurd hnb (List.not_mem_nil _)
        · exact Or.inr ⟨w2, h1, hne w2 b hbu h2⟩
    · intro v hv hvis
      obtain ⟨hv1, hvu⟩ := hold v hvis
      rcases h.scan.key v hv hv1 with h1 | h1
      · exact Or.inl h1
      · exact Or.inr (hne _ v hvu h1)
  obtain ⟨r1, r2, r3, r4⟩ := primScan_spec hg hw u (adj g u)
    ⟨vis.set u true, key, rest, mw + w⟩ (fun _ h => h) hset hscan0
  have r2 : (primScan ⟨vis.set u true, key, rest, mw + w⟩ (adj g u)).visited = vis.set u true := r2
  have r3 : (primScan ⟨vis.set u true, key, rest, mw + w⟩ (adj g u)).mstWeight = mw + w := r3
  have r4 : (primScan ⟨vis.set u true, key, rest, mw + w⟩ (adj g u)).pq.length ≤
      rest.length + (adj g u).length := r4
  have hx : vis.getD x false = true := hx
  refine ⟨hun, ⟨r1.at_vertex 0, ?_, ?_⟩, ?_⟩
  · rw [r2]
    exact hmono 0 h.zero
  · -- the chosen edges
    obtain ⟨F, hF1, hF2, hF3, hF4, hF5⟩ := h.tree
    have hxuw : pairWeight g x u = w := pairWeight_eq hsym hxu
    have hFS : ∀ e ∈ F, ∀ a ∈ e, vis.getD a false = true := by
      intro e he a ha
      obtain ⟨c, d, e1, _, hc, hd⟩ := hF1 e he
      rw [e1] at ha
      rcases Sym2.mem_iff.1 ha with e2 | e2
      · rw [e2]
        exact hc
      · rw [e2]
        exact hd
    have hnot : s(x, u) ∉ F := by
      intro hm
      have := hFS _ hm u (Sym2.mem_mk_right x u)
      rw [hu] at this
      cases this
    have hmin : ∀ a b, vis.getD a false = true → ¬ vis.getD b false = true → b ∈ dests g a →
        pairWeight g x u ≤ pairWeight g a b := by
      intro a b ha hb hab
      obtain ⟨w1, hw1⟩ := exists_findWeight hab
      rw [hxuw, pairWeight_eq hsym hw1]
      rcases h.scan.complete a b w1 ha (by simpa using hb) hw1 with ⟨_, nb, hnb, _⟩ | ⟨w2, h1, h2⟩
      · exact absurd hnb (List.not_mem_nil _)
      · rcases List.mem_cons.1 h2 with e | hm
        · simp only [Prod.mk.injEq] at e
          omega
        · have := (List.pairwise_cons.1 h.scan.sorted).1 (w2, b) hm
          simp only at this
          omega
    refine ⟨insert s(x, u) F, ?_, ?_, ?_, ?_, ?_⟩
    · intro e he
      rw [r2]
      rcases Finset.mem_insert.1 he with e1 | he
      · exact ⟨x, u, e1, hxud, hmono x hx, hset⟩
      · obtain ⟨c, d, e1, hcd, hc, hd⟩ := hF1 e he
        exact ⟨c, d, e1, hcd, hmono c hc, hmono d hd⟩
    · rw [r2, Finset.card_insert_of_not_mem hnot, count_true_set vis u (by omega) hu, hF2]
    · rw [r3]
      show mw + w = treeWeight g (insert s(x, u) F)
      unfold treeWeight
      rw [Finset.sum_insert hnot, edgeWeight_mk, hxuw]
      have : mw = treeWeight g F := hF3
      unfold treeWeight at this
      omega
    · intro v hv
      rw [r2] at hv
      have hsub : ∀ c d, s(c, d) ∈ F → Joins (insert s(x, u) F) c d :=
        fun c d hcd => Relation.ReflTransGen.single (Finset.mem_insert_of_mem hcd)
      rcases hnew v hv with e | hv1
      · rw [e]
        exact Relation.ReflTransGen.tail (Joins.of_edges hsub (hF4 x hx))
          (Finset.mem_insert_self _ _)
      · exact Joins.of_edges hsub (hF4 v hv1)
    · intro T hT
      obtain ⟨T1, hT1, hsub, hle⟩ := hF5 T hT
      obtain ⟨T2, hT2, hsub2, hle2⟩ := hT1.exchange hg (fun v => vis.getD v false = true)
        hsub hFS hx (by show ¬ vis.getD u false = true; rw [hu]; simp) hxud hmin
      exact ⟨T2, hT2, hsub2, le_trans hle2 hle⟩
  · unfold primMeasure
    rw [r2]
    have := unvisited_sum_set g vis u hun hvlen hu
    have hdl : (adj g u).length = (dests g u).length := by simp [dests]
    simp only [List.length_cons] at r4 ⊢
    omega

/-- The loop of Prim's algorithm, entered with the invariant and fuel for the
iterations left, returns with the invariant and an empty queue. -/
theorem primLoop_spec {g : Graph} (hg : WF g)
    (hsym : ∀ a b, findWeight (adj g a) b = findWeight (adj g b) a)
    (hw : ∀ l ∈ g.adjList, ∀ nb ∈ l, nb.weight < INT_MAX) :
    ∀ (fuel : Nat) (st : PrimState), PrimInv g st → primMeasure g st ≤ fuel →
      ∃ st1, primLoop id g fuel st = .ok st1 ∧ PrimInv g st1 ∧ st1.pq = [] := by
  intro fuel
  induction fuel with
  | zero =>
    intro st h hm
    obtain ⟨vis, key, pq, mw⟩ := st
    have hpq : pq = [] := by
      unfold primMeasure at hm
      simp only at hm
      exact List.length_eq_zero.1 (by omega)
    subst hpq
    exact ⟨_, rfl, h, rfl⟩
  | succ fuel ih =>
    intro st h hm
    obtain ⟨vis, key, pq, mw⟩ := st
    cases pq with
    | nil => exact ⟨_, rfl, h, rfl⟩
    | cons top rest =>
      obtain ⟨w, u⟩ := top
      by_cases hu : vis.getD u false = true
      · have hm1 : primMeasure g ⟨vis, key, rest, mw⟩ ≤ fuel := by
          unfold primMeasure at hm ⊢
          simp only [List.length_cons] at hm ⊢
          omega
        obtain ⟨st1, e1, h1, h2⟩ := ih _ (h.stale hu) hm1
        refine ⟨st1, ?_, h1, h2⟩
        rw [primLoop]
        simp only [hu, if_true]
        exact e1
      · have hu2 : vis.getD u false = false := by simpa using hu
        obtain ⟨hun, hinv, hlt⟩ := h.fresh hg hsym hw hu2
        obtain ⟨st1, e1, h1, h2⟩ := ih _ hinv (by omega)
        refine ⟨st1, ?_, h1, h2⟩
        rw [primLoop]
        simp only [hu2, Bool.false_eq_true, if_false]
        rw [getNeighbors_cast g u hun]
        exact e1

theorem getD_replicate_int (n v : Nat) (hv : v < n) (x : Int) :
    (List.replicate n x).getD v 0 = x := by
  rw [List.getD_eq_getElem?_getD, List.getElem?_eq_getElem (by simpa using hv)]
  simp

/-- The loop of `MSTWeightAlgorithm::execute` on a graph with the invariants:
it returns with an empty queue and the loop invariant. -/
theorem mstRun_inv {g : Graph} (hg : WF g) (hn : 0 < g.numVertices)
    (hsym : ∀ a b, findWeight (adj g a) b = findWeight (adj g b) a)
    (hw : ∀ l ∈ g.adjList, ∀ nb ∈ l, nb.weight < INT_MAX) :
    ∃ st, mstRun id g = .ok st ∧ PrimInv g st ∧ st.pq = [] := by
  have hv0 : (List.replicate g.numVertices false).getD 0 false = false :=
    getD_replicate_false _ _
  have hset : ((List.replicate g.numVertices false).set 0 true).getD 0 false = true := by
    rw [getD_set_true, if_pos ⟨rfl, by simpa using hn⟩]
  have honly : ∀ v, ((List.replicate g.numVertices false).set 0 true).getD v false = true →
      v = 0 := by
    intro v hv
    rw [getD_set_true] at hv
    by_contra e
    rw [if_neg (fun c => e c.1), getD_replicate_false] at hv
    cases hv
  have hscan0 : ScanInv g 0 ⟨(List.replicate g.numVertices false).set 0 true,
      (List.replicate g.numVertices INT_MAX).set 0 0, [], 0 + 0⟩ (adj g 0) := by
    refine ⟨by simp, by simp, List.Pairwise.nil, ?_, ?_, ?_⟩
    · intro w v hm
      exact absurd hm (List.not_mem_nil _)
    · intro a b w ha _ hab
      have e := honly a ha
      exact Or.inl ⟨e, ⟨b, w⟩, mem_of_findWeight hg (e ▸ hab), rfl⟩
    · intro v hv hvis
      left
      show ((List.replicate g.numVertices INT_MAX).set 0 0).getD v 0 = INT_MAX
      have hv0 : v ≠ 0 := by
        intro e
        rw [e, hset] at hvis
        cases hvis
      rw [getD_set_int, if_neg (fun c => hv0 c.1), getD_replicate_int _ _ hv]
  obtain ⟨r1, r2, r3, r4⟩ := primScan_spec hg hw 0 (adj g 0) _ (fun _ h => h) hset hscan0
  have r2 : (primScan ⟨(List.replicate g.numVertices false).set 0 true,
      (List.replicate g.numVertices INT_MAX).set 0 0, [], 0 + 0⟩ (adj g 0)).visited =
      (List.replicate g.numVertices false).set 0 true := r2
  have r3 : (primScan ⟨(List.replicate g.numVertices false).set 0 true,
      (List.replicate g.numVertices INT_MAX).set 0 0, [], 0 + 0⟩ (adj g 0)).mstWeight = 0 := r3
  have r4 : (primScan ⟨(List.replicate g.numVertices false).set 0 true,
      (List.replicate g.numVertices INT_MAX).set 0 0, [], 0 + 0⟩ (adj g 0)).pq.length ≤
      (adj g 0).length := by simpa using r4
  have hinv : PrimInv g (primScan ⟨(List.replicate g.numVertices false).set 0 true,
      (List.replicate g.numVertices INT_MAX).set 0 0, [], 0 + 0⟩ (adj g 0)) := by
    refine ⟨r1, by rw [r2]; exact hset, ∅, ?_, ?_, ?_, ?_, ?_⟩
    · intro e he
      exact absurd he (Finset.not_mem_empty _)
    · rw [r2, count_true_set _ 0 (by simpa using hn) hv0]
      have : List.count true (List.replicate g.numVertices false) = 0 :=
        List.count_eq_zero.2 (fun hm => by cases (List.eq_of_mem_replicate hm))
      rw [this]
      rfl
    · rw [r3]
      rfl
    · intro v hv
      rw [r2] at hv
      rw [honly v hv]
      exact Relation.ReflTransGen.refl
    · intro T hT
      exact ⟨T, hT, Finset.empty_subset _, le_refl _⟩
  have hmeasure : primMeasure g (primScan ⟨(List.replicate g.numVertices false).set 0 true,
      (List.replicate g.numVertices INT_MAX).set 0 0, [], 0 + 0⟩ (adj g 0)) ≤ numNodes g + 1 := by
    unfold primMeasure
    rw [r2, numNodes_eq_degSum]
    unfold degSum
    have h1 := unvisited_sum_set g (List.replicate g.numVertices false) 0 hn (by simp) hv0
    have h2 : (∑ v ∈ Finset.range g.numVertices,
        if (List.replicate g.numVertices false).getD v false then 0 else (dests g v).length) =
        ∑ v ∈ Finset.range g.numVertices, (dests g v).length := by
      apply Finset.sum_congr rfl
      intro v _
      rw [getD_replicate_false]
      rfl
    have hdl : (adj g 0).length = (dests g 0).length := by simp [dests]
    omega
  obtain ⟨st1, e1, h1, h2⟩ := primLoop_spec hg hsym hw (numNodes g + 1) _ hinv hmeasure
  refine ⟨st1, ?_, h1, h2⟩
  unfold mstRun primInit
  rw [primLoop]
  simp only [hv0, Bool.false_eq_true, if_false]
  rw [show ((0 : Nat) : Int) = 0 from rfl] at *
  have hnb := getNeighbors_cast g 0 hn
  simp only [Nat.cast_zero] at hnb
  rw [hnb]
  exact e1

/-- When the queue is empty no edge leaves the visited vertices. -/
theorem PrimInv.no_exit {g : Graph} {st : PrimState} (h : PrimInv g st) (hpq : st.pq = [])
    {a b : Nat} (ha : st.visited.getD a false = true) (hab : b ∈ dests g a) :
    st.visited.getD b false = true := by
  by_contra hb
  obtain ⟨w, hw⟩ := exists_findWeight hab
  rcases h.scan.complete a b w ha (by simpa using hb) hw with ⟨_, nb, hnb, _⟩ | ⟨w1, _, hm⟩
  · exact absurd hnb (List.not_mem_nil _)
  · rw [hpq] at hm
    exact absurd hm (List.not_mem_nil _)

/-- Prim's algorithm on a connected graph: `mstWeight` is the weight of a
spanning tree and no spanning tree weighs less, and every vertex is visited. -/
theorem mstRun_spec {g : Graph} (hg : WF g) (hn : 0 < g.numVertices)
    (hsym : ∀ a b, findWeight (adj g a) b = findWeight (adj g b) a)
    (hw : ∀ l ∈ g.adjList, ∀ nb ∈ l, nb.weight < INT_MAX)
    (hconn : ∀ u v, u < g.numVertices → v < g.numVertices → Reach g u v) :
    ∃ st T, mstRun id g = .ok st ∧ IsSpanningTree g T ∧ st.mstWeight = treeWeight g T ∧
      (∀ T1, IsSpanningTree g T1 → treeWeight g T ≤ treeWeight g T1) ∧
      (∀ v, v < g.numVertices → st.visited.getD v false = true) := by
  obtain ⟨st, hrun, hinv, hpq⟩ := mstRun_inv hg hn hsym hw
  have hreach : ∀ v, Reach g 0 v → st.visited.getD v false = true := by
    intro v r
    induction r with
    | refl => exact hinv.zero
    | tail _ hbc ih => exact hinv.no_exit hpq ih hbc
  have hall : ∀ v, v < g.numVertices → st.visited.getD v false = true :=
    fun v hv => hreach v (hconn 0 v hn hv)
  obtain ⟨F, hF1, hF2, hF3, hF4, hF5⟩ := hinv.tree
  have hcount : st.visited.count true = g.numVertices := by
    rw [count_true_eq_length, hinv.scan.vlen]
    intro v hv
    exact hall v (by rw [← hinv.scan.vlen]; exact hv)
  have htree : IsSpanningTree g F := by
    refine ⟨?_, by rw [hF2, hcount], ?_⟩
    · intro e he
      obtain ⟨a, b, e1, hab, _, _⟩ := hF1 e he
      exact ⟨a, b, e1, hab⟩
    · intro u v hu hv
      exact Relation.ReflTransGen.trans (hF4 u (hall u hu)).reverse (hF4 v (hall v hv))
  refine ⟨st, F, hrun, htree, hF3, ?_, hall⟩
  intro T1 hT1
  obtain ⟨T2, hT2, hsub, hle⟩ := hF5 T1 hT1
  have hcard : T2.card ≤ F.card := by
    have h1 := hT2.card
    have h2 := htree.card
    omega
  rw [Finset.eq_of_subset_of_card_le hsub hcard]
  exact hle

theorem reach_all_of_isConnected {g : Graph} (hg : WF g) (h : isConnected g = .ok true)
    (hd : ∀ v ∈ List.range g.numVertices, dests g v ≠ []) :
    ∀ u v, u < g.numVertices → v < g.numVertices → Reach g u v := by
  obtain ⟨b, hb, hiff⟩ := isConnected_wf hg
  rw [h] at hb
  simp only [Except.ok.injEq] at hb
  intro u v hu hv
  exact hiff.1 hb.symm u v (hd u (List.mem_range.2 hu)) (hd v (List.mem_range.2 hv))

/-! ## `removeEdge`, sequences of calls and the number of edges -/

theorem removeEdge_cases (g : Graph) (u v : Int) :
    (outOfRange2 g u v = true ∧
      removeEdge g u v = .error (.outOfRange "Vertex index out of range")) ∨
    (outOfRange2 g u v = false ∧ hasEdge g u v = .ok false ∧
      removeEdge g u v = .error (.runtimeError "Edge not found")) ∨
    (outOfRange2 g u v = false ∧ hasEdge g u v = .ok true ∧
      removeEdge g u v = .ok (unlink g u.toNat v.toNat)) := by
  by_cases hr : outOfRange2 g u v = true
  · left
    exact ⟨hr, by unfold removeEdge; rw [if_pos hr]⟩
  · right
    have hr2 : outOfRange2 g u v = false := by simpa using hr
    have he : hasEdge g u v = .ok (hasDest (adj g u.toNat) v.toNat) := by
      unfold hasEdge
      rw [if_neg hr]
    cases hb : hasDest (adj g u.toNat) v.toNat with
    | false =>
      left
      rw [hb] at he
      refine ⟨hr2, he, ?_⟩
      unfold removeEdge
      rw [if_neg hr, he]
      rfl
    | true =>
      right
      rw [hb] at he
      refine ⟨hr2, he, ?_⟩
      unfold removeEdge
      rw [if_neg hr, he]
      rfl

theorem outOfRange2_true_iff (g : Graph) (u v : Int) :
    outOfRange2 g u v = true ↔
      (u < 0 ∨ u ≥ g.numVertices ∨ v < 0 ∨ v ≥ g.numVertices) := by
  unfold outOfRange2
  simp only [Bool.or_eq_true, decide_eq_true_eq]
  tauto

theorem hasEdge_unlink_false {g : Graph} (hg : WF g) (a b : Nat) (hab : b ∈ dests g a) :
    hasEdge (unlink g a b) (a : Int) (b : Int) = .ok false ∧
      hasEdge (unlink g a b) (b : Int) (a : Int) = .ok false := by
  obtain ⟨ha, hb⟩ := hg.lt_of_mem hab
  have h1 : b ∉ dests (unlink g a b) a :=
    fun h => not_mem_dests_unlink hg hab a b h rfl
  have h2 : a ∉ dests (unlink g a b) b :=
    fun h => not_mem_dests_unlink hg hab b a h Sym2.eq_swap
  rw [hasEdge_cast _ a b (by rw [numVertices_unlink]; exact ha)
      (by rw [numVertices_unlink]; exact hb),
    hasEdge_cast _ b a (by rw [numVertices_unlink]; exact hb)
      (by rw [numVertices_unlink]; exact ha)]
  simp [h1, h2]


theorem Graph.ext_adj {g1 g2 : Graph} (hn : g1.numVertices = g2.numVertices)
    (hl : g1.adjList.length = g2.adjList.length) (h : ∀ x, adj g1 x = adj g2 x) : g1 = g2 := by
  obtain ⟨n1, l1⟩ := g1
  obtain ⟨n2, l2⟩ := g2
  simp only at hn hl
  subst hn
  congr 1
  apply List.ext_getElem hl
  intro i h1 h2
  have := h i
  unfold adj at this
  simp only [List.getD_eq_getElem?_getD, List.getElem?_eq_getElem h1,
    List.getElem?_eq_getElem h2, Option.getD_some] at this
  exact this

/-- Removing an edge that `addEdge` has just created gives back the graph. -/
theorem unlink_addEdge {g g1 : Graph} (hg : WF g) (a b : Nat) (w : Int)
    (h : addEdge g (a : Int) (b : Int) w = .ok g1) (hnew : b ∉ dests g a) :
    unlink g1 a b = g := by
  obtain ⟨_, _, ha, hb, hne, hnv, hlen, _⟩ := addEdge_ok h
  simp only [Int.toNat_ofNat] at ha hb hne
  have hadj := addEdge_adj h hg.len
  simp only [Int.toNat_ofNat, hnew, if_false] at hadj
  have hl := hg.len
  apply Graph.ext_adj
  · rw [numVertices_unlink, hnv]
  · rw [length_unlink, hlen]
  · intro x
    rw [adj_unlink g1 a b hne (by omega) (by omega), hadj a, hadj b, hadj x]
    have hba : ¬ b = a := fun e => hne e.symm
    by_cases hxa : x = a
    · rw [if_pos hxa, if_pos rfl, hxa]
      simp [eraseDest]
    · rw [if_neg hxa]
      by_cases hxb : x = b
      · rw [if_pos hxb, if_neg hba, if_pos rfl, hxb]
        simp [eraseDest]
      · rw [if_neg hxb, if_neg hxa, if_neg hxb]


theorem BuiltByCalls.reachable {g : Graph} (h : BuiltByCalls g) : Reachable g := by
  induction h with
  | new n g h => exact Reachable.new n g h
  | addEdge g src dest weight _ ih =>
    unfold afterAddEdge
    cases h : graph.addEdge g src dest weight with
    | ok g1 => exact Reachable.addEdge g g1 src dest weight ih h
    | error e => exact ih
  | removeEdge g src dest _ ih =>
    unfold afterRemoveEdge
    cases h : graph.removeEdge g src dest with
    | ok g1 => exact Reachable.removeEdge g g1 src dest ih h
    | error e => exact ih

theorem Reachable.builtByCalls {g : Graph} (h : Reachable g) : BuiltByCalls g := by
  induction h with
  | new n g h => exact BuiltByCalls.new n g h
  | addEdge g g1 src dest weight _ h ih =>
    have := BuiltByCalls.addEdge g src dest weight ih
    unfold afterAddEdge at this
    rw [h] at this
    exact this
  | removeEdge g g1 src dest _ h ih =>
    have := BuiltByCalls.removeEdge g src dest ih
    unfold afterRemoveEdge at this
    rw [h] at this
    exact this

theorem BuiltByCalls.run {g : Graph} (h : BuiltByCalls g) (calls : List Call) :
    BuiltByCalls (runCalls g calls) := by
  induction calls generalizing g with
  | nil => exact h
  | cons c rest ih =>
    cases c with
    | add src dest weight => exact ih (BuiltByCalls.addEdge g src dest weight h)
    | remove src dest => exact ih (BuiltByCalls.removeEdge g src dest h)

theorem builtByCalls_of_run (n : Int) (calls : List Call) (g : Graph)
    (h : (Graph.new n).map (fun g0 => runCalls g0 calls) = .ok g) : BuiltByCalls g := by
  cases h0 : Graph.new n with
  | error e => rw [h0] at h; cases h
  | ok g0 =>
    rw [h0] at h
    simp only [Except.map, Except.ok.injEq] at h
    rw [← h]
    exact (BuiltByCalls.new n g0 h0).run calls

theorem mem_adj_symm {g : Graph} (hg : WF g)
    (hsym : ∀ a b, findWeight (adj g a) b = findWeight (adj g b) a) (u v : Nat) (w : Int) :
    (⟨v, w⟩ : Neighbor) ∈ adj g u ↔ (⟨u, w⟩ : Neighbor) ∈ adj g v := by
  rw [← findWeight_eq_some (adj g u) (hg.nodup u) v w,
    ← findWeight_eq_some (adj g v) (hg.nodup v) u w, hsym]


theorem mem_edgeFinset {g : Graph} (hg : WF g) (e : Sym2 Nat) :
    e ∈ edgeFinset g ↔ ∃ u v, e = s(u, v) ∧ v ∈ dests g u := by
  unfold edgeFinset
  simp only [Finset.mem_biUnion, Finset.mem_range, Finset.mem_image, List.mem_toFinset]
  constructor
  · rintro ⟨u, _, v, hv, rfl⟩
    exact ⟨u, v, rfl, hv⟩
  · rintro ⟨u, v, rfl, hv⟩
    exact ⟨u, (hg.lt_of_mem hv).1, v, hv, rfl⟩

theorem degSum_congr {g g1 : Graph} (hn : g1.numVertices = g.numVertices)
    (hd : ∀ x, dests g1 x = dests g x) : degSum g1 = degSum g := by
  unfold degSum
  rw [hn]
  exact Finset.sum_congr rfl (fun x _ => by rw [hd x])

/-- Every edge is counted twice by the list nodes. -/
theorem Reachable.degSum_eq {g : Graph} (h : Reachable g) :
    degSum g = 2 * (edgeFinset g).card := by
  induction h with
  | new n g h =>
    have hd := dests_new h
    rw [degSum_eq_zero (fun v _ => hd v)]
    have : edgeFinset g = ∅ := by
      apply Finset.eq_empty_of_forall_not_mem
      intro e he
      obtain ⟨u, v, _, hv⟩ := (mem_edgeFinset (WF.new h) e).1 he
      rw [hd u] at hv
      exact absurd hv (List.not_mem_nil _)
    rw [this]
    rfl
  | addEdge g g1 src dest weight hr h ih =>
    have hg := hr.wf
    have hg1 := hg.addEdge h
    obtain ⟨hs0, hd0, _, _, _, hnv, _, hd⟩ := addEdge_ok h
    have hd := hd hg.len
    have hcast := h
    rw [← Int.toNat_of_nonneg hs0, ← Int.toNat_of_nonneg hd0] at hcast
    have hmem := mem_dests_addEdge hg src.toNat dest.toNat weight hcast
    by_cases hm : dest.toNat ∈ dests g src.toNat
    · simp only [hm, if_true] at hd
      rw [degSum_congr hnv hd, ih]
      congr 2
      ext e
      rw [mem_edgeFinset hg1, mem_edgeFinset hg]
      simp only [hd]
    · rw [degSum_addEdge hg h hm, ih]
      have hins : edgeFinset g1 = insert s(src.toNat, dest.toNat) (edgeFinset g) := by
        ext e
        rw [Finset.mem_insert, mem_edgeFinset hg1, mem_edgeFinset hg]
        constructor
        · rintro ⟨u, v, rfl, hv⟩
          rcases (hmem u v).1 hv with h1 | ⟨h1, h2⟩ | ⟨h1, h2⟩
          · exact Or.inr ⟨u, v, rfl, h1⟩
          · left
            rw [h1, h2]
          · left
            rw [h1, h2]
            exact Sym2.eq_swap
        · rintro (rfl | ⟨u, v, rfl, hv⟩)
          · exact ⟨src.toNat, dest.toNat, rfl, (hmem _ _).2 (Or.inr (Or.inl ⟨rfl, rfl⟩))⟩
          · exact ⟨u, v, rfl, (hmem u v).2 (Or.inl hv)⟩
      have hnot : s(src.toNat, dest.toNat) ∉ edgeFinset g := by
        intro he
        obtain ⟨u, v, e, hv⟩ := (mem_edgeFinset hg _).1 he
        rcases Sym2.eq_iff.1 e with ⟨h1, h2⟩ | ⟨h1, h2⟩
        · rw [h1, h2] at hm
          exact hm hv
        · rw [h1, h2] at hm
          exact hm (hg.symm _ _ hv)
      rw [hins, Finset.card_insert_of_not_mem hnot]
      omega
  | removeEdge g g1 src dest hr h ih =>
    have hg := hr.wf
    obtain ⟨_, _, _, _, hm, hg1⟩ := removeEdge_ok h
    have hwf1 : WF g1 := hg.removeEdge h
    have hdeg := degSum_unlink hg hm
    rw [← hg1] at hdeg
    have hers : edgeFinset g1 = (edgeFinset g).erase s(src.toNat, dest.toNat) := by
      ext e
      rw [Finset.mem_erase, mem_edgeFinset hwf1, mem_edgeFinset hg]
      constructor
      · rintro ⟨u, v, rfl, hv⟩
        rw [hg1] at hv
        refine ⟨not_mem_dests_unlink hg hm u v hv, u, v, rfl, ?_⟩
        exact (mem_dests_unlink hg hm u v).2 (Or.inl hv)
      · rintro ⟨hne, u, v, rfl, hv⟩
        rcases (mem_dests_unlink hg hm u v).1 hv with h1 | h1
        · exact ⟨u, v, rfl, by rw [hg1]; exact h1⟩
        · exact absurd h1 hne
    have hin : s(src.toNat, dest.toNat) ∈ edgeFinset g :=
      (mem_edgeFinset hg _).2 ⟨_, _, rfl, hm⟩
    have hpos := Finset.card_pos.2 ⟨_, hin⟩
    rw [hers, Finset.card_erase_of_mem hin]
    omega

theorem mapM_getDegree_eq (g : Graph) (l : List Nat) (hl : ∀ i ∈ l, i < g.numVertices) :
    l.mapM (fun (i : Nat) => getDegree g (i : Int)) = .ok (l.map (fun i => (dests g i).length)) := by
  induction l with
  | nil => rfl
  | cons i rest ih =>
    rw [List.mapM_cons, getDegree_cast g i (hl i (List.mem_cons_self _ _)),
      ih (fun j hj => hl j (List.mem_cons_of_mem _ hj))]
    rfl

/-- The pairs with `hasEdge` are the pairs of `edgeFinset`. -/
theorem edgeFinset_eq_hasEdge {g : Graph} (hg : WF g) :
    {e : Sym2 Nat | ∃ u v : Nat, e = s(u, v) ∧ hasEdge g (u : Int) (v : Int) = .ok true} =
      (↑(edgeFinset g) : Set (Sym2 Nat)) := by
  ext e
  simp only [Set.mem_setOf_eq, Finset.mem_coe]
  rw [mem_edgeFinset hg]
  constructor
  · rintro ⟨u, v, rfl, h⟩
    have := (hasEdge_ok_true h).2.2.2.2
    simp only [Int.toNat_ofNat] at this
    exact ⟨u, v, rfl, this⟩
  · rintro ⟨u, v, rfl, h⟩
    exact ⟨u, v, rfl, hasEdge_cast_true hg h⟩


/-! ## `MST_WEIGHT` on graphs that are not connected -/


/-- The inner loop of Prim's algorithm does not read `mstWeight`. -/
theorem primScan_mstWeight (l : List Neighbor) :
    ∀ (vis : List Bool) (key : List Int) (pq : List (Int × Nat)) (mw mw1 : Int),
      primScan ⟨vis, key, pq, mw1⟩ l =
        PrimState.mk (primScan ⟨vis, key, pq, mw⟩ l).visited (primScan ⟨vis, key, pq, mw⟩ l).key
          (primScan ⟨vis, key, pq, mw⟩ l).pq mw1 := by
  induction l with
  | nil =>
    intro vis key pq mw mw1
    rfl
  | cons cur rest ih =>
    intro vis key pq mw mw1
    by_cases hc : (!(vis.getD cur.dest false) && decide (cur.weight < key.getD cur.dest 0)) = true
    · have e1 : ∀ m, primScan ⟨vis, key, pq, m⟩ (cur :: rest) =
          primScan ⟨vis, key.set cur.dest cur.weight, pqPush (cur.weight, cur.dest) pq, m⟩ rest := by
        intro m
        rw [primScan]
        exact if_pos hc
      rw [e1 mw, e1 mw1]
      exact ih _ _ _ mw mw1
    · have e1 : ∀ m, primScan ⟨vis, key, pq, m⟩ (cur :: rest) =
          primScan ⟨vis, key, pq, m⟩ rest := by
        intro m
        rw [primScan]
        exact if_neg hc
      rw [e1 mw, e1 mw1]
      exact ih _ _ _ mw mw1

/-- The loop of Prim's algorithm visits the same vertices whatever the
arithmetic of `mstWeight` is. -/
theorem primLoop_arith (a1 a2 : Int → Int) (g : Graph) :
    ∀ (fuel : Nat) (vis : List Bool) (key : List Int) (pq : List (Int × Nat)) (mw mw1 : Int)
      (st : PrimState), primLoop a1 g fuel ⟨vis, key, pq, mw⟩ = .ok st →
      ∃ m, primLoop a2 g fuel ⟨vis, key, pq, mw1⟩ = .ok ⟨st.visited, st.key, st.pq, m⟩ := by
  intro fuel
  induction fuel with
  | zero =>
    intro vis key pq mw mw1 st h
    cases pq with
    | nil =>
      simp only [primLoop, if_true, pure, Except.pure, Except.ok.injEq] at h
      rw [← h]
      exact ⟨mw1, rfl⟩
    | cons top rest =>
      simp [primLoop] at h
  | succ fuel ih =>
    intro vis key pq mw mw1 st h
    cases pq with
    | nil =>
      simp only [primLoop, pure, Except.pure, Except.ok.injEq] at h
      rw [← h]
      exact ⟨mw1, rfl⟩
    | cons top rest =>
      obtain ⟨w, u⟩ := top
      rw [primLoop] at h ⊢
      by_cases hu : vis.getD u false = true
      · simp only [hu, if_true] at h ⊢
        exact ih vis key rest mw mw1 st h
      · have hu2 : vis.getD u false = false := by simpa using hu
        simp only [hu2, Bool.false_eq_true, if_false] at h ⊢
        cases hn : getNeighbors g (u : Int) with
        | error e =>
          rw [hn] at h
          simp only [bind, Except.bind] at h
          cases h
        | ok nbs =>
          rw [hn] at h
          simp only [bind, Except.bind] at h ⊢
          rw [primScan_mstWeight nbs _ _ _ (a2 (mw1 + w)) (a1 (mw + w))] at h
          obtain ⟨m, hm⟩ := ih _ _ _ _ (a2 (mw1 + w)) st h
          have e := primScan_mstWeight nbs (vis.set u true) key rest (a2 (mw1 + w)) (a2 (mw1 + w))
          refine ⟨m, ?_⟩
          rw [e]
          exact hm

theorem mstRun_arith (a1 a2 : Int → Int) (g : Graph) (st : PrimState)
    (h : mstRun a1 g = .ok st) :
    ∃ m, mstRun a2 g = .ok ⟨st.visited, st.key, st.pq, m⟩ :=
  primLoop_arith a1 a2 g _ _ _ _ 0 0 st h

theorem Joins.reach {g : Graph} (hg : WF g) {F : Finset (Sym2 Nat)}
    (hF : ∀ e ∈ F, ∃ a b, e = s(a, b) ∧ b ∈ dests g a) {u v : Nat} (h : Joins F u v) :
    Reach g u v := by
  induction h with
  | refl => exact Relation.ReflTransGen.refl
  | tail _ hbc ih =>
    obtain ⟨a, b, e, hab⟩ := hF _ hbc
    refine Relation.ReflTransGen.tail ih ?_
    rcases Sym2.eq_iff.1 e with ⟨h1, h2⟩ | ⟨h1, h2⟩
    · rw [h1, h2]
      exact hab
    · rw [h1, h2]
      exact hg.symm _ _ hab

/-- The vertices Prim's algorithm visits are the ones joined to vertex 0. -/
theorem mstRun_visited {g : Graph} (hg : WF g) (hn : 0 < g.numVertices)
    (hsym : ∀ a b, findWeight (adj g a) b = findWeight (adj g b) a)
    (hw : ∀ l ∈ g.adjList, ∀ nb ∈ l, nb.weight < INT_MAX) (arith : Int → Int) :
    ∃ st, mstRun arith g = .ok st ∧
      ∀ v, v < g.numVertices → (st.visited.getD v false = true ↔ Reach g 0 v) := by
  obtain ⟨st, hrun, hinv, hpq⟩ := mstRun_inv hg hn hsym hw
  obtain ⟨m, hm⟩ := mstRun_arith id arith g st hrun
  refine ⟨_, hm, ?_⟩
  intro v hv0
  clear hv0
  show st.visited.getD v false = true ↔ Reach g 0 v
  constructor
  · intro hv
    obtain ⟨F, hF1, _, _, hF4, _⟩ := hinv.tree
    exact (hF4 v hv).reach hg (fun e he => by
      obtain ⟨a, b, e1, hab, _⟩ := hF1 e he
      exact ⟨a, b, e1, hab⟩)
  · intro r
    induction r with
    | refl => exact hinv.zero
    | tail _ hbc ih => exact hinv.no_exit hpq ih hbc


/-- Every vertex with an edge is joined to vertex 0 exactly when `isConnected`
holds and vertex 0 has an edge or the graph has none. -/
theorem joined_to_zero_iff {g : Graph} (hg : WF g) (b : Bool)
    (hb : b = true ↔ ∀ u v, dests g u ≠ [] → dests g v ≠ [] → Reach g u v) :
    (∀ i, i < g.numVertices → dests g i ≠ [] → Reach g 0 i) ↔
      (b = true ∧ (0 < (dests g 0).length ∨ getNumEdges g = 0)) := by
  constructor
  · intro h
    have h1 : ∀ i, dests g i ≠ [] → Reach g 0 i := fun i hi => h i (hg.lt_of_ne_nil hi) hi
    refine ⟨hb.2 (fun u v hu hv =>
      Relation.ReflTransGen.trans (Reach.symm hg (h1 u hu)) (h1 v hv)), ?_⟩
    by_cases h0 : dests g 0 = []
    · right
      rw [getNumEdges_eq_zero_iff hg]
      intro v
      by_contra hv
      have := Reach.eq_of_isolated h0 (h1 v hv)
      rw [this] at hv
      exact hv h0
    · left
      exact List.length_pos.2 h0
  · rintro ⟨h1, h2⟩ i _ hi
    rcases h2 with h2 | h2
    · exact hb.1 h1 0 i (List.length_pos.1 h2) hi
    · exact absurd ((getNumEdges_eq_zero_iff hg).1 h2 i) hi

/-- The final loop of `MSTWeightAlgorithm::execute` on the marks of a run that
visited the vertices joined to vertex 0. -/
theorem allReached_joined {g : Graph} (vis : List Bool)
    (hvis : ∀ v, v < g.numVertices → (vis.getD v false = true ↔ Reach g 0 v)) :
    ∃ c, allReached g vis (List.range g.numVertices) = .ok c ∧
      (c = true ↔ ∀ i, i < g.numVertices → dests g i ≠ [] → Reach g 0 i) := by
  refine ⟨_, allReached_eq g vis _ (fun i hi => List.mem_range.1 hi), ?_⟩
  rw [List.all_eq_true]
  constructor
  · intro h i hi hd
    have := h i (List.mem_range.2 hi)
    rw [← hvis i hi]
    have hpos : 0 < (dests g i).length := List.length_pos.2 hd
    simp only [hpos, decide_True, Bool.true_and, Bool.not_not] at this
    exact this
  · intro h i hi
    have hi := List.mem_range.1 hi
    by_cases hd : dests g i = []
    · simp [hd]
    · have := (hvis i hi).2 (h i hi hd)
      rw [this]
      simp

/-! ## `MST_WEIGHT` in 32-bit arithmetic -/

/-- Additions of `int` values that wrap give the wrapped sum. -/
theorem wrapInt32_add (x w : Int) : wrapInt32 (wrapInt32 x + w) = wrapInt32 (x + w) := by
  unfold wrapInt32
  omega

/-- The loop of Prim's algorithm in 32-bit arithmetic makes the steps of the
loop in exact arithmetic, and its `mstWeight` is the exact one reduced to
`int`. -/
theorem primLoop_wrap (g : Graph) :
    ∀ (fuel : Nat) (vis : List Bool) (key : List Int) (pq : List (Int × Nat)) (mw : Int)
      (st : PrimState), primLoop id g fuel ⟨vis, key, pq, mw⟩ = .ok st →
      primLoop wrapInt32 g fuel ⟨vis, key, pq, wrapInt32 mw⟩ =
        .ok ⟨st.visited, st.key, st.pq, wrapInt32 st.mstWeight⟩ := by
  intro fuel
  induction fuel with
  | zero =>
    intro vis key pq mw st h
    cases pq with
    | nil =>
      simp only [primLoop, if_true, pure, Except.pure, Except.ok.injEq] at h
      rw [← h]
      rfl
    | cons top rest =>
      simp [primLoop] at h
  | succ fuel ih =>
    intro vis key pq mw st h
    cases pq with
    | nil =>
      simp only [primLoop, pure, Except.pure, Except.ok.injEq] at h
      rw [← h]
      rfl
    | cons top rest =>
      obtain ⟨w, u⟩ := top
      rw [primLoop] at h ⊢
      by_cases hu : vis.getD u false = true
      · simp only [hu, if_true] at h ⊢
        exact ih vis key rest mw st h
      · have hu2 : vis.getD u false = false := by simpa using hu
        simp only [hu2, Bool.false_eq_true, if_false] at h ⊢
        cases hn : getNeighbors g (u : Int) with
        | error e =>
          rw [hn] at h
          simp only [bind, Except.bind] at h
          cases h
        | ok nbs =>
          rw [hn] at h
          simp only [bind, Except.bind, id] at h ⊢
          rw [primScan_mstWeight nbs _ _ _ (mw + w) (mw + w)] at h
          have hm := ih _ _ _ _ st h
          rw [wrapInt32_add]
          rw [primScan_mstWeight nbs (vis.set u true) key rest (mw + w) (wrapInt32 (mw + w))]
          exact hm

/-- The run of Prim's algorithm on the machine, from the run in exact
arithmetic. -/
theorem mstRun_wrap (g : Graph) (st : PrimState) (h : mstRun id g = .ok st) :
    mstRun wrapInt32 g = .ok ⟨st.visited, st.key, st.pq, wrapInt32 st.mstWeight⟩ :=
  primLoop_wrap g _ _ _ _ 0 st h


/-! ## The leader role of the worker pool -/


theorem holdsLeader_set {s s1 : LFState} {i : Nat} {w w1 : Worker}
    (hw : s.workers[i]? = some w) (hs : s1.workers = s.workers.set i w1) (j : Nat) :
    HoldsLeader s1 j ↔ (if j = i then w1.holdsLeader = true else HoldsLeader s j) := by
  have hi : i < s.workers.length := by
    by_contra h
    rw [List.getElem?_eq_none (by omega)] at hw
    cases hw
  unfold HoldsLeader
  rw [hs, List.getElem?_set]
  by_cases hji : j = i
  · subst hji
    simp [hi]
  · have : ¬ i = j := fun e => hji e.symm
    simp [hji, this]

theorem phase_set {s s1 : LFState} {i : Nat} {w1 : Worker}
    (hs : s1.workers = s.workers.set i w1) {j : Nat} {x : Worker}
    (hx : s1.workers[j]? = some x) : (j = i ∧ x = w1) ∨ (j ≠ i ∧ s.workers[j]? = some x) := by
  rw [hs, List.getElem?_set] at hx
  by_cases hji : i = j
  · left
    rw [if_pos hji] at hx
    split at hx
    · simp only [Option.some.injEq] at hx
      exact ⟨hji.symm, hx.symm⟩
    · cases hx
  · right
    rw [if_neg hji] at hx
    exact ⟨fun e => hji e.symm, hx⟩

/-- A step that changes neither the flag nor who holds the role. -/
theorem LFInv.keep {s s1 : LFState} (h : LFInv s) {i : Nat} {w w1 : Worker}
    (hw : s.workers[i]? = some w) (hs : s1.workers = s.workers.set i w1)
    (hf : s1.leader_available = s.leader_available) (hh : w1.holdsLeader = w.holdsLeader)
    (hp : (w1.phase = .leader ∨ w1.phase = .gotWork) → (w.phase = .leader ∨ w.phase = .gotWork)) :
    LFInv s1 := by
  have hsame : ∀ j, HoldsLeader s1 j ↔ HoldsLeader s j := by
    intro j
    rw [holdsLeader_set hw hs]
    by_cases hji : j = i
    · rw [if_pos hji, hji, hh]
      exact ⟨fun e => ⟨w, hw, e⟩, fun ⟨x, hx, e⟩ => by
        rw [hw] at hx
        simp only [Option.some.injEq] at hx
        rw [hx]
        exact e⟩
    · rw [if_neg hji]
  refine ⟨?_, ?_, ?_⟩
  · intro a b ha hb
    exact h.unique a b ((hsame a).1 ha) ((hsame b).1 hb)
  · rw [hf, h.flag]
    exact ⟨fun ⟨j, hj⟩ => ⟨j, (hsame j).2 hj⟩, fun ⟨j, hj⟩ => ⟨j, (hsame j).1 hj⟩⟩
  · intro j x hx hph
    rcases phase_set hs hx with ⟨_, e⟩ | ⟨_, hx0⟩
    · rw [e, hh]
      rw [e] at hph
      exact h.phase i w hw (hp hph)
    · exact h.phase j x hx0 hph

/-- Step 1 when the role is available: the worker becomes the only holder. -/
theorem LFInv.acquire {s s1 : LFState} (h : LFInv s) {i : Nat} {w w1 : Worker}
    (hw : s.workers[i]? = some w) (hs : s1.workers = s.workers.set i w1)
    (ha : s.leader_available = true) (hf : s1.leader_available = false)
    (hh : w1.holdsLeader = true) : LFInv s1 := by
  have hnone : ∀ j, ¬ HoldsLeader s j := by
    intro j hj
    have := h.flag.2 ⟨j, hj⟩
    rw [ha] at this
    cases this
  have hiff : ∀ j, HoldsLeader s1 j ↔ j = i := by
    intro j
    rw [holdsLeader_set hw hs]
    by_cases hji : j = i
    · rw [if_pos hji]
      exact ⟨fun _ => hji, fun _ => hh⟩
    · rw [if_neg hji]
      exact ⟨fun e => absurd e (hnone j), fun e => absurd e hji⟩
  refine ⟨?_, ?_, ?_⟩
  · intro a b ha1 hb1
    rw [(hiff a).1 ha1, (hiff b).1 hb1]
  · rw [hf]
    exact ⟨fun _ => ⟨i, (hiff i).2 rfl⟩, fun _ => rfl⟩
  · intro j x hx hph
    rcases phase_set hs hx with ⟨_, e⟩ | ⟨_, hx0⟩
    · rw [e]
      exact hh
    · exact h.phase j x hx0 hph

/-- The release of the role by the worker that holds it. -/
theorem LFInv.release {s s1 : LFState} (h : LFInv s) {i : Nat} {w w1 : Worker}
    (hw : s.workers[i]? = some w) (hs : s1.workers = s.workers.set i w1)
    (hph : w.phase = .leader ∨ w.phase = .gotWork) (hf : s1.leader_available = true)
    (hh : w1.holdsLeader = false) (hp : ¬ (w1.phase = .leader ∨ w1.phase = .gotWork)) :
    LFInv s1 := by
  have hold : HoldsLeader s i := ⟨w, hw, h.phase i w hw hph⟩
  have hnone : ∀ j, ¬ HoldsLeader s1 j := by
    intro j hj
    rw [holdsLeader_set hw hs] at hj
    by_cases hji : j = i
    · rw [if_pos hji, hh] at hj
      cases hj
    · rw [if_neg hji] at hj
      exact hji (h.unique j i hj hold)
  refine ⟨?_, ?_, ?_⟩
  · intro a b ha1 _
    exact absurd ha1 (hnone a)
  · rw [hf]
    constructor
    · intro e
      cases e
    · rintro ⟨j, hj⟩
      exact absurd hj (hnone j)
  · intro j x hx hph1
    rcases phase_set hs hx with ⟨_, e⟩ | ⟨_, hx0⟩
    · rw [e] at hph1
      exact absurd hph1 hp
    · exact h.phase j x hx0 hph1

theorem LFInv.init : LFInv LFState.init := by
  have hnone : ∀ j, ¬ HoldsLeader LFState.init j := by
    rintro j ⟨w, hw, hh⟩
    have hmem : w ∈ List.replicate THREAD_POOL_SIZE (Worker.mk .loopTest false none) :=
      List.getElem?_mem hw
    rw [List.eq_of_mem_replicate hmem] at hh
    cases hh
  refine ⟨?_, ?_, ?_⟩
  · intro a b ha _
    exact absurd ha (hnone a)
  · constructor
    · intro e
      cases e
    · rintro ⟨j, hj⟩
      exact absurd hj (hnone j)
  · intro j w hw hph
    have hmem : w ∈ List.replicate THREAD_POOL_SIZE (Worker.mk .loopTest false none) :=
      List.getElem?_mem hw
    rw [List.eq_of_mem_replicate hmem] at hph
    rcases hph with e | e <;> cases e


theorem workerStep_inv {s s1 : LFState} {i : Nat} {w : Worker} (h : LFInv s)
    (hw : s.workers[i]? = some w) (hstep : workerStep s i w = some s1) : LFInv s1 := by
  unfold workerStep at hstep
  cases hph : w.phase with
  | loopTest =>
    rw [hph] at hstep
    simp only [Option.some.injEq] at hstep
    rw [← hstep]
    refine h.keep hw rfl rfl rfl ?_
    intro hp
    exfalso
    by_cases hr : s.running = true
    · simp [hr] at hp
    · simp [hr] at hp
  | wantLeader =>
    rw [hph] at hstep
    by_cases hg : (!(s.leader_available || !s.running)) = true
    · simp [hg] at hstep
    · rw [if_neg hg] at hstep
      by_cases hr : (!s.running) = true
      · rw [if_pos hr] at hstep
        simp only [Option.some.injEq] at hstep
        rw [← hstep]
        refine h.keep hw rfl rfl rfl ?_
        intro hp
        rcases hp with e | e <;> cases e
      · rw [if_neg hr] at hstep
        simp only [Option.some.injEq] at hstep
        rw [← hstep]
        have ha : s.leader_available = true := by
          cases hl : s.leader_available with
          | true => rfl
          | false =>
            cases hrun : s.running with
            | true => simp [hl, hrun] at hg
            | false => simp [hrun] at hr
        exact h.acquire hw rfl ha rfl rfl
  | leader =>
    rw [hph] at hstep
    by_cases hg : (!(!s.work_queue.isEmpty || !s.running)) = true
    · simp [hg] at hstep
    · simp only [hg, Bool.false_eq_true, if_false] at hstep
      by_cases hr : (!s.running) = true
      · simp only [hr, if_true, Option.some.injEq] at hstep
        rw [← hstep]
        refine h.release hw rfl (Or.inl hph) rfl rfl ?_
        intro hp
        rcases hp with e | e <;> cases e
      · simp only [hr, Bool.false_eq_true, if_false] at hstep
        cases hq : s.work_queue with
        | nil =>
          rw [hq] at hstep
          simp only [Option.some.injEq] at hstep
          rw [← hstep]
          refine h.keep hw rfl rfl rfl ?_
          intro hp
          rcases hp with e | e <;> cases e
        | cons item rest =>
          rw [hq] at hstep
          simp only [Option.some.injEq] at hstep
          rw [← hstep]
          exact h.keep hw rfl rfl rfl (fun _ => Or.inl hph)
  | gotWork =>
    rw [hph] at hstep
    simp only [Option.some.injEq] at hstep
    rw [← hstep]
    refine h.release hw rfl (Or.inr hph) rfl rfl ?_
    intro hp
    rcases hp with e | e <;> cases e
  | processing =>
    rw [hph] at hstep
    simp only [Option.some.injEq] at hstep
    rw [← hstep]
    refine h.keep hw rfl rfl rfl ?_
    intro hp
    rcases hp with e | e <;> cases e
  | finished =>
    rw [hph] at hstep
    cases hstep

theorem lfStep_inv {s s1 : LFState} {ev : LFEvent} (h : LFInv s)
    (hstep : lfStep s ev = some s1) : LFInv s1 := by
  cases ev with
  | worker i =>
    simp only [lfStep] at hstep
    cases hw : s.workers[i]? with
    | none =>
      rw [hw] at hstep
      cases hstep
    | some w =>
      rw [hw] at hstep
      exact workerStep_inv h hw hstep
  | addWork fd =>
    simp only [lfStep, Option.some.injEq] at hstep
    rw [← hstep]
    exact ⟨h.unique, h.flag, h.phase⟩
  | shutdown =>
    simp only [lfStep, Option.some.injEq] at hstep
    rw [← hstep]
    exact ⟨h.unique, h.flag, h.phase⟩

theorem LFReachable.inv {s : LFState} (h : LFReachable s) : LFInv s := by
  induction h with
  | init => exact LFInv.init
  | step s s1 ev _ hstep ih => exact lfStep_inv ih hstep

theorem LFReachable.after {s s1 : LFState} (h : LFReachable s) (evs : List LFEvent)
    (hrun : lfRun s evs = some s1) : LFReachable s1 := by
  induction evs generalizing s with
  | nil =>
    simp only [lfRun, Option.some.injEq] at hrun
    rw [← hrun]
    exact h
  | cons ev rest ih =>
    unfold lfRun at hrun
    cases hstep : lfStep s ev with
    | none =>
      rw [hstep] at hrun
      cases hrun
    | some s2 =>
      rw [hstep] at hrun
      exact ih (LFReachable.step s s2 ev h hstep) hrun


/-! ## The text of a request and what the Ingest stage reads from it -/

theorem dropWhile_append_all {α : Type} (p : α → Bool) (ws l : List α)
    (h : ∀ c ∈ ws, p c = true) : (ws ++ l).dropWhile p = l.dropWhile p := by
  induction ws with
  | nil => rfl
  | cons c ws ih =>
    rw [List.cons_append, List.dropWhile_cons, if_pos (h c (List.mem_cons_self _ _))]
    exact ih (fun x hx => h x (List.mem_cons_of_mem _ hx))

theorem takeWhile_append_stop {α : Type} (p : α → Bool) (tok tl : List α)
    (h : ∀ c ∈ tok, p c = true) (htl : ∀ c ∈ tl.head?, p c = false) :
    (tok ++ tl).takeWhile p = tok ∧ (tok ++ tl).dropWhile p = tl := by
  induction tok with
  | nil =>
    cases tl with
    | nil => exact ⟨rfl, rfl⟩
    | cons c tl =>
      have hc : p c = false := htl c (by simp)
      simp [List.takeWhile_cons, List.dropWhile_cons, hc]
  | cons c tok ih =>
    have hc : p c = true := h c (List.mem_cons_self _ _)
    obtain ⟨i1, i2⟩ := ih (fun x hx => h x (List.mem_cons_of_mem _ hx))
    simp [List.takeWhile_cons, List.dropWhile_cons, hc, i1, i2]

/-- `iss >> token` on a stream that holds white space, a token and then either
nothing or white space. -/
theorem readToken_token (ws tok tl : List Char) (hws : ∀ c ∈ ws, isSpace c = true)
    (htok : tok ≠ []) (hns : ∀ c ∈ tok, isSpace c = false)
    (htl : ∀ c ∈ tl.head?, isSpace c = true) :
    readToken ⟨ws ++ (tok ++ tl), false, false⟩ =
      (some ⟨tok⟩, ⟨tl, decide (tl = []), false⟩) := by
  have h1 : (ws ++ (tok ++ tl)).dropWhile isSpace = tok ++ tl := by
    rw [dropWhile_append_all _ _ _ hws]
    cases tok with
    | nil => exact absurd rfl htok
    | cons c tok =>
      rw [List.cons_append, List.dropWhile_cons, hns c (List.mem_cons_self _ _)]
      rfl
  obtain ⟨h2, h3⟩ := takeWhile_append_stop (fun c => !isSpace c) tok tl
    (fun c hc => by simp [hns c hc]) (fun c hc => by simp [htl c hc])
  have h4 : tok ++ tl ≠ [] := by
    cases tok with
    | nil => exact absurd rfl htok
    | cons c tok => simp
  simp only [readToken, Bool.or_self, Bool.false_eq_true, if_false, h1, if_neg h4, h2, h3]

/-- The decimal digits of a number, as `std::to_string` and Lean write them. -/
theorem toDigitsCore_spec (fuel : Nat) : ∀ (n : Nat) (ds : List Char), n < fuel →
    ∃ l : List Char, Nat.toDigitsCore 10 fuel n ds = l ++ ds ∧ l ≠ [] ∧
      (∀ c ∈ l, c.isDigit = true) ∧ digitsValue l = n := by
  induction fuel with
  | zero => intro n ds h; omega
  | succ fuel ih =>
    intro n ds h
    have hd : (Nat.digitChar (n % 10)).isDigit = true ∧
        (Nat.digitChar (n % 10)).toNat - 48 = n % 10 := by
      have : n % 10 < 10 := Nat.mod_lt _ (by decide)
      generalize n % 10 = k at this
      interval_cases k <;> decide
    unfold Nat.toDigitsCore
    by_cases h0 : n / 10 = 0
    · simp only [h0, if_true]
      refine ⟨[Nat.digitChar (n % 10)], rfl, by simp, ?_, ?_⟩
      · intro c hc
        rw [List.mem_singleton] at hc
        rw [hc]
        exact hd.1
      · simp only [digitsValue, List.foldl, hd.2]
        omega
    · simp only [h0, if_false]
      obtain ⟨l, e, hne, hdig, hval⟩ := ih (n / 10) (Nat.digitChar (n % 10) :: ds) (by omega)
      refine ⟨l ++ [Nat.digitChar (n % 10)], by rw [e]; simp, by simp, ?_, ?_⟩
      · intro c hc
        rw [List.mem_append, List.mem_singleton] at hc
        rcases hc with hc | hc
        · exact hdig c hc
        · rw [hc]
          exact hd.1
      · have hv : digitsValue (l ++ [Nat.digitChar (n % 10)]) =
            10 * digitsValue l + ((Nat.digitChar (n % 10)).toNat - 48) := by
          simp [digitsValue, List.foldl_append]
        rw [hv, hval, hd.2]
        omega

/-- The text `std::to_string` gives for a number that is not negative. -/
theorem to_string_nonneg (x : Int) (h : 0 ≤ x) :
    ∃ l : List Char, (to_string x).data = l ∧ l ≠ [] ∧ (∀ c ∈ l, c.isDigit = true) ∧
      (digitsValue l : Int) = x := by
  obtain ⟨n, rfl⟩ := Int.eq_ofNat_of_zero_le h
  obtain ⟨l, e, hne, hdig, hval⟩ := toDigitsCore_spec (n + 1) n [] (by omega)
  refine ⟨l, ?_, hne, hdig, by rw [hval]⟩
  rw [List.append_nil] at e
  show (toString (n : Int)).data = l
  show (Int.repr (Int.ofNat n)).data = l
  simp only [Int.repr, Nat.repr, Nat.toDigits, e, List.asString]

/-- The text `std::to_string` gives for a negative number. -/
theorem to_string_neg (x : Int) (h : x < 0) :
    ∃ l : List Char, (to_string x).data = '-' :: l ∧ l ≠ [] ∧ (∀ c ∈ l, c.isDigit = true) ∧
      (digitsValue l : Int) = -x := by
  obtain ⟨n, rfl⟩ := Int.eq_negSucc_of_lt_zero h
  obtain ⟨l, e, hne, hdig, hval⟩ := toDigitsCore_spec (n + 1 + 1) (n + 1) [] (by omega)
  refine ⟨l, ?_, hne, hdig, ?_⟩
  · rw [List.append_nil] at e
    show (Int.repr (Int.negSucc n)).data = '-' :: l
    simp only [Int.repr, Nat.repr, Nat.toDigits, Nat.succ_eq_add_one, e, List.asString,
      String.data_append]
    rfl
  · rw [hval]
    simp [Int.negSucc_eq]


theorem isSpace_of_isDigit (c : Char) (h : c.isDigit = true) : isSpace c = false := by
  cases hs : isSpace c with
  | false => rfl
  | true =>
    simp only [isSpace, Bool.or_eq_true, decide_eq_true_eq] at hs
    rcases hs with ((((hs | hs) | hs) | hs) | hs) | hs <;> rw [hs] at h <;> exact absurd h (by decide)

/-- `iss >> x` on a stream that holds white space, the decimal text of an
`int` and then either nothing or a character that is not a digit. -/
theorem readInt_text (ws tl : List Char) (x old : Int) (hws : ∀ c ∈ ws, isSpace c = true)
    (hx : -2147483648 ≤ x ∧ x ≤ 2147483647) (htl : ∀ c ∈ tl.head?, c.isDigit = false) :
    readInt ⟨ws ++ ((to_string x).data ++ tl), false, false⟩ old =
      (x, ⟨tl, decide (tl = []), false⟩) := by
  by_cases h0 : 0 ≤ x
  · obtain ⟨l, e, hne, hdig, hval⟩ := to_string_nonneg x h0
    rw [e]
    obtain ⟨c, l1, rfl⟩ := List.exists_cons_of_ne_nil hne
    have hc : c.isDigit = true := hdig c (List.mem_cons_self _ _)
    have h1 : (ws ++ (c :: l1 ++ tl)).dropWhile isSpace = c :: l1 ++ tl := by
      rw [dropWhile_append_all _ _ _ hws, List.cons_append, List.dropWhile_cons,
        isSpace_of_isDigit c hc]
      rfl
    have hm : c ≠ '-' := by
      intro hm
      rw [hm] at hc
      exact absurd hc (by decide)
    have hp : c ≠ '+' := by
      intro hp
      rw [hp] at hc
      exact absurd hc (by decide)
    obtain ⟨h2, h3⟩ := takeWhile_append_stop Char.isDigit (c :: l1) tl hdig htl
    have hv : ¬ ((digitsValue (c :: l1) : Int) > 2147483647) := by omega
    have hv2 : ¬ ((digitsValue (c :: l1) : Int) < -2147483648) := by omega
    simp only [readInt, Bool.or_self, Bool.false_eq_true, if_false, h1]
    simp only [List.cons_append, List.head?_cons, Option.some.injEq, hm, hp, or_self, if_false,
      reduceCtorEq, decide_False, Bool.false_eq_true]
    rw [← List.cons_append, h2, h3]
    simp only [reduceCtorEq, if_false, hval]
    rw [if_neg (by omega), if_neg (by omega)]
  · have hneg : x < 0 := by omega
    obtain ⟨l, e, hne, hdig, hval⟩ := to_string_neg x hneg
    rw [e]
    have h1 : (ws ++ ('-' :: l ++ tl)).dropWhile isSpace = '-' :: (l ++ tl) := by
      rw [dropWhile_append_all _ _ _ hws, List.cons_append, List.dropWhile_cons]
      rfl
    obtain ⟨h2, h3⟩ := takeWhile_append_stop Char.isDigit l tl hdig htl
    have hv : ¬ (-(digitsValue l : Int) > 2147483647) := by omega
    have hv2 : ¬ (-(digitsValue l : Int) < -2147483648) := by omega
    have hx2 : -(digitsValue l : Int) = x := by omega
    simp only [readInt, Bool.or_self, Bool.false_eq_true, if_false, h1]
    simp only [List.head?_cons, true_or, if_true, List.tail_cons, h2, h3, hne, if_false,
      decide_True, hx2, reduceCtorEq]
    rw [if_neg (by omega), if_neg (by omega)]


theorem isDigit_false_of_isSpace (tl : List Char) (htl : ∀ c ∈ tl.head?, isSpace c = true) :
    ∀ c ∈ tl.head?, c.isDigit = false := by
  intro c hc
  cases hd : c.isDigit with
  | false => rfl
  | true =>
    have := isSpace_of_isDigit c hd
    rw [htl c hc] at this
    exact absurd this (by decide)

/-- An iteration of the parsing loop that reads `-e` and a number. -/
theorem parseLoop_e (k : Nat) (ws tl : List Char) (x : Int) (p : Params)
    (hws : ∀ c ∈ ws, isSpace c = true) (hx : -2147483648 ≤ x ∧ x ≤ 2147483647)
    (htl : ∀ c ∈ tl.head?, isSpace c = true) :
    parseLoop (k + 1) ⟨ws ++ (['-', 'e'] ++ (' ' :: ((to_string x).data ++ tl))), false, false⟩ p =
      parseLoop k ⟨tl, decide (tl = []), false⟩ { p with edges := x } := by
  rw [parseLoop, readToken_token ws ['-', 'e'] _ hws (by simp) (by decide) (by simp; decide)]
  have h := readInt_text [' '] tl x p.edges (by simp; decide) hx (isDigit_false_of_isSpace tl htl)
  simp only [List.singleton_append] at h
  simp only [reduceCtorEq, decide_False, h]
  rw [if_pos (by decide)]

/-- An iteration of the parsing loop that reads `-v` and a number. -/
theorem parseLoop_v (k : Nat) (ws tl : List Char) (x : Int) (p : Params)
    (hws : ∀ c ∈ ws, isSpace c = true) (hx : -2147483648 ≤ x ∧ x ≤ 2147483647)
    (htl : ∀ c ∈ tl.head?, isSpace c = true) :
    parseLoop (k + 1) ⟨ws ++ (['-', 'v'] ++ (' ' :: ((to_string x).data ++ tl))), false, false⟩ p =
      parseLoop k ⟨tl, decide (tl = []), false⟩ { p with vertices := x } := by
  rw [parseLoop, readToken_token ws ['-', 'v'] _ hws (by simp) (by decide) (by simp; decide)]
  have h := readInt_text [' '] tl x p.vertices (by simp; decide) hx
    (isDigit_false_of_isSpace tl htl)
  simp only [List.singleton_append] at h
  simp only [reduceCtorEq, decide_False, h]
  rw [if_neg (by decide), if_pos (by decide)]

/-- An iteration of the parsing loop that reads `-s` and a number. -/
theorem parseLoop_s (k : Nat) (ws tl : List Char) (x : Int) (p : Params)
    (hws : ∀ c ∈ ws, isSpace c = true) (hx : -2147483648 ≤ x ∧ x ≤ 2147483647)
    (htl : ∀ c ∈ tl.head?, isSpace c = true) :
    parseLoop (k + 1) ⟨ws ++ (['-', 's'] ++ (' ' :: ((to_string x).data ++ tl))), false, false⟩ p =
      parseLoop k ⟨tl, decide (tl = []), false⟩ { p with seed := x } := by
  rw [parseLoop, readToken_token ws ['-', 's'] _ hws (by simp) (by decide) (by simp; decide)]
  have h := readInt_text [' '] tl x p.seed (by simp; decide) hx
    (isDigit_false_of_isSpace tl htl)
  simp only [List.singleton_append] at h
  simp only [reduceCtorEq, decide_False, h]
  rw [if_neg (by decide), if_neg (by decide), if_pos (by decide)]

/-- An iteration of the parsing loop that reads `-a` and a token at the end of
the request. -/
theorem parseLoop_a (k : Nat) (ws : List Char) (A : String) (p : Params)
    (hws : ∀ c ∈ ws, isSpace c = true) (hA : A.data ≠ [])
    (hns : ∀ c ∈ A.data, isSpace c = false) :
    parseLoop (k + 1) ⟨ws ++ (['-', 'a'] ++ (' ' :: A.data)), false, false⟩ p =
      { p with algorithm := trim A } := by
  rw [parseLoop, readToken_token ws ['-', 'a'] _ hws (by simp) (by decide) (by simp; decide)]
  have h := readToken_token [' '] A.data [] (by simp; decide) hA hns (by simp)
  simp only [List.singleton_append, List.append_nil] at h
  simp only [reduceCtorEq, decide_False, h]
  rw [if_neg (by decide), if_neg (by decide), if_neg (by decide), if_pos (by decide)]

/-- The parsing loop at the end of the request. -/
theorem parseLoop_end (k : Nat) (p : Params) :
    parseLoop (k + 1) ⟨[], true, false⟩ p = p := by
  rw [parseLoop]
  rfl

/-- What the parsing loop of the Ingest stage reads from the request
`-e E -v V -s S`, followed by nothing or by `-a A` for a token `A`. -/
theorem parseLoop_request (E V S : Int) (sfx : String) (fuel : Nat) (p : Params)
    (hE : -2147483648 ≤ E ∧ E ≤ 2147483647) (hV : -2147483648 ≤ V ∧ V ≤ 2147483647)
    (hS : -2147483648 ≤ S ∧ S ≤ 2147483647)
    (hsfx : sfx = "" ∨ ∃ A : String, A.data ≠ [] ∧ (∀ c ∈ A.data, isSpace c = false) ∧
      sfx = " -a " ++ A)
    (hfuel : 5 ≤ fuel) :
    ∃ algorithm : String,
      parseLoop fuel (IStream.open ("-e " ++ to_string E ++ " -v " ++ to_string V ++ " -s " ++
        to_string S ++ sfx)) p = ⟨E, V, S, algorithm⟩ := by
  obtain ⟨k, rfl⟩ : ∃ k, fuel = k + 1 + 1 + 1 + 1 + 1 := ⟨fuel - 5, by omega⟩
  have hd : (IStream.open ("-e " ++ to_string E ++ " -v " ++ to_string V ++ " -s " ++
      to_string S ++ sfx)) =
      ⟨[] ++ (['-', 'e'] ++ (' ' :: ((to_string E).data ++
        ([' '] ++ (['-', 'v'] ++ (' ' :: ((to_string V).data ++
          ([' '] ++ (['-', 's'] ++ (' ' :: ((to_string S).data ++ sfx.data))))))))))),
        false, false⟩ := by
    simp only [IStream.open, String.data_append]
    simp
  have hsp : ∀ c ∈ [' '], isSpace c = true := by simp; decide
  have hs : ∀ c ∈ sfx.data.head?, isSpace c = true := by
    rcases hsfx with h | ⟨A, _, _, h⟩
    · rw [h]
      simp
    · rw [h]
      simp only [String.data_append]
      simp
      decide
  rw [hd, parseLoop_e _ [] _ E p (by simp) hE (by simp; decide)]
  simp only [List.append_eq_nil, reduceCtorEq, false_and, decide_False, and_false]
  rw [parseLoop_v _ [' '] _ V _ hsp hV (by simp; decide)]
  simp only [List.append_eq_nil, reduceCtorEq, false_and, decide_False, and_false]
  rw [parseLoop_s _ [' '] _ S _ hsp hS hs]
  rcases hsfx with h | ⟨A, hA, hns, h⟩
  · rw [h]
    simp only [decide_True]
    exact ⟨_, parseLoop_end _ _⟩
  · have hd2 : sfx.data = [' '] ++ (['-', 'a'] ++ (' ' :: A.data)) := by
      rw [h]
      simp only [String.data_append]
      rfl
    rw [hd2]
    simp only [List.append_eq_nil, reduceCtorEq, false_and, decide_False, and_false]
    rw [parseLoop_a _ [' '] A _ hsp hA hns]
    exact ⟨_, rfl⟩


/-! ## The stages of the pipeline -/

/-- The four processors are the one stage loop at the algorithm and the title
of the stage. -/
theorem Stage.processor_eq (st : Stage) (execute : AlgorithmType → Graph → Except Exn String) :
    st.processor execute = stageIteration execute st.type st.title := by
  cases st <;> rfl

/-- A stage whose analysis returns. -/
theorem stageIteration_ok (execute : AlgorithmType → Graph → Except Exn String)
    (t : AlgorithmType) (title : String) (data : PipelineData) (rest next : List PipelineData)
    (report : String) (h : execute t data.graph = .ok report) :
    stageIteration execute t title true (data :: rest) next = .ok (some (rest, next ++
      [{ data with result := data.result ++ title ++ (t.getName ++ "\n") ++
          ("Result: " ++ report ++ "\n\n") }])) := by
  simp [stageIteration, stageBody, h, bind, Except.bind, pure, Except.pure]

/-- A stage whose analysis raises. -/
theorem stageIteration_raise (execute : AlgorithmType → Graph → Except Exn String)
    (t : AlgorithmType) (title : String) (data : PipelineData) (rest next : List PipelineData)
    (what : String) (h : execute t data.graph = .error (.exception what)) :
    stageIteration execute t title true (data :: rest) next = .ok (some (rest, next ++
      [{ data with result := data.result ++ title ++ (t.getName ++ "\n") ++
          ("ERROR: " ++ what ++ "\n\n") }])) := by
  simp [stageIteration, stageBody, h, bind, Except.bind, pure, Except.pure]

/-! ## The augmenting-path loop of `MAX_FLOW` terminates -/

theorem row_matSet_ne (m : List (List Int)) (i j k : Nat) (x : Int) (h : k ≠ i) :
    (matSet m i j x).getD k [] = m.getD k [] := by
  unfold matSet
  simp only [List.getD_eq_getElem?_getD]
  rw [List.getElem?_set_ne (fun e => h e.symm)]

theorem row_matSet_eq (m : List (List Int)) (i j : Nat) (x : Int) :
    (matSet m i j x).getD i [] = (m.getD i []).set j x := by
  unfold matSet
  by_cases hi : i < m.length
  · simp only [List.getD_eq_getElem?_getD]
    rw [List.getElem?_set_self hi]
    rfl
  · have e : m.set i ((m.getD i []).set j x) = m := by
      apply List.set_eq_of_length_le
      omega
    rw [e]
    have e2 : m.getD i [] = [] := by
      rw [List.getD_eq_getElem?_getD, List.getElem?_eq_none (by omega)]
      rfl
    rw [e2]
    rfl

theorem TreePath.transfer {residual : List (List Int)} {parent parent1 : List Int} {source : Nat}
    {seen seen1 : List Nat} {v k f : Nat} (h : TreePath residual parent source seen v k f)
    (hs : ∀ x ∈ seen, x ∈ seen1) (hp : ∀ x ∈ seen, parent1.getD x 0 = parent.getD x 0) :
    TreePath residual parent1 source seen1 v k f := by
  induction h with
  | last v hv hne hpar hr =>
    exact .last v (hs v hv) hne (by rw [hp v hv]; exact hpar) hr
  | step v u k f hv hne hune hpar hr _ ih =>
    exact .step v u k f (hs v hv) hne hune (by rw [hp v hv]; exact hpar) hr ih

theorem TreePath.first {residual : List (List Int)} {parent : List Int} {source : Nat}
    {seen : List Nat} {v k f : Nat} (h : TreePath residual parent source seen v k f) :
    f ∈ seen ∧ f ≠ source ∧ 0 < matGet residual source f ∧ 1 ≤ k := by
  induction h with
  | last v hv hne hpar hr => exact ⟨hv, hne, hr, le_refl _⟩
  | step v u k f hv hne hune hpar hr _ ih => exact ⟨ih.1, ih.2.1, ih.2.2.1, by omega⟩

theorem pathMin_source (residual : List (List Int)) (parent : List Int) (source fuel : Nat)
    (pf : Int) : pathMin residual parent source fuel (source : Int) pf = .ok pf := by
  cases fuel <;> simp [pathMin, pure, Except.pure]

theorem pathUpdate_source (arith : Int → Int) (parent : List Int) (source fuel : Nat)
    (pf : Int) (r : List (List Int)) :
    pathUpdate arith parent source pf fuel (source : Int) r = .ok r := by
  cases fuel <;> simp [pathUpdate, pure, Except.pure]

/-- The first walk from the sink: it arrives at the source within its fuel and
returns the least capacity on the way, which is at least 1. -/
theorem pathMin_treePath {residual : List (List Int)} {parent : List Int} {source : Nat}
    {seen : List Nat} {v k f : Nat} (h : TreePath residual parent source seen v k f) :
    ∀ fuel, k ≤ fuel → ∀ pf0 : Int, 1 ≤ pf0 →
      ∃ pf, pathMin residual parent source fuel (v : Int) pf0 = .ok pf ∧ 1 ≤ pf ∧ pf ≤ pf0 ∧
        pf ≤ matGet residual source f := by
  induction h with
  | last v hv hne hpar hr =>
    intro fuel hk pf0 h0
    obtain ⟨fuel, rfl⟩ : ∃ m, fuel = m + 1 := ⟨fuel - 1, by omega⟩
    have hne2 : ¬ ((v : Int) = (source : Int)) := by omega
    rw [pathMin, if_neg hne2]
    simp only [Int.toNat_ofNat, hpar, pathMin_source]
    exact ⟨_, rfl, by omega, by omega, by omega⟩
  | step v u k f hv hne hune hpar hr _ ih =>
    intro fuel hk pf0 h0
    obtain ⟨fuel, rfl⟩ : ∃ m, fuel = m + 1 := ⟨fuel - 1, by omega⟩
    have hne2 : ¬ ((v : Int) = (source : Int)) := by omega
    rw [pathMin, if_neg hne2]
    simp only [Int.toNat_ofNat, hpar]
    obtain ⟨pf, e, h1, h2, h3⟩ := ih fuel (by omega) (min pf0 (matGet residual u v)) (by omega)
    exact ⟨pf, e, h1, by omega, h3⟩

/-- The second walk from the sink: it arrives at the source within its fuel,
and of the row of the source it changes the one entry of the arc that the walk
ends with. -/
theorem pathUpdate_treePath (arith : Int → Int) {residual : List (List Int)}
    {parent : List Int} {source : Nat} {seen : List Nat} {v k f : Nat}
    (h : TreePath residual parent source seen v k f) (pf : Int) :
    ∀ fuel, k ≤ fuel → ∀ r : List (List Int), r.getD source [] = residual.getD source [] →
      ∃ r1, pathUpdate arith parent source pf fuel (v : Int) r = .ok r1 ∧
        r1.getD source [] =
          (residual.getD source []).set f (arith (matGet residual source f - pf)) := by
  induction h with
  | last v hv hne hpar hr =>
    intro fuel hk r hrow
    obtain ⟨fuel, rfl⟩ : ∃ m, fuel = m + 1 := ⟨fuel - 1, by omega⟩
    have hne2 : ¬ ((v : Int) = (source : Int)) := by omega
    rw [pathUpdate, if_neg hne2]
    simp only [Int.toNat_ofNat, hpar, pathUpdate_source]
    refine ⟨_, rfl, ?_⟩
    rw [row_matSet_ne _ _ _ _ _ (fun e => hne e.symm), row_matSet_eq, hrow]
    unfold matGet
    rw [hrow]
  | step v u k f hv hne hune hpar hr _ ih =>
    intro fuel hk r hrow
    obtain ⟨fuel, rfl⟩ : ∃ m, fuel = m + 1 := ⟨fuel - 1, by omega⟩
    have hne2 : ¬ ((v : Int) = (source : Int)) := by omega
    rw [pathUpdate, if_neg hne2]
    simp only [Int.toNat_ofNat, hpar]
    apply ih fuel (by omega)
    rw [row_matSet_ne _ _ _ _ _ (fun e => hne e.symm),
      row_matSet_ne _ _ _ _ _ (fun e => hune e.symm), hrow]

theorem length_le_of_nodup_lt (l : List Nat) (n : Nat) (hnd : l.Nodup) (hlt : ∀ v ∈ l, v < n) :
    l.length ≤ n := by
  have h1 : l.toFinset ⊆ Finset.range n := by
    intro v hv
    rw [List.mem_toFinset] at hv
    exact Finset.mem_range.2 (hlt v hv)
  have h2 := Finset.card_le_card h1
  rw [List.toFinset_card_of_nodup hnd, Finset.card_range] at h2
  exact h2

/-- The loop `for (int v = 0; v < n; v++)` of `bfs` keeps the invariant. -/
theorem bfsScan_inv (residual : List (List Int)) (n source u : Nat) (done : List Nat)
    (hu : u ∈ done) : ∀ (vs : List Nat), (∀ v ∈ vs, v < n) → ∀ (st : BfsState),
      BfsInv residual n source (done ++ st.q) st →
      BfsInv residual n source (done ++ (bfsScan residual u st vs).q)
        (bfsScan residual u st vs) := by
  intro vs
  induction vs with
  | nil => intro _ st h; exact h
  | cons v rest ih =>
    intro hvs st h
    have hv : v < n := hvs v (List.mem_cons_self _ _)
    have hrest : ∀ x ∈ rest, x < n := fun x hx => hvs x (List.mem_cons_of_mem _ hx)
    rw [bfsScan]
    by_cases hc : (!(st.visited.getD v false) && decide (matGet residual u v > 0)) = true
    · rw [if_pos hc]
      apply ih hrest
      simp only [Bool.and_eq_true, Bool.not_eq_true', decide_eq_true_eq] at hc
      obtain ⟨hnv, hpos⟩ := hc
      have hnot : v ∉ done ++ st.q := by
        intro hm
        have := (h.vis v).2 hm
        rw [hnv] at this
        exact absurd this (by decide)
      have hseen : done ++ (st.q ++ [v]) = (done ++ st.q) ++ [v] := by
        rw [List.append_assoc]
      have hvs : v ≠ source := fun e => hnot (e ▸ h.src)
      have hpar : ∀ x ∈ done ++ st.q, (st.parent.set v (u : Int)).getD x 0 = st.parent.getD x 0 := by
        intro x hx
        rw [getD_set_int, if_neg]
        intro hxv
        exact hnot (hxv.1 ▸ hx)
      have hsub : ∀ x ∈ done ++ st.q, x ∈ (done ++ st.q) ++ [v] :=
        fun x hx => List.mem_append_left _ hx
      have hparv : (st.parent.set v (u : Int)).getD v 0 = (u : Int) := by
        rw [getD_set_int, if_pos ⟨rfl, by rw [h.plen]; exact hv⟩]
      have hlen : 1 ≤ (done ++ st.q).length := List.length_pos_of_mem h.src
      show BfsInv residual n source (done ++ (st.q ++ [v])) _
      rw [hseen]
      refine ⟨by simp [h.vlen], by simp [h.plen], ?_, ?_, ?_, ?_, ?_⟩
      · rw [List.nodup_append]
        refine ⟨h.nodup, List.nodup_singleton _, ?_⟩
        intro x hx hx2
        rw [List.mem_singleton] at hx2
        exact hnot (hx2 ▸ hx)
      · intro x hx
        rw [List.mem_append, List.mem_singleton] at hx
        rcases hx with hx | hx
        · exact h.lt x hx
        · rw [hx]; exact hv
      · intro x
        show (st.visited.set v true).getD x false = true ↔ _
        rw [getD_set_true, List.mem_append, List.mem_singleton, ← h.vis x]
        by_cases hxv : x = v
        · simp [hxv, h.vlen, hv]
        · simp [hxv]
      · exact List.mem_append_left _ h.src
      · intro x hx hxs
        rw [List.mem_append, List.mem_singleton] at hx
        rcases hx with hx | hx
        · obtain ⟨k, f, hp, hk⟩ := h.tree x hx hxs
          refine ⟨k, f, hp.transfer hsub hpar, ?_⟩
          rw [List.length_append]
          simp only [List.length_singleton]
          omega
        · subst hx
          have hxin : x ∈ (done ++ st.q) ++ [x] := by simp
          by_cases hus : u = source
          · refine ⟨1, x, .last x hxin hxs (by rw [hparv, hus]) (by rw [← hus]; exact hpos), ?_⟩
            rw [List.length_append]
            simp only [List.length_singleton]
            omega
          · obtain ⟨k, f, hp, hk⟩ := h.tree u (List.mem_append_left _ hu) hus
            refine ⟨k + 1, f, .step x u k f hxin hxs hus hparv hpos (hp.transfer hsub hpar), ?_⟩
            rw [List.length_append]
            simp only [List.length_singleton]
            omega
    · rw [if_neg hc]
      exact ih hrest st h

/-- The loop `while (!q.empty())` of `bfs` ends within its fuel, with the
invariant. -/
theorem bfsLoop_inv (residual : List (List Int)) (n source : Nat) :
    ∀ (fuel : Nat) (done : List Nat) (st : BfsState),
      BfsInv residual n source (done ++ st.q) st → n ≤ fuel + done.length →
      ∃ st1 seen, bfsLoop residual n fuel st = .ok st1 ∧ BfsInv residual n source seen st1 := by
  intro fuel
  induction fuel with
  | zero =>
    intro done st h hf
    have hl := length_le_of_nodup_lt _ n h.nodup h.lt
    rw [List.length_append] at hl
    have hq : st.q = [] := List.eq_nil_of_length_eq_zero (by omega)
    refine ⟨st, done ++ st.q, ?_, h⟩
    rw [bfsLoop, if_pos hq]
    rfl
  | succ fuel ih =>
    intro done st h hf
    rw [bfsLoop]
    cases hq : st.q with
    | nil =>
      refine ⟨st, done ++ st.q, rfl, h⟩
    | cons u rest =>
      simp only []
      have h1 : BfsInv residual n source ((done ++ [u]) ++ rest) { st with q := rest } := by
        rw [List.append_assoc, List.singleton_append, ← hq]
        exact ⟨h.vlen, h.plen, h.nodup, h.lt, h.vis, h.src, h.tree⟩
      have h2 := bfsScan_inv residual n source u (done ++ [u]) (by simp) (List.range n)
        (fun v hv => List.mem_range.1 hv) { st with q := rest } h1
      exact ih (done ++ [u]) _ h2 (by rw [List.length_append]; simp only [List.length_singleton]; omega)

/-- `bfs` returns, and when it returns `true` the walk from the sink along
`parent` arrives at the source in fewer than `n` steps. -/
theorem bfs_spec (residual : List (List Int)) (n source sink : Nat) (parent : List Int)
    (hs : source < n) (hne : sink ≠ source) (hp : parent.length = n) :
    ∃ found parent1, bfs residual source sink parent n = .ok (found, parent1) ∧
      parent1.length = n ∧
      (found = true → ∃ seen k f, TreePath residual parent1 source seen sink k f ∧ k < n ∧
        f < n) := by
  have h0 : BfsInv residual n source ([] ++ [source])
      { visited := (List.replicate n false).set source true, q := [source],
        parent := parent.set source (-1) } := by
    refine ⟨by simp, by simp [hp], by simp, ?_, ?_, by simp, ?_⟩
    · intro v hv
      simp only [List.nil_append, List.mem_singleton] at hv
      rw [hv]; exact hs
    · intro v
      show ((List.replicate n false).set source true).getD v false = true ↔ _
      rw [getD_set_true, getD_replicate_false]
      simp [hs]
    · intro v hv hvs
      simp only [List.nil_append, List.mem_singleton] at hv
      exact absurd hv hvs
  obtain ⟨st1, seen, e, hinv⟩ := bfsLoop_inv residual n source (n + 1) []
    (BfsState.mk ((List.replicate n false).set source true) [source] (parent.set source (-1)))
    h0 (by simp)
  refine ⟨st1.visited.getD sink false, st1.parent, ?_, hinv.plen, ?_⟩
  · unfold bfs
    rw [e]
    rfl
  · intro hf
    have hm := (hinv.vis sink).1 hf
    obtain ⟨k, f, hp, hk⟩ := hinv.tree sink hm hne
    have hl := length_le_of_nodup_lt _ n hinv.nodup hinv.lt
    exact ⟨seen, k, f, hp, by omega, hinv.lt f hp.first.1⟩

theorem sum_max_set (l : List Int) (d : Nat) (w : Int) (hd : d < l.length) :
    ((l.set d w).map (fun x => max x 0)).sum =
      (l.map (fun x => max x 0)).sum - max (l.getD d 0) 0 + max w 0 := by
  induction l generalizing d with
  | nil => simp at hd
  | cons a l ih =>
    cases d with
    | zero =>
      simp only [List.set_cons_zero, List.map_cons, List.sum_cons, List.getD_cons_zero]
      omega
    | succ d =>
      simp only [List.set_cons_succ, List.map_cons, List.sum_cons, List.getD_cons_succ]
      rw [ih d (by simpa using hd)]
      omega

theorem sum_max_set_le (l : List Int) (d : Nat) (w : Int) :
    ((l.set d w).map (fun x => max x 0)).sum ≤ (l.map (fun x => max x 0)).sum + max w 0 := by
  by_cases hd : d < l.length
  · rw [sum_max_set l d w hd]
    have : 0 ≤ max (l.getD d 0) 0 := le_max_right _ _
    omega
  · rw [List.set_eq_of_length_le (by omega)]
    have : 0 ≤ max w 0 := le_max_right _ _
    omega

theorem sum_max_nonneg (l : List Int) : 0 ≤ (l.map (fun x => max x 0)).sum := by
  apply List.sum_nonneg
  intro x hx
  rw [List.mem_map] at hx
  obtain ⟨y, _, rfl⟩ := hx
  exact le_max_right _ _

theorem rowCapacity_nonneg (residual : List (List Int)) (u : Nat) :
    0 ≤ rowCapacity residual u :=
  sum_max_nonneg _

theorem getD_mem_int (l : List Int) (d : Nat) (hd : d < l.length) : l.getD d 0 ∈ l := by
  rw [List.getD_eq_getElem _ _ hd]
  exact List.getElem_mem _

/-- One test of the loop of `execute`, with its body: `bfs` and the two walks
return, the path flow is at least 1, the sum of the positive capacities of the
arcs that leave the source goes down by the path flow, and the entries of the
row of the source stay within `int`. -/
theorem augment_spec (arith : Int → Int) (harith : ∀ x, 0 ≤ x → x ≤ INT_MAX → arith x = x)
    (n : Nat) (hn : 2 ≤ n) (st : FlowState) (hp : st.parent.length = n)
    (hrow : (st.residual.getD 0 []).length = n)
    (hmax : ∀ x ∈ st.residual.getD 0 [], x ≤ INT_MAX) :
    ∃ r, augment arith n 0 (n - 1) st = .ok r ∧ ∀ st1, r = some st1 →
      st1.parent.length = n ∧ (st1.residual.getD 0 []).length = n ∧
      (∀ x ∈ st1.residual.getD 0 [], x ≤ INT_MAX) ∧
      ∃ pathFlow, 1 ≤ pathFlow ∧ pathFlow ≤ INT_MAX ∧
        st1.maxFlow = arith (st.maxFlow + pathFlow) ∧
        rowCapacity st1.residual 0 = rowCapacity st.residual 0 - pathFlow := by
  obtain ⟨found, parent1, e, hp1, hfound⟩ :=
    bfs_spec st.residual n 0 (n - 1) st.parent (by omega) (by omega) hp
  unfold augment
  rw [e]
  cases found with
  | false =>
    refine ⟨none, rfl, ?_⟩
    intro st1 h
    cases h
  | true =>
    obtain ⟨seen, k, f, htp, hk, hf⟩ := hfound rfl
    obtain ⟨pf, e1, h1, h2, h3⟩ := pathMin_treePath htp n (by omega) INT_MAX (by decide)
    obtain ⟨r1, e2, hr1⟩ := pathUpdate_treePath arith htp pf n (by omega) st.residual rfl
    simp only [bind, Except.bind, if_true, e1, e2, pure, Except.pure]
    refine ⟨_, rfl, ?_⟩
    intro st1 h
    cases h
    have hold : matGet st.residual 0 f ≤ INT_MAX := by
      unfold matGet
      exact hmax _ (getD_mem_int _ _ (by rw [hrow]; exact hf))
    have hnew : arith (matGet st.residual 0 f - pf) = matGet st.residual 0 f - pf :=
      harith _ (by omega) (by omega)
    rw [hnew] at hr1
    refine ⟨hp1, ?_, ?_, pf, h1, h2, rfl, ?_⟩
    · show (r1.getD 0 []).length = n
      rw [hr1, List.length_set, hrow]
    · intro x hx
      change x ∈ r1.getD 0 [] at hx
      rw [hr1] at hx
      rcases List.mem_or_eq_of_mem_set hx with hx | hx
      · exact hmax x hx
      · rw [hx]
        omega
    · unfold rowCapacity
      show ((r1.getD 0 []).map (fun x => max x 0)).sum = _
      rw [hr1, sum_max_set _ _ _ (by rw [hrow]; exact hf)]
      have hg : (st.residual.getD 0 []).getD f 0 = matGet st.residual 0 f := rfl
      rw [hg]
      have hpos := htp.first.2.2.1
      rw [max_eq_left (by omega), max_eq_left (by omega)]
      omega

/-- The loop of `execute` is the iteration of `augment`. -/
theorem fordFulkerson_succ (arith : Int → Int) (n source sink fuel : Nat) (st : FlowState) :
    fordFulkerson arith n source sink (fuel + 1) st.residual st.parent st.maxFlow =
      (augment arith n source sink st >>= fun r =>
        match r with
        | none => pure st.maxFlow
        | some st1 => fordFulkerson arith n source sink fuel st1.residual st1.parent st1.maxFlow) := by
  rw [fordFulkerson]
  unfold augment
  cases bfs st.residual source sink st.parent n with
  | error e => rfl
  | ok x =>
    obtain ⟨found, parent1⟩ := x
    cases found with
    | false => rfl
    | true =>
      simp only [bind, Except.bind, if_true]
      cases pathMin st.residual parent1 source n (sink : Int) INT_MAX with
      | error e => rfl
      | ok pf =>
        simp only []
        cases pathUpdate arith parent1 source pf n (sink : Int) st.residual with
        | error e => rfl
        | ok r1 => rfl

/-- The value of `maxFlow` after the loop is the one of the last state. -/
theorem fordFulkerson_of_augmentations (arith : Int → Int) (n source sink : Nat) :
    ∀ (fuel : Nat) (st : FlowState) (trace : List FlowState),
      augmentations arith n source sink fuel st = .ok trace →
      ∃ final, trace.getLast? = some final ∧
        fordFulkerson arith n source sink fuel st.residual st.parent st.maxFlow =
          .ok final.maxFlow := by
  intro fuel
  induction fuel with
  | zero =>
    intro st trace h
    cases h
  | succ fuel ih =>
    intro st trace h
    rw [fordFulkerson_succ]
    rw [augmentations] at h
    cases ha : augment arith n source sink st with
    | error e =>
      rw [ha] at h
      cases h
    | ok r =>
      rw [ha] at h
      cases r with
      | none =>
        simp only [bind, Except.bind, pure, Except.pure] at h ⊢
        cases h
        exact ⟨st, rfl, rfl⟩
      | some st1 =>
        simp only [bind, Except.bind] at h ⊢
        cases hr : augmentations arith n source sink fuel st1 with
        | error e =>
          rw [hr] at h
          cases h
        | ok rest =>
          rw [hr] at h
          simp only [pure, Except.pure] at h
          cases h
          obtain ⟨final, hl, hf⟩ := ih st1 rest hr
          refine ⟨final, ?_, hf⟩
          cases rest with
          | nil => cases hl
          | cons a rest => 
            rw [List.getLast?_cons_cons]
            exact hl

/-- The loop of `execute` ends: from a state whose arcs out of the source have
positive capacities of sum less than the fuel, the loop makes at most that
many iterations, each with a path flow of at least 1. -/
theorem augmentations_spec (arith : Int → Int)
    (harith : ∀ x, 0 ≤ x → x ≤ INT_MAX → arith x = x) (n : Nat) (hn : 2 ≤ n) :
    ∀ (fuel : Nat) (st : FlowState), st.parent.length = n →
      (st.residual.getD 0 []).length = n → (∀ x ∈ st.residual.getD 0 [], x ≤ INT_MAX) →
      rowCapacity st.residual 0 < fuel →
      ∃ trace, augmentations arith n 0 (n - 1) fuel st = .ok (st :: trace) ∧
        (trace.length : Int) ≤ rowCapacity st.residual 0 ∧
        List.Chain (fun s s1 : FlowState => ∃ pathFlow, 1 ≤ pathFlow ∧ pathFlow ≤ INT_MAX ∧
          s1.maxFlow = arith (s.maxFlow + pathFlow) ∧
          rowCapacity s1.residual 0 = rowCapacity s.residual 0 - pathFlow) st trace := by
  intro fuel
  induction fuel with
  | zero =>
    intro st _ _ _ hf
    have := rowCapacity_nonneg st.residual 0
    simp only [Nat.cast_zero] at hf
    omega
  | succ fuel ih =>
    intro st hp hrow hmax hf
    obtain ⟨r, e, hr⟩ := augment_spec arith harith n hn st hp hrow hmax
    rw [augmentations, e]
    cases r with
    | none =>
      exact ⟨[], rfl, by simpa using rowCapacity_nonneg st.residual 0, List.Chain.nil⟩
    | some st1 =>
      obtain ⟨hp1, hrow1, hmax1, pf, h1, h2, hm, hc⟩ := hr st1 rfl
      obtain ⟨trace, e1, hl, hch⟩ := ih st1 hp1 hrow1 hmax1 (by push_cast at hf; omega)
      refine ⟨st1 :: trace, ?_, ?_, List.Chain.cons ⟨pf, h1, h2, hm, hc⟩ hch⟩
      · simp only [bind, Except.bind, e1, pure, Except.pure]
      · rw [List.length_cons]
        push_cast
        omega

theorem foldl_matSet_row_ne (i k : Nat) (h : k ≠ i) : ∀ (nbs : List Neighbor)
    (r : List (List Int)),
    (nbs.foldl (fun r current => matSet r i current.dest current.weight) r).getD k [] =
      r.getD k [] := by
  intro nbs
  induction nbs with
  | nil => intro r; rfl
  | cons c nbs ih =>
    intro r
    rw [List.foldl_cons, ih, row_matSet_ne _ _ _ _ _ h]

theorem foldl_matSet_row_eq (i : Nat) : ∀ (nbs : List Neighbor) (r : List (List Int)),
    (nbs.foldl (fun r current => matSet r i current.dest current.weight) r).getD i [] =
      nbs.foldl (fun row current => row.set current.dest current.weight) (r.getD i []) := by
  intro nbs
  induction nbs with
  | nil => intro r; rfl
  | cons c nbs ih =>
    intro r
    rw [List.foldl_cons, ih, row_matSet_eq, List.foldl_cons]

/-- The rows that the loop filling the residual matrix does not come to stay
as they are. -/
theorem fillResidual_row_ne (g : Graph) (k : Nat) : ∀ (is : List Nat)
    (r : List (List Int)), (∀ i ∈ is, i < g.numVertices ∧ i ≠ k) →
    ∃ r1, fillResidual g is r = .ok r1 ∧ r1.getD k [] = r.getD k [] := by
  intro is
  induction is with
  | nil => intro r _; exact ⟨r, rfl, rfl⟩
  | cons i is ih =>
    intro r h
    obtain ⟨hi, hik⟩ := h i (List.mem_cons_self _ _)
    have hn : getNeighbors g (i : Int) = .ok (adj g i) := by
      unfold getNeighbors
      rw [if_neg (by omega)]
      simp
    obtain ⟨r1, e, hr⟩ := ih
      ((adj g i).foldl (fun r current => matSet r i current.dest current.weight) r)
      (fun j hj => h j (List.mem_cons_of_mem _ hj))
    refine ⟨r1, ?_, ?_⟩
    · rw [fillResidual, hn]
      exact e
    · rw [hr, foldl_matSet_row_ne _ _ (fun e => hik e.symm)]

theorem foldl_set_row (nbs : List Neighbor) (hw : ∀ nb ∈ nbs, nb.weight ≤ INT_MAX) :
    ∀ (row : List Int), (∀ x ∈ row, x ≤ INT_MAX) →
      (nbs.foldl (fun row current => row.set current.dest current.weight) row).length =
        row.length ∧
      (∀ x ∈ nbs.foldl (fun row current => row.set current.dest current.weight) row,
        x ≤ INT_MAX) ∧
      ((nbs.foldl (fun row current => row.set current.dest current.weight) row).map
          (fun x => max x 0)).sum ≤
        (row.map (fun x => max x 0)).sum + (nbs.map (fun nb => max nb.weight 0)).sum := by
  induction nbs with
  | nil =>
    intro row h
    exact ⟨rfl, h, by simp⟩
  | cons c nbs ih =>
    intro row h
    have h1 : ∀ x ∈ row.set c.dest c.weight, x ≤ INT_MAX := by
      intro x hx
      rcases List.mem_or_eq_of_mem_set hx with hx | hx
      · exact h x hx
      · rw [hx]
        exact hw c (List.mem_cons_self _ _)
    obtain ⟨i1, i2, i3⟩ := ih (fun nb hnb => hw nb (List.mem_cons_of_mem _ hnb)) _ h1
    rw [List.foldl_cons]
    refine ⟨by rw [i1, List.length_set], i2, ?_⟩
    have := sum_max_set_le row c.dest c.weight
    rw [List.map_cons, List.sum_cons]
    omega

/-- The row of the source in the residual matrix that `execute` starts from. -/
theorem fillResidual_source (g : Graph) (hn : 0 < g.numVertices)
    (hw : ∀ nb ∈ adj g 0, nb.weight ≤ INT_MAX) :
    ∃ r, fillResidual g (List.range g.numVertices)
        (List.replicate g.numVertices (List.replicate g.numVertices 0)) = .ok r ∧
      (r.getD 0 []).length = g.numVertices ∧ (∀ x ∈ r.getD 0 [], x ≤ INT_MAX) ∧
      rowCapacity r 0 ≤ positiveWeights g 0 := by
  obtain ⟨m, hm⟩ : ∃ m, g.numVertices = m + 1 := ⟨g.numVertices - 1, by omega⟩
  have hn0 : getNeighbors g ((0 : Nat) : Int) = .ok (adj g 0) := by
    unfold getNeighbors
    rw [if_neg (by omega)]
    simp
  obtain ⟨r1, e, hr⟩ := fillResidual_row_ne g 0 ((List.range m).map Nat.succ)
    ((adj g 0).foldl (fun r current => matSet r 0 current.dest current.weight)
      (List.replicate g.numVertices (List.replicate g.numVertices 0)))
    (by
      intro i hi
      rw [List.mem_map] at hi
      obtain ⟨j, hj, rfl⟩ := hi
      rw [List.mem_range] at hj
      exact ⟨by omega, by omega⟩)
  have hrow0 : (List.replicate g.numVertices (List.replicate g.numVertices (0 : Int))).getD 0 [] =
      List.replicate g.numVertices 0 := by
    rw [hm]
    rfl
  obtain ⟨i1, i2, i3⟩ := foldl_set_row (adj g 0) hw (List.replicate g.numVertices 0)
    (by
      intro x hx
      rw [List.eq_of_mem_replicate hx]
      decide)
  have hz : ((List.replicate g.numVertices (0 : Int)).map (fun x => max x 0)).sum = 0 := by
    simp
  refine ⟨r1, ?_, ?_, ?_, ?_⟩
  · conv_lhs => rw [hm, List.range_succ_eq_map, fillResidual, ← hm]
    rw [hn0]
    exact e
  · rw [hr, foldl_matSet_row_eq, hrow0, i1, List.length_replicate]
  · rw [hr, foldl_matSet_row_eq, hrow0]
    exact i2
  · unfold rowCapacity positiveWeights
    rw [hr, foldl_matSet_row_eq, hrow0]
    omega

/-- The augmenting-path loop of `MAX_FLOW` terminates. For a graph of at least
two vertices whose weights at vertex 0 are at most `INT_MAX`, in arithmetic
that is exact on `0 .. INT_MAX` (the machine's and the exact one), and fuel
above the sum of the positive weights of the edges at vertex 0: `execute`
returns; every call of `bfs` and every walk from the sink along `parent`
returns within its own bound of `n` steps; the number of iterations is at most
the sum of the positive weights at vertex 0; in each iteration the path flow
is at least 1 and `maxFlow` becomes `arith (maxFlow + pathFlow)`. -/
theorem maxFlow_terminates (arith : Int → Int)
    (harith : ∀ x, 0 ≤ x → x ≤ INT_MAX → arith x = x) (g : Graph) (hn : 2 ≤ g.numVertices)
    (hw : ∀ nb ∈ adj g 0, nb.weight ≤ INT_MAX) (fuel : Nat)
    (hfuel : positiveWeights g 0 < fuel) :
    ∃ (st : FlowState) (trace : List FlowState) (final : FlowState),
      maxFlowTrace arith fuel g = .ok (st :: trace) ∧ st.maxFlow = 0 ∧
      (trace.length : Int) ≤ positiveWeights g 0 ∧
      List.Chain (fun s s1 : FlowState => ∃ pathFlow, 1 ≤ pathFlow ∧ pathFlow ≤ INT_MAX ∧
        s1.maxFlow = arith (s.maxFlow + pathFlow) ∧
        rowCapacity s1.residual 0 = rowCapacity s.residual 0 - pathFlow) st trace ∧
      (st :: trace).getLast? = some final ∧
      MaxFlowAlgorithm.execute arith fuel g = .ok ("Max Flow from node 0 to node " ++
        to_string ((g.numVertices : Int) - 1) ++ ": " ++ to_string final.maxFlow) := by
  obtain ⟨r, e, hlen, hmax, hcap⟩ := fillResidual_source g (by omega) hw
  obtain ⟨trace, et, hl, hch⟩ := augmentations_spec arith harith g.numVertices hn fuel
    ⟨r, List.replicate g.numVertices 0, 0⟩ (by simp) hlen hmax (by
      show rowCapacity r 0 < (fuel : Int)
      omega)
  obtain ⟨final, hfin, hff⟩ := fordFulkerson_of_augmentations arith g.numVertices 0
    (g.numVertices - 1) fuel _ _ et
  have hl2 : (trace.length : Int) ≤ rowCapacity r 0 := hl
  refine ⟨_, trace, final, ?_, rfl, by omega, hch, hfin, ?_⟩
  · unfold maxFlowTrace
    simp only [bind, Except.bind, e]
    exact et
  · unfold MaxFlowAlgorithm.execute maxFlowValue
    rw [if_neg (by omega)]
    simp only [bind, Except.bind, e]
    rw [hff]
    rfl


/-- The call of `MAX_FLOW` on the machine returns a report, given fuel above
the sum of the positive weights at vertex 0. -/
theorem maxFlow_execute_returns (g : Graph) (hn : 2 ≤ g.numVertices)
    (hw : ∀ nb ∈ adj g 0, nb.weight ≤ INT_MAX) (fuel : Nat)
    (hfuel : positiveWeights g 0 < fuel) :
    ∃ report, AlgorithmFactory.execute fuel .MAX_FLOW g = .ok report := by
  obtain ⟨_, _, final, _, _, _, _, _, e⟩ := maxFlow_terminates wrapInt32
    (fun x h0 h1 => wrapInt32_eq x (by omega) (by unfold INT_MAX at h1; omega)) g hn hw fuel hfuel
  exact ⟨_, by unfold AlgorithmFactory.execute; rw [e]; rfl⟩
/-! ## The claims on the graph -/

/-- C1. For a graph built by the constructor and `addEdge`/`removeEdge` calls,
`findEulerCircuit` returns a sequence `C`, and when `C` is not empty it starts
and ends at the same vertex, has `getNumEdges + 1` entries, passes every edge
of the graph exactly once (counting both directions) and steps only along
edges of the graph. -/
theorem findEulerCircuit_is_euler_circuit (G : Graph) (hG : Reachable G) :
    ∃ C, findEulerCircuit G = .ok C ∧
      (C ≠ [] →
        C.head? = C.getLast? ∧
        C.length = getNumEdges G + 1 ∧
        (∀ u v : Int, hasEdge G u v = .ok true →
          (C.zip C.tail).countP (fun p =>
            decide (((p.1 : Int) = u ∧ (p.2 : Int) = v) ∨ ((p.1 : Int) = v ∧ (p.2 : Int) = u)))
            = 1) ∧
        (∀ p ∈ C.zip C.tail, hasEdge G (p.1 : Int) (p.2 : Int) = .ok true)) := by
  have hg := hG.wf
  obtain ⟨C, hC, _, hprop⟩ := findEulerCircuit_wf hg
  refine ⟨C, hC, fun hne => ?_⟩
  obtain ⟨h1, h2, h3, h4⟩ := hprop hne
  refine ⟨h1, h2, ?_, ?_⟩
  · intro u v huv
    obtain ⟨hu, hv, _, _, hmem⟩ := hasEdge_ok_true huv
    have hin : s(u.toNat, v.toNat) ∈ edgesOf C := (h4 _ _).1 hmem
    have hcount := List.count_eq_one_of_mem h3 hin
    rw [edgesOf_eq_zip, List.count, List.countP_map] at hcount
    rw [← hcount]
    apply List.countP_congr
    intro p _
    simp only [Function.comp, beq_iff_eq, decide_eq_true_eq, Sym2.eq_iff]
    constructor
    · rintro (⟨e1, e2⟩ | ⟨e1, e2⟩)
      · left; constructor <;> omega
      · right; constructor <;> omega
    · rintro (⟨e1, e2⟩ | ⟨e1, e2⟩)
      · left; constructor <;> omega
      · right; constructor <;> omega
  · intro p hp
    have hin : s(p.1, p.2) ∈ edgesOf C := by
      rw [edgesOf_eq_zip]
      exact List.mem_map_of_mem _ hp
    exact hasEdge_cast_true hg ((h4 _ _).2 hin)

theorem findEulerCircuit_is_euler_circuit_witness :
    Reachable eulerGraph ∧ findEulerCircuit eulerGraph = .ok [0, 3, 2, 1, 0] ∧
    ∃ C, findEulerCircuit eulerGraph = .ok C ∧
      (C ≠ [] →
        C.head? = C.getLast? ∧
        C.length = getNumEdges eulerGraph + 1 ∧
        (∀ u v : Int, hasEdge eulerGraph u v = .ok true →
          (C.zip C.tail).countP (fun p =>
            decide (((p.1 : Int) = u ∧ (p.2 : Int) = v) ∨ ((p.1 : Int) = v ∧ (p.2 : Int) = u)))
            = 1) ∧
        (∀ p ∈ C.zip C.tail, hasEdge eulerGraph (p.1 : Int) (p.2 : Int) = .ok true)) :=
  ⟨reachable_of_calls 4 [(0, 1, 1), (1, 2, 1), (2, 3, 1), (3, 0, 1)] eulerGraph (by decide),
    by decide,
    findEulerCircuit_is_euler_circuit eulerGraph
      (reachable_of_calls 4 [(0, 1, 1), (1, 2, 1), (2, 3, 1), (3, 0, 1)] eulerGraph (by decide))⟩

/-- C2. For a graph built by the constructor and `addEdge`/`removeEdge` calls,
`findEulerCircuit` returns the empty sequence exactly when `hasEulerCircuit`
is false or the graph has no edges; with an Euler circuit and at least one
edge the result is not empty. -/
theorem findEulerCircuit_empty_iff (G : Graph) (hG : Reachable G) :
    ∃ C b, findEulerCircuit G = .ok C ∧ hasEulerCircuit G = .ok b ∧
      (C = [] ↔ (b = false ∨ getNumEdges G = 0)) ∧
      (b = true → 0 < getNumEdges G → C ≠ []) := by
  have hg := hG.wf
  obtain ⟨C, hC, hempty, _⟩ := findEulerCircuit_wf hg
  obtain ⟨b, hb, _⟩ := hasEulerCircuit_wf hg
  have key : C = [] ↔ (b = false ∨ getNumEdges G = 0) := by
    rw [hempty, hb, getNumEdges_eq_zero_iff hg]
    simp
  refine ⟨C, b, hC, hb, key, ?_⟩
  intro hb1 hpos hnil
  rcases key.1 hnil with h | h
  · rw [hb1] at h; cases h
  · omega

theorem findEulerCircuit_empty_iff_witness :
    Reachable eulerGraph ∧
    ∃ C b, findEulerCircuit eulerGraph = .ok C ∧ hasEulerCircuit eulerGraph = .ok b ∧
      (C = [] ↔ (b = false ∨ getNumEdges eulerGraph = 0)) ∧
      (b = true → 0 < getNumEdges eulerGraph → C ≠ []) :=
  ⟨reachable_of_calls 4 [(0, 1, 1), (1, 2, 1), (2, 3, 1), (3, 0, 1)] eulerGraph (by decide),
    findEulerCircuit_empty_iff eulerGraph
      (reachable_of_calls 4 [(0, 1, 1), (1, 2, 1), (2, 3, 1), (3, 0, 1)] eulerGraph (by decide))⟩

/-- C3. For every graph, `hasEulerCircuit` is true exactly when `isConnected`
is true and `getDegree(v)` is even for every vertex `v` of `[0, n)`. -/
theorem hasEulerCircuit_iff (G : Graph) :
    hasEulerCircuit G = .ok true ↔
      (isConnected G = .ok true ∧
        ∀ v : Int, 0 ≤ v → v < G.numVertices → ∃ d, getDegree G v = .ok d ∧ d % 2 = 0) := by
  have hdeg : (∀ v : Int, 0 ≤ v → v < G.numVertices → ∃ d, getDegree G v = .ok d ∧ d % 2 = 0) ↔
      ∀ i ∈ List.range G.numVertices, (dests G i).length % 2 = 0 := by
    constructor
    · intro h i hi
      have hi := List.mem_range.1 hi
      obtain ⟨d, hd, he⟩ := h (i : Int) (by omega) (by omega)
      rw [getDegree_cast G i hi] at hd
      cases hd
      exact he
    · intro h v hv0 hvn
      have hvn2 : v.toNat < G.numVertices := by omega
      have := getDegree_cast G v.toNat hvn2
      rw [Int.toNat_of_nonneg hv0] at this
      exact ⟨_, this, h _ (List.mem_range.2 hvn2)⟩
  rw [hdeg]
  unfold hasEulerCircuit
  rw [allEven_eq G _ (fun i hi => List.mem_range.1 hi)]
  cases hc : isConnected G with
  | error e => simp [bind, Except.bind]
  | ok c =>
    cases c with
    | false => simp [bind, Except.bind, pure, Except.pure]
    | true => simp [bind, Except.bind, pure, Except.pure, List.all_eq_true]

/-- C4. For a graph built by the constructor and `addEdge`/`removeEdge` calls,
`isConnected` is true exactly when every two vertices of positive degree are
joined by a path of edges; it is true for every graph with no edges. -/
theorem isConnected_iff_joined (G : Graph) (hG : Reachable G) :
    ∃ b, isConnected G = .ok b ∧
      (b = true ↔ ∀ u v : Int,
        (∃ d, getDegree G u = .ok d ∧ 0 < d) → (∃ d, getDegree G v = .ok d ∧ 0 < d) →
        Relation.ReflTransGen (fun x y : Int => hasEdge G x y = .ok true) u v) ∧
      (getNumEdges G = 0 → b = true) := by
  have hg := hG.wf
  obtain ⟨b, hb, hiff⟩ := isConnected_wf hg
  refine ⟨b, hb, ?_, ?_⟩
  · rw [hiff]
    constructor
    · intro h u v hu hv
      obtain ⟨hu0, hud⟩ := getDegree_pos hu
      obtain ⟨hv0, hvd⟩ := getDegree_pos hv
      have := joined_of_reach hg (h _ _ hud hvd)
      rw [Int.toNat_of_nonneg hu0, Int.toNat_of_nonneg hv0] at this
      exact this
    · intro h u v hu hv
      have hu1 := hg.lt_of_ne_nil hu
      have hv1 := hg.lt_of_ne_nil hv
      have := reach_of_joined (h (u : Int) (v : Int)
        ⟨_, getDegree_cast G u hu1, List.length_pos.2 hu⟩
        ⟨_, getDegree_cast G v hv1, List.length_pos.2 hv⟩)
      simpa using this
  · intro h0
    rw [hiff]
    intro u v hu _
    exact absurd ((getNumEdges_eq_zero_iff hg).1 h0 u) hu

theorem isConnected_iff_joined_witness :
    Reachable eulerGraph ∧ isConnected eulerGraph = .ok true ∧
    ∃ b, isConnected eulerGraph = .ok b ∧
      (b = true ↔ ∀ u v : Int,
        (∃ d, getDegree eulerGraph u = .ok d ∧ 0 < d) →
        (∃ d, getDegree eulerGraph v = .ok d ∧ 0 < d) →
        Relation.ReflTransGen (fun x y : Int => hasEdge eulerGraph x y = .ok true) u v) ∧
      (getNumEdges eulerGraph = 0 → b = true) :=
  ⟨reachable_of_calls 4 [(0, 1, 1), (1, 2, 1), (2, 3, 1), (3, 0, 1)] eulerGraph (by decide),
    by decide,
    isConnected_iff_joined eulerGraph
      (reachable_of_calls 4 [(0, 1, 1), (1, 2, 1), (2, 3, 1), (3, 0, 1)] eulerGraph (by decide))⟩

/-! ## The claims on random graphs and on the request handlers -/

/-- C5, at the failing input. With 65536 vertices the product
`vertices * (vertices - 1)` leaves the `int` range, `maxPossibleEdges` is
negative, the requested single edge is clamped to it and the sampling loop
never runs: the graph returned has no edge, although `1 <= 65536 * 65535 / 2`. -/
theorem generateRandomGraph_overflow (draw : Nat → Int) (fuel : Nat) :
    maxPossibleEdges 65536 = -32768 ∧ (1 : Int) ≤ 65536 * (65536 - 1) / 2 ∧
      ∃ g, generateRandomGraph draw fuel 65536 1 = .ok g ∧ g.numVertices = 65536 ∧
        getNumEdges g = 0 := by
  have hmax : maxPossibleEdges 65536 = -32768 := by decide
  refine ⟨hmax, by decide, ?_⟩
  obtain ⟨g, h1, h2, h3⟩ := generateRandomGraph_clamped draw fuel 65536 1 (by decide)
    (by rw [hmax]; decide) (by rw [hmax]; decide)
  exact ⟨g, h1, h2, h3⟩

/-- C7, at a failing input. The seed of this request does not fit an `int`:
`std::stoi` throws `std::out_of_range` before the `try` block is entered, and
the exception leaves `processGraphRequest`. -/
theorem processGraphRequest_raises (execute : AlgorithmType → Graph → Except Exn String)
    (rng : Nat → Int → Nat → Int) (fuel : Nat) :
    processGraphRequest execute rng fuel "-v 3 -e 2 -s 99999999999" =
      .error (.exception "stoi") := by
  rfl

/-- C8, at the request of the claim. For `-e -v` the handler of the sequential
and of the leader-follower server throws `std::invalid_argument` from
`std::stoi("-v")` and returns no response; the Ingest stage of the pipeline
answers `ERROR: Invalid parameters`. -/
theorem malformed_request_e_v (execute : AlgorithmType → Graph → Except Exn String)
    (rng : Nat → Int → Nat → Int) (fuel : Nat) :
    processGraphRequest execute rng fuel "-e -v" = .error (.exception "stoi") ∧
      requestHandler rng fuel "-e -v" = .ok (.sent "ERROR: Invalid parameters") := by
  constructor <;> rfl

/-- C9, at a failing input. The request has no `-v` option, but its seed is
not a number: `std::stoi` throws and no `ERROR: Invalid parameters` text is
returned. -/
theorem invalid_parameters_not_returned (execute : AlgorithmType → Graph → Except Exn String)
    (rng : Nat → Int → Nat → Int) (fuel : Nat) :
    find "-e 5 -s x" "-v " = none ∧
      processGraphRequest execute rng fuel "-e 5 -s x" = .error (.exception "stoi") := by
  constructor <;> rfl

/-- C10, at a failing input. The request names the algorithm `SCC` and ends
in a newline; the handler compares the whole text after `-a ` with the names
and rejects it as unknown. -/
theorem known_algorithm_rejected (execute : AlgorithmType → Graph → Except Exn String)
    (rng : Nat → Int → Nat → Int) (fuel : Nat) :
    processGraphRequest execute rng fuel "-e 0 -v 1 -a SCC\n" =
      .ok "ERROR: Unknown algorithm 'SCC\n'. Available: EULER, MST_WEIGHT, SCC, MAX_FLOW, MAX_CLIQUE" := by
  cases fuel <;> rfl

/-! ## The claims on the responses, on the algorithm library and on `addEdge` -/

/-- The response to a request whose edge count `e >= 0`, vertex count `v > 0`
and seed are read by the handler and that has no `-a `, or in which the text
after the first `-a ` is `EULER` or `EULER_CIRCUIT` and nothing else: the
`SUCCESS` text with `Vertices: v`, `Edges: e` and the circuit of
`findEulerCircuit` joined by ` -> ` when the generated graph has an Euler
circuit, and the `RESULT` text with the same two lines otherwise. -/
theorem processGraphRequest_euler
    (execute : AlgorithmType → Graph → Except Exn String) (rng : Nat → Int → Nat → Int)
    (fuel : Nat) (request : String) (e v s : Int) (g : Graph)
    (he : parseOption request "-e " = .ok e) (hv : parseOption request "-v " = .ok v)
    (hs : parseOption request "-s " = .ok s) (he0 : 0 ≤ e) (hv0 : 0 < v)
    (ha : find request "-a " = none ∨ ∃ pos, find request "-a " = some pos ∧
      (substr request (pos + 3) = "EULER" ∨ substr request (pos + 3) = "EULER_CIRCUIT"))
    (hg : generateRandomGraph (rng (seedToUnsigned s) v) fuel v e = .ok g) :
    ∃ b C, hasEulerCircuit g = .ok b ∧ findEulerCircuit g = .ok C ∧
      processGraphRequest execute rng fuel request = .ok
        (if b then
          "SUCCESS: Graph has Euler circuit!\n" ++ "Vertices: " ++ to_string v ++ "\n" ++
            "Edges: " ++ to_string e ++ "\n" ++ "Circuit: " ++ circuitText C
        else
          "RESULT: Graph does NOT have Euler circuit\n" ++ "Vertices: " ++ to_string v ++ "\n" ++
            "Edges: " ++ to_string e ++ "\n" ++
            "Reason: Graph is not connected or has odd-degree vertices") := by
  have hwf := (generateRandomGraph_reachable hg).wf
  obtain ⟨b, hb, _⟩ := hasEulerCircuit_wf hwf
  obtain ⟨C, hC, _⟩ := findEulerCircuit_wf hwf
  have han := analyzeGraph_ok hwf
  refine ⟨b, C, hb, hC, ?_⟩
  have key : ∀ algorithm : String, (algorithm = "EULER" ∨ algorithm = "EULER_CIRCUIT") →
      processGraphRequest.tryBlock execute rng fuel e v s algorithm = .ok
        (if b then
          "SUCCESS: Graph has Euler circuit!\n" ++ "Vertices: " ++ to_string v ++ "\n" ++
            "Edges: " ++ to_string e ++ "\n" ++ "Circuit: " ++ circuitText C
        else
          "RESULT: Graph does NOT have Euler circuit\n" ++ "Vertices: " ++ to_string v ++ "\n" ++
            "Edges: " ++ to_string e ++ "\n" ++
            "Reason: Graph is not connected or has odd-degree vertices") := by
    intro algorithm hname
    unfold processGraphRequest.tryBlock
    rw [hg]
    simp only [liftGraph, bind, Except.bind, if_pos hname, hb, hC, han]
    cases b <;> rfl
  unfold processGraphRequest
  rw [he, hv, hs]
  simp only [bind, Except.bind]
  rw [if_neg (by omega)]
  rcases ha with h | ⟨pos, h, h2⟩
  · rw [h]
    simp only []
    rw [key "EULER" (Or.inl rfl)]
    rfl
  · rw [h]
    simp only []
    rw [key _ h2]
    rfl

/-- The request `-e 3 -v 3 -s 1 -a EULER` with draws that give the triangle. -/
theorem processGraphRequest_euler_witness :
    parseOption "-e 3 -v 3 -s 1 -a EULER" "-e " = .ok 3 ∧
    parseOption "-e 3 -v 3 -s 1 -a EULER" "-v " = .ok 3 ∧
    parseOption "-e 3 -v 3 -s 1 -a EULER" "-s " = .ok 1 ∧
    generateRandomGraph ((fun _ _ k => ([0, 1, 1, 2, 2, 0] : List Int).getD k 0) (seedToUnsigned 1) 3) 3 3 3 =
      .ok ⟨3, [[⟨2, 1⟩, ⟨1, 1⟩], [⟨2, 1⟩, ⟨0, 1⟩], [⟨0, 1⟩, ⟨1, 1⟩]]⟩ ∧
    hasEulerCircuit ⟨3, [[⟨2, 1⟩, ⟨1, 1⟩], [⟨2, 1⟩, ⟨0, 1⟩], [⟨0, 1⟩, ⟨1, 1⟩]]⟩ = .ok true ∧
    findEulerCircuit ⟨3, [[⟨2, 1⟩, ⟨1, 1⟩], [⟨2, 1⟩, ⟨0, 1⟩], [⟨0, 1⟩, ⟨1, 1⟩]]⟩ = .ok [0, 2, 1, 0] ∧
    ∃ b C, hasEulerCircuit ⟨3, [[⟨2, 1⟩, ⟨1, 1⟩], [⟨2, 1⟩, ⟨0, 1⟩], [⟨0, 1⟩, ⟨1, 1⟩]]⟩ = .ok b ∧
      findEulerCircuit ⟨3, [[⟨2, 1⟩, ⟨1, 1⟩], [⟨2, 1⟩, ⟨0, 1⟩], [⟨0, 1⟩, ⟨1, 1⟩]]⟩ = .ok C ∧
      processGraphRequest (fun _ _ => .ok "") (fun _ _ k => ([0, 1, 1, 2, 2, 0] : List Int).getD k 0) 3 "-e 3 -v 3 -s 1 -a EULER" =
        .ok
        (if b then
          "SUCCESS: Graph has Euler circuit!\n" ++ "Vertices: " ++ to_string 3 ++ "\n" ++
            "Edges: " ++ to_string 3 ++ "\n" ++ "Circuit: " ++ circuitText C
        else
          "RESULT: Graph does NOT have Euler circuit\n" ++ "Vertices: " ++ to_string 3 ++ "\n" ++
            "Edges: " ++ to_string 3 ++ "\n" ++
            "Reason: Graph is not connected or has odd-degree vertices") :=
  ⟨by decide, by decide, by decide, by decide, by decide, by decide,
    processGraphRequest_euler (fun _ _ => .ok "") (fun _ _ k => ([0, 1, 1, 2, 2, 0] : List Int).getD k 0) 3 "-e 3 -v 3 -s 1 -a EULER"
      3 3 1 ⟨3, [[⟨2, 1⟩, ⟨1, 1⟩], [⟨2, 1⟩, ⟨0, 1⟩], [⟨0, 1⟩, ⟨1, 1⟩]]⟩ (by decide) (by decide) (by decide) (by decide) (by decide)
      (Or.inr ⟨15, by decide, Or.inl (by decide)⟩) (by decide)⟩

/-- C11, at a failing input. With draws that give the triangle, the requests
`-e 3 -v 3 -s 1` and `-e 3 -v 3 -s 1 -a EULER` are answered with the `SUCCESS`
text and the circuit. The request `-a EULER -e 3 -v 3 -s 1`, which has the
same options in another order, and the request
`-e 3 -v 3 -s 1 -a EULER_CIRCUIT` followed by a newline are answered
`ERROR: Unknown algorithm`: the handler compares the whole text after `-a `
with the names. -/
theorem euler_request_rejected :
    generateRandomGraph ((fun _ _ k => ([0, 1, 1, 2, 2, 0] : List Int).getD k 0) (seedToUnsigned 1) 3) 3 3 3 =
      .ok ⟨3, [[⟨2, 1⟩, ⟨1, 1⟩], [⟨2, 1⟩, ⟨0, 1⟩], [⟨0, 1⟩, ⟨1, 1⟩]]⟩ ∧
    hasEulerCircuit ⟨3, [[⟨2, 1⟩, ⟨1, 1⟩], [⟨2, 1⟩, ⟨0, 1⟩], [⟨0, 1⟩, ⟨1, 1⟩]]⟩ = .ok true ∧
    processGraphRequest (AlgorithmFactory.execute 5) (fun _ _ k => ([0, 1, 1, 2, 2, 0] : List Int).getD k 0) 3 "-e 3 -v 3 -s 1" =
      .ok "SUCCESS: Graph has Euler circuit!\nVertices: 3\nEdges: 3\nCircuit: 0 -> 2 -> 1 -> 0" ∧
    processGraphRequest (AlgorithmFactory.execute 5) (fun _ _ k => ([0, 1, 1, 2, 2, 0] : List Int).getD k 0) 3 "-e 3 -v 3 -s 1 -a EULER" =
      .ok "SUCCESS: Graph has Euler circuit!\nVertices: 3\nEdges: 3\nCircuit: 0 -> 2 -> 1 -> 0" ∧
    processGraphRequest (AlgorithmFactory.execute 5) (fun _ _ k => ([0, 1, 1, 2, 2, 0] : List Int).getD k 0) 3 "-a EULER -e 3 -v 3 -s 1" =
      .ok "ERROR: Unknown algorithm 'EULER -e 3 -v 3 -s 1'. Available: EULER, MST_WEIGHT, SCC, MAX_FLOW, MAX_CLIQUE" ∧
    processGraphRequest (AlgorithmFactory.execute 5) (fun _ _ k => ([0, 1, 1, 2, 2, 0] : List Int).getD k 0) 3 "-e 3 -v 3 -s 1 -a EULER_CIRCUIT\n" =
      .ok "ERROR: Unknown algorithm 'EULER_CIRCUIT\n'. Available: EULER, MST_WEIGHT, SCC, MAX_FLOW, MAX_CLIQUE" := by
  have hb : hasEulerCircuit ⟨3, [[⟨2, 1⟩, ⟨1, 1⟩], [⟨2, 1⟩, ⟨0, 1⟩], [⟨0, 1⟩, ⟨1, 1⟩]]⟩ = .ok true := by decide
  have hC : findEulerCircuit ⟨3, [[⟨2, 1⟩, ⟨1, 1⟩], [⟨2, 1⟩, ⟨0, 1⟩], [⟨0, 1⟩, ⟨1, 1⟩]]⟩ = .ok [0, 2, 1, 0] := by decide
  have key : ∀ request : String, parseOption request "-e " = .ok 3 →
      parseOption request "-v " = .ok 3 → parseOption request "-s " = .ok 1 →
      (find request "-a " = none ∨ ∃ pos, find request "-a " = some pos ∧
        (substr request (pos + 3) = "EULER" ∨ substr request (pos + 3) = "EULER_CIRCUIT")) →
      processGraphRequest (AlgorithmFactory.execute 5) (fun _ _ k => ([0, 1, 1, 2, 2, 0] : List Int).getD k 0) 3 request = .ok "SUCCESS: Graph has Euler circuit!\nVertices: 3\nEdges: 3\nCircuit: 0 -> 2 -> 1 -> 0" := by
    intro request he hv hs ha
    obtain ⟨b, C, hb1, hC1, h⟩ := processGraphRequest_euler (AlgorithmFactory.execute 5) (fun _ _ k => ([0, 1, 1, 2, 2, 0] : List Int).getD k 0) 3
      request 3 3 1 ⟨3, [[⟨2, 1⟩, ⟨1, 1⟩], [⟨2, 1⟩, ⟨0, 1⟩], [⟨0, 1⟩, ⟨1, 1⟩]]⟩ he hv hs (by decide) (by decide) ha (by decide)
    rw [hb] at hb1
    rw [hC] at hC1
    cases hb1
    cases hC1
    rw [h]
    decide
  refine ⟨by decide, hb, ?_, ?_, by decide, by decide⟩
  · exact key _ (by decide) (by decide) (by decide) (Or.inl (by decide))
  · exact key _ (by decide) (by decide) (by decide) (Or.inr ⟨15, by decide, Or.inl (by decide)⟩)
/-- The response to a request whose edge count `e >= 0`, vertex count `v > 0`
and seed `s` are read by the handler and in which the text after the first
`-a ` is the token of one of the four library algorithms and nothing else:
`ALGORITHM: <name>`, the lines `Vertices: v`, `Edges: e`, `Seed: s`, `Result:`
and the text that the algorithm's `execute` returns on the generated graph. -/
theorem processGraphRequest_algorithm
    (execute : AlgorithmType → Graph → Except Exn String) (rng : Nat → Int → Nat → Int)
    (fuel : Nat) (request : String) (e v s : Int) (g : Graph) (pos : Nat) (t : AlgorithmType)
    (report : String)
    (he : parseOption request "-e " = .ok e) (hv : parseOption request "-v " = .ok v)
    (hs : parseOption request "-s " = .ok s) (he0 : 0 ≤ e) (hv0 : 0 < v)
    (ha : find request "-a " = some pos)
    (hname : substr request (pos + 3) = AlgorithmFactory.getAlgorithmName t)
    (hg : generateRandomGraph (rng (seedToUnsigned s) v) fuel v e = .ok g)
    (hx : execute t g = .ok report) :
    processGraphRequest execute rng fuel request = .ok
      ("ALGORITHM: " ++ t.getName ++ "\n" ++ "Vertices: " ++ to_string v ++ "\n" ++
        "Edges: " ++ to_string e ++ "\n" ++ "Seed: " ++ to_string s ++ "\n" ++ "Result:\n" ++
        report) := by
  have hwf := (generateRandomGraph_reachable hg).wf
  have han := analyzeGraph_ok hwf
  unfold processGraphRequest
  rw [he, hv, hs, ha]
  simp only [bind, Except.bind]
  rw [if_neg (by omega)]
  unfold processGraphRequest.tryBlock
  rw [hg, hname]
  cases t <;>
    simp +decide [liftGraph, bind, Except.bind, AlgorithmFactory.getAlgorithmName, hx, han,
      pure, Except.pure]

/-- The request `-e 4 -v 5 -s 3 -a SCC` with draws that give the path
`0`-`1`-`2`-`3`-`4`. -/
theorem processGraphRequest_algorithm_witness :
    parseOption "-e 4 -v 5 -s 3 -a SCC" "-e " = .ok 4 ∧
    parseOption "-e 4 -v 5 -s 3 -a SCC" "-v " = .ok 5 ∧
    parseOption "-e 4 -v 5 -s 3 -a SCC" "-s " = .ok 3 ∧
    find "-e 4 -v 5 -s 3 -a SCC" "-a " = some 15 ∧
    substr "-e 4 -v 5 -s 3 -a SCC" (15 + 3) = AlgorithmFactory.getAlgorithmName .SCC ∧
    generateRandomGraph ((fun _ _ k => ([0, 1, 1, 2, 2, 3, 3, 4] : List Int).getD k 0) (seedToUnsigned 3) 5) 4 5 4 =
      .ok ⟨5, [[⟨1, 1⟩], [⟨2, 1⟩, ⟨0, 1⟩], [⟨3, 1⟩, ⟨1, 1⟩], [⟨4, 1⟩, ⟨2, 1⟩], [⟨3, 1⟩]]⟩ ∧
    AlgorithmFactory.execute 5 .SCC ⟨5, [[⟨1, 1⟩], [⟨2, 1⟩, ⟨0, 1⟩], [⟨3, 1⟩, ⟨1, 1⟩], [⟨4, 1⟩, ⟨2, 1⟩], [⟨3, 1⟩]]⟩ =
      .ok "Found 1 Strongly Connected Components:\nSCC 1: \x7b0, 1, 2, 3, 4\x7d\n" ∧
    processGraphRequest (AlgorithmFactory.execute 5) (fun _ _ k => ([0, 1, 1, 2, 2, 3, 3, 4] : List Int).getD k 0) 4 "-e 4 -v 5 -s 3 -a SCC" =
      .ok ("ALGORITHM: " ++ AlgorithmType.SCC.getName ++ "\n" ++ "Vertices: " ++ to_string 5 ++
        "\n" ++ "Edges: " ++ to_string 4 ++ "\n" ++ "Seed: " ++ to_string 3 ++ "\n" ++
        "Result:\n" ++ "Found 1 Strongly Connected Components:\nSCC 1: \x7b0, 1, 2, 3, 4\x7d\n") :=
  ⟨by decide, by decide, by decide, by decide, by decide, by decide, by decide,
    processGraphRequest_algorithm (AlgorithmFactory.execute 5) (fun _ _ k => ([0, 1, 1, 2, 2, 3, 3, 4] : List Int).getD k 0) 4
      "-e 4 -v 5 -s 3 -a SCC" 4 5 3 ⟨5, [[⟨1, 1⟩], [⟨2, 1⟩, ⟨0, 1⟩], [⟨3, 1⟩, ⟨1, 1⟩], [⟨4, 1⟩, ⟨2, 1⟩], [⟨3, 1⟩]]⟩ 15 .SCC
      "Found 1 Strongly Connected Components:\nSCC 1: \x7b0, 1, 2, 3, 4\x7d\n"
      (by decide) (by decide) (by decide) (by decide) (by decide) (by decide) (by decide)
      (by decide) (by decide)⟩

/-- C12, at a failing input. With draws that give the path `0`-`1`-`2`-`3`-`4`,
the request `-e 4 -v 5 -s 3 -a SCC` is answered with the `ALGORITHM:` text and
the report of `SCC`. The request `-e 4 -v 5 -a SCC -s 3`, the same options
with the seed last, is read as `e = 4`, `v = 5`, `s = 3` and answered
`ERROR: Unknown algorithm 'SCC -s 3'`, and the request
`-e 4 -v 5 -s 3 -a MST_WEIGHT` followed by a newline is answered
`ERROR: Unknown algorithm` as well: the handler compares the whole text after
`-a ` with the names. -/
theorem algorithm_request_rejected :
    parseOption "-e 4 -v 5 -a SCC -s 3" "-e " = .ok 4 ∧
    parseOption "-e 4 -v 5 -a SCC -s 3" "-v " = .ok 5 ∧
    parseOption "-e 4 -v 5 -a SCC -s 3" "-s " = .ok 3 ∧
    generateRandomGraph ((fun _ _ k => ([0, 1, 1, 2, 2, 3, 3, 4] : List Int).getD k 0) (seedToUnsigned 3) 5) 4 5 4 =
      .ok ⟨5, [[⟨1, 1⟩], [⟨2, 1⟩, ⟨0, 1⟩], [⟨3, 1⟩, ⟨1, 1⟩], [⟨4, 1⟩, ⟨2, 1⟩], [⟨3, 1⟩]]⟩ ∧
    AlgorithmFactory.execute 5 .SCC ⟨5, [[⟨1, 1⟩], [⟨2, 1⟩, ⟨0, 1⟩], [⟨3, 1⟩, ⟨1, 1⟩], [⟨4, 1⟩, ⟨2, 1⟩], [⟨3, 1⟩]]⟩ =
      .ok "Found 1 Strongly Connected Components:\nSCC 1: \x7b0, 1, 2, 3, 4\x7d\n" ∧
    processGraphRequest (AlgorithmFactory.execute 5) (fun _ _ k => ([0, 1, 1, 2, 2, 3, 3, 4] : List Int).getD k 0) 4 "-e 4 -v 5 -s 3 -a SCC" =
      .ok "ALGORITHM: Strongly Connected Components\nVertices: 5\nEdges: 4\nSeed: 3\nResult:\nFound 1 Strongly Connected Components:\nSCC 1: \x7b0, 1, 2, 3, 4\x7d\n" ∧
    processGraphRequest (AlgorithmFactory.execute 5) (fun _ _ k => ([0, 1, 1, 2, 2, 3, 3, 4] : List Int).getD k 0) 4 "-e 4 -v 5 -a SCC -s 3" =
      .ok "ERROR: Unknown algorithm 'SCC -s 3'. Available: EULER, MST_WEIGHT, SCC, MAX_FLOW, MAX_CLIQUE" ∧
    processGraphRequest (AlgorithmFactory.execute 5) (fun _ _ k => ([0, 1, 1, 2, 2, 3, 3, 4] : List Int).getD k 0) 4 "-e 4 -v 5 -s 3 -a MST_WEIGHT\n" =
      .ok "ERROR: Unknown algorithm 'MST_WEIGHT\n'. Available: EULER, MST_WEIGHT, SCC, MAX_FLOW, MAX_CLIQUE" := by
  refine ⟨by decide, by decide, by decide, by decide, by decide, ?_, by decide, by decide⟩
  rw [processGraphRequest_algorithm (AlgorithmFactory.execute 5) (fun _ _ k => ([0, 1, 1, 2, 2, 3, 3, 4] : List Int).getD k 0) 4
    "-e 4 -v 5 -s 3 -a SCC" 4 5 3 ⟨5, [[⟨1, 1⟩], [⟨2, 1⟩, ⟨0, 1⟩], [⟨3, 1⟩, ⟨1, 1⟩], [⟨4, 1⟩, ⟨2, 1⟩], [⟨3, 1⟩]]⟩ 15 .SCC
    "Found 1 Strongly Connected Components:\nSCC 1: \x7b0, 1, 2, 3, 4\x7d\n"
    (by decide) (by decide) (by decide) (by decide) (by decide) (by decide) (by decide)
    (by decide) (by decide)]
  decide
/-- C13: for every connected graph (reachable from `Graph(n)` by `addEdge` and
`removeEdge` calls, every vertex joined to every other by a path) whose stored
weights are below `INT_MAX` there is a spanning tree `T` of least weight such
that `MST_WEIGHT`'s `execute` on the machine, where `mstWeight` is a 32-bit
`int`, returns `MST Weight: W` for `W` the weight of `T` reduced to `int`. So
whenever the least weight is an `int` value, which is when integer arithmetic
is exact, the program returns `MST Weight: W` with `W` the least weight of a
spanning tree; this is also what the run with unbounded integers returns. -/
theorem mstWeight_is_minimum (G : Graph) (hG : Reachable G)
    (hconn : ∀ u v, u < G.numVertices → v < G.numVertices → Reach G u v)
    (hw : ∀ l ∈ G.adjList, ∀ nb ∈ l, nb.weight < INT_MAX) :
    ∃ T, IsSpanningTree G T ∧
      (∀ T1, IsSpanningTree G T1 → treeWeight G T ≤ treeWeight G T1) ∧
      MSTWeightAlgorithm.execute wrapInt32 G =
        .ok ("MST Weight: " ++ to_string (wrapInt32 (treeWeight G T))) ∧
      (-2147483648 ≤ treeWeight G T → treeWeight G T ≤ 2147483647 →
        MSTWeightAlgorithm.execute wrapInt32 G =
          .ok ("MST Weight: " ++ to_string (treeWeight G T))) ∧
      MSTWeightAlgorithm.execute id G = .ok ("MST Weight: " ++ to_string (treeWeight G T)) := by
  have hn := hG.numVertices_pos
  obtain ⟨st, T, hrun, hT, hwt, hmin, hall⟩ :=
    mstRun_spec hG.wf hn (fun a b => hG.weight_symm a b) hw hconn
  have hcheck : allReached G st.visited (List.range G.numVertices) = .ok true := by
    rw [allReached_eq G _ _ (fun i hi => List.mem_range.1 hi)]
    apply congrArg
    rw [List.all_eq_true]
    intro i hi
    rw [hall i (List.mem_range.1 hi)]
    simp
  have hmachine : MSTWeightAlgorithm.execute wrapInt32 G =
      .ok ("MST Weight: " ++ to_string (wrapInt32 (treeWeight G T))) := by
    unfold MSTWeightAlgorithm.execute
    rw [if_neg (Nat.pos_iff_ne_zero.1 hn), mstRun_wrap G st hrun]
    simp only [bind, Except.bind, hcheck, pure, Except.pure]
    rw [hwt]
    rfl
  refine ⟨T, hT, hmin, hmachine, ?_, ?_⟩
  · intro h1 h2
    rw [hmachine, wrapInt32_eq _ h1 (by omega)]
  · unfold MSTWeightAlgorithm.execute
    rw [if_neg (Nat.pos_iff_ne_zero.1 hn), hrun]
    simp only [bind, Except.bind, hcheck, pure, Except.pure]
    rw [hwt]
    rfl

/-- The triangle with the edges `0`-`1` of weight 5, `1`-`2` of weight 2 and
`0`-`2` of weight 3: the program reports `MST Weight: 5`. On `Graph(3)` with
the edges `0`-`1` and `1`-`2` of weight 2147483646 the least weight is
4294967292, which is not an `int` value, and the program reports its
reduction `MST Weight: -4`. -/
theorem mstWeight_is_minimum_witness :
    Reachable triangleGraph ∧
    (∀ u v, u < triangleGraph.numVertices → v < triangleGraph.numVertices →
      Reach triangleGraph u v) ∧
    (∀ l ∈ triangleGraph.adjList, ∀ nb ∈ l, nb.weight < INT_MAX) ∧
    MSTWeightAlgorithm.execute wrapInt32 triangleGraph = .ok "MST Weight: 5" ∧
    MSTWeightAlgorithm.execute wrapInt32
        ⟨3, [[⟨1, 2147483646⟩], [⟨2, 2147483646⟩, ⟨0, 2147483646⟩], [⟨1, 2147483646⟩]]⟩ =
      .ok "MST Weight: -4" ∧
    wrapInt32 (2147483646 + 2147483646) = -4 ∧
    ∃ T, IsSpanningTree triangleGraph T ∧
      (∀ T1, IsSpanningTree triangleGraph T1 →
        treeWeight triangleGraph T ≤ treeWeight triangleGraph T1) ∧
      MSTWeightAlgorithm.execute wrapInt32 triangleGraph =
        .ok ("MST Weight: " ++ to_string (wrapInt32 (treeWeight triangleGraph T))) ∧
      (-2147483648 ≤ treeWeight triangleGraph T → treeWeight triangleGraph T ≤ 2147483647 →
        MSTWeightAlgorithm.execute wrapInt32 triangleGraph =
          .ok ("MST Weight: " ++ to_string (treeWeight triangleGraph T))) ∧
      MSTWeightAlgorithm.execute id triangleGraph =
        .ok ("MST Weight: " ++ to_string (treeWeight triangleGraph T)) :=
  ⟨reachable_of_calls 3 [(0, 1, 5), (1, 2, 2), (0, 2, 3)] triangleGraph (by decide),
    reach_all_of_isConnected
      (reachable_of_calls 3 [(0, 1, 5), (1, 2, 2), (0, 2, 3)] triangleGraph (by decide)).wf
      (by decide) (by decide),
    by decide, by decide, by decide, by decide,
    mstWeight_is_minimum triangleGraph
      (reachable_of_calls 3 [(0, 1, 5), (1, 2, 2), (0, 2, 3)] triangleGraph (by decide))
      (reach_all_of_isConnected
        (reachable_of_calls 3 [(0, 1, 5), (1, 2, 2), (0, 2, 3)] triangleGraph (by decide)).wf
        (by decide) (by decide))
      (by decide)⟩
/-- C14: on the graph of the tests (six vertices, the weighted edges (0,1,4),
(0,2,3), (1,2,1), (1,3,2), (2,3,4), (2,4,3), (3,4,2), (3,5,1), (4,5,6)),
`MST_WEIGHT`'s `execute` returns `MST Weight: 9` on the machine, the graph has
a spanning tree of weight 9, and none of its spanning trees weighs less. -/
theorem mstWeight_test_graph :
    ∃ g, testGraph = .ok g ∧
      MSTWeightAlgorithm.execute wrapInt32 g = .ok "MST Weight: 9" ∧
      (∃ T, IsSpanningTree g T ∧ treeWeight g T = 9) ∧
      ∀ T, IsSpanningTree g T → 9 ≤ treeWeight g T := by
  have hR : Reachable ⟨6, [[⟨2, 3⟩, ⟨1, 4⟩], [⟨3, 2⟩, ⟨2, 1⟩, ⟨0, 4⟩],
      [⟨4, 3⟩, ⟨3, 4⟩, ⟨1, 1⟩, ⟨0, 3⟩], [⟨5, 1⟩, ⟨4, 2⟩, ⟨2, 4⟩, ⟨1, 2⟩],
      [⟨5, 6⟩, ⟨3, 2⟩, ⟨2, 3⟩], [⟨4, 6⟩, ⟨3, 1⟩]]⟩ :=
    reachable_of_calls 6 [(0, 1, 4), (0, 2, 3), (1, 2, 1), (1, 3, 2), (2, 3, 4), (2, 4, 3),
      (3, 4, 2), (3, 5, 1), (4, 5, 6)] _ (by decide)
  obtain ⟨st, T, hrun, hT, hwt, hmin, _⟩ := mstRun_spec hR.wf (by decide)
    (fun a b => hR.weight_symm a b) (by decide)
    (reach_all_of_isConnected hR.wf (by decide) (by decide))
  have h9 : (mstRun id ⟨6, [[⟨2, 3⟩, ⟨1, 4⟩], [⟨3, 2⟩, ⟨2, 1⟩, ⟨0, 4⟩],
      [⟨4, 3⟩, ⟨3, 4⟩, ⟨1, 1⟩, ⟨0, 3⟩], [⟨5, 1⟩, ⟨4, 2⟩, ⟨2, 4⟩, ⟨1, 2⟩],
      [⟨5, 6⟩, ⟨3, 2⟩, ⟨2, 3⟩], [⟨4, 6⟩, ⟨3, 1⟩]]⟩).map PrimState.mstWeight = .ok 9 := by
    decide
  rw [hrun] at h9
  have h9 : st.mstWeight = 9 := by
    simpa [Except.map] using h9
  rw [h9] at hwt
  refine ⟨_, by decide, by decide, ⟨T, hT, hwt.symm⟩, ?_⟩
  intro T1 hT1
  rw [hwt]
  exact hmin T1 hT1

/-- C15, as stated, fails: on the two-vertex graph whose edge has weight `-5`
(a weight `addEdge` accepts) `MAX_FLOW` reports 0, not `-5`. -/
theorem maxFlow_negative_edge :
    (Graph.new 2 >>= fun g0 => addEdge g0 0 1 (-5)) = .ok ⟨2, [[⟨1, -5⟩], [⟨0, -5⟩]]⟩ ∧
    MaxFlowAlgorithm.execute wrapInt32 2 ⟨2, [[⟨1, -5⟩], [⟨0, -5⟩]]⟩ =
      .ok "Max Flow from node 0 to node 1: 0" ∧
    MaxFlowAlgorithm.execute wrapInt32 2 ⟨2, [[⟨1, -5⟩], [⟨0, -5⟩]]⟩ ≠
      .ok ("Max Flow from node 0 to node 1: " ++ to_string (-5)) := by
  decide

/-- C15, amended. On the two-vertex graph whose single edge (0,1) has the
`int` weight `w`, `MAX_FLOW` reports a flow from node 0 to node 1 of `w` when
`w >= 0` and of 0 when `w` is negative. -/
theorem maxFlow_single_edge (fuel : Nat) (hf : 2 ≤ fuel) (w : Int) (hw : w ≤ 2147483647)
    (g : Graph) (hg : (Graph.new 2 >>= fun g0 => addEdge g0 0 1 w) = .ok g) :
    MaxFlowAlgorithm.execute wrapInt32 fuel g =
      .ok ("Max Flow from node 0 to node 1: " ++ to_string (if 0 ≤ w then w else 0)) := by
  rw [two_vertex_graph w g hg]
  obtain ⟨k, rfl⟩ : ∃ k, fuel = k + 2 := ⟨fuel - 2, by omega⟩
  have htext : "Max Flow from node 0 to node " ++ to_string (((2 : Nat) : Int) - 1) ++ ": " =
      "Max Flow from node 0 to node 1: " := by decide
  have hval : maxFlowValue wrapInt32 (k + 2) ⟨2, [[⟨1, w⟩], [⟨0, w⟩]]⟩ =
      .ok (if 0 ≤ w then w else 0) := by
    by_cases h0 : 0 < w
    · rw [maxFlowValue_two_pos k w h0 hw, if_pos (by omega)]
    · rw [maxFlowValue_two_nonpos (k + 1) w (by omega)]
      by_cases hz : 0 ≤ w
      · rw [if_pos hz]
        congr 1
        omega
      · rw [if_neg hz]
  unfold MaxFlowAlgorithm.execute
  rw [if_neg (show ¬ ((2 : Nat) < 2) by decide), hval]
  simp only [bind, Except.bind, pure, Except.pure]
  rw [htext]

theorem maxFlow_single_edge_witness :
    2 ≤ 2 ∧ (7 : Int) ≤ 2147483647 ∧
    (Graph.new 2 >>= fun g0 => addEdge g0 0 1 7) = .ok ⟨2, [[⟨1, 7⟩], [⟨0, 7⟩]]⟩ ∧
    MaxFlowAlgorithm.execute wrapInt32 2 ⟨2, [[⟨1, 7⟩], [⟨0, 7⟩]]⟩ =
      .ok ("Max Flow from node 0 to node 1: " ++ to_string (if (0 : Int) ≤ 7 then 7 else 0)) :=
  ⟨by decide, by decide, by decide,
    maxFlow_single_edge 2 (by decide) 7 (by decide) ⟨2, [[⟨1, 7⟩], [⟨0, 7⟩]]⟩ (by decide)⟩

/-- C16, at two failing inputs. On the six-vertex graph with the edges (0,1)
and (1,4), (4,5) of weight 2, (0,2), (2,3), (3,5) of weight 1 and (1,3) of
weight 2147483647 there is a flow of value 3 from 0 to 5, and `MAX_FLOW` run
with exact integers reports 3; on the machine `residual[3][1] += pathFlow`
leaves the `int` range, the arc from 3 to 1 is lost and `MAX_FLOW` reports 2.
On the three-vertex graph with the edges (0,2) of weight 2147483647 and (0,1),
(1,2) of weight 1 the sum `maxFlow += pathFlow` leaves the `int` range and
`MAX_FLOW` reports -2147483648. -/
theorem maxFlow_overflow :
    ((Graph.new 6 >>= fun g0 => addEdges g0 [(0, 1, 2), (0, 2, 1), (2, 3, 1),
        (1, 3, 2147483647), (3, 5, 1), (1, 4, 2), (4, 5, 2)]) =
      .ok ⟨6, [[⟨2, 1⟩, ⟨1, 2⟩], [⟨4, 2⟩, ⟨3, 2147483647⟩, ⟨0, 2⟩], [⟨3, 1⟩, ⟨0, 1⟩],
        [⟨5, 1⟩, ⟨1, 2147483647⟩, ⟨2, 1⟩], [⟨5, 2⟩, ⟨1, 2⟩], [⟨4, 2⟩, ⟨3, 1⟩]]⟩ ∧
    MaxFlowAlgorithm.execute wrapInt32 10
        ⟨6, [[⟨2, 1⟩, ⟨1, 2⟩], [⟨4, 2⟩, ⟨3, 2147483647⟩, ⟨0, 2⟩], [⟨3, 1⟩, ⟨0, 1⟩],
          [⟨5, 1⟩, ⟨1, 2147483647⟩, ⟨2, 1⟩], [⟨5, 2⟩, ⟨1, 2⟩], [⟨4, 2⟩, ⟨3, 1⟩]]⟩ =
      .ok "Max Flow from node 0 to node 5: 2" ∧
    MaxFlowAlgorithm.execute id 10
        ⟨6, [[⟨2, 1⟩, ⟨1, 2⟩], [⟨4, 2⟩, ⟨3, 2147483647⟩, ⟨0, 2⟩], [⟨3, 1⟩, ⟨0, 1⟩],
          [⟨5, 1⟩, ⟨1, 2147483647⟩, ⟨2, 1⟩], [⟨5, 2⟩, ⟨1, 2⟩], [⟨4, 2⟩, ⟨3, 1⟩]]⟩ =
      .ok "Max Flow from node 0 to node 5: 3" ∧
    isFlow ⟨6, [[⟨2, 1⟩, ⟨1, 2⟩], [⟨4, 2⟩, ⟨3, 2147483647⟩, ⟨0, 2⟩], [⟨3, 1⟩, ⟨0, 1⟩],
          [⟨5, 1⟩, ⟨1, 2147483647⟩, ⟨2, 1⟩], [⟨5, 2⟩, ⟨1, 2⟩], [⟨4, 2⟩, ⟨3, 1⟩]]⟩
        [[0, 2, 1, 0, 0, 0], [0, 0, 0, 0, 2, 0], [0, 0, 0, 1, 0, 0], [0, 0, 0, 0, 0, 1],
          [0, 0, 0, 0, 0, 2], [0, 0, 0, 0, 0, 0]] = true ∧
    flowValue ⟨6, [[⟨2, 1⟩, ⟨1, 2⟩], [⟨4, 2⟩, ⟨3, 2147483647⟩, ⟨0, 2⟩], [⟨3, 1⟩, ⟨0, 1⟩],
          [⟨5, 1⟩, ⟨1, 2147483647⟩, ⟨2, 1⟩], [⟨5, 2⟩, ⟨1, 2⟩], [⟨4, 2⟩, ⟨3, 1⟩]]⟩
        [[0, 2, 1, 0, 0, 0], [0, 0, 0, 0, 2, 0], [0, 0, 0, 1, 0, 0], [0, 0, 0, 0, 0, 1],
          [0, 0, 0, 0, 0, 2], [0, 0, 0, 0, 0, 0]] = 3) ∧
    ((Graph.new 3 >>= fun g0 => addEdges g0 [(0, 2, 2147483647), (0, 1, 1), (1, 2, 1)]) =
      .ok ⟨3, [[⟨1, 1⟩, ⟨2, 2147483647⟩], [⟨2, 1⟩, ⟨0, 1⟩], [⟨1, 1⟩, ⟨0, 2147483647⟩]]⟩ ∧
    MaxFlowAlgorithm.execute wrapInt32 3
        ⟨3, [[⟨1, 1⟩, ⟨2, 2147483647⟩], [⟨2, 1⟩, ⟨0, 1⟩], [⟨1, 1⟩, ⟨0, 2147483647⟩]]⟩ =
      .ok "Max Flow from node 0 to node 2: -2147483648") := by
  refine ⟨⟨by decide, by decide, by decide, by decide, by decide⟩, by decide, by decide⟩

/-- C17: for every graph reachable from `Graph(n)` by `addEdge` and
`removeEdge` calls, `MAX_CLIQUE`'s `execute` returns the text with a size `m`
and a vertex list `C` such that `C` is a clique of the graph (distinct,
pairwise adjacent vertices of `[0, n)`), `m` is the number of vertices of `C`,
and no clique of the graph has more than `m` vertices. -/
theorem maxClique_is_maximum (G : Graph) (hG : Reachable G) :
    ∃ (C : List Nat) (m : Nat), maxCliqueRun G = .ok (C, m) ∧
      MaxCliqueAlgorithm.execute G = .ok ("Max Clique Size: " ++ to_string (m : Int) ++ "\n" ++
        "Max Clique Vertices: \x7b" ++ commaText C ++ "\x7d") ∧
      IsClique G C ∧ m = C.length ∧ ∀ D, IsClique G D → D.length ≤ m := by
  obtain ⟨C, m, hrun, hC, hm, hmax⟩ := maxCliqueRun_spec G hG.wf
  refine ⟨C, m, hrun, ?_, hC, hm, hmax⟩
  have hn : ¬ G.numVertices = 0 := Nat.pos_iff_ne_zero.1 hG.numVertices_pos
  unfold MaxCliqueAlgorithm.execute
  rw [if_neg hn, hrun]
  rfl

/-- The four-cycle `eulerGraph`: the report is the edge `0`-`1`, of size 2. -/
theorem maxClique_is_maximum_witness :
    Reachable eulerGraph ∧
    MaxCliqueAlgorithm.execute eulerGraph =
      .ok "Max Clique Size: 2\nMax Clique Vertices: \x7b0, 1\x7d" ∧
    ∃ (C : List Nat) (m : Nat), maxCliqueRun eulerGraph = .ok (C, m) ∧
      MaxCliqueAlgorithm.execute eulerGraph =
        .ok ("Max Clique Size: " ++ to_string (m : Int) ++ "\n" ++
          "Max Clique Vertices: \x7b" ++ commaText C ++ "\x7d") ∧
      IsClique eulerGraph C ∧ m = C.length ∧ ∀ D, IsClique eulerGraph D → D.length ≤ m :=
  ⟨reachable_of_calls 4 [(0, 1, 1), (1, 2, 1), (2, 3, 1), (3, 0, 1)] eulerGraph (by decide),
    by decide,
    maxClique_is_maximum eulerGraph
      (reachable_of_calls 4 [(0, 1, 1), (1, 2, 1), (2, 3, 1), (3, 0, 1)] eulerGraph (by decide))⟩

/-- C18: for every graph reachable from `Graph(n)` by `addEdge` and
`removeEdge` calls, `SCC`'s `execute` returns the report of a vector `sccs` of
components such that: the components written one after the other are a
rearrangement of `0, ..., n-1` (each vertex is in exactly one component,
once); two vertices are in the same component if and only if they are joined by
a path; every component is the set of the vertices joined to one of its
members; an isolated vertex is a component by itself; and the reported count
`sccs.length` is the number of connected components. -/
theorem scc_are_connected_components (G : Graph) (hG : Reachable G) :
    ∃ sccs : List (List Nat), sccRun G = .ok sccs ∧
      SCCAlgorithm.execute G = .ok ("Found " ++ to_string (sccs.length : Int) ++
        " Strongly Connected Components:\n" ++ sccLines 1 sccs) ∧
      sccs.flatten.Perm (List.range G.numVertices) ∧
      (∀ u v, u < G.numVertices → v < G.numVertices →
        ((∃ c ∈ sccs, u ∈ c ∧ v ∈ c) ↔ Reach G u v)) ∧
      (∀ c ∈ sccs, ∃ v ∈ c, ∀ w, w ∈ c ↔ Reach G v w) ∧
      (∀ v, v < G.numVertices → dests G v = [] → [v] ∈ sccs) ∧
      sccs.length =
        Set.ncard {S : Set Nat | ∃ v, v < G.numVertices ∧ S = {w | Reach G v w}} := by
  have hg := hG.wf
  obtain ⟨sccs, hrun, hperm, hcomp⟩ := sccRun_spec hg hG.numVertices_pos
  obtain ⟨h1, h2, h3⟩ := scc_facts hg hperm hcomp
  refine ⟨sccs, hrun, ?_, hperm, h1, hcomp, h2, h3⟩
  have hn : ¬ G.numVertices = 0 := Nat.pos_iff_ne_zero.1 hG.numVertices_pos
  unfold SCCAlgorithm.execute
  rw [if_neg hn, hrun]
  rfl

/-- Four vertices and the edge `0`-`1`: the components are `0, 1`, then `2`,
then `3`. -/
theorem scc_are_connected_components_witness :
    Reachable ⟨4, [[⟨1, 1⟩], [⟨0, 1⟩], [], []]⟩ ∧
    SCCAlgorithm.execute ⟨4, [[⟨1, 1⟩], [⟨0, 1⟩], [], []]⟩ = .ok
      "Found 3 Strongly Connected Components:\nSCC 1: \x7b3\x7d\nSCC 2: \x7b2\x7d\nSCC 3: \x7b0, 1\x7d\n" ∧
    ∃ sccs : List (List Nat), sccRun ⟨4, [[⟨1, 1⟩], [⟨0, 1⟩], [], []]⟩ = .ok sccs ∧
      SCCAlgorithm.execute ⟨4, [[⟨1, 1⟩], [⟨0, 1⟩], [], []]⟩ =
        .ok ("Found " ++ to_string (sccs.length : Int) ++
          " Strongly Connected Components:\n" ++ sccLines 1 sccs) ∧
      sccs.flatten.Perm (List.range (Graph.mk 4 [[⟨1, 1⟩], [⟨0, 1⟩], [], []]).numVertices) ∧
      (∀ u v, u < (Graph.mk 4 [[⟨1, 1⟩], [⟨0, 1⟩], [], []]).numVertices →
        v < (Graph.mk 4 [[⟨1, 1⟩], [⟨0, 1⟩], [], []]).numVertices →
        ((∃ c ∈ sccs, u ∈ c ∧ v ∈ c) ↔ Reach ⟨4, [[⟨1, 1⟩], [⟨0, 1⟩], [], []]⟩ u v)) ∧
      (∀ c ∈ sccs, ∃ v ∈ c, ∀ w, w ∈ c ↔ Reach ⟨4, [[⟨1, 1⟩], [⟨0, 1⟩], [], []]⟩ v w) ∧
      (∀ v, v < (Graph.mk 4 [[⟨1, 1⟩], [⟨0, 1⟩], [], []]).numVertices →
        dests ⟨4, [[⟨1, 1⟩], [⟨0, 1⟩], [], []]⟩ v = [] → [v] ∈ sccs) ∧
      sccs.length =
        Set.ncard {S : Set Nat | ∃ v, v < (Graph.mk 4 [[⟨1, 1⟩], [⟨0, 1⟩], [], []]).numVertices ∧
          S = {w | Reach ⟨4, [[⟨1, 1⟩], [⟨0, 1⟩], [], []]⟩ v w}} :=
  ⟨reachable_of_calls 4 [(0, 1, 1)] _ (by decide), by decide,
    scc_are_connected_components _ (reachable_of_calls 4 [(0, 1, 1)] _ (by decide))⟩

/-- C19. `addEdge` throws `std::out_of_range` exactly when a vertex is outside
`[0, n)`, throws `std::invalid_argument` exactly when both are in range and
equal, returns otherwise, and a call that throws leaves the graph as it was. -/
theorem addEdge_failure_cases (g : Graph) (u v w : Int) :
    ((∃ what, addEdge g u v w = .error (.outOfRange what)) ↔
      (u < 0 ∨ u ≥ g.numVertices ∨ v < 0 ∨ v ≥ g.numVertices)) ∧
    ((∃ what, addEdge g u v w = .error (.invalidArgument what)) ↔
      (0 ≤ u ∧ u < g.numVertices ∧ 0 ≤ v ∧ v < g.numVertices ∧ u = v)) ∧
    ((∃ g1, addEdge g u v w = .ok g1) ↔
      (0 ≤ u ∧ u < g.numVertices ∧ 0 ≤ v ∧ v < g.numVertices ∧ u ≠ v)) ∧
    (∀ e, addEdge g u v w = .error e → afterAddEdge g u v w = g) := by
  have hcases : (outOfRange2 g u v = true ∧
        addEdge g u v w = .error (.outOfRange "Vertex index out of range")) ∨
      (outOfRange2 g u v = false ∧ u = v ∧
        addEdge g u v w = .error (.invalidArgument "Self loops are not allowed")) ∨
      (outOfRange2 g u v = false ∧ u ≠ v ∧ ∃ g1, addEdge g u v w = .ok g1) := by
    by_cases hr : outOfRange2 g u v = true
    · left
      exact ⟨hr, by unfold addEdge; rw [if_pos hr]⟩
    · right
      have hr2 : outOfRange2 g u v = false := by simpa using hr
      by_cases huv : u = v
      · left
        refine ⟨hr2, huv, ?_⟩
        unfold addEdge
        rw [if_neg hr, if_pos huv]
      · right
        refine ⟨hr2, huv, ?_⟩
        have hr3 := (outOfRange2_false_iff g u v).1 hr2
        have := addEdge_cast_ok g u.toNat v.toNat w (by omega) (by omega) (by omega)
        rw [Int.toNat_of_nonneg hr3.1, Int.toNat_of_nonneg hr3.2.2.1] at this
        exact this
  have hrange : outOfRange2 g u v = true ↔
      (u < 0 ∨ u ≥ g.numVertices ∨ v < 0 ∨ v ≥ g.numVertices) := by
    unfold outOfRange2
    simp only [Bool.or_eq_true, decide_eq_true_eq]
    tauto
  have hrange2 := outOfRange2_false_iff g u v
  refine ⟨?_, ?_, ?_, ?_⟩
  · rw [← hrange]
    rcases hcases with ⟨h1, h2⟩ | ⟨h1, _, h2⟩ | ⟨h1, _, g1, h2⟩
    · exact ⟨fun _ => h1, fun _ => ⟨_, h2⟩⟩
    · rw [h2, h1]; simp
    · rw [h2, h1]; simp
  · rcases hcases with ⟨h1, h2⟩ | ⟨h1, h3, h2⟩ | ⟨h1, h3, g1, h2⟩
    · rw [h2]
      constructor
      · rintro ⟨what, e⟩; cases e
      · intro h; rw [hrange] at h1; omega
    · have := hrange2.1 h1
      exact ⟨fun _ => ⟨this.1, this.2.1, this.2.2.1, this.2.2.2, h3⟩, fun _ => ⟨_, h2⟩⟩
    · rw [h2]
      constructor
      · rintro ⟨what, e⟩; cases e
      · intro h; exact absurd h.2.2.2.2 h3
  · rcases hcases with ⟨h1, h2⟩ | ⟨h1, h3, h2⟩ | ⟨h1, h3, g1, h2⟩
    · rw [h2]
      constructor
      · rintro ⟨g1, e⟩; cases e
      · intro h; rw [hrange] at h1; omega
    · rw [h2]
      constructor
      · rintro ⟨g1, e⟩; cases e
      · intro h; exact absurd h3 h.2.2.2.2
    · have := hrange2.1 h1
      exact ⟨fun _ => ⟨this.1, this.2.1, this.2.2.1, this.2.2.2, h3⟩, fun _ => ⟨_, h2⟩⟩
  · intro e he
    unfold afterAddEdge
    rw [he]

/-- C20. On a reachable graph, `addEdge(u, v, w)` with in-range `u != v`
returns; afterwards `hasEdge` is true and `getEdgeWeight` is `w` in both
directions, `hasEdge` and `getEdgeWeight` of every other pair are as before,
and when the edge existed `getNumEdges` and every `getDegree` are as before. -/
theorem addEdge_effect (G : Graph) (hG : Reachable G) (u v w : Int)
    (hu : 0 ≤ u ∧ u < G.numVertices) (hv : 0 ≤ v ∧ v < G.numVertices) (huv : u ≠ v) :
    ∃ G1, addEdge G u v w = .ok G1 ∧
      hasEdge G1 u v = .ok true ∧ hasEdge G1 v u = .ok true ∧
      getEdgeWeight G1 u v = .ok w ∧ getEdgeWeight G1 v u = .ok w ∧
      (∀ a b : Int, ¬ (a = u ∧ b = v) → ¬ (a = v ∧ b = u) →
        hasEdge G1 a b = hasEdge G a b ∧ getEdgeWeight G1 a b = getEdgeWeight G a b) ∧
      (hasEdge G u v = .ok true →
        getNumEdges G1 = getNumEdges G ∧ ∀ x : Int, getDegree G1 x = getDegree G x) := by
  have hg := hG.wf
  obtain ⟨G1, h⟩ : ∃ G1, addEdge G u v w = .ok G1 := by
    have := addEdge_cast_ok G u.toNat v.toNat w (by omega) (by omega) (by omega)
    rw [Int.toNat_of_nonneg hu.1, Int.toNat_of_nonneg hv.1] at this
    exact this
  obtain ⟨_, _, hs, hd, hne, hnv, _, hdests⟩ := addEdge_ok h
  have hdests := hdests hg.len
  have hfw := findWeight_addEdge hg h
  have huc : ((u.toNat : Nat) : Int) = u := Int.toNat_of_nonneg hu.1
  have hvc : ((v.toNat : Nat) : Int) = v := Int.toNat_of_nonneg hv.1
  have h1 : findWeight (adj G1 u.toNat) v.toNat = some w := by rw [hfw]; simp
  have h2 : findWeight (adj G1 v.toNat) u.toNat = some w := by rw [hfw]; simp
  refine ⟨G1, h, ?_, ?_, ?_, ?_, ?_, ?_⟩
  · have := hasEdge_eq_findWeight G1 u.toNat v.toNat (by omega) (by omega)
    rw [huc, hvc, h1] at this
    exact this
  · have := hasEdge_eq_findWeight G1 v.toNat u.toNat (by omega) (by omega)
    rw [huc, hvc, h2] at this
    exact this
  · have := getEdgeWeight_cast G1 u.toNat v.toNat (by omega) (by omega)
    rw [huc, hvc, h1] at this
    exact this
  · have := getEdgeWeight_cast G1 v.toNat u.toNat (by omega) (by omega)
    rw [huc, hvc, h2] at this
    exact this
  · intro a b hab hba
    by_cases hr : outOfRange2 G a b = true
    · have hr1 : outOfRange2 G1 a b = true := by
        unfold outOfRange2 at hr ⊢
        rw [hnv]
        exact hr
      unfold hasEdge getEdgeWeight
      rw [if_pos hr, if_pos hr, if_pos hr1, if_pos hr1]
      exact ⟨rfl, rfl⟩
    · have hr2 : outOfRange2 G a b = false := by simpa using hr
      have hr3 := (outOfRange2_false_iff G a b).1 hr2
      have hkey : findWeight (adj G1 a.toNat) b.toNat = findWeight (adj G a.toNat) b.toNat := by
        rw [hfw]
        have : ¬ ((a.toNat = u.toNat ∧ b.toNat = v.toNat) ∨
            (a.toNat = v.toNat ∧ b.toNat = u.toNat)) := by
          intro hc
          rcases hc with ⟨e1, e2⟩ | ⟨e1, e2⟩
          · exact hab ⟨by omega, by omega⟩
          · exact hba ⟨by omega, by omega⟩
        rw [if_neg this]
      exact ⟨hasEdge_congr hnv a b hkey, getEdgeWeight_congr hnv a b hkey⟩
  · intro hex
    have hm : v.toNat ∈ dests G u.toNat := (hasEdge_ok_true hex).2.2.2.2
    simp only [hm, if_true] at hdests
    constructor
    · rw [getNumEdges_eq, getNumEdges_eq]
      unfold degSum
      rw [hnv]
      congr 1
      apply Finset.sum_congr rfl
      intro x _
      rw [hdests]
    · intro x
      exact getDegree_congr hnv x (hdests _)

theorem addEdge_effect_witness :
    Reachable eulerGraph ∧ ((0 : Int) ≤ 0 ∧ (0 : Int) < eulerGraph.numVertices) ∧
    ((0 : Int) ≤ 2 ∧ (2 : Int) < eulerGraph.numVertices) ∧ (0 : Int) ≠ 2 ∧
    ∃ G1, addEdge eulerGraph 0 2 5 = .ok G1 ∧
      hasEdge G1 0 2 = .ok true ∧ hasEdge G1 2 0 = .ok true ∧
      getEdgeWeight G1 0 2 = .ok 5 ∧ getEdgeWeight G1 2 0 = .ok 5 ∧
      (∀ a b : Int, ¬ (a = 0 ∧ b = 2) → ¬ (a = 2 ∧ b = 0) →
        hasEdge G1 a b = hasEdge eulerGraph a b ∧
          getEdgeWeight G1 a b = getEdgeWeight eulerGraph a b) ∧
      (hasEdge eulerGraph 0 2 = .ok true →
        getNumEdges G1 = getNumEdges eulerGraph ∧
          ∀ x : Int, getDegree G1 x = getDegree eulerGraph x) :=
  ⟨reachable_of_calls 4 [(0, 1, 1), (1, 2, 1), (2, 3, 1), (3, 0, 1)] eulerGraph (by decide),
    by decide, by decide, by decide,
    addEdge_effect eulerGraph
      (reachable_of_calls 4 [(0, 1, 1), (1, 2, 1), (2, 3, 1), (3, 0, 1)] eulerGraph (by decide))
      0 2 5 (by decide) (by decide) (by decide)⟩

/-! ## The claims on `removeEdge`, on the invariants, on the worker pool and on the pipeline -/

/-- C21. `removeEdge(u, v)` throws `std::out_of_range` exactly when a vertex is
outside `[0, n)`, throws `std::runtime_error` with the text `Edge not found`
exactly when both are in range and `hasEdge(u, v)` is false, a call that throws
leaves the graph as it was, and, on a graph reachable from `Graph(n)` by
`addEdge` and `removeEdge` calls, `hasEdge(u, v)` and `hasEdge(v, u)` are false
after a call that returns. -/
theorem removeEdge_failure_cases (G : Graph) (u v : Int) :
    ((∃ what, removeEdge G u v = .error (.outOfRange what)) ↔
      (u < 0 ∨ u ≥ G.numVertices ∨ v < 0 ∨ v ≥ G.numVertices)) ∧
    (removeEdge G u v = .error (.runtimeError "Edge not found") ↔
      (0 ≤ u ∧ u < G.numVertices ∧ 0 ≤ v ∧ v < G.numVertices ∧ hasEdge G u v = .ok false)) ∧
    ((∃ what, removeEdge G u v = .error (.runtimeError what)) ↔
      (0 ≤ u ∧ u < G.numVertices ∧ 0 ≤ v ∧ v < G.numVertices ∧ hasEdge G u v = .ok false)) ∧
    (∀ e, removeEdge G u v = .error e → afterRemoveEdge G u v = G) ∧
    (Reachable G → ∀ G1, removeEdge G u v = .ok G1 →
      afterRemoveEdge G u v = G1 ∧ hasEdge G1 u v = .ok false ∧ hasEdge G1 v u = .ok false) := by
  have hrange := outOfRange2_true_iff G u v
  have hrange2 := outOfRange2_false_iff G u v
  have hc := removeEdge_cases G u v
  refine ⟨?_, ?_, ?_, ?_, ?_⟩
  · rw [← hrange]
    rcases hc with ⟨h1, h2⟩ | ⟨h1, _, h2⟩ | ⟨h1, _, h2⟩
    · exact ⟨fun _ => h1, fun _ => ⟨_, h2⟩⟩
    · rw [h2, h1]; simp
    · rw [h2, h1]; simp
  · rcases hc with ⟨h1, h2⟩ | ⟨h1, h3, h2⟩ | ⟨h1, h3, h2⟩
    · rw [h2]
      constructor
      · intro e; cases e
      · intro h; rw [hrange] at h1; omega
    · have := hrange2.1 h1
      exact ⟨fun _ => ⟨this.1, this.2.1, this.2.2.1, this.2.2.2, h3⟩, fun _ => h2⟩
    · rw [h2, h3]
      constructor
      · intro e; cases e
      · intro h; cases h.2.2.2.2
  · rcases hc with ⟨h1, h2⟩ | ⟨h1, h3, h2⟩ | ⟨h1, h3, h2⟩
    · rw [h2]
      constructor
      · rintro ⟨what, e⟩; cases e
      · intro h; rw [hrange] at h1; omega
    · have := hrange2.1 h1
      exact ⟨fun _ => ⟨this.1, this.2.1, this.2.2.1, this.2.2.2, h3⟩, fun _ => ⟨_, h2⟩⟩
    · rw [h2, h3]
      constructor
      · rintro ⟨what, e⟩; cases e
      · intro h; cases h.2.2.2.2
  · intro e he
    unfold afterRemoveEdge
    rw [he]
  · intro hG G1 h
    obtain ⟨h0u, h0v, _, _, hm, hG1⟩ := removeEdge_ok h
    have hf := hasEdge_unlink_false hG.wf u.toNat v.toNat hm
    rw [Int.toNat_of_nonneg h0u, Int.toNat_of_nonneg h0v, ← hG1] at hf
    refine ⟨?_, hf⟩
    unfold afterRemoveEdge
    rw [h]

/-- On the four-cycle `eulerGraph`, removing the edge `0`-`1`. -/
theorem removeEdge_failure_cases_witness :
    Reachable eulerGraph ∧ removeEdge eulerGraph 0 1 = .ok (unlink eulerGraph 0 1) ∧
    afterRemoveEdge eulerGraph 0 1 = unlink eulerGraph 0 1 ∧
    hasEdge (unlink eulerGraph 0 1) 0 1 = .ok false ∧
    hasEdge (unlink eulerGraph 0 1) 1 0 = .ok false ∧
    removeEdge eulerGraph 0 2 = .error (.runtimeError "Edge not found") ∧
    (∃ what, removeEdge eulerGraph 0 4 = .error (.outOfRange what)) :=
  ⟨reachable_of_calls 4 [(0, 1, 1), (1, 2, 1), (2, 3, 1), (3, 0, 1)] eulerGraph (by decide),
    by decide,
    ((removeEdge_failure_cases eulerGraph 0 1).2.2.2.2
      (reachable_of_calls 4 [(0, 1, 1), (1, 2, 1), (2, 3, 1), (3, 0, 1)] eulerGraph (by decide))
      (unlink eulerGraph 0 1) (by decide)).1,
    ((removeEdge_failure_cases eulerGraph 0 1).2.2.2.2
      (reachable_of_calls 4 [(0, 1, 1), (1, 2, 1), (2, 3, 1), (3, 0, 1)] eulerGraph (by decide))
      (unlink eulerGraph 0 1) (by decide)).2.1,
    ((removeEdge_failure_cases eulerGraph 0 1).2.2.2.2
      (reachable_of_calls 4 [(0, 1, 1), (1, 2, 1), (2, 3, 1), (3, 0, 1)] eulerGraph (by decide))
      (unlink eulerGraph 0 1) (by decide)).2.2,
    ((removeEdge_failure_cases eulerGraph 0 2).2.1).2 (by decide),
    ((removeEdge_failure_cases eulerGraph 0 4).1).2 (by decide)⟩

/-- C22. On a graph reachable from `Graph(n)` by `addEdge` and `removeEdge`
calls, for in-range `u != v` without an edge between them, `addEdge(u, v, w)`
returns and `removeEdge(u, v)` after it returns; the graph they leave is the
graph before the add: `hasEdge(u, v)` and `hasEdge(v, u)` are false,
`getNumEdges` has its former value and every adjacency list is the former one. -/
theorem addEdge_removeEdge_roundtrip (G : Graph) (hG : Reachable G) (u v w : Int)
    (hu : 0 ≤ u ∧ u < G.numVertices) (hv : 0 ≤ v ∧ v < G.numVertices) (huv : u ≠ v)
    (hno : hasEdge G u v = .ok false) :
    ∃ G1 G2, addEdge G u v w = .ok G1 ∧ removeEdge G1 u v = .ok G2 ∧
      hasEdge G2 u v = .ok false ∧ hasEdge G2 v u = .ok false ∧
      getNumEdges G2 = getNumEdges G ∧
      (∀ x : Int, getNeighbors G2 x = getNeighbors G x) ∧ G2.adjList = G.adjList := by
  have hg := hG.wf
  have huc : ((u.toNat : Nat) : Int) = u := Int.toNat_of_nonneg hu.1
  have hvc : ((v.toNat : Nat) : Int) = v := Int.toNat_of_nonneg hv.1
  have ha : u.toNat < G.numVertices := by omega
  have hb : v.toNat < G.numVertices := by omega
  have hne : u.toNat ≠ v.toNat := by omega
  have hnew : v.toNat ∉ dests G u.toNat := by
    have := hasEdge_cast G u.toNat v.toNat ha hb
    rw [huc, hvc, hno] at this
    simpa using this
  have hnew2 : u.toNat ∉ dests G v.toNat := fun h => hnew (hg.symm _ _ h)
  obtain ⟨G1, h1⟩ := addEdge_cast_ok G u.toNat v.toNat w ha hb hne
  have hback := unlink_addEdge hg u.toNat v.toNat w h1 hnew
  obtain ⟨_, _, _, _, _, hnv, _, hd⟩ := addEdge_ok h1
  have hd := hd hg.len u.toNat
  simp only [Int.toNat_ofNat, hnew, if_false, if_true] at hd
  have hm : v.toNat ∈ dests G1 u.toNat := by
    rw [hd]
    exact List.mem_cons_self _ _
  have h2 := removeEdge_cast G1 u.toNat v.toNat (by rw [hnv]; exact ha) (by rw [hnv]; exact hb) hm
  rw [hback] at h2
  rw [huc, hvc] at h1 h2
  refine ⟨G1, G, h1, h2, hno, ?_, rfl, fun _ => rfl, rfl⟩
  have := hasEdge_cast G v.toNat u.toNat hb ha
  rw [huc, hvc] at this
  rw [this]
  simp [hnew2]

/-- On the four-cycle `eulerGraph`, the chord `0`-`2` added and removed. -/
theorem addEdge_removeEdge_roundtrip_witness :
    Reachable eulerGraph ∧ ((0 : Int) ≤ 0 ∧ (0 : Int) < eulerGraph.numVertices) ∧
    ((0 : Int) ≤ 2 ∧ (2 : Int) < eulerGraph.numVertices) ∧ (0 : Int) ≠ 2 ∧
    hasEdge eulerGraph 0 2 = .ok false ∧
    ∃ G1 G2, addEdge eulerGraph 0 2 9 = .ok G1 ∧ removeEdge G1 0 2 = .ok G2 ∧
      hasEdge G2 0 2 = .ok false ∧ hasEdge G2 2 0 = .ok false ∧
      getNumEdges G2 = getNumEdges eulerGraph ∧
      (∀ x : Int, getNeighbors G2 x = getNeighbors eulerGraph x) ∧
      G2.adjList = eulerGraph.adjList :=
  ⟨reachable_of_calls 4 [(0, 1, 1), (1, 2, 1), (2, 3, 1), (3, 0, 1)] eulerGraph (by decide),
    by decide, by decide, by decide, by decide,
    addEdge_removeEdge_roundtrip eulerGraph
      (reachable_of_calls 4 [(0, 1, 1), (1, 2, 1), (2, 3, 1), (3, 0, 1)] eulerGraph (by decide))
      0 2 9 (by decide) (by decide) (by decide) (by decide)⟩

/-- C23. Every graph object built by the constructor and any sequence of
`addEdge` and `removeEdge` calls, returning or throwing, satisfies the
invariants of the data model: there is one adjacency list for each vertex,
every stored neighbour index is in `[0, n)`, an entry `(v, w)` is in the list
of `u` exactly when the entry `(u, w)` is in the list of `v`, no vertex is its
own neighbour, and no list holds two entries for the same neighbour. -/
theorem data_model_invariants (G : Graph) (hG : BuiltByCalls G) :
    G.adjList.length = G.numVertices ∧
    (∀ u, ∀ nb ∈ adj G u, nb.dest < G.numVertices) ∧
    (∀ u v w, (⟨v, w⟩ : Neighbor) ∈ adj G u ↔ (⟨u, w⟩ : Neighbor) ∈ adj G v) ∧
    (∀ u, ∀ nb ∈ adj G u, nb.dest ≠ u) ∧
    (∀ u, ((adj G u).map (fun nb => nb.dest)).Nodup) := by
  have hR := hG.reachable
  have hg := hR.wf
  refine ⟨hg.len, ?_, ?_, ?_, hg.nodup⟩
  · intro u nb hnb
    exact hg.range u nb.dest (List.mem_map_of_mem _ hnb)
  · intro u v w
    exact mem_adj_symm hg (fun a b => hR.weight_symm a b) u v w
  · intro u nb hnb e
    have hm : nb.dest ∈ dests G u := List.mem_map_of_mem (fun nb => nb.dest) hnb
    rw [e] at hm
    exact hg.irrefl u hm

/-- The object `Graph(2)` after `addEdge(0,1,5)`, `addEdge(0,0,1)` (throws),
`removeEdge(1,0)`, `addEdge(1,0,7)`, `addEdge(0,1,8)` and `removeEdge(0,5)`
(throws). -/
theorem data_model_invariants_witness :
    BuiltByCalls ⟨2, [[⟨1, 8⟩], [⟨0, 8⟩]]⟩ ∧
    (Graph.mk 2 [[⟨1, 8⟩], [⟨0, 8⟩]]).adjList.length =
      (Graph.mk 2 [[⟨1, 8⟩], [⟨0, 8⟩]]).numVertices ∧
    (∀ u, ∀ nb ∈ adj ⟨2, [[⟨1, 8⟩], [⟨0, 8⟩]]⟩ u,
      nb.dest < (Graph.mk 2 [[⟨1, 8⟩], [⟨0, 8⟩]]).numVertices) ∧
    (∀ u v w, (⟨v, w⟩ : Neighbor) ∈ adj ⟨2, [[⟨1, 8⟩], [⟨0, 8⟩]]⟩ u ↔
      (⟨u, w⟩ : Neighbor) ∈ adj ⟨2, [[⟨1, 8⟩], [⟨0, 8⟩]]⟩ v) ∧
    (∀ u, ∀ nb ∈ adj ⟨2, [[⟨1, 8⟩], [⟨0, 8⟩]]⟩ u, nb.dest ≠ u) ∧
    (∀ u, ((adj ⟨2, [[⟨1, 8⟩], [⟨0, 8⟩]]⟩ u).map (fun nb => nb.dest)).Nodup) :=
  ⟨builtByCalls_of_run 2 [.add 0 1 5, .add 0 0 1, .remove 1 0, .add 1 0 7, .add 0 1 8,
      .remove 0 5] ⟨2, [[⟨1, 8⟩], [⟨0, 8⟩]]⟩ (by decide),
    data_model_invariants ⟨2, [[⟨1, 8⟩], [⟨0, 8⟩]]⟩
      (builtByCalls_of_run 2 [.add 0 1 5, .add 0 0 1, .remove 1 0, .add 1 0 7, .add 0 1 8,
        .remove 0 5] ⟨2, [[⟨1, 8⟩], [⟨0, 8⟩]]⟩ (by decide))⟩

/-- C24. On a graph reachable from `Graph(n)` by `addEdge` and `removeEdge`
calls, `getNumEdges()` is the number of unordered pairs `{u, v}` of vertices
with `hasEdge(u, v)`, every `getDegree(v)` returns, and the sum of the degrees
of all vertices is exactly `2 * getNumEdges()`. -/
theorem getNumEdges_counts_pairs (G : Graph) (hG : Reachable G) :
    getNumEdges G = Set.ncard
        {e : Sym2 Nat | ∃ u v : Nat, e = s(u, v) ∧ hasEdge G (u : Int) (v : Int) = .ok true} ∧
    ∃ ds, (List.range G.numVertices).mapM (fun (i : Nat) => getDegree G (i : Int)) = .ok ds ∧
      ds.sum = 2 * getNumEdges G := by
  have hg := hG.wf
  have hdeg := hG.degSum_eq
  have hnum : getNumEdges G = (edgeFinset G).card := by
    rw [getNumEdges_eq, hdeg]
    omega
  refine ⟨?_, _, mapM_getDegree_eq G _ (fun i hi => List.mem_range.1 hi), ?_⟩
  · rw [edgeFinset_eq_hasEdge hg, Set.ncard_coe_Finset, hnum]
  · rw [sum_map_range, hnum]
    exact hdeg

/-- The four-cycle `eulerGraph` has four edges and degree sum eight. -/
theorem getNumEdges_counts_pairs_witness :
    Reachable eulerGraph ∧ getNumEdges eulerGraph = 4 ∧
    getNumEdges eulerGraph = Set.ncard
        {e : Sym2 Nat | ∃ u v : Nat, e = s(u, v) ∧
          hasEdge eulerGraph (u : Int) (v : Int) = .ok true} ∧
    ∃ ds, (List.range eulerGraph.numVertices).mapM
        (fun (i : Nat) => getDegree eulerGraph (i : Int)) = .ok ds ∧
      ds.sum = 2 * getNumEdges eulerGraph :=
  ⟨reachable_of_calls 4 [(0, 1, 1), (1, 2, 1), (2, 3, 1), (3, 0, 1)] eulerGraph (by decide),
    by decide,
    getNumEdges_counts_pairs eulerGraph
      (reachable_of_calls 4 [(0, 1, 1), (1, 2, 1), (2, 3, 1), (3, 0, 1)] eulerGraph (by decide))⟩

/-- C25. In the transition system of the worker pool, in which a step of a
worker is one of its critical sections, every state the server can be in has at
most one worker that holds the leader role (it has set `leader_available` to
false and not yet back to true), and `leader_available` is false exactly when
some worker holds the role. -/
theorem leader_role_exclusive (s : LFState) (h : LFReachable s) :
    (∀ i j, HoldsLeader s i → HoldsLeader s j → i = j) ∧
    (s.leader_available = false ↔ ∃ i, HoldsLeader s i) :=
  ⟨h.inv.unique, h.inv.flag⟩

/-- The state after worker 0 has become leader, taken the work item 7 and
released the role, and worker 1 has become leader; a second worker that wants
the role while it is held is blocked. -/
theorem leader_role_exclusive_witness :
    lfRun LFState.init [.worker 0, .worker 1, .worker 0, .worker 1] = none ∧
    LFReachable ⟨false, 1, [], true, [⟨.processing, false, some 7⟩, ⟨.leader, true, none⟩,
      ⟨.loopTest, false, none⟩, ⟨.loopTest, false, none⟩]⟩ ∧
    (∀ i j,
      HoldsLeader ⟨false, 1, [], true, [⟨.processing, false, some 7⟩, ⟨.leader, true, none⟩,
        ⟨.loopTest, false, none⟩, ⟨.loopTest, false, none⟩]⟩ i →
      HoldsLeader ⟨false, 1, [], true, [⟨.processing, false, some 7⟩, ⟨.leader, true, none⟩,
        ⟨.loopTest, false, none⟩, ⟨.loopTest, false, none⟩]⟩ j → i = j) ∧
    ((LFState.mk false 1 [] true [⟨.processing, false, some 7⟩, ⟨.leader, true, none⟩,
        ⟨.loopTest, false, none⟩, ⟨.loopTest, false, none⟩]).leader_available = false ↔
      ∃ i, HoldsLeader ⟨false, 1, [], true, [⟨.processing, false, some 7⟩,
        ⟨.leader, true, none⟩, ⟨.loopTest, false, none⟩, ⟨.loopTest, false, none⟩]⟩ i) :=
  ⟨by decide,
    LFReachable.init.after [.worker 0, .worker 1, .worker 0, .addWork 7, .worker 0, .worker 0,
      .worker 1] (by decide),
    leader_role_exclusive _ (LFReachable.init.after [.worker 0, .worker 1, .worker 0, .addWork 7,
      .worker 0, .worker 0, .worker 1] (by decide))⟩

/-- C26. A pipeline request with the text `-e E -v V -s S`, for `int` values
`E >= 0`, `V > 0` and `S`, followed by nothing or by ` -a A` for a token `A`,
whose graph `generateRandomGraph(V, E, S)` is built and on which the four
analyses return the reports `r1`, `r2`, `r3`, `r4`: the Ingest stage forwards
the work unit, each of the stages MST, SCC, MaxFlow and MaxClique takes it
from the front of its queue and appends it to the next queue, and the report
with which it reaches the Respond stage is the header, the lines
`Vertices: V`, `Edges: E`, `Seed: S`, the Euler-circuit section and the four
sections with title, algorithm name and `Result: ` with the report. The text
does not mention `A`. What is sent to the client of the unit is this report
followed by the line with the processing time. -/
theorem pipeline_report (execute : AlgorithmType → Graph → Except Exn String)
    (rng : Nat → Int → Nat → Int) (fuel : Nat) (E V S : Int) (sfx : String) (g : Graph)
    (r1 r2 r3 r4 : String) (micros : Int) (client_fd : Nat) (client_ip : String)
    (q1 n1 q2 n2 q3 n3 q4 n4 q5 : List PipelineData)
    (hE : 0 ≤ E ∧ E ≤ 2147483647) (hV : 0 < V ∧ V ≤ 2147483647)
    (hS : -2147483648 ≤ S ∧ S ≤ 2147483647)
    (hsfx : sfx = "" ∨ ∃ A : String, A.data ≠ [] ∧ (∀ c ∈ A.data, isSpace c = false) ∧
      sfx = " -a " ++ A)
    (hg : generateRandomGraph (rng (seedToUnsigned S) V) fuel V E = .ok g)
    (h1 : execute .MST_WEIGHT g = .ok r1) (h2 : execute .SCC g = .ok r2)
    (h3 : execute .MAX_FLOW g = .ok r3) (h4 : execute .MAX_CLIQUE g = .ok r4) :
    ∃ (b : Bool) (C : List Nat) (algorithm text0 : String) (d1 d2 d3 d4 : PipelineData),
      hasEulerCircuit g = .ok b ∧ findEulerCircuit g = .ok C ∧
      requestHandler rng fuel ("-e " ++ to_string E ++ " -v " ++ to_string V ++ " -s " ++
        to_string S ++ sfx) = .ok (.forwarded algorithm g text0) ∧
      mstProcessor execute true
        (⟨client_fd, client_ip, "-e " ++ to_string E ++ " -v " ++ to_string V ++ " -s " ++
          to_string S ++ sfx, algorithm, g, text0⟩ :: q1) n1 = .ok (some (q1, n1 ++ [d1])) ∧
      sccProcessor execute true (d1 :: q2) n2 = .ok (some (q2, n2 ++ [d2])) ∧
      maxFlowProcessor execute true (d2 :: q3) n3 = .ok (some (q3, n3 ++ [d3])) ∧
      maxCliqueProcessor execute true (d3 :: q4) n4 = .ok (some (q4, n4 ++ [d4])) ∧
      d4 = ⟨client_fd, client_ip, "-e " ++ to_string E ++ " -v " ++ to_string V ++ " -s " ++
          to_string S ++ sfx, algorithm, g,
        "GRAPH ANALYSIS RESULTS:\n" ++
          "Vertices: " ++ to_string V ++ "\n" ++
          "Edges: " ++ to_string E ++ "\n" ++
          "Seed: " ++ to_string S ++ "\n\n" ++
          (if b then "EULER CIRCUIT: SUCCESS!\n" ++ "Circuit: " ++ circuitText C ++ "\n"
          else "EULER CIRCUIT: NOT POSSIBLE\n" ++
            "Reason: Graph is not connected or has odd-degree vertices\n") ++ "\n" ++
          "=== MST WEIGHT ALGORITHM ===\n" ++ "MST Weight" ++ "\n" ++
          "Result: " ++ r1 ++ "\n\n" ++
          "=== SCC ALGORITHM ===\n" ++ "Strongly Connected Components" ++ "\n" ++
          "Result: " ++ r2 ++ "\n\n" ++
          "=== MAX FLOW ALGORITHM ===\n" ++ "Max Flow" ++ "\n" ++
          "Result: " ++ r3 ++ "\n\n" ++
          "=== MAX CLIQUE ALGORITHM ===\n" ++ "Max Clique" ++ "\n" ++
          "Result: " ++ r4 ++ "\n\n"⟩ ∧
      responseSender micros true (d4 :: q5) =
        some (d4.result ++ "\n\nPipeline processing time: " ++ to_string micros ++
          " microseconds\n", client_fd, q5) := by
  have hwf := (generateRandomGraph_reachable hg).wf
  obtain ⟨b, hb, _⟩ := hasEulerCircuit_wf hwf
  obtain ⟨C, hC, _⟩ := findEulerCircuit_wf hwf
  obtain ⟨algorithm, hp⟩ := parseLoop_request E V S sfx
    (("-e " ++ to_string E ++ " -v " ++ to_string V ++ " -s " ++ to_string S ++ sfx).data.length
      + 1) ⟨-1, -1, -1, "EULER"⟩ ⟨by omega, hE.2⟩ ⟨by omega, hV.2⟩ hS hsfx
    (by simp only [String.data_append, List.length_append, List.length_cons, List.length_nil]
        omega)
  have hin : requestHandler rng fuel ("-e " ++ to_string E ++ " -v " ++ to_string V ++ " -s " ++
      to_string S ++ sfx) = .ok (.forwarded algorithm g
        ("GRAPH ANALYSIS RESULTS:\n" ++
          "Vertices: " ++ to_string V ++ "\n" ++
          "Edges: " ++ to_string E ++ "\n" ++
          "Seed: " ++ to_string S ++ "\n\n" ++
          (if b then "EULER CIRCUIT: SUCCESS!\n" ++ "Circuit: " ++ circuitText C ++ "\n"
          else "EULER CIRCUIT: NOT POSSIBLE\n" ++
            "Reason: Graph is not connected or has odd-degree vertices\n") ++ "\n")) := by
    unfold requestHandler
    rw [hp]
    simp only []
    rw [if_neg (by omega), hg]
    cases b <;> simp [liftGraph, bind, Except.bind, hb, hC, pure, Except.pure]
  refine ⟨b, C, algorithm, _, _, _, _, _, hb, hC, hin,
    stageIteration_ok execute _ _ _ q1 n1 r1 h1,
    stageIteration_ok execute _ _ _ q2 n2 r2 h2,
    stageIteration_ok execute _ _ _ q3 n3 r3 h3,
    stageIteration_ok execute _ _ _ q4 n4 r4 h4, ?_, ?_⟩
  · simp only [AlgorithmType.getName, String.append_assoc]
  · rfl

theorem pipeline_report_witness :
    generateRandomGraph ((fun _ _ k => ((k % 2 : Nat) : Int)) (seedToUnsigned 7) 2) 1 2 1 =
      .ok ⟨2, [[⟨1, 1⟩], [⟨0, 1⟩]]⟩ ∧
    requestHandler (fun _ _ k => ((k % 2 : Nat) : Int)) 1 "-e 1 -v 2 -s 7 -a SCC" =
      .ok (.forwarded "SCC" ⟨2, [[⟨1, 1⟩], [⟨0, 1⟩]]⟩
        "GRAPH ANALYSIS RESULTS:\nVertices: 2\nEdges: 1\nSeed: 7\n\nEULER CIRCUIT: NOT POSSIBLE\nReason: Graph is not connected or has odd-degree vertices\n\n") ∧
    requestHandler (fun _ _ k => ((k % 2 : Nat) : Int)) 1 "-e 1 -v 2 -s 7" =
      .ok (.forwarded "EULER" ⟨2, [[⟨1, 1⟩], [⟨0, 1⟩]]⟩
        "GRAPH ANALYSIS RESULTS:\nVertices: 2\nEdges: 1\nSeed: 7\n\nEULER CIRCUIT: NOT POSSIBLE\nReason: Graph is not connected or has odd-degree vertices\n\n") ∧
    ∃ (b : Bool) (C : List Nat) (algorithm text0 : String) (d1 d2 d3 d4 : PipelineData),
      hasEulerCircuit ⟨2, [[⟨1, 1⟩], [⟨0, 1⟩]]⟩ = .ok b ∧
      findEulerCircuit ⟨2, [[⟨1, 1⟩], [⟨0, 1⟩]]⟩ = .ok C ∧
      requestHandler (fun _ _ k => ((k % 2 : Nat) : Int)) 1 ("-e " ++ to_string 1 ++ " -v " ++
        to_string 2 ++ " -s " ++ to_string 7 ++ " -a SCC") =
          .ok (.forwarded algorithm ⟨2, [[⟨1, 1⟩], [⟨0, 1⟩]]⟩ text0) ∧
      mstProcessor (AlgorithmFactory.execute 3) true
        (⟨4, "127.0.0.1", "-e " ++ to_string 1 ++ " -v " ++ to_string 2 ++ " -s " ++
          to_string 7 ++ " -a SCC", algorithm, ⟨2, [[⟨1, 1⟩], [⟨0, 1⟩]]⟩, text0⟩ :: []) [] =
        .ok (some ([], [] ++ [d1])) ∧
      sccProcessor (AlgorithmFactory.execute 3) true (d1 :: []) [] = .ok (some ([], [] ++ [d2])) ∧
      maxFlowProcessor (AlgorithmFactory.execute 3) true (d2 :: []) [] =
        .ok (some ([], [] ++ [d3])) ∧
      maxCliqueProcessor (AlgorithmFactory.execute 3) true (d3 :: []) [] =
        .ok (some ([], [] ++ [d4])) ∧
      d4 = ⟨4, "127.0.0.1", "-e " ++ to_string 1 ++ " -v " ++ to_string 2 ++ " -s " ++
          to_string 7 ++ " -a SCC", algorithm, ⟨2, [[⟨1, 1⟩], [⟨0, 1⟩]]⟩,
        "GRAPH ANALYSIS RESULTS:\n" ++
          "Vertices: " ++ to_string 2 ++ "\n" ++
          "Edges: " ++ to_string 1 ++ "\n" ++
          "Seed: " ++ to_string 7 ++ "\n\n" ++
          (if b then "EULER CIRCUIT: SUCCESS!\n" ++ "Circuit: " ++ circuitText C ++ "\n"
          else "EULER CIRCUIT: NOT POSSIBLE\n" ++
            "Reason: Graph is not connected or has odd-degree vertices\n") ++ "\n" ++
          "=== MST WEIGHT ALGORITHM ===\n" ++ "MST Weight" ++ "\n" ++
          "Result: " ++ "MST Weight: 1" ++ "\n\n" ++
          "=== SCC ALGORITHM ===\n" ++ "Strongly Connected Components" ++ "\n" ++
          "Result: " ++ "Found 1 Strongly Connected Components:\nSCC 1: \x7b0, 1\x7d\n" ++
          "\n\n" ++
          "=== MAX FLOW ALGORITHM ===\n" ++ "Max Flow" ++ "\n" ++
          "Result: " ++ "Max Flow from node 0 to node 1: 1" ++ "\n\n" ++
          "=== MAX CLIQUE ALGORITHM ===\n" ++ "Max Clique" ++ "\n" ++
          "Result: " ++ "Max Clique Size: 2\nMax Clique Vertices: \x7b0, 1\x7d" ++ "\n\n"⟩ ∧
      responseSender 1500 true (d4 :: []) =
        some (d4.result ++ "\n\nPipeline processing time: " ++ to_string 1500 ++
          " microseconds\n", 4, []) :=
  ⟨by decide, by decide, by decide,
    pipeline_report (AlgorithmFactory.execute 3) (fun _ _ k => ((k % 2 : Nat) : Int)) 1 1 2 7
      " -a SCC" ⟨2, [[⟨1, 1⟩], [⟨0, 1⟩]]⟩ "MST Weight: 1"
      "Found 1 Strongly Connected Components:\nSCC 1: \x7b0, 1\x7d\n"
      "Max Flow from node 0 to node 1: 1" "Max Clique Size: 2\nMax Clique Vertices: \x7b0, 1\x7d"
      1500 4 "127.0.0.1" [] [] [] [] [] [] [] [] [] (by decide) (by decide) (by decide)
      (Or.inr ⟨"SCC", by decide, by decide, by decide⟩) (by decide) (by decide) (by decide)
      (by decide) (by decide)⟩
/-- C27, at a failing input. For `vertices = 65536` the product
`vertices * (vertices - 1)` leaves the `int` range: the bound the code computes
is `-32768`, negative and below the true maximum `2147450880`, and a request
for one edge is clamped to it. The same happens from `vertices = 46342` on;
up to `46341` the bound is the exact one. -/
theorem maxPossibleEdges_wraps :
    maxPossibleEdges 65536 = -32768 ∧ ((65536 : Int) * (65536 - 1)) / 2 = 2147450880 ∧
    (if (1 : Int) > maxPossibleEdges 65536 then maxPossibleEdges 65536 else 1) = -32768 ∧
    maxPossibleEdges 46342 < 0 ∧
    maxPossibleEdges 46341 = ((46341 : Int) * (46341 - 1)) / 2 := by
  decide

/-- C28, as stated, fails: on `Graph(3)` with the single edge `1`-`2`,
`isConnected()` is true (it starts at the first vertex that has an edge) and
`MST_WEIGHT`, which starts at vertex 0, returns the annotated form. -/
theorem mstWeight_isolated_start :
    (Graph.new 3 >>= fun g0 => addEdge g0 1 2 1) = .ok ⟨3, [[], [⟨2, 1⟩], [⟨1, 1⟩]]⟩ ∧
    isConnected ⟨3, [[], [⟨2, 1⟩], [⟨1, 1⟩]]⟩ = .ok true ∧
    MSTWeightAlgorithm.execute wrapInt32 ⟨3, [[], [⟨2, 1⟩], [⟨1, 1⟩]]⟩ =
      .ok "Graph is not connected - MST weight: 0" := by
  decide

/-- C28, amended. On a graph reachable from `Graph(n)` by `addEdge` and
`removeEdge` calls whose stored weights are below `INT_MAX`, `MST_WEIGHT`'s
`execute` returns the plain total `MST Weight: W` when `isConnected()` is true
and vertex 0 has an edge or the graph has no edge, and the annotated form
`Graph is not connected - MST weight: W` in every other case: when
`isConnected()` is false, and when vertex 0 is isolated in a graph with edges. -/
theorem mstWeight_annotation (arith : Int → Int) (G : Graph) (hG : Reachable G)
    (hw : ∀ l ∈ G.adjList, ∀ nb ∈ l, nb.weight < INT_MAX) :
    ∃ (W : Int) (b : Bool) (d : Nat), isConnected G = .ok b ∧ getDegree G 0 = .ok d ∧
      MSTWeightAlgorithm.execute arith G = .ok
        (if b = true ∧ (0 < d ∨ getNumEdges G = 0) then "MST Weight: " ++ to_string W
          else "Graph is not connected - MST weight: " ++ to_string W) := by
  have hg := hG.wf
  have hn := hG.numVertices_pos
  obtain ⟨st, hrun, hvis⟩ := mstRun_visited hg hn (fun a b => hG.weight_symm a b) hw arith
  obtain ⟨b, hb, hiff⟩ := isConnected_wf hg
  obtain ⟨c, hc, hciff⟩ := allReached_joined st.visited hvis
  rw [joined_to_zero_iff hg b hiff] at hciff
  have hd := getDegree_cast G 0 hn
  refine ⟨st.mstWeight, b, (dests G 0).length, hb, hd, ?_⟩
  unfold MSTWeightAlgorithm.execute
  rw [if_neg (Nat.pos_iff_ne_zero.1 hn), hrun]
  simp only [bind, Except.bind, hc, pure, Except.pure]
  by_cases h : b = true ∧ (0 < (dests G 0).length ∨ getNumEdges G = 0)
  · rw [if_pos h, hciff.2 h]
    rfl
  · rw [if_neg h]
    have : c = false := by
      cases c with
      | false => rfl
      | true => exact absurd (hciff.1 rfl) h
    rw [this]
    rfl

/-- On `Graph(3)` with the edge `1`-`2` the form is the annotated one; the
degree of vertex 0 is 0 and `getNumEdges` is 1. -/
theorem mstWeight_annotation_witness :
    Reachable ⟨3, [[], [⟨2, 1⟩], [⟨1, 1⟩]]⟩ ∧
    (∀ l ∈ (Graph.mk 3 [[], [⟨2, 1⟩], [⟨1, 1⟩]]).adjList, ∀ nb ∈ l, nb.weight < INT_MAX) ∧
    getDegree ⟨3, [[], [⟨2, 1⟩], [⟨1, 1⟩]]⟩ 0 = .ok 0 ∧
    getNumEdges ⟨3, [[], [⟨2, 1⟩], [⟨1, 1⟩]]⟩ = 1 ∧
    ∃ (W : Int) (b : Bool) (d : Nat), isConnected ⟨3, [[], [⟨2, 1⟩], [⟨1, 1⟩]]⟩ = .ok b ∧
      getDegree ⟨3, [[], [⟨2, 1⟩], [⟨1, 1⟩]]⟩ 0 = .ok d ∧
      MSTWeightAlgorithm.execute wrapInt32 ⟨3, [[], [⟨2, 1⟩], [⟨1, 1⟩]]⟩ = .ok
        (if b = true ∧ (0 < d ∨ getNumEdges ⟨3, [[], [⟨2, 1⟩], [⟨1, 1⟩]]⟩ = 0) then
          "MST Weight: " ++ to_string W
        else "Graph is not connected - MST weight: " ++ to_string W) :=
  ⟨reachable_of_calls 3 [(1, 2, 1)] ⟨3, [[], [⟨2, 1⟩], [⟨1, 1⟩]]⟩ (by decide), by decide,
    by decide, by decide,
    mstWeight_annotation wrapInt32 ⟨3, [[], [⟨2, 1⟩], [⟨1, 1⟩]]⟩
      (reachable_of_calls 3 [(1, 2, 1)] ⟨3, [[], [⟨2, 1⟩], [⟨1, 1⟩]]⟩ (by decide)) (by decide)⟩

/-- C29. Each of the stages MST, SCC, MaxFlow and MaxClique, running with a
work unit `data` at the front of its queue, whose analysis returns a report or
raises an exception: the stage takes `data` from its queue and appends one
unit to the queue of the next stage, and that unit is `data` with a longer
report, every other field unchanged. The report is the earlier text, then the
title and the name of the algorithm, then `Result: ` with the report of the
analysis when it returns and `ERROR: ` with the message when it raises, both
followed by an empty line. -/
theorem stage_forwards_once (st : Stage) (execute : AlgorithmType → Graph → Except Exn String)
    (data : PipelineData) (rest next : List PipelineData)
    (h : execute st.type data.graph ≠ .error .outOfFuel) :
    ∃ line : String,
      st.processor execute true (data :: rest) next = .ok (some (rest, next ++
        [{ data with result := data.result ++ st.title ++ (st.type.getName ++ "\n") ++ line }])) ∧
      (∀ report, execute st.type data.graph = .ok report →
        line = "Result: " ++ report ++ "\n\n") ∧
      (∀ what, execute st.type data.graph = .error (.exception what) →
        line = "ERROR: " ++ what ++ "\n\n") := by
  rw [Stage.processor_eq]
  cases hx : execute st.type data.graph with
  | ok report =>
    refine ⟨"Result: " ++ report ++ "\n\n", stageIteration_ok _ _ _ _ _ _ _ hx, ?_, ?_⟩
    · intro r hr
      cases hr
      rfl
    · intro w hw
      cases hw
  | error e =>
    cases e with
    | outOfFuel => exact absurd hx h
    | exception what =>
      refine ⟨"ERROR: " ++ what ++ "\n\n", stageIteration_raise _ _ _ _ _ _ _ hx, ?_, ?_⟩
      · intro r hr
        cases hr
      · intro w hw
        cases hw
        rfl

theorem stage_forwards_once_witness :
    AlgorithmFactory.execute 0 .MAX_FLOW ⟨2, [[⟨1, 5⟩], [⟨0, 5⟩]]⟩ = .error .outOfFuel ∧
    maxFlowProcessor (fun t g => AlgorithmFactory.execute 3 t g) true
        [⟨4, "127.0.0.1", "-e 0 -v 1", "EULER", ⟨1, [[]]⟩, "GRAPH\n"⟩,
          ⟨5, "127.0.0.1", "-e 1 -v 2", "EULER", ⟨2, [[⟨1, 1⟩], [⟨0, 1⟩]]⟩, "G2\n"⟩]
        [⟨3, "127.0.0.1", "-e 0 -v 2", "SCC", ⟨2, [[], []]⟩, "G0\n"⟩] =
      .ok (some ([⟨5, "127.0.0.1", "-e 1 -v 2", "EULER", ⟨2, [[⟨1, 1⟩], [⟨0, 1⟩]]⟩, "G2\n"⟩],
        [⟨3, "127.0.0.1", "-e 0 -v 2", "SCC", ⟨2, [[], []]⟩, "G0\n"⟩,
          ⟨4, "127.0.0.1", "-e 0 -v 1", "EULER", ⟨1, [[]]⟩,
            "GRAPH\n=== MAX FLOW ALGORITHM ===\nMax Flow\nResult: Graph needs at least 2 vertices for max flow\n\n"⟩])) ∧
    sccProcessor (fun _ _ => .error (.exception "std::bad_alloc")) true
        [⟨4, "127.0.0.1", "-e 0 -v 1", "EULER", ⟨1, [[]]⟩, "GRAPH\n"⟩] [] =
      .ok (some ([], [⟨4, "127.0.0.1", "-e 0 -v 1", "EULER", ⟨1, [[]]⟩,
        "GRAPH\n=== SCC ALGORITHM ===\nStrongly Connected Components\nERROR: std::bad_alloc\n\n"⟩])) ∧
    ∃ line : String,
      Stage.scc.processor (fun _ _ => .error (.exception "std::bad_alloc")) true
          [⟨4, "127.0.0.1", "-e 0 -v 1", "EULER", ⟨1, [[]]⟩, "GRAPH\n"⟩] [] =
        .ok (some ([], [] ++
          [{ (⟨4, "127.0.0.1", "-e 0 -v 1", "EULER", ⟨1, [[]]⟩, "GRAPH\n"⟩ : PipelineData) with
              result := "GRAPH\n" ++ Stage.scc.title ++ (Stage.scc.type.getName ++ "\n") ++
                line }])) ∧
      (∀ report, (fun _ _ => .error (.exception "std::bad_alloc") :
          AlgorithmType → Graph → Except Exn String) Stage.scc.type ⟨1, [[]]⟩ = .ok report →
        line = "Result: " ++ report ++ "\n\n") ∧
      (∀ what, (fun _ _ => .error (.exception "std::bad_alloc") :
          AlgorithmType → Graph → Except Exn String) Stage.scc.type ⟨1, [[]]⟩ =
          .error (.exception what) → line = "ERROR: " ++ what ++ "\n\n") :=
  ⟨by decide, by decide, by decide,
    stage_forwards_once .scc (fun _ _ => .error (.exception "std::bad_alloc"))
      ⟨4, "127.0.0.1", "-e 0 -v 1", "EULER", ⟨1, [[]]⟩, "GRAPH\n"⟩ [] [] (by decide)⟩
/-- C30, at a failing input. On the three-vertex graph with the edges (0,2) of
weight 2147483647 and (0,1), (1,2) of weight 1 the loop of `MAX_FLOW` makes
two iterations, which is within the sum 2147483648 of the positive weights at
vertex 0, and both walks from the sink arrive at the source. The values of
`maxFlow` at the three tests of the loop are 0, 2147483647 and -2147483648 on
the machine: the second iteration, with a path flow of 1, lowers the flow
value. With exact integers they are 0, 2147483647 and 2147483648. -/
theorem maxFlow_iteration_lowers_flow :
    (Graph.new 3 >>= fun g0 => addEdges g0 [(0, 2, 2147483647), (0, 1, 1), (1, 2, 1)]) =
      .ok ⟨3, [[⟨1, 1⟩, ⟨2, 2147483647⟩], [⟨2, 1⟩, ⟨0, 1⟩], [⟨1, 1⟩, ⟨0, 2147483647⟩]]⟩ ∧
    (maxFlowTrace wrapInt32 3
        ⟨3, [[⟨1, 1⟩, ⟨2, 2147483647⟩], [⟨2, 1⟩, ⟨0, 1⟩], [⟨1, 1⟩, ⟨0, 2147483647⟩]]⟩).map
      (fun trace => trace.map (fun st => (st.parent, st.maxFlow))) =
        .ok [([0, 0, 0], 0), ([-1, 0, 0], 2147483647), ([-1, 0, 1], -2147483648)] ∧
    (maxFlowTrace id 3
        ⟨3, [[⟨1, 1⟩, ⟨2, 2147483647⟩], [⟨2, 1⟩, ⟨0, 1⟩], [⟨1, 1⟩, ⟨0, 2147483647⟩]]⟩).map
      (fun trace => trace.map (fun st => (st.parent, st.maxFlow))) =
        .ok [([0, 0, 0], 0), ([-1, 0, 0], 2147483647), ([-1, 0, 1], 2147483648)] ∧
    positiveWeights
      ⟨3, [[⟨1, 1⟩, ⟨2, 2147483647⟩], [⟨2, 1⟩, ⟨0, 1⟩], [⟨1, 1⟩, ⟨0, 2147483647⟩]]⟩ 0 =
        2147483648 ∧
    MaxFlowAlgorithm.execute wrapInt32 3
        ⟨3, [[⟨1, 1⟩, ⟨2, 2147483647⟩], [⟨2, 1⟩, ⟨0, 1⟩], [⟨1, 1⟩, ⟨0, 2147483647⟩]]⟩ =
      .ok "Max Flow from node 0 to node 2: -2147483648" := by
  refine ⟨by decide, by decide, by decide, by decide, by decide⟩
end graph
